import Mathlib

/-!
# Halide-FIRRTL: cycle-level models of the hardware modules emitted by
`CodeGen_FIRRTL_Target`

Every module printer of `src/CodeGen_FIRRTL_Target.cpp` writes a fixed FIRRTL
text whose shape depends only on a few integer parameters.  Each section below
transcribes one printer: registers become fields of a state record, the
`when`/`else when` chains become `if`/`else if` in a next-state function (a
later connect overrides an earlier one, a register that is not connected keeps
its value), and FIRRTL primitive operations are computed on `Nat` with the
explicit result widths of the FIRRTL specification.
-/

namespace HalideFIRRTL

/-! ## Shared helpers -/

/-- Search for the least `k' ≥ k` with `n ≤ 2 ^ k'`, trying at most `fuel`
candidates. -/
def ceilLog2Aux : Nat → Nat → Nat → Nat
  | 0, k, _ => k
  | fuel + 1, k, n => if n ≤ 2 ^ k then k else ceilLog2Aux fuel (k + 1) n

/-- The C++ idiom `(int)std::ceil(std::log2((float)n))` for `1 ≤ n ≤ 2 ^ 21`:
the least `k` with `n ≤ 2 ^ k` (`Nat.clog 2 n`, see `ceilLog2_eq_clog`).  The
program takes the logarithm in single precision.  Up to `2 ^ 21` its result is
this exact ceiling: the conversion to `float` is exact, and the logarithm of an
integer strictly between `2 ^ k` and `2 ^ (k + 1)`, `k ≤ 20`, exceeds `k` by
more than half a unit in the last place of `k`, so it is rounded to a value
above `k`.  From `2 ^ 21 + 1` on this fails (`log2f(2097153.0f)` is `21.0f`,
where the exact ceiling is 22) and the width printed by the program can be one
bit less than the value of this definition.  Every property of a width that
depends on its size is therefore stated under the bound `log2Limit`. -/
def ceilLog2 (n : Nat) : Nat := ceilLog2Aux n 0 n

/-- The largest argument up to which `ceilLog2` is the value computed by the
program in single precision (see `ceilLog2`). -/
def log2Limit : Nat := 2 ^ 21

/-- FIRRTL `tail(e, 1)` applied to an expression whose width is `w + 1`: the
low `w` bits are kept. -/
def tail1 (w x : Nat) : Nat := x % 2 ^ w

/-- FIRRTL `asUInt(sub(a, b))` for unsigned operands of width at most `w`: the
bit pattern of the `(w + 1)`-bit difference. -/
def subU (w a b : Nat) : Nat := (a + 2 ^ (w + 1) - b % 2 ^ (w + 1)) % 2 ^ (w + 1)

/-! ## `print_fifo` -/

namespace FIFO

/-- Models `nBit` of `print_fifo`: the width of both pointers. -/
def nBit (depth : Nat) : Nat := max (ceilLog2 (depth + 1)) 1

/-- Models `level_nBit` of `print_fifo`: the width of `r_level`. -/
def level_nBit (depth : Nat) : Nat := ceilLog2 (depth + 2)

/-- The memory and the registers declared by `print_fifo`. -/
structure Regs where
  /-- Models `cmem mem : ...[depth+1]` -/
  mem : List Nat
  r_wr_ptr : Nat
  r_rd_ptr : Nat
  r_level : Nat
  r_empty : Bool
  r_full : Bool
  r_valid_out : Bool
  r_data_out : Nat
deriving DecidableEq, Repr

/-- The input ports sampled in one clock cycle. -/
structure Ports where
  data_in_valid : Bool
  data_in_value : Nat
  data_out_ready : Bool
deriving DecidableEq, Repr

/-- The register values after reset; `mem` and `r_data_out` have no reset
value, so their initial contents are arbitrary. -/
def reset (mem0 : List Nat) (d0 : Nat) : Regs :=
  { mem := mem0, r_wr_ptr := 0, r_rd_ptr := 0, r_level := 0,
    r_empty := true, r_full := false, r_valid_out := false, r_data_out := d0 }

/-- Models `w_push <= and(data_in.valid, not(r_full))` -/
def w_push (s : Regs) (i : Ports) : Bool := i.data_in_valid && !s.r_full

/-- Models `w_pop <= and(or(data_out.ready, not(r_valid_out)), not(r_empty))` -/
def w_pop (s : Regs) (i : Ports) : Bool :=
  (i.data_out_ready || !s.r_valid_out) && !s.r_empty

/-- Pointer update shared by `r_wr_ptr` and `r_rd_ptr`:
`ptr <= tail(add(ptr, UInt<1>(1)), 1)`, overridden by `0` when
`eq(ptr, UInt<nBit>(depth))`. -/
def ptrNext (depth p : Nat) : Nat :=
  if p = depth then 0 else tail1 (nBit depth) (p + 1)

/-- One clock edge of the module emitted by `print_fifo`. -/
def step (depth : Nat) (s : Regs) (i : Ports) : Regs :=
  let push := w_push s i
  let pop := w_pop s i
  { mem := if push then s.mem.set s.r_wr_ptr i.data_in_value else s.mem
    r_wr_ptr := if push then ptrNext depth s.r_wr_ptr else s.r_wr_ptr
    r_rd_ptr := if pop then ptrNext depth s.r_rd_ptr else s.r_rd_ptr
    r_level :=
      if push && !pop then tail1 (level_nBit depth) (s.r_level + 1)
      else if !push && pop then
        tail1 (level_nBit depth) (subU (level_nBit depth) s.r_level 1)
      else s.r_level
    r_empty :=
      if push && !pop then false
      else if !push && pop then (if s.r_level = 1 then true else false)
      else s.r_empty
    r_full :=
      if push && !pop then (if s.r_level = depth then true else false)
      else if !push && pop then false
      else s.r_full
    r_valid_out :=
      if pop then true else if i.data_out_ready then false else s.r_valid_out
    r_data_out := if pop then s.mem.getD s.r_rd_ptr 0 else s.r_data_out }

/-- Models `data_out.value <= r_data_out` -/
def data_out_value (s : Regs) : Nat := s.r_data_out

/-- Models `data_out.valid <= r_valid_out` -/
def data_out_valid (s : Regs) : Bool := s.r_valid_out

/-- Models `data_in.ready <= not(r_full)` -/
def data_in_ready (s : Regs) : Bool := !s.r_full

/-- A simulation run: the registers together with the history of the values
written on push cycles and of the values loaded into `r_data_out` on pop
cycles. -/
structure Run where
  regs : Regs
  pushed : List Nat
  popped : List Nat
deriving DecidableEq, Repr

/-- One simulated cycle, recording the push and the pop it performs. -/
def cycle (depth : Nat) (r : Run) (i : Ports) : Run :=
  { regs := step depth r.regs i
    pushed := if w_push r.regs i then r.pushed ++ [i.data_in_value] else r.pushed
    popped :=
      if w_pop r.regs i then r.popped ++ [(step depth r.regs i).r_data_out]
      else r.popped }

/-- Simulation from reset over an input trace. -/
def run (depth : Nat) (mem0 : List Nat) (d0 : Nat) (is : List Ports) : Run :=
  is.foldl (cycle depth) { regs := reset mem0 d0, pushed := [], popped := [] }

/-- The `level` memory words starting at the read pointer, in read order: the
contents of the circular buffer. -/
def window (mem : List Nat) (rd level n : Nat) : List Nat :=
  (List.range level).map (fun k => mem.getD ((rd + k) % n) 0)

/-- The invariant of the circular buffer: pointers and level agree, the flags
mirror the level, and the words between the pointers are exactly the values
pushed but not yet popped. -/
structure Inv (depth : Nat) (r : Run) : Prop where
  mem_len : r.regs.mem.length = depth + 1
  rd_le : r.regs.r_rd_ptr ≤ depth
  level_le : r.regs.r_level ≤ depth + 1
  wr_eq : r.regs.r_wr_ptr = (r.regs.r_rd_ptr + r.regs.r_level) % (depth + 1)
  empty_iff : r.regs.r_empty = true ↔ r.regs.r_level = 0
  full_iff : r.regs.r_full = true ↔ r.regs.r_level = depth + 1
  hist : r.pushed
    = r.popped ++ window r.regs.mem r.regs.r_rd_ptr r.regs.r_level (depth + 1)

end FIFO

/-! ## `print_linebuffer1D` -/

namespace LineBuffer1D

/-- The arguments of `print_linebuffer1D` that shape the module: `L[0]`,
`inEl[0]` and `outEl[0]`.  The remaining dimensions are copied index by index
(`[i3][i2][i1]` is the same on both sides of every connect), so one stencil is
modelled as the list of its entries along dimension 0. -/
structure Params where
  L0 : Nat
  inEl0 : Nat
  outEl0 : Nat
deriving DecidableEq, Repr

/-- Models `int ratio = outEl[0]/inEl[0];` -/
def ratio (p : Params) : Nat := p.outEl0 / p.inEl0

/-- Models `int bufL0 = std::max(0,ratio - 1);` -/
def bufL0 (p : Params) : Nat := max 0 (ratio p - 1)

/-- Models `int imgL0 = L[0]/inEl[0];` -/
def imgL0 (p : Params) : Nat := p.L0 / p.inEl0

/-- Models `int nBit_imgL0 = (int)std::ceil(std::log2((float)imgL0));` -/
def nBit_imgL0 (p : Params) : Nat := ceilLog2 (imgL0 p)

/-- Models `reg buffer : {value : inS}[bufL0]` (no reset) and `reg col` (reset 0). -/
structure Regs where
  buffer : List (List Nat)
  col : Nat
deriving DecidableEq, Repr

/-- The inputs of one cycle: `io.in.valid`, `io.in.bits.value`, `io.out.ready`. -/
structure Ports where
  in_valid : Bool
  in_bits : List Nat
  out_ready : Bool
deriving DecidableEq, Repr

/-- Registers after reset; `buffer` has no reset value. -/
def reset (buf0 : List (List Nat)) : Regs := { buffer := buf0, col := 0 }

/-- The wire `outStencil`: entry `bi * inEl[0] + i0` is connected to
`buffer[bi]` entry `i0` for `bi < bufL0`, entry `bufL0 * inEl[0] + i0` to the
input entry `i0`; an entry that is never connected stays invalid (`none`). -/
def outStencil (p : Params) (s : Regs) (i : Ports) : List (Option Nat) :=
  (List.range p.outEl0).map fun k =>
    if k / p.inEl0 < bufL0 p then (s.buffer.getD (k / p.inEl0) [])[k % p.inEl0]?
    else if k / p.inEl0 = bufL0 p then i.in_bits[k % p.inEl0]?
    else none

/-- Models `io.out.valid`: the input valid in the pass-through module, otherwise 1
inside `when io.in.valid : when geq(col, UInt(bufL0)) :` and 0 elsewhere. -/
def out_valid (p : Params) (s : Regs) (i : Ports) : Bool :=
  if p.inEl0 = p.outEl0 then i.in_valid
  else i.in_valid && decide (bufL0 p ≤ s.col)

/-- Models `io.out.bits.value`. -/
def out_bits (p : Params) (s : Regs) (i : Ports) : List (Option Nat) :=
  if p.inEl0 = p.outEl0 then i.in_bits.map some
  else if i.in_valid && decide (bufL0 p ≤ s.col) then outStencil p s i
  else List.replicate p.outEl0 none

/-- Models `io.in.ready <= io.out.ready` (the last connect in both branches). -/
def in_ready (_p : Params) (_s : Regs) (i : Ports) : Bool := i.out_ready

/-- One clock edge.  Inside `when io.in.valid : when io.out.ready :` the buffer
shifts (`buffer[bi] <= buffer[bi+1]`, `buffer[bufL0-1] <= io.in.bits`) and `col`
counts up, wrapping to 0 at `imgL0 - 1`. -/
def step (p : Params) (s : Regs) (i : Ports) : Regs :=
  if p.inEl0 = p.outEl0 then s
  else if i.in_valid && i.out_ready then
    { buffer := (List.range (bufL0 p)).map fun bi =>
        if bi + 1 < bufL0 p then s.buffer.getD (bi + 1) [] else i.in_bits
      col := if s.col = imgL0 p - 1 then 0 else tail1 (nBit_imgL0 p) (s.col + 1) }
  else s

/-- The window handed downstream in a cycle, if any (`io.out.valid` and
`io.out.ready` both high). -/
def transfer (p : Params) (s : Regs) (i : Ports) : Option (List (Option Nat)) :=
  if out_valid p s i && i.out_ready then some (out_bits p s i) else none

/-- The registers after a trace of cycles. -/
def regsAfter (p : Params) (s : Regs) (is : List Ports) : Regs :=
  is.foldl (step p) s

/-- The input elements accepted over a trace (`io.in.valid` and `io.in.ready`). -/
def accepted (p : Params) (s : Regs) : List Ports → List (List Nat)
  | [] => []
  | i :: is =>
    (if i.in_valid && in_ready p s i then [i.in_bits] else [])
      ++ accepted p (step p s i) is

/-- The windows handed downstream over a trace, in order. -/
def transfers (p : Params) (s : Regs) : List Ports → List (List (Option Nat))
  | [] => []
  | i :: is => (transfer p s i).toList ++ transfers p (step p s i) is

end LineBuffer1D

/-! ## `print_dispatch` -/

namespace Dispatch

/-- The fields of the `Dispatch` component read by `print_dispatch`.  The
consumers are numbered in the order of `consumer_names`. -/
structure Params where
  stencil_sizes : List Int
  stencil_steps : List Int
  store_extents : List Int
  consumer_fifo_depths : List Int
  consumer_offsets : List (List Int)
  consumer_extents : List (List Int)
deriving DecidableEq, Repr

/-- Models `int num_of_dimensions = stencil_sizes.size();` -/
def num_of_dimensions (p : Params) : Nat := p.stencil_sizes.length

/-- Models `int num_of_consumers = consumer_fifo_depths.size();` -/
def num_of_consumers (p : Params) : Nat := p.consumer_fifo_depths.length

/-- Models `internal_assert(num_of_dimensions > 1)`, evaluated once per consumer: the
module is printed when there is no consumer or more than one dimension. -/
def printed (p : Params) : Bool :=
  decide (num_of_consumers p = 0) || decide (1 < num_of_dimensions p)

/-- Models `store_nBits[i]`: the width of `counter<i>`. -/
def store_nBits (p : Params) (i : Nat) : Nat :=
  max (ceilLog2 (p.store_extents.getD i 0).toNat) 1

/-- Models `int lb = consumer_offsets[i][j];` -/
def lb (p : Params) (i j : Nat) : Int := (p.consumer_offsets.getD i []).getD j 0

/-- Models `int ub = consumer_offsets[i][j] + consumer_extents[i][j] - stencil_sizes[j];` -/
def ub (p : Params) (i j : Nat) : Int :=
  (p.consumer_offsets.getD i []).getD j 0 + (p.consumer_extents.getD i []).getD j 0
    - p.stencil_sizes.getD j 0

/-- The inputs of one cycle: the input stream's valid and value and every
consumer's ready. -/
structure Ports where
  in_valid : Bool
  in_value : Nat
  ready : List Bool
deriving DecidableEq, Repr

/-- The value of register `counter<j>`. -/
def counter (cs : List Nat) (j : Nat) : Int := ((cs.getD j 0 : Nat) : Int)

/-- Models `node c<i>d<j>b = and(geq(counter<j>, UInt(lb)), leq(counter<j>, UInt(ub)))` -/
def cdb (p : Params) (cs : List Nat) (i j : Nat) : Bool :=
  decide (lb p i j ≤ counter cs j) && decide (counter cs j ≤ ub p i j)

/-- Models `node c<i>d<j> = and(c<i>d<j>b, c<i>d<j-1>b)`, printed for `j > 0`. -/
def cd (p : Params) (cs : List Nat) (i j : Nat) : Bool :=
  cdb p cs i j && cdb p cs i (j - 1)

/-- The in-window flag of consumer `i` used by the module:
`c<i>d<num_of_dimensions-1>`. -/
def inWindow (p : Params) (cs : List Nat) (i : Nat) : Bool :=
  cd p cs i (num_of_dimensions p - 1)

/-- Models `node c<i>r = and(c<i>d<nd-1>, <consumer i>.ready)` -/
def cr (p : Params) (cs : List Nat) (x : Ports) (i : Nat) : Bool :=
  inWindow p cs i && x.ready.getD i false

/-- Models `node c<i> = or(c<i>r, not(c<i>d<nd-1>))` -/
def c (p : Params) (cs : List Nat) (x : Ports) (i : Nat) : Bool :=
  cr p cs x i || !inWindow p cs i

/-- Models `node allOutReady = and(c0, and(c1, ... c<n-1>))` -/
def allOutReady (p : Params) (cs : List Nat) (x : Ports) : Bool :=
  (List.range (num_of_consumers p)).all fun i => c p cs x i

/-- The condition of the two nested `when`s: `when <in>.valid :` and
`when allOutReady :`. -/
def fire (p : Params) (cs : List Nat) (x : Ports) : Bool :=
  x.in_valid && allOutReady p cs x

/-- Models `<in>.ready`: 0 by default, 1 inside `when allOutReady`, 0 in its `else`. -/
def in_ready (p : Params) (cs : List Nat) (x : Ports) : Bool := fire p cs x

/-- Models `<consumer i>.valid`: 0 by default, 1 inside `when c<i>r :`. -/
def valid (p : Params) (cs : List Nat) (x : Ports) (i : Nat) : Bool :=
  fire p cs x && cr p cs x i

/-- Models `<consumer i>.value`: the input value inside `when c<i>r :`, otherwise
invalid. -/
def value (p : Params) (cs : List Nat) (x : Ports) (i : Nat) : Option Nat :=
  if valid p cs x i then some x.in_value else none

/-- Models `node counter<i>_is_max = eq(counter<i>, UInt(store_extents[i] - stencil_sizes[i]))` -/
def counter_is_max (p : Params) (cs : List Nat) (i : Nat) : Bool :=
  decide (counter cs i = p.store_extents.getD i 0 - p.stencil_sizes.getD i 0)

/-- Models `counter<i>_inc = tail(add(counter<i>, UInt(step)), 1)` connected to the
`store_nBits[i]`-bit register: the sum reduced to the register width. -/
def counter_inc (p : Params) (cs : List Nat) (i : Nat) : Nat :=
  ((counter cs i + p.stencil_steps.getD i 0) % 2 ^ store_nBits p i).toNat

/-- One clock edge.  The update of `counter<i>` is nested inside
`when counter<k>_is_max` for every `k < i`. -/
def step (p : Params) (cs : List Nat) (x : Ports) : List Nat :=
  if fire p cs x then
    (List.range (num_of_dimensions p)).map fun i =>
      if (List.range i).all (fun k => counter_is_max p cs k) then
        (if counter_is_max p cs i then 0 else counter_inc p cs i)
      else cs.getD i 0
  else cs

/-- Models `done_out`: 1 in the innermost `when counter<nd-1>_is_max`. -/
def done_out (p : Params) (cs : List Nat) (x : Ports) : Bool :=
  fire p cs x && decide (0 < num_of_dimensions p)
    && (List.range (num_of_dimensions p)).all (fun k => counter_is_max p cs k)

/-- The geometric test of the specification: the position lies inside consumer
`i`'s declared window in every dimension. -/
def inDeclaredWindow (p : Params) (cs : List Nat) (i : Nat) : Prop :=
  ∀ j, j < num_of_dimensions p → lb p i j ≤ counter cs j ∧ counter cs j ≤ ub p i j

end Dispatch

/-! ## `print_slaveif` -/

namespace SlaveIf

/-- Models `FIRRTL_Type::StencilContainerType`. -/
inductive StencilContainerType where
  | Scalar
  | Stencil
  | Stream
  | AxiStream
  | MemRd
deriving DecidableEq, Repr

/-- The parts of a `FIRRTL_Type` read by `print_slaveif`: the container kind,
the element type (`is_uint`, `bits`) and the extents of `bounds`. -/
structure FIRRTL_Type where
  type : StencilContainerType
  is_uint : Bool
  bits : Nat
  bounds : List Nat
deriving DecidableEq, Repr

/-- Models `Reg_Type`: one entry of `address_map`. -/
structure Reg_Type where
  is_stencil : Bool
  bitwidth : Nat
  range : Nat
  offset : Nat
  extents : List Nat
deriving DecidableEq, Repr

/-- Models `r.extents`: four ones, the first `bounds.size()` of them overwritten by the
extents of the bounds. -/
def extents4 (bounds : List Nat) : List Nat :=
  (List.range 4).map fun i => bounds.getD i 1

/-- The four nested `for` loops over `r.extents[3]` .. `r.extents[0]`, whose
body ends in `offset += 4`. -/
def offsetAfterLoops (extents : List Nat) (offset : Nat) : Nat :=
  (List.range (extents.getD 3 0)).foldl (fun o3 _ =>
    (List.range (extents.getD 2 0)).foldl (fun o2 _ =>
      (List.range (extents.getD 1 0)).foldl (fun o1 _ =>
        (List.range (extents.getD 0 0)).foldl (fun o0 _ => o0 + 4) o1) o2) o3) offset

/-- One iteration of the loop over `c->getRegs()`: the entry recorded for the
register and the offset afterwards; `none` when an `internal_assert` on
`bounds.size()` fails. -/
def assignReg (offset : Nat) (s : FIRRTL_Type) : Option (Reg_Type × Nat) :=
  if s.type = StencilContainerType.Stencil then
    if s.bounds.length ≤ 4 ∧ 1 ≤ s.bounds.length then
      some ({ is_stencil := true, bitwidth := 32,
              range := s.bounds.foldl (fun r e => r * e) 1 * 4,
              offset := offset, extents := extents4 s.bounds },
            offsetAfterLoops (extents4 s.bounds) offset)
    else none
  else
    some ({ is_stencil := false, bitwidth := 32, range := 4, offset := offset,
            extents := [] }, offset + 4)

/-- The loop over `c->getRegs()` from a running offset.  The argument lists the
registers in the iteration order of `c->getRegs()`; class `Component` is
declared in `CodeGen_FIRRTL_Target.h`, which is not among the sources, and
following the specification that order is the order in which the registers
were declared. -/
def assignOffsets : Nat → List (String × FIRRTL_Type) → Option (List (String × Reg_Type))
  | _, [] => some []
  | offset, (name, s) :: rest =>
    match assignReg offset s with
    | none => none
    | some (r, offset') =>
      match assignOffsets offset' rest with
      | none => none
      | some m => some ((name, r) :: m)

/-- The offset assignment of `print_slaveif`: `int offset = 0x40;` followed by
the loop. -/
def address_map (regs : List (String × FIRRTL_Type)) : Option (List (String × Reg_Type)) :=
  assignOffsets 0x40 regs

/-- The byte range the specification gives a register: 4 bytes for a scalar,
4 bytes per element for a tap memory. -/
def specByteRange (s : FIRRTL_Type) : Nat :=
  if s.type = StencilContainerType.Stencil then 4 * s.bounds.prod else 4

/-- The word count of `cmem <name> : ...[r.range>>2]`. -/
def memWords (r : Reg_Type) : Nat := r.range >>> 2

/-- Models `w_<name>_rd_idx` and `w_<name>_wr_idx`:
`shr(asUInt(sub(<captured address>, UInt(offset))), 2)`. -/
def w_idx (addr offset : Nat) : Nat := subU 32 addr offset >>> 2

/-- The guard of a tap memory port:
`and(geq(addr, UInt<32>(offset)), lt(addr, UInt<32>(offset + range)))`. -/
def inTapRange (r : Reg_Type) (addr : Nat) : Bool :=
  decide (r.offset ≤ addr) && decide (addr < r.offset + r.range)

/-- The text printed after `do_indent()` for the branch that sets `r_done`:
`"else when"`, one piece per done port, the closing parentheses, `" :\n"`. -/
def doneWhenLine (done_ports : List String) : String :=
  "else when"
    ++ String.join ((List.range done_ports.length).map fun i =>
        if i = done_ports.length - 1 then "r_" ++ done_ports.getD i ""
        else " and(r_" ++ done_ports.getD i "" ++ ", ")
    ++ String.join ((List.range (done_ports.length - 1)).map fun _ => ")")
    ++ " :\n"

/-- The conjunction of the specification: `r_p1` for one port,
`and(r_p1, E)` otherwise. -/
def specConj : List String → String
  | [] => ""
  | [p] => "r_" ++ p
  | p :: ps => "and(r_" ++ p ++ ", " ++ specConj ps ++ ")"

/-- The line of the specification: `else when E :`. -/
def specDoneWhenLine (done_ports : List String) : String :=
  "else when " ++ specConj done_ports ++ " :\n"

/-- The registers of the bus interface.  `user` holds the contents of the user
registers (one word) and tap memories (`memWords` words) in the order of the
address map. -/
structure Regs where
  r_aw_cs_fsm : Nat
  r_aw_addr : Nat
  r_ar_cs_fsm : Nat
  r_ar_addr : Nat
  r_rd_data : Nat
  r_start : Bool
  r_run : Bool
  r_done : Bool
  r_done_ports : List Bool
  user : List (List Nat)
deriving DecidableEq, Repr

/-- The bus inputs and the `*_done` inputs of one cycle. -/
structure Ports where
  AWADDR : Nat
  AWVALID : Bool
  WDATA : Nat
  WVALID : Bool
  BREADY : Bool
  ARADDR : Nat
  ARVALID : Bool
  RREADY : Bool
  done_ports : List Bool
deriving DecidableEq, Repr

/-- Models `ST_AW_IDLE`, `ST_AR_IDLE` -/
def ST_IDLE : Nat := 0
/-- Models `ST_AW_ADDR`, `ST_AR_ADDR` -/
def ST_ADDR : Nat := 1
/-- Models `ST_AW_DATA`, `ST_AR_DATA` -/
def ST_DATA : Nat := 2
/-- Models `ADDR_CTRL <= UInt<32>(0)` -/
def ADDR_CTRL : Nat := 0
/-- Models `ADDR_STATUS <= UInt<32>(4)` -/
def ADDR_STATUS : Nat := 4

/-- Register values after reset (`r_aw_addr`, `r_ar_addr`, `r_rd_data` and the
user memories have no reset value). -/
def reset (aw ar rd : Nat) (n : Nat) (user : List (List Nat)) : Regs :=
  { r_aw_cs_fsm := 0, r_aw_addr := aw, r_ar_cs_fsm := 0, r_ar_addr := ar,
    r_rd_data := rd, r_start := false, r_run := false, r_done := false,
    r_done_ports := List.replicate n false, user := user }

/-- Models `w_aw_ns_fsm` -/
def w_aw_ns_fsm (s : Regs) (i : Ports) : Nat :=
  if s.r_aw_cs_fsm = ST_IDLE then (if i.AWVALID then ST_ADDR else s.r_aw_cs_fsm)
  else if s.r_aw_cs_fsm = ST_ADDR then (if i.WVALID then ST_DATA else s.r_aw_cs_fsm)
  else if s.r_aw_cs_fsm = ST_DATA then (if i.BREADY then ST_IDLE else s.r_aw_cs_fsm)
  else s.r_aw_cs_fsm

/-- Models `w_ar_ns_fsm` -/
def w_ar_ns_fsm (s : Regs) (i : Ports) : Nat :=
  if s.r_ar_cs_fsm = ST_IDLE then (if i.ARVALID then ST_ADDR else s.r_ar_cs_fsm)
  else if s.r_ar_cs_fsm = ST_ADDR then (if i.RREADY then ST_DATA else s.r_ar_cs_fsm)
  else if s.r_ar_cs_fsm = ST_DATA then ST_IDLE
  else s.r_ar_cs_fsm

/-- Models `AWREADY <= eq(r_aw_cs_fsm, ST_AW_IDLE)` -/
def AWREADY (s : Regs) : Bool := decide (s.r_aw_cs_fsm = ST_IDLE)
/-- Models `WREADY <= eq(r_aw_cs_fsm, ST_AW_ADDR)` -/
def WREADY (s : Regs) : Bool := decide (s.r_aw_cs_fsm = ST_ADDR)
/-- Models `BVALID <= eq(r_aw_cs_fsm, ST_AW_DATA)` -/
def BVALID (s : Regs) : Bool := decide (s.r_aw_cs_fsm = ST_DATA)
/-- Models `ARREADY <= eq(r_ar_cs_fsm, ST_AR_IDLE)` -/
def ARREADY (s : Regs) : Bool := decide (s.r_ar_cs_fsm = ST_IDLE)
/-- Models `RVALID <= eq(r_ar_cs_fsm, ST_AR_DATA)` -/
def RVALID (s : Regs) : Bool := decide (s.r_ar_cs_fsm = ST_DATA)
/-- Models `RDATA <= r_rd_data` -/
def RDATA (s : Regs) : Nat := s.r_rd_data
/-- Models `start <= r_start` -/
def start (s : Regs) : Bool := s.r_start

/-- Models `as<U|S>Int(WDATA)` connected to a register or memory word of the element
type: the bit pattern stored. -/
def castWDATA (t : FIRRTL_Type) (w : Nat) : Nat :=
  if t.bits ≤ 32 then w % 2 ^ t.bits
  else if !t.is_uint && decide (2 ^ 31 ≤ w % 2 ^ 32) then w % 2 ^ 32 + (2 ^ t.bits - 2 ^ 32)
  else w % 2 ^ 32

/-- The `else when` branches of the read chain that follow `ADDR_CTRL` and
`ADDR_STATUS`, one per entry of the address map: the value loaded into
`r_rd_data` by the first branch whose guard holds. -/
def readUser : List (Reg_Type × FIRRTL_Type) → List (List Nat) → Nat → Option Nat
  | [], _, _ => none
  | (r, _) :: cfg, user, addr =>
    if r.is_stencil then
      if inTapRange r addr then some ((user.headD []).getD (w_idx addr r.offset) 0 % 2 ^ 32)
      else readUser cfg user.tail addr
    else
      if addr = r.offset then some ((user.headD []).getD 0 0 % 2 ^ 32)
      else readUser cfg user.tail addr

/-- The write `when`s printed per entry of the address map. -/
def writeUser : List (Reg_Type × FIRRTL_Type) → List (List Nat) → Regs → Ports → List (List Nat)
  | [], user, _, _ => user
  | _, [], _, _ => []
  | (r, t) :: cfg, u :: user, s, i =>
    (if s.r_aw_cs_fsm = ST_ADDR then
      if r.is_stencil then
        (if inTapRange r s.r_aw_addr then u.set (w_idx s.r_aw_addr r.offset) (castWDATA t i.WDATA)
         else u)
      else
        (if s.r_aw_addr = r.offset then u.set 0 (castWDATA t i.WDATA) else u)
    else u) :: writeUser cfg user s i

/-- The guard that clears the done flags: a write in state `ST_AW_ADDR` at
`ADDR_CTRL` with `eq(and(WDATA, UInt<32>(2)), UInt<32>(2))`. -/
def clearDone (s : Regs) (i : Ports) : Bool :=
  decide (s.r_aw_cs_fsm = ST_ADDR) && (decide (s.r_aw_addr = ADDR_CTRL)
    && decide (i.WDATA &&& 2 = 2))

/-- One clock edge of the bus interface for the address map `cfg`. -/
def step (cfg : List (Reg_Type × FIRRTL_Type)) (s : Regs) (i : Ports) : Regs :=
  { r_aw_cs_fsm := w_aw_ns_fsm s i
    r_aw_addr := if i.AWVALID && AWREADY s then i.AWADDR % 2 ^ 32 else s.r_aw_addr
    r_ar_cs_fsm := w_ar_ns_fsm s i
    r_ar_addr := if i.ARVALID && ARREADY s then i.ARADDR % 2 ^ 32 else s.r_ar_addr
    r_rd_data :=
      if s.r_ar_cs_fsm = ST_ADDR then
        if s.r_ar_addr = ADDR_CTRL then 2 * s.r_done.toNat ||| s.r_start.toNat
        else if s.r_ar_addr = ADDR_STATUS then s.r_run.toNat
        else (readUser cfg s.user s.r_ar_addr).getD s.r_rd_data
      else s.r_rd_data
    r_start :=
      if s.r_aw_cs_fsm = ST_ADDR ∧ s.r_aw_addr = ADDR_CTRL then decide (i.WDATA % 2 = 1)
      else false
    r_run := if s.r_start then true else if s.r_done then false else s.r_run
    r_done :=
      if clearDone s i then false
      else if s.r_done_ports.all id then true
      else s.r_done
    r_done_ports :=
      (List.range s.r_done_ports.length).map fun k =>
        if clearDone s i then false
        else if i.done_ports.getD k false then true
        else s.r_done_ports.getD k false
    user := writeUser cfg s.user s i }

end SlaveIf

/-! ## Expression lowering (`visit(Cast)`, `visit(Add)`, `visit(Sub)`, `visit(Mul)`,
`visit(Div)`, `visit(Mod)`) -/

namespace Lower

/-- The parts of a Halide integer `Type` read by the lowering: `is_int()` (a
signed integer) and `bits()`; for an integer type `is_uint()` is the negation
of `is_int()`. -/
structure HType where
  is_int : Bool
  bits : Nat
deriving DecidableEq, Repr

/-- FIRRTL expressions built by the lowering, over named operands. -/
inductive FExpr where
  | ref (name : String)
  | ulit (width : Nat) (value : Int)
  | asUInt (e : FExpr)
  | asSInt (e : FExpr)
  | pad (e : FExpr) (n : Nat)
  | bits (e : FExpr) (hi lo : Nat)
  | tail (e : FExpr) (n : Nat)
  | add (a b : FExpr)
  | sub (a b : FExpr)
  | mul (a b : FExpr)
  | shr (e : FExpr) (n : Nat)
  | and (a b : FExpr)
  | div (a b : FExpr)
  | rem (a b : FExpr)
deriving DecidableEq, Repr

/-- The FIRRTL text of an expression. -/
def render : FExpr → String
  | .ref name => name
  | .ulit w v => "UInt<" ++ toString w ++ ">(" ++ toString v ++ ")"
  | .asUInt e => "asUInt(" ++ render e ++ ")"
  | .asSInt e => "asSInt(" ++ render e ++ ")"
  | .pad e n => "pad(" ++ render e ++ ", " ++ toString n ++ ")"
  | .bits e hi lo => "bits(" ++ render e ++ ", " ++ toString hi ++ ", " ++ toString lo ++ ")"
  | .tail e n => "tail(" ++ render e ++ ", " ++ toString n ++ ")"
  | .add a b => "add(" ++ render a ++ ", " ++ render b ++ ")"
  | .sub a b => "sub(" ++ render a ++ ", " ++ render b ++ ")"
  | .mul a b => "mul(" ++ render a ++ ", " ++ render b ++ ")"
  | .shr e n => "shr(" ++ render e ++ ", " ++ toString n ++ ")"
  | .and a b => "and(" ++ render a ++ ", " ++ render b ++ ")"
  | .div a b => "div(" ++ render a ++ ", " ++ render b ++ ")"
  | .rem a b => "rem(" ++ render a ++ ", " ++ render b ++ ")"

/-- A FIRRTL ground value: `SInt` or `UInt`, its width and its numeric value. -/
structure Val where
  signed : Bool
  width : Nat
  val : Int
deriving DecidableEq, Repr

/-- The low `w` bits of `x` read as an unsigned number. -/
def toU (w : Nat) (x : Int) : Int := x % 2 ^ w

/-- The low `w` bits of `x` read as a two's complement number. -/
def toS (w : Nat) (x : Int) : Int :=
  if 2 ^ w ≤ 2 * (x % 2 ^ w) then x % 2 ^ w - 2 ^ w else x % 2 ^ w

/-- The low `w` bits of `x` read in the given signedness. -/
def readAs (signed : Bool) (w : Nat) (x : Int) : Int :=
  if signed then toS w x else toU w x

/-- A value lies in the range of its type. -/
def Val.inRange (v : Val) : Prop :=
  if v.signed then -(2 ^ (v.width - 1)) ≤ v.val ∧ v.val < 2 ^ (v.width - 1) ∧ 1 ≤ v.width
  else 0 ≤ v.val ∧ v.val < 2 ^ v.width

/-- Bitwise and of the low `w` bits of two numbers. -/
def bitAnd (w : Nat) (a b : Int) : Int :=
  (((a % 2 ^ w).toNat &&& (b % 2 ^ w).toNat : Nat) : Int)

/-- The value of an expression, following the FIRRTL primitive operations:
result type and width as in the FIRRTL specification, `tail` and `bits` yield
`UInt`, `pad` keeps the type of its operand, `shr` is the arithmetic shift,
`div` truncates and `rem` takes the sign of the dividend. -/
def eval (env : String → Val) : FExpr → Val
  | .ref name => env name
  | .ulit w v => ⟨false, w, v⟩
  | .asUInt e => ⟨false, (eval env e).width, toU (eval env e).width (eval env e).val⟩
  | .asSInt e => ⟨true, (eval env e).width, toS (eval env e).width (eval env e).val⟩
  | .pad e n => ⟨(eval env e).signed, max (eval env e).width n, (eval env e).val⟩
  | .bits e hi lo => ⟨false, hi - lo + 1, ((eval env e).val / 2 ^ lo) % 2 ^ (hi - lo + 1)⟩
  | .tail e n => ⟨false, (eval env e).width - n, (eval env e).val % 2 ^ ((eval env e).width - n)⟩
  | .add a b => ⟨(eval env a).signed, max (eval env a).width (eval env b).width + 1,
      (eval env a).val + (eval env b).val⟩
  | .sub a b => ⟨(eval env a).signed, max (eval env a).width (eval env b).width + 1,
      readAs (eval env a).signed (max (eval env a).width (eval env b).width + 1)
        ((eval env a).val - (eval env b).val)⟩
  | .mul a b => ⟨(eval env a).signed, (eval env a).width + (eval env b).width,
      (eval env a).val * (eval env b).val⟩
  | .shr e n => ⟨(eval env e).signed, max ((eval env e).width - n) 1, (eval env e).val / 2 ^ n⟩
  | .and a b => ⟨false, max (eval env a).width (eval env b).width,
      bitAnd (max (eval env a).width (eval env b).width) (eval env a).val (eval env b).val⟩
  | .div a b => ⟨(eval env a).signed,
      if (eval env a).signed then (eval env a).width + 1 else (eval env a).width,
      Int.tdiv (eval env a).val (eval env b).val⟩
  | .rem a b => ⟨(eval env a).signed, min (eval env a).width (eval env b).width,
      Int.tmod (eval env a).val (eval env b).val⟩

/-- The right-hand side `visit(const Cast *)` passes to `print_assignment`, for
the destination type `t`, the operand's `bits()` and the operand's text. -/
def visitCast_rhs (t : HType) (rhs_bits : Nat) (v : String) : String :=
  if t.bits = rhs_bits then
    if t.is_int then "asSInt(" ++ v ++ ")" else "asUInt(" ++ v ++ ")"
  else if t.bits > rhs_bits then
    "pad(" ++ v ++ ", " ++ toString t.bits ++ ")"
  else
    if t.is_int then "asSInt(bits(" ++ v ++ ", " ++ toString (t.bits - 1) ++ ", 0))"
    else "bits(" ++ v ++ ", " ++ toString (t.bits - 1) ++ ", 0)"

/-- The expression whose text `visit(const Cast *)` emits. -/
def castExpr (t : HType) (rhs_bits : Nat) (e : FExpr) : FExpr :=
  if t.bits = rhs_bits then
    if t.is_int then .asSInt e else .asUInt e
  else if t.bits > rhs_bits then .pad e t.bits
  else
    if t.is_int then .asSInt (.bits e (t.bits - 1) 0) else .bits e (t.bits - 1) 0

/-- The C-like conversion of the specification: the value reduced modulo
`2 ^ bits` and read in the destination's signedness. -/
def specConvert (t : HType) (v : Int) : Int := readAs t.is_int t.bits v

/-- The right-hand side built by `visit(const Add *)`. -/
def visitAdd_rhs (t : HType) (a b : String) : String :=
  (if t.is_int then "asSInt(" else "") ++ "tail(add(" ++ a ++ ", " ++ b ++ "), 1)"
    ++ (if t.is_int then ")" else "")

/-- The right-hand side built by `visit(const Sub *)`. -/
def visitSub_rhs (t : HType) (a b : String) : String :=
  (if t.is_int then "asSInt(" else "") ++ "tail(sub(" ++ a ++ ", " ++ b ++ "), 1)"
    ++ (if t.is_int then ")" else "")

/-- The right-hand side built by `visit(const Mul *)`. -/
def visitMul_rhs (t : HType) (a b : String) : String :=
  (if t.is_int then "asSInt(" else "") ++ "bits(mul(" ++ a ++ ", " ++ b ++ "), "
    ++ toString (t.bits - 1) ++ ", 0)" ++ (if t.is_int then ")" else "")

/-- The expression whose text `visit(const Add *)` emits. -/
def addExpr (t : HType) (a b : FExpr) : FExpr :=
  if t.is_int then .asSInt (.tail (.add a b) 1) else .tail (.add a b) 1

/-- The expression whose text `visit(const Sub *)` emits. -/
def subExpr (t : HType) (a b : FExpr) : FExpr :=
  if t.is_int then .asSInt (.tail (.sub a b) 1) else .tail (.sub a b) 1

/-- The expression whose text `visit(const Mul *)` emits. -/
def mulExpr (t : HType) (a b : FExpr) : FExpr :=
  if t.is_int then .asSInt (.bits (.mul a b) (t.bits - 1) 0) else .bits (.mul a b) (t.bits - 1) 0

/-- A C++ `int` result: the value wrapped to 32 bits two's complement. -/
def wrapInt (x : Int) : Int := toS 32 x

/-- The C++ `int` expression `1 << bits`.  For `bits ≥ 32`, the width of
`int`, C++ leaves the shift undefined; the value taken here is the one of the
x86 shift instruction, which uses the count modulo 32, so that `1 << 32`
is 1. -/
def shiftOne (bits : Nat) : Int := wrapInt (2 ^ (bits % 32))

/-- The C++ `int` expression `((1 << bits)-1)` of `visit(const Mod *)`.  Being
an `int`, it never equals `2 ^ bits - 1` for `bits ≥ 32`. -/
def modMask (bits : Nat) : Int := wrapInt (shiftOne bits - 1)

/-- How `visit(const Div *)` and `visit(const Mod *)` lower an operation: the
right-hand side passed to `print_assignment`, or the hand-over to
`lower_euclidean_div` / `lower_euclidean_mod`. -/
inductive Lowering where
  | rhs (text : String)
  | euclidean
deriving DecidableEq, Repr

/-- Models `visit(const Div *)`.  The argument `pow2` is the outcome of
`is_const_power_of_two_integer(op->b, &bits)`: `some bits` when it returns
true. -/
def visitDiv (t : HType) (pow2 : Option Nat) (a b : String) : Lowering :=
  match pow2 with
  | some bits => .rhs ("shr(" ++ a ++ ", " ++ toString bits ++ ")")
  | none =>
    if t.is_int then .euclidean
    else .rhs ("div" ++ "(" ++ a ++ ", " ++ b ++ ")")

/-- Models `visit(const Mod *)`, with `pow2` as for `visitDiv`. -/
def visitMod (t : HType) (pow2 : Option Nat) (a b : String) : Lowering :=
  match pow2 with
  | some bits =>
    .rhs ((if t.is_int then "asSInt(" else "") ++ "and(" ++ a ++ ", UInt<" ++ toString t.bits
      ++ ">(" ++ toString (modMask bits) ++ "))" ++ (if t.is_int then ")" else ""))
  | none =>
    if t.is_int then .euclidean
    else .rhs ("rem" ++ "(" ++ a ++ ", " ++ b ++ ")")

/-- The expression whose text `visit(const Div *)` emits for a power-of-two
divisor. -/
def divExpr (bits : Nat) (a : FExpr) : FExpr := .shr a bits

/-- The expression whose text `visit(const Mod *)` emits for a power-of-two
divisor. -/
def modExpr (t : HType) (bits : Nat) (a : FExpr) : FExpr :=
  if t.is_int then .asSInt (.and a (.ulit t.bits (modMask bits)))
  else .and a (.ulit t.bits (modMask bits))

end Lower

/-! ## `print_assignment` -/

namespace Assign

/-- The code generator state read and written by `print_assignment`: the
expression cache (`map<string, string> cache`, at most one entry per key), the
counter behind `unique_name`, the body of the current loop-compute block
(`none` when `current_fb == nullptr`), and the wires and connects added to the
top component. -/
structure Gen where
  cache : List (String × String)
  counter : Nat
  current_fb : Option (List String)
  top_wires : List (String × Lower.HType)
  top_connects : List (String × String)
deriving DecidableEq, Repr

/-- Models `cache.find(rhs)`: the cached name, `none` for `cache.end()`. -/
def cacheFind (cache : List (String × String)) (rhs : String) : Option String :=
  (cache.find? fun p => p.1 == rhs).map Prod.snd

/-- Models `cache[rhs] = id`. -/
def cacheSet (cache : List (String × String)) (rhs id : String) : List (String × String) :=
  (rhs, id) :: cache.filter fun p => p.1 != rhs

/-- Models `print_assignment(t, rhs)`: the returned name and the state
afterwards.  `unique_name` gives the name drawn by `unique_name('_')` from the
counter; that function is not part of the sources. -/
def print_assignment (unique_name : Nat → String) (g : Gen) (t : Lower.HType) (rhs : String) :
    String × Gen :=
  match cacheFind g.cache rhs with
  | none =>
    (unique_name g.counter,
      match g.current_fb with
      | some body =>
        { g with
          counter := g.counter + 1
          current_fb := some (body ++ ["node " ++ unique_name g.counter ++ " = " ++ rhs ++ "\n"])
          cache := cacheSet g.cache rhs (unique_name g.counter) }
      | none =>
        { g with
          counter := g.counter + 1
          top_wires := g.top_wires ++ [(unique_name g.counter, t)]
          top_connects := g.top_connects ++ [(unique_name g.counter, rhs)]
          cache := cacheSet g.cache rhs (unique_name g.counter) })
  | some cached => (cached, { g with counter := g.counter + 1 })

/-- What the generator may do between two calls without clearing the cache:
another `print_assignment`, or any change of the current block and of the top
component's wires and connects. -/
inductive Action where
  | assign (t : Lower.HType) (rhs : String)
  | edit (current_fb : Option (List String)) (top_wires : List (String × Lower.HType))
      (top_connects : List (String × String))
deriving DecidableEq, Repr

/-- The state after one action. -/
def act (unique_name : Nat → String) (g : Gen) : Action → Gen
  | .assign t rhs => (print_assignment unique_name g t rhs).2
  | .edit fb ws cs => { g with current_fb := fb, top_wires := ws, top_connects := cs }

/-- The state after a list of actions. -/
def acts (unique_name : Nat → String) (g : Gen) (as : List Action) : Gen :=
  as.foldl (act unique_name) g

end Assign

/-! ## Runs of the bus interface -/

namespace SlaveIf

/-- The registers after a trace of cycles. -/
def runFrom (cfg : List (Reg_Type × FIRRTL_Type)) (s : Regs) (is : List Ports) : Regs :=
  is.foldl (step cfg) s

/-- Whether cycle `j` of a trace clears the done flags. -/
def clearAt (cfg : List (Reg_Type × FIRRTL_Type)) (s : Regs) (is : List Ports) (j : Nat) : Bool :=
  match is[j]? with
  | some x => clearDone (runFrom cfg s (is.take j)) x
  | none => false

/-- Whether done input `k` is asserted in cycle `j` of a trace. -/
def doneAt (is : List Ports) (j k : Nat) : Bool :=
  match is[j]? with
  | some x => x.done_ports.getD k false
  | none => false

/-- Done input `k` has been asserted in some cycle of the trace since the done
flags were last cleared: no cycle from that one on clears them. -/
def SeenSinceClear (cfg : List (Reg_Type × FIRRTL_Type)) (s : Regs) (is : List Ports)
    (k : Nat) : Prop :=
  ∃ j, j < is.length ∧ doneAt is j k = true ∧ ∀ j', j ≤ j' → clearAt cfg s is j' = false

/-- A bus trace for two done inputs: both are asserted in cycle 0, and a write
of 1 to `ADDR_CTRL` (address in cycle 2, data in cycle 3, response in cycle 4)
starts the design afterwards. -/
def staleDoneTrace : List Ports :=
  [ ⟨0, false, 0, false, false, 0, false, false, [true, true]⟩,
    ⟨0, false, 0, false, false, 0, false, false, [false, false]⟩,
    ⟨0, true, 0, false, false, 0, false, false, [false, false]⟩,
    ⟨0, false, 1, true, false, 0, false, false, [false, false]⟩,
    ⟨0, false, 0, false, true, 0, false, false, [false, false]⟩,
    ⟨0, false, 0, false, false, 0, false, false, [false, false]⟩ ]

end SlaveIf

/-! ## `visit(For)` and `print_forblock` -/

namespace ForBlock

/-- One loop level of a loop-compute block: the entries of `getMins()` and
`getMaxs()` (or `getStencilMins()` and `getStencilMaxs()`) at one index. -/
structure Level where
  min : Int
  max : Int
deriving DecidableEq, Repr

/-- Models `addMin(id_min); addMax(id_extent-1)` of `visit(For)` (the same for
`addStencilMin`, `addStencilMax`): the level recorded for a loop with constant
min `id_min` and extent `id_extent`. -/
def visitFor (id_min id_extent : Int) : Level :=
  { min := id_min, max := id_extent - 1 }

/-- The parameters of one emitted block: the scan levels and the stencil
levels, outermost first, and `getPipelineDepth()`. -/
structure Params where
  vars : List Level
  stencil_vars : List Level
  ppdepth : Nat
deriving DecidableEq, Repr

/-- The registers of the block. `stencil_vars_d` holds, for every stencil
variable, its copies `_d1 .. _d<ppdepth>`; `valid_d` and `is_last_stencil_d`
hold `valid_d1 ..` and `is_last_stencil_d1 ..`. -/
structure Regs where
  vars : List Int
  stencil_vars : List Int
  stencil_vars_d : List (List Int)
  valid_d : List Bool
  is_last_stencil_d : List Bool
  started : Bool
  state : Nat
  is_last_stencil : Bool
deriving DecidableEq, Repr

/-- The inputs of one cycle: `start_in`, the `.valid` of every input stream and
the `.ready` of the output stream. -/
structure Ports where
  start_in : Bool
  in_valid : List Bool
  out_ready : Bool
deriving DecidableEq, Repr

/-- Register values after reset. -/
def reset (p : Params) : Regs :=
  { vars := p.vars.map fun b => b.min
    stencil_vars := p.stencil_vars.map fun b => b.min
    stencil_vars_d := p.stencil_vars.map fun b => List.replicate p.ppdepth b.min
    valid_d := List.replicate p.ppdepth false
    is_last_stencil_d := List.replicate p.ppdepth false
    started := false
    state := 0
    is_last_stencil := false }

/-- Models `no_state1 = !is_stencil_loop || is_stencil_extent_eq1` -/
def no_state1 (p : Params) : Bool :=
  let is_stencil_loop := decide (p.stencil_vars.length = 1)
  let is_stencil_extent_eq1 :=
    is_stencil_loop && decide ((p.stencil_vars.map fun b => b.max).headD 0
      = (p.stencil_vars.map fun b => b.min).headD 0)
  !is_stencil_loop || is_stencil_extent_eq1

/-- Models `asSInt(tail(add(v, SInt(1)), 1))` on a 32-bit signed register. -/
def inc32 (v : Int) : Int := Lower.toS 32 (v + 1)

/-- The nested increments of a list of loop variables, emitted from the
innermost variable outwards: a variable is incremented, or set back to its
min when `<var>_is_max`, exactly when every variable inside it is at its max.
Returns the next values and whether the innermost `when` body is reached
(every variable at its max). -/
def chain : List Level → List Int → List Int × Bool
  | [], _ => ([], true)
  | b :: bs, vs =>
    let r := chain bs vs.tail
    let v := vs.headD 0
    ((if r.2 then (if v = b.max then b.min else inc32 v) else v) :: r.1,
      r.2 && decide (v = b.max))

/-- Models `when started : when <out>.ready :` -/
def act (s : Regs) (i : Ports) : Bool := s.started && i.out_ready

/-- The nested `when <in>.valid :` of state 0: every input stream is valid. -/
def inputs_valid (i : Ports) : Bool := i.in_valid.all id

/-- The body of state 0 is reached. -/
def st0 (s : Regs) (i : Ports) : Bool :=
  act s i && decide (s.state = 0) && inputs_valid i

/-- The body of state 1 is emitted and reached. -/
def st1 (p : Params) (s : Regs) (i : Ports) : Bool :=
  act s i && !no_state1 p && decide (s.state = 1)

/-- The body of state 2 is reached. -/
def st2 (s : Regs) (i : Ports) : Bool :=
  act s i && decide (s.state = 2)

/-- The nested `when eq(<stencil var>_d<ppdepth>, SInt<32>(<stencil max>)) :` -/
def stencil_d_is_max (p : Params) (s : Regs) : Bool :=
  (List.range p.stencil_vars.length).all fun k =>
    decide (((s.stencil_vars_d.getD k []).getD (p.ppdepth - 1) 0)
      = (p.stencil_vars.map fun b => b.max).getD k 0)

/-- Models `done_out` -/
def done_out (p : Params) (s : Regs) (i : Ports) : Bool :=
  st2 s i && s.is_last_stencil_d.getD (p.ppdepth - 1) false && stencil_d_is_max p s

/-- Models `run_step` -/
def run_step (p : Params) (s : Regs) (i : Ports) : Bool :=
  st0 s i || st1 p s i || st2 s i

/-- Models `<in>.ready` of every input stream -/
def in_ready (p : Params) (s : Regs) (i : Ports) : Bool :=
  (st0 s i && no_state1 p) || (st1 p s i && (chain p.stencil_vars s.stencil_vars).2)

/-- Models `<out>.valid` -/
def out_valid (p : Params) (s : Regs) (i : Ports) : Bool :=
  if no_state1 p then
    (if st0 s i || st2 s i then s.valid_d.getD (p.ppdepth - 1) false else false)
  else act s i && stencil_d_is_max p s

/-- One clock edge of the block (reset low). -/
def step (p : Params) (s : Regs) (i : Ports) : Regs :=
  let sc := chain p.vars s.vars
  let tc := chain p.stencil_vars s.stencil_vars
  { vars :=
      if st0 s i then sc.1
      else if i.start_in then p.vars.map fun b => b.min
      else s.vars
    stencil_vars :=
      if st1 p s i then tc.1
      else if st0 s i && !no_state1 p then s.stencil_vars.set (p.stencil_vars.length - 1) 1
      else if i.start_in then p.stencil_vars.map fun b => b.min
      else s.stencil_vars
    stencil_vars_d :=
      if act s i then s.stencil_vars.map fun v => List.replicate p.ppdepth v
      else if i.start_in then p.stencil_vars.map fun b => List.replicate p.ppdepth b.min
      else s.stencil_vars_d
    valid_d := (List.range p.ppdepth).map fun j =>
      if j = 0 then
        (if st0 s i && no_state1 p then true
         else if i.start_in then false
         else s.valid_d.getD 0 false)
      else
        (if act s i then s.valid_d.getD (j - 1) false
         else if i.start_in then false
         else s.valid_d.getD j false)
    is_last_stencil_d := (List.range p.ppdepth).map fun j =>
      if act s i then (if j = 0 then s.is_last_stencil else s.is_last_stencil_d.getD (j - 1) false)
      else if i.start_in then false
      else s.is_last_stencil_d.getD j false
    started :=
      if i.start_in then true
      else if done_out p s i then false
      else s.started
    state :=
      if done_out p s i then 0
      else if st1 p s i && tc.2 then (if s.is_last_stencil then 2 else 0)
      else if st0 s i && !no_state1 p then 1
      else if st0 s i && no_state1 p && sc.2 then 2
      else if i.start_in then 0
      else s.state
    is_last_stencil :=
      if st0 s i && sc.2 then true
      else if i.start_in then false
      else s.is_last_stencil }

/-- The registers after a trace of cycles. -/
def runFrom (p : Params) (s : Regs) (is : List Ports) : Regs :=
  is.foldl (step p) s

/-- The number of cycles of a trace in which the body of state 0 is reached
(an accepted state-0 cycle). -/
def accepts (p : Params) (s : Regs) : List Ports → Nat
  | [] => 0
  | i :: is => (if st0 s i then 1 else 0) + accepts p (step p s i) is

/-- The number of cycles of a trace with `run_step` high. -/
def advances (p : Params) (s : Regs) : List Ports → Nat
  | [] => 0
  | i :: is => (if run_step p s i then 1 else 0) + advances p (step p s i) is

/-- The number of cycles of a trace with `done_out` high. -/
def dones (p : Params) (s : Regs) : List Ports → Nat
  | [] => 0
  | i :: is => (if done_out p s i then 1 else 0) + dones p (step p s i) is

/-- The register `state` sampled before every cycle of a trace with `run_step`
high, followed by its value after the trace. -/
def stateTrace (p : Params) (s : Regs) : List Ports → List Nat
  | [] => [s.state]
  | i :: is => (if run_step p s i then [s.state] else []) ++ stateTrace p (step p s i) is

/-- The number of values of a loop level with `min ≤ max`. -/
def extent (b : Level) : Nat := (b.max - b.min + 1).toNat

/-- The number of points of a box of loop levels. -/
def points : List Level → Nat
  | [] => 1
  | b :: bs => extent b * points bs

/-- Point number `t` of the box in lexicographic order, the last variable
varying fastest (taken modulo the number of points). -/
def pt : List Level → Nat → List Int
  | [], _ => []
  | b :: bs, t => (b.min + ((t / points bs % extent b : Nat) : Int)) :: pt bs (t % points bs)

/-- The points of the box listed in lexicographic order, the last variable
varying fastest. -/
def box : List Level → List (List Int)
  | [] => [[]]
  | b :: bs =>
    (List.range (extent b)).flatMap fun a => (box bs).map fun r => (b.min + (a : Int)) :: r

/-- A loop level whose bounds are ordered and fit a 32-bit signed register. -/
def Level.ok (b : Level) : Prop :=
  b.min ≤ b.max ∧ -(2 ^ 31) ≤ b.min ∧ b.max < 2 ^ 31

/-- The register values the `when start_in :` block loads (on a cycle in which
the block is not advancing). -/
def startState (p : Params) : Regs :=
  { reset p with started := true }

/-- The number of cycles spent on one scan point: state 0, then state 1 for
the remaining iterations of the stencil loop when state 1 is emitted. -/
def stencilExtent (p : Params) : Nat :=
  if no_state1 p then 1 else extent (p.stencil_vars.headD ⟨0, 0⟩)

/-- The number of cycles spent in state 2 at pipeline depth 1. -/
def drainCycles (p : Params) : Nat := if no_state1 p then 2 else 1

/-- The number of cycles with `run_step` high of one full run at pipeline
depth 1. -/
def totalSteps (p : Params) : Nat :=
  points p.vars * stencilExtent p + drainCycles p

/-- The value of `state` after `q` cycles with `run_step` high of a run: state 0
then state 1 for every scan point in turn, then state 2, then state 0. -/
def stateSeq (p : Params) (q : Nat) : Nat :=
  if q < points p.vars * stencilExtent p then (if q % stencilExtent p = 0 then 0 else 1)
  else if q < totalSteps p then 2
  else 0

/-- The loop nests covered by the run theorems: pipeline depth 1 (the only
value the code comments mention), scan levels with ordered 32-bit bounds, and
no stencil loop or one stencil loop with min 0. -/
def Supported (p : Params) : Prop :=
  p.ppdepth = 1 ∧ (∀ b ∈ p.vars, b.ok)
    ∧ (p.stencil_vars = [] ∨ ∃ m : Int, p.stencil_vars = [⟨0, m⟩] ∧ 0 ≤ m ∧ m < 2 ^ 31)

/-- The progress of a run: at scan point `t` in iteration `r` of the stencil
loop, in cycle `k` of state 2, or finished. -/
inductive Phase where
  | scan (t r : Nat)
  | drain (k : Nat)
  | idle
deriving DecidableEq, Repr

/-- The phase after one more cycle with `run_step` high. -/
def Phase.next (p : Params) : Phase → Phase
  | .scan t r =>
    if r + 1 < stencilExtent p then .scan t (r + 1)
    else if t + 1 < points p.vars then .scan (t + 1) 0
    else .drain 0
  | .drain k => if k + 1 < drainCycles p then .drain (k + 1) else .idle
  | .idle => .idle

/-- The phase after `q` cycles with `run_step` high. -/
def phaseOf (p : Params) (q : Nat) : Phase :=
  if q < points p.vars * stencilExtent p then .scan (q / stencilExtent p) (q % stencilExtent p)
  else if q < totalSteps p then .drain (q - points p.vars * stencilExtent p)
  else .idle

/-- The registers agree with a phase of the run. -/
def Inv (p : Params) : Phase → Regs → Prop
  | .scan t r, s =>
    t < points p.vars ∧ r < stencilExtent p ∧ s.started = true
      ∧ s.state = (if r = 0 then 0 else 1)
      ∧ s.vars = pt p.vars (if r = 0 then t else t + 1)
      ∧ s.stencil_vars = p.stencil_vars.map (fun _ => (r : Int))
      ∧ s.is_last_stencil = decide (t + 1 = points p.vars ∧ 0 < r)
      ∧ s.is_last_stencil_d.getD 0 false = decide (t + 1 = points p.vars ∧ 1 < r)
  | .drain k, s =>
    k < drainCycles p ∧ s.started = true ∧ s.state = 2
      ∧ s.stencil_vars = p.stencil_vars.map (fun _ => (0 : Int))
      ∧ s.is_last_stencil = true
      ∧ s.is_last_stencil_d.getD 0 false = decide (k + 1 = drainCycles p)
      ∧ stencil_d_is_max p s = true
  | .idle, s => s.started = false ∧ s.state = 0

/-- What one cycle without a start does to a run in phase `ph`: the registers
agree with the next phase when `run_step` is high and with the same phase
otherwise, `run_step` is high only in an unfinished run, `done_out` is high
exactly on the last cycle of state 2 with `run_step` high, and an unfinished
run advances when the output is ready and every input valid. -/
def StepOk (p : Params) (ph : Phase) (s : Regs) (x : Ports) : Prop :=
  Inv p (if run_step p s x then ph.next p else ph) (step p s x)
    ∧ (run_step p s x = true → ph ≠ .idle)
    ∧ done_out p s x = (run_step p s x && decide (ph = .drain (drainCycles p - 1)))
    ∧ (x.out_ready = true → inputs_valid x = true → ph ≠ .idle → run_step p s x = true)

/-- A block with two scan points and a stencil loop of two iterations. -/
def twoByTwo : Params :=
  { vars := [⟨0, 1⟩], stencil_vars := [⟨0, 1⟩], ppdepth := 1 }

/-- A cycle without a start in which the output is ready and the input valid. -/
def goCycle : Ports := { start_in := false, in_valid := [true], out_ready := true }

end ForBlock
namespace ForBlock

end ForBlock

/-! ## Statement lowering (`open_scope`, `print_expr`, `visit(FloatImm)`,
`visit(IfThenElse)`, `visit(Load)`, `visit(Store)`, `visit(Provide)`, `visit(For)`) -/

namespace Visit

/-- Models `print_name`: every character that is not alphanumeric (`isalnum`)
becomes an underscore.  Names are taken as sequences of ASCII characters. -/
def print_name (name : String) : String :=
  String.mk (name.data.map fun c => if c.isAlphanum then c else '_')

/-- The test `ends_with(s, suffix)` of the Halide utilities. -/
def ends_with (s suffix : String) : Bool := suffix.data.isSuffixOf s.data

/-- The attributes of the loop-compute block under construction that the
statement visitors set (its body is `Assign.Gen.current_fb`).  Class `ForBlock`
is declared in `CodeGen_FIRRTL_Target.h`, which is not among the sources; its
adders are taken to append, and ports are recorded by name. -/
structure FB where
  name : String
  vars : List String
  mins : List Int
  maxs : List Int
  stencil_vars : List String
  stencil_mins : List Int
  stencil_maxs : List Int
  in_ports : List String
  out_ports : List String
deriving DecidableEq, Repr

/-- The code generator state read and written by the statement visitors:
the state of `print_assignment`, the attributes of the current block, the
member `id`, the indentation, the text written to `stream` (each entry is the
value of `indent` when `do_indent()` ran, and the text written after it), the
instances and the non-scalar wires of the top component, the input ports of
the bus interface, the open loop variables, `producename`, and the routers
(with the fields set on them) and the queues that were given a depth (with
the text passed to `setDepth`). -/
structure CG where
  gen : Assign.Gen
  fb : FB
  id : String
  indent : Int
  stream : List (Int × String)
  top_instances : List String
  wires : List (String × SlaveIf.FIRRTL_Type)
  sif_in_ports : List String
  for_scanvar_list : List String
  producename : String
  dispatchers : List (String × Dispatch.Params)
  fifos : List (String × String)
deriving DecidableEq, Repr

/-- The outcome of a lowering step: the value and state on return, or the
diagnostic of the fatal check that fired (`internal_assert`, `internal_error`)
together with the state reached when it fired. -/
inductive Res (α : Type) where
  | ok (a : α) (g : CG)
  | abort (msg : String) (g : CG)
deriving DecidableEq, Repr

/-- Whether a step aborted. -/
def Res.aborted {α : Type} : Res α → Bool
  | .ok _ _ => false
  | .abort _ _ => true

/-- The state a step ended in. -/
def Res.state {α : Type} : Res α → CG
  | .ok _ g => g
  | .abort _ g => g

/-- Models `internal_assert(c) << msg`: fatal exactly when `c` is false. -/
def internal_assert (c : Bool) (msg : String) (g : CG) : Res Unit :=
  if c then .ok () g else .abort msg g

/-- Models `internal_error << msg`: always fatal. -/
def internal_error (msg : String) (g : CG) : Res Unit := .abort msg g

/-- Models `open_scope()`: the `cache.clear()` is commented out. -/
def open_scope (g : CG) : CG := { g with indent := g.indent + 2 }

/-- Models `close_scope(comment)`: the `cache.clear()` is commented out. -/
def close_scope (g : CG) (comment : String) : CG :=
  { g with
    stream := g.stream ++ [(g.indent, "skip ; " ++ comment ++ "\n")]
    indent := g.indent - 2 }

/-- Models `cache.clear()`. -/
def cache_clear (g : CG) : CG := { g with gen := { g.gen with cache := [] } }

/-- Models `current_fb->print(text)`: the text is appended to the body of the
current block. -/
def fb_print (g : CG) (text : String) : CG :=
  { g with gen := { g.gen with current_fb := g.gen.current_fb.map fun body => body ++ [text] } }

/-- A change of the body of the current block alone, used for
`current_fb->open_scope()` and `current_fb->close_scope("")`, which are
declared outside the sources and cannot reach the generator's cache. -/
def fb_edit (f : List String → List String) (g : CG) : CG :=
  { g with gen := { g.gen with current_fb := g.gen.current_fb.map f } }

/-- Models `print_assignment(t, rhs)` on the generator state; the member `id`
is left at the returned name. -/
def print_assignment (un : Nat → String) (t : Lower.HType) (rhs : String) (g : CG) : Res String :=
  .ok (Assign.print_assignment un g.gen t rhs).1
    { g with gen := (Assign.print_assignment un g.gen t rhs).2
             id := (Assign.print_assignment un g.gen t rhs).1 }

/-- Models `print_expr(e)`: `id = "$$ BAD ID $$"; e.accept(this); return id;`
where `visit` is the visitor that `accept` dispatches to. -/
def print_expr (visit : CG → Res Unit) (g : CG) : Res String :=
  match visit { g with id := "$$ BAD ID $$" } with
  | .ok _ g1 => .ok g1.id g1
  | .abort m g1 => .abort m g1

/-- Models `visit(const FloatImm *)`: `internal_assert(true) << "Not support
floating yet..\n";` -/
def visitFloatImm (g : CG) : Res Unit :=
  internal_assert true "Not support floating yet..\n" g

/-- Models `visit(const Variable *)`: `id = print_name(op->name);` -/
def visitVariable (name : String) (g : CG) : Res Unit :=
  .ok () { g with id := print_name name }

/-- Models `visit(const Add *)` for operands lowered by `a` and `b`:
`print_expr(op->a)`, `print_expr(op->b)`, then `print_assignment`. -/
def visitAdd (un : Nat → String) (t : Lower.HType) (a b : CG → Res Unit) (g : CG) : Res Unit :=
  match print_expr a g with
  | .abort m g1 => .abort m g1
  | .ok ia g1 =>
    match print_expr b g1 with
    | .abort m g2 => .abort m g2
    | .ok ib g2 =>
      match print_assignment un t (Lower.visitAdd_rhs t ia ib) g2 with
      | .abort m g3 => .abort m g3
      | .ok _ g3 => .ok () g3

/-- Models `visit(const IfThenElse *)`.  The arguments are the visitors of the
condition and of the then-branch, the results of `contain_read_stream` and
`contain_write_stream` on the then-branch, and the effect of
`current_fb->open_scope()` and `current_fb->close_scope("")` on the body of
the block.  The else-branch is never visited. -/
def visitIfThenElse (fb_open fb_close : List String → List String)
    (condition then_case : CG → Res Unit) (has_read_stream has_write_stream : Bool)
    (g : CG) : Res Unit :=
  let r : Res Unit :=
    match g.gen.current_fb with
    | some _ =>
      if has_read_stream then then_case g
      else if has_write_stream then
        match print_expr condition g with
        | .abort m g1 => .abort m g1
        | .ok c g1 =>
          match then_case (fb_edit fb_open (fb_print g1 ("when " ++ c ++ " :\n"))) with
          | .abort m g2 => .abort m g2
          | .ok _ g2 => .ok () (fb_edit fb_close g2)
      else internal_error "General IfThenElse is not supported.\n" g
    | none => internal_error "General IfThenElse is not supported.\n" g
  match r with
  | .abort m g1 => .abort m g1
  | .ok _ g1 => .ok () { g1 with id := "0" }

/-- An index argument of a `Provide`: an `IntImm`, a `Variable`, or anything
else. -/
inductive PArg where
  | intImm (value : Int)
  | variable (name : String)
  | other
deriving DecidableEq, Repr

/-- The loop of `visit(const Provide *)` filling `args_indices`: `none` when
`internal_assert(v)` fails. -/
def args_indices : List PArg → Option (List String)
  | [] => some []
  | .intImm v :: rest => (args_indices rest).map fun l => toString v :: l
  | .variable n :: rest => (args_indices rest).map fun l => ("asUInt(" ++ print_name n ++ ")") :: l
  | .other :: _ => none

/-- The destination text of `visit(const Provide *)`: the name, then the
indices in reverse order, each in brackets. -/
def provide_dest (name : String) (indices : List String) : String :=
  print_name name ++ "[" ++ String.intercalate "][" indices.reverse ++ "]"

/-- Models `visit(const Provide *)`.  The arguments are the index arguments,
the number of values, the visitor of the first value, and `IRPrinter::visit`
(taken for every other buffer name). -/
def visitProvide (name : String) (args : List PArg) (nvalues : Nat) (value0 : CG → Res Unit)
    (irprinter_visit : CG → Res Unit) (g : CG) : Res Unit :=
  if ends_with name ".stencil" || ends_with name ".stencil_update" then
    match args_indices args with
    | none => .abort "v" g
    | some indices =>
      match internal_assert (decide (nvalues = 1)) "op->values.size() == 1" g with
      | .abort m g1 => .abort m g1
      | .ok _ g1 =>
        match print_expr value0 g1 with
        | .abort m g2 => .abort m g2
        | .ok id_value g2 =>
          match g2.gen.current_fb with
          | some _ =>
            .ok () (cache_clear (fb_print g2 (provide_dest name indices ++ " <= " ++ id_value ++ "\n")))
          | none => .abort "Provide at outside of ForBlock\n" g2
  else irprinter_visit g

/-- The loop types of a `For` node. -/
inductive ForType where
  | Serial
  | Parallel
  | Vectorized
  | Unrolled
deriving DecidableEq, Repr

/-- Models `FIRRTL_For_Closure::arguments()` on the variables of the closure
in iteration order: the names kept, or the diagnostic of the `internal_error`
reached first. -/
def arguments : List String → Except String (List String)
  | [] => .ok []
  | v :: vs =>
    if ends_with v ".stream" then
      .error "we don't expect to see a stream type in FIRRTL_For_Closure.\n"
    else if ends_with v ".stencil" then (arguments vs).map fun l => v :: l
    else if ends_with v ".stencil_update" then
      .error "we don't expect to see a stencil_update type in FIRRTL_For_Closure.\n"
    else (arguments vs).map fun l => v :: l

/-- One iteration of the loop over the closure arguments of `visit(const For *)`:
a port of the block and its connection to the wire of the same name. -/
def addArgPort (inst : String) (g : CG) (s : String) : CG :=
  if g.for_scanvar_list.headD "" ≠ print_name s then
    if !ends_with s "tap.stencil" then
      { g with
        fb := { g.fb with in_ports := g.fb.in_ports ++ [print_name s] }
        gen := { g.gen with
          top_connects := g.gen.top_connects ++ [(inst ++ "." ++ print_name s, "wire_" ++ print_name s)] } }
    else g
  else g

/-- The first branch of `visit(const For *)`: the block of a loop group is
created.  `inst` and `sif` are the instance names of the new block and of the
bus interface (`getInstanceName()`). -/
def forCreateBlock (inst sif var_name : String) (id_min id_extent : Int)
    (closure_vars : List String) (g : CG) : Res Unit :=
  let done := "FB_" ++ print_name g.producename ++ "_done"
  let g1 : CG :=
    { g with
      gen := { g.gen with
        current_fb := some []
        top_connects := g.gen.top_connects
          ++ [(inst ++ ".clock", "clock"), (inst ++ ".reset", "reset"),
              (inst ++ ".start_in", sif ++ ".start"), (sif ++ "." ++ done, inst ++ ".done_out")] }
      fb := { name := "FB_" ++ print_name g.producename, vars := [var_name], mins := [id_min],
              maxs := [id_extent - 1], stencil_vars := [], stencil_mins := [], stencil_maxs := [],
              in_ports := ["start_in"], out_ports := ["done_out"] }
      top_instances := g.top_instances ++ ["FB_" ++ print_name g.producename]
      sif_in_ports := g.sif_in_ports ++ [done]
      for_scanvar_list := g.for_scanvar_list ++ [var_name] }
  match arguments closure_vars with
  | .error m => .abort m g1
  | .ok args => .ok () (args.foldl (addArgPort inst) g1)

/-- The second branch of `visit(const For *)`: a loop level is added to the
current block. -/
def forAddLevel (var_name : String) (id_min id_extent : Int) (contains_realize : Bool)
    (g : CG) : Res Unit :=
  match internal_assert g.gen.current_fb.isSome "current_fb" g with
  | .abort m g1 => .abort m g1
  | .ok _ g1 =>
    .ok ()
      { (if !contains_realize then
          { g1 with fb := { g1.fb with
              stencil_vars := g1.fb.stencil_vars ++ [var_name]
              stencil_mins := g1.fb.stencil_mins ++ [id_min]
              stencil_maxs := g1.fb.stencil_maxs ++ [id_extent - 1] } }
        else
          { g1 with fb := { g1.fb with
              vars := g1.fb.vars ++ [var_name]
              mins := g1.fb.mins ++ [id_min]
              maxs := g1.fb.maxs ++ [id_extent - 1] } }) with
        for_scanvar_list := g1.for_scanvar_list ++ [var_name] }

/-- Models `visit(const For *)`.  The arguments are the instance names of the
new block and of the bus interface, the fields of the node (`op->min` and
`op->extent` as the values of their `IntImm`), the variables of the closure of
the body, the results of `contain_realize` and `contain_for_loop` on the body,
and the visitor of the body. -/
def visitFor (inst sif : String) (name : String) (for_type : ForType) (id_min id_extent : Int)
    (closure_vars : List String) (contains_realize contains_for_loop : Bool)
    (body : CG → Res Unit) (g : CG) : Res Unit :=
  match internal_assert (decide (for_type = .Serial))
      "Can only emit serial for loops to FIRRTL\n" g with
  | .abort m g0 => .abort m g0
  | .ok _ g0 =>
    match (if g0.for_scanvar_list.isEmpty then
        forCreateBlock inst sif (print_name name) id_min id_extent closure_vars g0
      else forAddLevel (print_name name) id_min id_extent contains_realize g0) with
    | .abort m g1 => .abort m g1
    | .ok _ g1 =>
      match body (if !contains_for_loop then cache_clear g1 else g1) with
      | .abort m g2 => .abort m g2
      | .ok _ g2 =>
        .ok ()
          (if g2.for_scanvar_list.dropLast.isEmpty then
            { cache_clear g2 with
              for_scanvar_list := g2.for_scanvar_list.dropLast
              gen := { (cache_clear g2).gen with current_fb := none } }
          else { g2 with for_scanvar_list := g2.for_scanvar_list.dropLast })

/-- The names drawn by `unique_name('_')` in the examples: `_0`, `_1`, ... -/
def sampleName (n : Nat) : String := "_" ++ toString n

/-- A generator state with nothing collected and no current block. -/
def emptyCG : CG :=
  { gen := { cache := [], counter := 0, current_fb := none, top_wires := [], top_connects := [] }
    fb := { name := "", vars := [], mins := [], maxs := [], stencil_vars := [],
            stencil_mins := [], stencil_maxs := [], in_ports := [], out_ports := [] }
    id := "", indent := 0, stream := [], top_instances := [], wires := [], sif_in_ports := [],
    for_scanvar_list := [], producename := "", dispatchers := [], fifos := [] }

/-- A generator state inside a loop-compute block with an empty body. -/
def blockCG : CG :=
  { emptyCG with gen := { emptyCG.gen with current_fb := some [] } }

/-- A then-branch that lowers `add(x, y)` and then `mul(x, y)`. -/
def lowerAddMul (g : CG) : Res Unit :=
  match print_assignment sampleName ⟨true, 32⟩ "add(x, y)" g with
  | .abort m g1 => .abort m g1
  | .ok _ g1 =>
    match print_assignment sampleName ⟨true, 32⟩ "mul(x, y)" g1 with
    | .abort m g2 => .abort m g2
    | .ok _ g2 => .ok () g2

/-- The state inside a block after `add(x, y)` has been lowered. -/
def afterAdd : CG := (print_assignment sampleName ⟨true, 32⟩ "add(x, y)" blockCG).state

/-- The state after an if on `c` guarding a stream write, whose then-branch is
`lowerAddMul`, has been lowered from `afterAdd`. -/
def afterIf : CG :=
  (visitIfThenElse id id (visitVariable "c") lowerAddMul false true afterAdd).state

/-- A then-branch that prints the line of a stream read into the block. -/
def readBranch (g : CG) : Res Unit := .ok () (fb_print g "in_stencil <= in.value\n")

end Visit

/-! ## The `dispatch_stream` call (`visit(const Call *)`) -/

namespace Visit

/-- An argument of the call: a `Variable`, an `IntImm` (with its type), a
`StringImm`, or anything else. -/
inductive Arg where
  | variable (name : String)
  | intImm (t : Lower.HType) (value : Int)
  | stringImm (value : String)
  | other
deriving DecidableEq, Repr

/-- Models `print_type`. -/
def print_type (t : Lower.HType) : String :=
  (if t.is_int then "S" else "U") ++ "Int<" ++ toString t.bits ++ ">"

/-- Models `visit(const IntImm *)`. -/
def visitIntImm (un : Nat → String) (t : Lower.HType) (value : Int) (g : CG) : Res Unit :=
  match print_assignment un t (print_type t ++ "(" ++ toString value ++ ")") g with
  | .abort m g1 => .abort m g1
  | .ok _ g1 => .ok () g1

/-- The visitor of an argument.  `quoted` gives the text `oss << Expr(op)` of a
`StringImm` and `other` the visitor of any other expression; neither is part
of the sources. -/
def visitArg (un : Nat → String) (quoted : String → String) (other : CG → Res Unit) :
    Arg → CG → Res Unit
  | .variable n, g => visitVariable n g
  | .intImm t v, g => visitIntImm un t v g
  | .stringImm s, g => .ok () { g with id := quoted s }
  | .other, g => other g

/-- The first loop of the `dispatch_stream` branch:
`args[i] = print_name(print_expr(op->args[i]))` for every argument. -/
def lowerArgs (un : Nat → String) (quoted : String → String) (other : CG → Res Unit) :
    List Arg → CG → Res Unit
  | [], g => .ok () g
  | a :: rest, g =>
    match print_expr (visitArg un quoted other a) g with
    | .abort m g1 => .abort m g1
    | .ok _ g1 => lowerArgs un quoted other rest g1

/-- A value of type `size_t`. -/
def size_t (x : Int) : Nat := (x % 2 ^ 64).toNat

/-- Models `*as_const_int(op->args[k])`: `none` when the argument is missing or
is not an integer constant (the code dereferences a null pointer then). -/
def as_const_int (args : List Arg) (k : Nat) : Option Int :=
  match args[k]? with
  | some (.intImm _ v) => some v
  | _ => none

/-- The list of the values of a list of options, when all are present. -/
def allSome {α : Type} : List (Option α) → Option (List α)
  | [] => some []
  | none :: _ => none
  | some a :: rest => (allSome rest).map fun l => a :: l

/-- One consumer of the call: its name, the requested queue depth, and its
offsets and extents per dimension. -/
structure Consumer where
  name : String
  fifo_depth : Int
  offsets : List Int
  extents : List Int
deriving DecidableEq, Repr

/-- The structured data recovered from the arguments. -/
structure DispatchCall where
  stream_name : String
  stencil_sizes : List Int
  stencil_steps : List Int
  store_extents : List Int
  consumers : List Consumer
deriving DecidableEq, Repr

/-- The body of the loop over the consumers: `none` when an
`internal_assert` fails or a constant is missing.  `nd` is
`num_of_demensions`. -/
def parseConsumer (args : List Arg) (nd i : Nat) : Option Consumer :=
  match args[nd * 3 + 3 + (2 + 2 * nd) * i]?, args[nd * 3 + 4 + (2 + 2 * nd) * i]? with
  | some (.stringImm s), some (.intImm _ d) =>
    match allSome ((List.range nd).map fun j =>
        as_const_int args (nd * 3 + 5 + (2 + 2 * nd) * i + 2 * j)),
      allSome ((List.range nd).map fun j =>
        as_const_int args (nd * 3 + 6 + (2 + 2 * nd) * i + 2 * j)) with
    | some offs, some exts =>
      some { name := s, fifo_depth := Lower.wrapInt d, offsets := offs.map Lower.wrapInt,
             extents := exts.map Lower.wrapInt }
    | _, _ => none
  | _, _ => none

/-- The part of the `dispatch_stream` branch that recovers the structured data
from `op->args`: the three `internal_assert`s on `op->args.size()` compare it
with a `size_t` expression, and values are narrowed to `int`. -/
def dispatch_parse (args : List Arg) (g : CG) : Res DispatchCall :=
  if args.length < 2 then .abort "op->args.size() >= 2" g
  else
    match (args[0]? : Option Arg) with
    | some (.variable n) =>
      match as_const_int args 1 with
      | none => .abort "as_const_int" g
      | some v1 =>
        if args.length < (size_t v1 * 3 + 2) % 2 ^ 64 then
          .abort "op->args.size() >= num_of_demensions*3 + 2" g
        else
          match allSome ((List.range (size_t v1)).map fun i => as_const_int args (i * 3 + 2)),
            allSome ((List.range (size_t v1)).map fun i => as_const_int args (i * 3 + 3)),
            allSome ((List.range (size_t v1)).map fun i => as_const_int args (i * 3 + 4)) with
          | some sizes, some steps, some exts =>
            if args.length < (size_t v1 * 3 + 3) % 2 ^ 64 then
              .abort "op->args.size() >= num_of_demensions*3 + 3" g
            else
              match as_const_int args (size_t v1 * 3 + 2) with
              | none => .abort "as_const_int" g
              | some vc =>
                if args.length
                    < (size_t v1 * 3 + 3 + size_t vc * (2 + 2 * size_t v1)) % 2 ^ 64 then
                  .abort "op->args.size() >= num_of_demensions*3 + 3 + num_of_consumers*(2 + 2*num_of_demensions)" g
                else
                  match allSome ((List.range (size_t vc)).map
                      fun i => parseConsumer args (size_t v1) i) with
                  | some cs =>
                    .ok { stream_name := print_name n, stencil_sizes := sizes.map Lower.wrapInt,
                          stencil_steps := steps.map Lower.wrapInt,
                          store_extents := exts.map Lower.wrapInt, consumers := cs } g
                  | none => .abort "string_imm / int_imm" g
          | _, _, _ => .abort "as_const_int" g
    | _ => .abort "stream_name_var" g

/-- Models `top->getWire(name)` on the non-scalar wires; the type taken when
the wire is missing is not fixed by the sources. -/
def getWire (g : CG) (name : String) : SlaveIf.FIRRTL_Type :=
  ((g.wires.find? fun w => w.1 == name).map Prod.snd).getD ⟨.Scalar, false, 0, []⟩

/-- The name `stream_name + "_to_" + print_name(consumer_names[i])`. -/
def consumer_stream_name (stream_name : String) (c : Consumer) : String :=
  stream_name ++ "_to_" ++ print_name c.name

/-- One iteration of the last loop of the branch: the output of the router,
the queue `FIFO_<consumer stream>` with its depth, and its connections.
`inst` gives `getInstanceName()` of a component from the name it was
created with. -/
def addConsumerFifo (inst : String → String) (dp stream_name : String)
    (stream_type : SlaveIf.FIRRTL_Type) (g : CG) (c : Consumer) : CG :=
  { g with
    fifos := g.fifos
      ++ [("FIFO_" ++ consumer_stream_name stream_name c, toString (max c.fifo_depth 1))]
    top_instances := g.top_instances ++ ["FIFO_" ++ consumer_stream_name stream_name c]
    wires := g.wires ++ [("wire_" ++ consumer_stream_name stream_name c, stream_type)]
    gen := { g.gen with
      top_connects := g.gen.top_connects
        ++ [(inst ("FIFO_" ++ consumer_stream_name stream_name c) ++ ".clock", "clock"),
            (inst ("FIFO_" ++ consumer_stream_name stream_name c) ++ ".reset", "reset"),
            (inst ("FIFO_" ++ consumer_stream_name stream_name c) ++ ".data_in",
              inst dp ++ "." ++ consumer_stream_name stream_name c),
            ("wire_" ++ consumer_stream_name stream_name c,
              inst ("FIFO_" ++ consumer_stream_name stream_name c) ++ ".data_out")] } }

/-- The part of the `dispatch_stream` branch from `top->getWire` on: the
direct wire for a single consumer with depth 0, otherwise the router and one
queue per consumer.  `sif` is the instance name of the bus interface. -/
def dispatch_build (inst : String → String) (sif : String) (c : DispatchCall) (g : CG) : CG :=
  if c.consumers.length = 1 ∧ (c.consumers.map fun x => x.fifo_depth).headD 0 = 0 then
    { g with
      wires := g.wires
        ++ [("wire_" ++ consumer_stream_name c.stream_name (c.consumers.headD ⟨"", 0, [], []⟩),
              getWire g ("wire_" ++ c.stream_name))]
      gen := { g.gen with
        top_connects := g.gen.top_connects
          ++ [("wire_" ++ consumer_stream_name c.stream_name (c.consumers.headD ⟨"", 0, [], []⟩),
                "wire_" ++ c.stream_name)] }
      id := "0" }
  else
    { c.consumers.foldl
        (addConsumerFifo inst ("DP_" ++ c.stream_name) c.stream_name
          (getWire g ("wire_" ++ c.stream_name)))
        { g with
          dispatchers := g.dispatchers
            ++ [("DP_" ++ c.stream_name,
                  { stencil_sizes := c.stencil_sizes, stencil_steps := c.stencil_steps,
                    store_extents := c.store_extents,
                    consumer_fifo_depths := c.consumers.map fun x => max x.fifo_depth 1,
                    consumer_offsets := c.consumers.map fun x => x.offsets,
                    consumer_extents := c.consumers.map fun x => x.extents })]
          top_instances := g.top_instances ++ ["DP_" ++ c.stream_name]
          sif_in_ports := g.sif_in_ports ++ ["DP_" ++ c.stream_name ++ "_done"]
          gen := { g.gen with
            top_connects := g.gen.top_connects
              ++ [(inst ("DP_" ++ c.stream_name) ++ ".clock", "clock"),
                  (inst ("DP_" ++ c.stream_name) ++ ".reset", "reset"),
                  (inst ("DP_" ++ c.stream_name) ++ "." ++ c.stream_name, "wire_" ++ c.stream_name),
                  (inst ("DP_" ++ c.stream_name) ++ ".start_in", sif ++ ".start"),
                  (sif ++ "." ++ "DP_" ++ c.stream_name ++ "_done",
                    inst ("DP_" ++ c.stream_name) ++ ".done_out")] } } with
      id := "0" }

/-- Models the `dispatch_stream` branch of `visit(const Call *)`. -/
def visitDispatchStream (un : Nat → String) (quoted : String → String) (other : CG → Res Unit)
    (inst : String → String) (sif : String) (args : List Arg) (g : CG) : Res Unit :=
  match lowerArgs un quoted other args g with
  | .abort m g1 => .abort m g1
  | .ok _ g1 =>
    match dispatch_parse args g1 with
    | .abort m g2 => .abort m g2
    | .ok c g2 => .ok () (dispatch_build inst sif c g2)

/-- The arguments of a call on stream `s` with one dimension (stencil size 1,
step 1, store extent 4) and one consumer `c` with the given queue depth,
offset 0 and extent 4. -/
def sampleCall (depth : Int) : List Arg :=
  [.variable "s", .intImm ⟨true, 32⟩ 1, .intImm ⟨true, 32⟩ 1, .intImm ⟨true, 32⟩ 1,
   .intImm ⟨true, 32⟩ 4, .intImm ⟨true, 32⟩ 1, .stringImm "c", .intImm ⟨true, 32⟩ depth,
   .intImm ⟨true, 32⟩ 0, .intImm ⟨true, 32⟩ 4]

/-- The structured data of `sampleCall depth`. -/
def sampleData (depth : Int) : DispatchCall :=
  { stream_name := "s", stencil_sizes := [1], stencil_steps := [1], store_extents := [4],
    consumers := [⟨"c", depth, [0], [4]⟩] }

end Visit

/-! ## `print_linebuffer` and `print_linebuffer3D` -/

namespace LineBuffer

open Visit

/-- Models `do_indent(); stream << text;` -/
def emit (g : CG) (text : String) : CG :=
  { g with stream := g.stream ++ [(g.indent, text)] }

/-- Models `stream << text;` without `do_indent()`. -/
def raw (g : CG) (text : String) : CG :=
  { g with stream := g.stream ++ [(0, text)] }

/-- Writes a list of lines, each after `do_indent()`. -/
def emitAll (g : CG) (lines : List String) : CG := lines.foldl emit g

/-- The index tuples `(i3, i2, i1, i0)` of the four nested loops over
`e[3]`, `e[2]`, `e[1]`, `e[0]`, outermost first. -/
def loop4 (e : List Int) : List (Nat × Nat × Nat × Nat) :=
  (List.range (e.getD 3 0).toNat).flatMap fun i3 =>
    (List.range (e.getD 2 0).toNat).flatMap fun i2 =>
      (List.range (e.getD 1 0).toNat).flatMap fun i1 =>
        (List.range (e.getD 0 0).toNat).map fun i0 => (i3, i2, i1, i0)

/-- The text `type[a][b][c][d]` of a stencil type. -/
def stencilText (t : Lower.HType) (a b c d : Int) : String :=
  print_type t ++ "[" ++ toString a ++ "][" ++ toString b ++ "][" ++ toString c ++ "]["
    ++ toString d ++ "]"

/-- The lines of `print_linebuffer3D` up to the case distinction: the module
header (after which `open_scope()` runs), the ports and the three
invalidations. -/
def head3D (name : String) (t : Lower.HType) (inEl outEl : List Int) (g : CG) : CG :=
  emitAll
    (raw
      (emitAll (open_scope (emit g ("module " ++ name ++ "_3D" ++ " :\n")))
        ["input clock : Clock\n", "input reset : UInt<1>\n",
         "output io : \x7bflip in : \x7bflip ready : UInt<1>, valid : UInt<1>, bits : \x7bvalue : "
           ++ stencilText t (inEl.getD 0 0) (inEl.getD 1 0) (inEl.getD 2 0) (inEl.getD 3 0)
           ++ "\x7d\x7d, "
           ++ "out : \x7bflip ready : UInt<1>, valid : UInt<1>, bits : \x7bvalue : "
           ++ stencilText t (outEl.getD 0 0) (outEl.getD 1 0) (outEl.getD 2 0) (outEl.getD 3 0)
           ++ "\x7d\x7d\x7d\n"])
      "\n")
    ["clock is invalid\n", "reset is invalid\n", "io is invalid\n"]

/-- The lines of a degenerate case between the case distinction and
`close_scope`: the inner 2-D buffer is instantiated and its ports are
connected; `l2S` is the flattened stencil type, and `pos i3 i2 i1 i0` and
`opos i3 i2 i1 i0` give the last two index texts on the inner buffer's side
for the input and the output. -/
def body3D (name l2S : String) (inEl outEl : List Int)
    (pos opos : Nat → Nat → Nat → Nat → String) : List String :=
  ["io.in.ready <= UInt<1>(0)\n", "wire slice : \x7bvalue : " ++ l2S ++ "\x7d\n", "slice is invalid\n",
   "inst " ++ name ++ "_2D of " ++ name ++ "_2D" ++ "\n", name ++ "_2D.io is invalid\n",
   name ++ "_2D.clock <= clock\n", name ++ "_2D.reset <= reset\n",
   name ++ "_2D.io.in.valid <= UInt<1>(0)\n", "wire _inv : \x7bvalue : " ++ l2S ++ "\x7d\n",
   "_inv is invalid\n"]
  ++ (loop4 inEl).map (fun i =>
      name ++ "_2D.io.in.bits.value[0][" ++ toString i.1 ++ "]" ++ pos i.1 i.2.1 i.2.2.1 i.2.2.2
        ++ " " ++ "<= _inv.value[0][" ++ toString i.1 ++ "]" ++ pos i.1 i.2.1 i.2.2.1 i.2.2.2
        ++ "\n")
  ++ ["io.in.ready <= UInt<1>(1)\n", "when io.in.valid :\n",
      "  " ++ name ++ "_2D.io.in.valid <= UInt<1>(1)\n"]
  ++ (loop4 inEl).map (fun i =>
      "  " ++ name ++ "_2D.io.in.bits.value[0][" ++ toString i.1 ++ "]"
        ++ pos i.1 i.2.1 i.2.2.1 i.2.2.2
        ++ " <= io.in.bits.value[" ++ toString i.1 ++ "][" ++ toString i.2.1 ++ "]["
        ++ toString i.2.2.1 ++ "][" ++ toString i.2.2.2 ++ "]\n")
  ++ ["  skip\n", "io.in.ready <= " ++ name ++ "_2D.io.in.ready\n"]
  ++ (loop4 outEl).map (fun i =>
      "io.out.bits.value[" ++ toString i.1 ++ "][" ++ toString i.2.1 ++ "]["
        ++ toString i.2.2.1 ++ "][" ++ toString i.2.2.2 ++ "]"
        ++ " <= " ++ name ++ "_2D.io.out.bits.value[0][" ++ toString i.1 ++ "]"
        ++ opos i.1 i.2.1 i.2.2.1 i.2.2.2 ++ "\n")
  ++ ["io.out.valid <= " ++ name ++ "_2D.io.out.valid\n",
      name ++ "_2D.io.out.ready <= io.out.ready\n"]

/-- Models `print_linebuffer3D`.  `L`, `inEl` and `outEl` are the arrays of
four `int`s (products taken without overflow) and `print_linebuffer2D` is the
printer of the inner buffer, which is not modelled here. -/
def print_linebuffer3D (name : String) (t : Lower.HType) (L inEl outEl : List Int)
    (print_linebuffer2D : String → List Int → List Int → List Int → CG → Res Unit)
    (g : CG) : Res Unit :=
  if inEl.getD 0 0 = outEl.getD 0 0 ∧ inEl.getD 0 0 = L.getD 0 0 then
    print_linebuffer2D name
      [L.getD 1 0 * (inEl.getD 0 0 * inEl.getD 1 0), L.getD 2 0, L.getD 3 0, L.getD 3 0]
      [inEl.getD 0 0 * inEl.getD 1 0, inEl.getD 2 0, inEl.getD 3 0, inEl.getD 3 0]
      [outEl.getD 0 0 * outEl.getD 1 0, outEl.getD 2 0, outEl.getD 3 0, outEl.getD 3 0]
      (raw (close_scope
        (emitAll (head3D name t inEl outEl g)
          (body3D name
            (stencilText t (inEl.getD 0 0 * inEl.getD 1 0) (inEl.getD 2 0) (inEl.getD 3 0) 1)
            inEl outEl
            (fun _ i2 i1 i0 =>
              "[" ++ toString i2 ++ "][" ++ toString ((i1 : Int) * inEl.getD 0 0 + i0) ++ "]")
            (fun _ i2 i1 i0 =>
              "[" ++ toString i2 ++ "][" ++ toString ((i0 : Int) + i1 * outEl.getD 0 0) ++ "]")))
        (" end of " ++ name ++ "_3D")) "\n")
  else if inEl.getD 2 0 = outEl.getD 2 0 ∧ inEl.getD 2 0 = L.getD 2 0 then
    print_linebuffer2D name
      [L.getD 0 0, L.getD 1 0 * (inEl.getD 1 0 * inEl.getD 2 0), 1, L.getD 3 0]
      [inEl.getD 0 0, inEl.getD 1 0 * inEl.getD 2 0, inEl.getD 3 0, inEl.getD 3 0]
      [outEl.getD 0 0, outEl.getD 1 0 * outEl.getD 2 0, outEl.getD 3 0, outEl.getD 3 0]
      (raw (close_scope
        (emitAll (head3D name t inEl outEl g)
          (body3D name
            (stencilText t (inEl.getD 0 0) (inEl.getD 1 0 * inEl.getD 2 0) (inEl.getD 3 0) 1)
            inEl outEl
            (fun _ i2 i1 i0 =>
              "[" ++ toString ((i2 : Int) * inEl.getD 1 0 + i1) ++ "][" ++ toString i0 ++ "]")
            (fun _ i2 i1 i0 =>
              "[" ++ toString ((i2 : Int) + i1 * outEl.getD 2 0) ++ "][" ++ toString i0 ++ "]")))
        (" end of " ++ name ++ "_3D")) "\n")
  else
    .ok () (emit (head3D name t inEl outEl g) "; Not supported yet\n")

/-- The dimension dispatch that ends `print_linebuffer`.  `wrapper` stands for
the first part of the function (module header, ports, parameter comments and
the wrapper body around the instance `LB_<out>_<nDim>D`), whose text is not
modelled here, `nDim` is `in_stencil.bounds.size()`, and the printers of the
1-D and 2-D buffers are not modelled here. -/
def print_linebuffer (wrapper : CG → Res Unit) (name : String) (nDim : Nat) (t : Lower.HType)
    (L inEl outEl : List Int)
    (print_linebuffer1D print_linebuffer2D :
      String → List Int → List Int → List Int → CG → Res Unit)
    (g : CG) : Res Unit :=
  match wrapper g with
  | .abort m g1 => .abort m g1
  | .ok _ g1 =>
    if nDim = 1 then print_linebuffer1D name L inEl outEl g1
    else if nDim = 2 then print_linebuffer2D name L inEl outEl g1
    else if nDim = 3 then print_linebuffer3D name t L inEl outEl print_linebuffer2D g1
    else .ok () (emit g1 "; 4D linebuffer TODO\n")

/-- A printer that aborts: used to show that a result does not depend on an
inner printer. -/
def abortingPrinter (_ : String) (_ _ _ : List Int) (g : CG) : Res Unit :=
  .abort "inner printer" g

end LineBuffer

/-! ## `add_kernel`: collection, then emission -/

namespace Kernel

open Visit LineBuffer

/-- The outcome of a part of a printer whose text is not modelled here: the
text it writes to `stream`, and the diagnostic of the fatal check that ends
it, if one fires (the printers of port types contain such checks). -/
structure Piece where
  text : List (Int × String)
  abort : Option String
deriving DecidableEq, Repr

/-- Runs a piece: its text is written, then it returns or aborts. -/
def Piece.run (p : Piece) (g : CG) : Res Unit :=
  match p.abort with
  | none => .ok () { g with stream := g.stream ++ p.text }
  | some m => .abort m { g with stream := g.stream ++ p.text }

/-- Sequencing: the second step runs when the first one returns. -/
def seq (r : Res Unit) (f : CG → Res Unit) : Res Unit :=
  match r with
  | .ok _ g => f g
  | .abort m g => .abort m g

/-- Models `print_slaveif` as far as its fatal checks go: the module header
and the ports (`head`), then the offset loop over `c->getRegs()` with its two
`internal_assert`s on `bounds.size()`, then the rest of the module. -/
def print_slaveif (head : Piece) (regs : List (String × SlaveIf.FIRRTL_Type))
    (rest : List (String × SlaveIf.Reg_Type) → Piece) (g : CG) : Res Unit :=
  seq (head.run g) fun g1 =>
    match SlaveIf.address_map regs with
    | none => .abort "s.bounds.size()" g1
    | some m => (rest m).run g1

/-- Models `print_dispatch` as far as its fatal check goes: the module header,
ports, parameters and registers (`head`), then the loop over the consumers,
which starts with `internal_assert(num_of_dimensions > 1)`, and the rest. -/
def print_dispatch (head rest : Piece) (p : Dispatch.Params) (g : CG) : Res Unit :=
  seq (head.run g) fun g1 =>
    if Dispatch.printed p then rest.run g1 else .abort "num_of_dimensions > 1" g1

/-- One argument of the kernel: the fields of `FIRRTL_Argument` that are read. -/
structure Argument where
  name : String
  stencil_type : SlaveIf.FIRRTL_Type
  is_output : Bool
deriving DecidableEq, Repr

/-- The registers the argument loop of `add_kernel` adds to the bus interface:
one per argument that is not a stream. -/
def sifRegs (args : List Argument) : List (String × SlaveIf.FIRRTL_Type) :=
  args.filterMap fun a =>
    if a.stencil_type.type = .Stream ∨ a.stencil_type.type = .AxiStream then none
    else some ("r_" ++ print_name a.name, a.stencil_type)

/-- The parts of the printers taken as given: the text of `print_module(top)`,
the two parts of `print_slaveif`, the components of each kind in the order of
`getComponents` with their instance name and the text of their printer, and
for each router the two parts of `print_dispatch`. -/
structure Parts where
  top_module : Piece
  sif_head : Piece
  sif_rest : List (String × SlaveIf.Reg_Type) → Piece
  inputs : List (String × Piece)
  outputs : List (String × Piece)
  fifos : List (String × Piece)
  linebuffers : List (String × Piece)
  dp_head : String → Piece
  dp_rest : String → Piece
  forblocks : List (String × Piece)

/-- One of the loops over `top->getComponents(kind)`: for each component the
comment line, then its printer. -/
def printEach {α : Type} (label : String) (name : α → String) (print : α → CG → Res Unit) :
    List α → CG → Res Unit
  | [], g => .ok () g
  | c :: cs, g =>
    seq (print c (emit g (label ++ name c ++ "\n"))) fun g1 => printEach label name print cs g1

/-- The second half of `add_kernel`: the circuit header and every module.
`top` and `sif` are the instance names of the top component and of the bus
interface; the routers printed are those collected in the state. -/
def emission (P : Parts) (top sif : String) (args : List Argument) (g : CG) : Res Unit :=
  seq (P.top_module.run
      (emit (open_scope (raw g ("circuit " ++ top ++ " :\n"))) ("; Top instance " ++ top ++ "\n")))
    fun g1 =>
  seq (print_slaveif P.sif_head (sifRegs args) P.sif_rest
      (raw g1 ("; SlaveIf instance " ++ sif ++ "\n")))
    fun g2 =>
  seq (printEach "; Input instance " (fun c => c.1) (fun c => c.2.run) P.inputs g2) fun g3 =>
  seq (printEach "; Output instance " (fun c => c.1) (fun c => c.2.run) P.outputs g3) fun g4 =>
  seq (printEach "; FIFO instance " (fun c => c.1) (fun c => c.2.run) P.fifos g4) fun g5 =>
  seq (printEach "; Linebuffer instance " (fun c => c.1) (fun c => c.2.run) P.linebuffers g5)
    fun g6 =>
  seq (printEach "; Dispatch instance " (fun c : String × Dispatch.Params => c.1)
      (fun c => print_dispatch (P.dp_head c.1) (P.dp_rest c.1) c.2) g.dispatchers g6)
    fun g7 =>
  printEach "; ForBlock instance " (fun c => c.1) (fun c => c.2.run) P.forblocks g7

/-- Models `add_kernel`: the argument loop, whose `internal_assert` requires a
stream argument to be an `AxiStream` (what the loop adds to the components is
not modelled: none of it reaches `stream`), the visit of the statement with no
current block, then the emission.  The `debug(3)` line of the loop also
evaluates `print_stencil_type(stype)`, which checks that every bound starts at
0; a `FIRRTL_Type` here carries the extents of its bounds only, their mins
being 0, so that check passes. -/
def add_kernel (P : Parts) (top sif : String) (args : List Argument) (visit : CG → Res Unit)
    (g : CG) : Res Unit :=
  if args.any (fun a => decide (a.stencil_type.type = .Stream)) then
    .abort "stype.type == FIRRTL_Type::StencilContainerType::AxiStream" g
  else
    seq (visit { g with gen := { g.gen with current_fb := none } }) fun g1 =>
      emission P top sif args g1

/-- Printers that write one line each and contain no failing check. -/
def sampleParts : Parts :=
  { top_module := ⟨[(2, "module hls_target :\n")], none⟩
    sif_head := ⟨[(2, "module SlaveIf :\n")], none⟩
    sif_rest := fun _ => ⟨[(4, "skip\n")], none⟩
    inputs := [], outputs := [], fifos := [], linebuffers := []
    dp_head := fun n => ⟨[(2, "module " ++ n ++ " :\n")], none⟩
    dp_rest := fun _ => ⟨[(4, "skip\n")], none⟩
    forblocks := [] }

/-- A kernel argument that is a tap memory of five dimensions. -/
def fiveDimTap : Argument :=
  { name := "tap", stencil_type := ⟨.Stencil, true, 8, [2, 2, 2, 2, 2]⟩, is_output := false }

/-- Models the constructor `CodeGen_FIRRTL_Target(s, t, ip_name)`: `id` is
`$$ BAD ID $$`, `indent` is 0, and two comment lines are written to `stream`. -/
def constructed (target_name : String) : CG :=
  { emptyCG with
    id := "$$ BAD ID $$"
    stream := [(0, ";Generated FIRRTL\n"), (0, ";Target name: " ++ target_name ++ "\n")] }

/-- Models `visit(const LetStmt *)`: a comment line is written to `stream`,
the value is lowered with `print_expr`, and the body, in which the variable is
replaced by the name of the value, is visited (`body id_value`). -/
def visitLetStmt (value : CG → Res Unit) (body : String → CG → Res Unit) (g : CG) : Res Unit :=
  match print_expr value (raw g "; LetStmt ??\n") with
  | .ok id_value g1 => body id_value g1
  | .abort m g1 => .abort m g1

end Kernel

/-! ## `print_io`: the stream adapter -/

namespace Adapter

/-- The parameters of one adapter read by `print_io`: `c->getStoreExtents()`, the
stencil extents of the input stream (`stencil_size`) and `c->isInputIO()` (named
`is_input` here). -/
structure Params where
  store_extents : List Int
  stencil_size : List Int
  is_input : Bool

/-- Models `se_nBits.push_back(std::max((int)std::ceil(std::log2((float)s)), 1));` -/
def se_nBits (s : Int) : Nat := max (ceilLog2 s.toNat) 1

/-- One pass of the loops `for(int i = 0; i < store_extents_size; i++)`: what
they read at index `i`. -/
structure Level where
  extent : Int
  size : Int
  nBits : Nat

/-- The levels `i = 0, …, store_extents_size - 1` with `store_extents[i]`,
`stencil_size[i]` and `se_nBits[i]`. -/
def levels (p : Params) : List Level :=
  (List.range p.store_extents.length).map fun i =>
    ⟨p.store_extents.getD i 0, p.stencil_size.getD i 0, se_nBits (p.store_extents.getD i 0)⟩

/-- The registers declared in the body: `counter_<i>`, `valid_d1`,
`<ostr>_value`, `started` and `state`. -/
structure Regs (α : Type) where
  counters : List Nat
  valid_d1 : Bool
  value : α
  started : Bool
  state : Nat

/-- The inputs sampled in one cycle: `start_in`, the upstream valid and data
(`TVALID`, `TDATA` for an input adapter, `valid`, `value` for an output adapter)
and the downstream ready (`ready`, respectively `TREADY`). -/
structure Ports (α : Type) where
  start_in : Bool
  in_valid : Bool
  in_data : α
  out_ready : Bool

/-- The registers with a reset value after reset; `<ostr>_value` has none. -/
def reset {α : Type} (p : Params) (v : α) : Regs α :=
  ⟨List.replicate p.store_extents.length 0, false, v, false, 0⟩

/-- Models `node counter_<i>_is_max = eq(counter_<i>, UInt(store_extents[i]-stencil_size[i]))`. -/
def is_max (l : Level) (c : Nat) : Bool := decide ((c : Int) = l.extent - l.size)

/-- Models `counter_<i> <= tail(add(counter_<i>, UInt(stencil_size[i])), 1)`, cut
to the `se_nBits[i]` bits of the register. -/
def inc (l : Level) (c : Nat) : Nat := (((c : Int) + l.size) % (2 : Int) ^ l.nBits).toNat

/-- The nested counter updates of state 0, read from the register values `cs`:
`counter_<i>` takes its increment; when it is at its maximum it is set to 0
instead and the next level is entered; inside the last level
`state <= UInt<1>(1)` (the flag).  A counter of a level that is not entered
keeps what the earlier connects gave it (`bs`). -/
def advance : List Level → List Nat → List Nat → List Nat × Bool
  | [], _, bs => (bs, true)
  | l :: ls, cs, bs =>
    if is_max l (cs.headD 0) then
      (0 :: (advance ls cs.tail bs.tail).1, (advance ls cs.tail bs.tail).2)
    else (inc l (cs.headD 0) :: bs.tail, false)

/-- The guard `when started : when <ostr>.ready :`. -/
def fire {α : Type} (s : Regs α) (x : Ports α) : Bool := s.started && x.out_ready

/-- The guard of the body of state 0: `when eq(state, UInt<1>(0)) :` and
`when <istr>.valid :` inside `fire`. -/
def capture {α : Type} (s : Regs α) (x : Ports α) : Bool :=
  fire s x && (s.state == 0 && x.in_valid)

/-- The guard of the body of state 1: `when eq(state, UInt<1>(1)) :` inside `fire`. -/
def push_last {α : Type} (s : Regs α) (x : Ports α) : Bool := fire s x && s.state == 1

/-- Upstream ready: `<istr>.ready <= UInt<1>(0)`, then `UInt<1>(1)` in state 0. -/
def in_ready {α : Type} (s : Regs α) (x : Ports α) : Bool := capture s x

/-- Downstream valid: `UInt<1>(0)`, then `valid_d1` in state 0 and in state 1. -/
def out_valid {α : Type} (s : Regs α) (x : Ports α) : Bool :=
  if push_last s x then s.valid_d1 else if capture s x then s.valid_d1 else false

/-- Downstream data: `<ostr>.value <= <ostr>_value`. -/
def out_value {α : Type} (s : Regs α) : α := s.value

/-- Models `<ostr>.TLAST`, a port of the output adapter only: `UInt<1>(0)`, then
`UInt<1>(1)` in state 1. -/
def TLAST {α : Type} (p : Params) (s : Regs α) (x : Ports α) : Bool :=
  !p.is_input && push_last s x

/-- Models `done_out`: `UInt<1>(0)`, then `UInt<1>(1)` in state 1. -/
def done_out {α : Type} (s : Regs α) (x : Ports α) : Bool := push_last s x

/-- One clock cycle.  The connects are resolved in the order they are printed
(the last one whose guards hold wins): the block `when start_in : … else when
done_out : …` comes first, the block `when started :` after it. -/
def step {α : Type} (p : Params) (s : Regs α) (x : Ports α) : Regs α :=
  let base := if x.start_in then List.replicate p.store_extents.length 0 else s.counters
  { counters := if capture s x then (advance (levels p) s.counters base).1 else base
    valid_d1 :=
      if capture s x then true else if x.start_in then false else s.valid_d1
    value := if capture s x then x.in_data else s.value
    started :=
      if x.start_in then true else if done_out s x then false else s.started
    state :=
      if push_last s x then 0
      else if capture s x && (advance (levels p) s.counters base).2 then 1
      else if x.start_in then 0
      else s.state }

/-- The registers after a list of cycles. -/
def runFrom {α : Type} (p : Params) (s : Regs α) (xs : List (Ports α)) : Regs α :=
  xs.foldl (step p) s

/-- The elements taken from upstream, in order. -/
def captured {α : Type} (p : Params) : Regs α → List (Ports α) → List α
  | _, [] => []
  | s, x :: xs => (if in_ready s x then [x.in_data] else []) ++ captured p (step p s x) xs

/-- The elements handed downstream (valid while ready), in order. -/
def presented {α : Type} (p : Params) : Regs α → List (Ports α) → List α
  | _, [] => []
  | s, x :: xs => (if out_valid s x then [out_value s] else []) ++ presented p (step p s x) xs

/-- The number of cycles with `done_out` high. -/
def dones {α : Type} (p : Params) : Regs α → List (Ports α) → Nat
  | _, [] => 0
  | s, x :: xs => (if done_out s x then 1 else 0) + dones p (step p s x) xs

/-- The number of cycles with upstream valid and downstream ready. -/
def productive {α : Type} (xs : List (Ports α)) : Nat :=
  xs.countP fun x => x.in_valid && x.out_ready

/-- The number of stencils per store extent at one level. -/
def radix (l : Level) : Nat := (l.extent / l.size).toNat

/-- The counter values after `j` captures: digit `i` of `j` in the mixed radix
of the levels (level 0 runs fastest), times the stencil size. -/
def pt : List Level → Nat → List Nat
  | [], _ => []
  | l :: ls, j => (j % radix l) * l.size.toNat :: pt ls (j / radix l)

/-- The product of the radices. -/
def total (L : List Level) : Nat := (L.map radix).prod

/-- The number of elements of one pass: the product over the dimensions of
`store_extents[i] / stencil_size[i]`. -/
def N (p : Params) : Nat := total (levels p)

/-- A level whose extent is a positive multiple of a positive stencil size. -/
def Level.ok (l : Level) : Prop :=
  0 < l.size ∧ 0 < l.extent ∧ l.extent % l.size = 0 ∧ l.extent ≤ (2 : Int) ^ l.nBits

/-- Every store extent is a positive multiple of the stencil size of its
dimension, and at most `log2Limit`, the range in which `se_nBits` is the width
printed by the program. -/
def Supported (p : Params) : Prop :=
  ∀ i, i < p.store_extents.length →
    0 < p.stencil_size.getD i 0 ∧ 0 < p.store_extents.getD i 0
      ∧ p.store_extents.getD i 0 % p.stencil_size.getD i 0 = 0
      ∧ (p.store_extents.getD i 0).toNat ≤ log2Limit

instance (p : Params) : Decidable (Supported p) := by
  unfold Supported
  infer_instance

/-- The shape of a pass after the elements `caps` were captured, the elements
`pres` presented and `d` done pulses seen: capturing (state 0, the counters at
the point numbered by the captures, the last captured element waiting in the
value register), then state 1 with the last element waiting, then stopped. -/
def Inv {α : Type} (p : Params) (s : Regs α) (caps pres : List α) (d : Nat) : Prop :=
  (caps.length < N p ∧ s.started = true ∧ s.state = 0
      ∧ s.counters = pt (levels p) caps.length ∧ s.valid_d1 = !caps.isEmpty
      ∧ (s.valid_d1 = true → caps.getLast? = some s.value) ∧ pres = caps.dropLast ∧ d = 0)
    ∨ (caps.length = N p ∧ s.started = true ∧ s.state = 1 ∧ s.valid_d1 = true
      ∧ caps.getLast? = some s.value ∧ pres = caps.dropLast ∧ d = 0)
    ∨ (caps.length = N p ∧ s.started = false ∧ pres = caps ∧ d = 1)

/-- An output adapter for a 4 × 2 image read in stencils of 2 × 1. -/
def fourByTwo : Params := ⟨[4, 2], [2, 1], false⟩

/-- A cycle that offers the element `a` while the consumer is ready. -/
def go (a : Nat) : Ports Nat := ⟨false, true, a, true⟩

/-- A cycle on which the consumer is not ready. -/
def hold (a : Nat) : Ports Nat := ⟨false, true, a, false⟩

/-- The start pulse. -/
def start : Ports Nat := ⟨true, false, 0, false⟩

/-- Four elements, one stall, and a last cycle for state 1. -/
def samplePass : List (Ports Nat) := [go 10, hold 11, go 11, go 12, go 13, go 99]

end Adapter

/-! ## Stencil references (`visit(const Call *)`) -/

namespace Visit

/-- An index argument of a stencil reference: an `IntImm`, or any other
expression, given by its visitor. -/
inductive CArg where
  | intImm (value : Int)
  | expr (visit : CG → Res Unit)

/-- The loop `for(int i = op->args.size()-1; i >= 0; i--)` of the stencil
reference branch, over the arguments in the order the loop takes them (last
argument first): a constant gives its decimal text, any other argument is
lowered by `print_expr` and wrapped in `asUInt(...)`. -/
def call_indices : List CArg → CG → Res (List String)
  | [], g => .ok [] g
  | .intImm v :: rest, g =>
    match call_indices rest g with
    | .abort m g1 => .abort m g1
    | .ok l g1 => .ok (toString v :: l) g1
  | .expr visit :: rest, g =>
    match print_expr visit g with
    | .abort m g1 => .abort m g1
    | .ok a g1 =>
      match call_indices rest g1 with
      | .abort m g2 => .abort m g2
      | .ok l g2 => .ok (("asUInt(" ++ a ++ ")") :: l) g2

/-- Models the branch of `visit(const Call *)` taken for a call whose name ends
in `.stencil` or `.stencil_update`: a `tap.stencil` is handled apart (`tap`);
otherwise the text `name[i_n]..[i_0]` is built (the separator `][` follows
every index but the last one written) and passed to `print_assignment`. -/
def visitCallStencil (un : Nat → String) (t : Lower.HType) (name : String) (args : List CArg)
    (tap : CG → Res Unit) (g : CG) : Res Unit :=
  if ends_with name "tap.stencil" then tap g
  else
    match call_indices args.reverse g with
    | .abort m g1 => .abort m g1
    | .ok idxs g1 =>
      match print_assignment un t
          (print_name name ++ "[" ++ String.intercalate "][" idxs ++ "]") g1 with
      | .abort m g2 => .abort m g2
      | .ok _ g2 => .ok () g2

/-- The same index argument as it reaches `visit(const Call *)`: a variable is
an expression lowered by `visit(const Variable *)`. -/
def callArg (other : CG → Res Unit) : PArg → CArg
  | .intImm v => .intImm v
  | .variable n => .expr (visitVariable n)
  | .other => .expr other

/-- The text of one index: a constant in decimal, a variable as
`asUInt(<sanitized name>)`. -/
def indexText : PArg → String
  | .intImm v => toString v
  | .variable n => "asUInt(" ++ print_name n ++ ")"
  | .other => ""

end Visit

/-! ## Byte ranges of the bus interface -/

namespace SlaveIf

/-- The byte range `[offset, offset + range)` of an entry of the address map
holds the address `a`. -/
def inByteRange (r : Reg_Type) (a : Nat) : Prop := r.offset ≤ a ∧ a < r.offset + r.range

instance (r : Reg_Type) (a : Nat) : Decidable (inByteRange r a) := by
  unfold inByteRange
  infer_instance

end SlaveIf

namespace ForBlock

/-- The number of cycles of a trace on which the input streams are popped
(`<in>.ready` high; the FSM tests `<in>.valid` before). -/
def pops (p : Params) (s : Regs) : List Ports → Nat
  | [] => 0
  | i :: is => (if in_ready p s i then 1 else 0) + pops p (step p s i) is

/-- The number of cycles of a trace with `<out>.valid` high. -/
def valids (p : Params) (s : Regs) : List Ports → Nat
  | [] => 0
  | i :: is => (if out_valid p s i then 1 else 0) + valids p (step p s i) is

/-- A block with two scan points and no stencil loop. -/
def flatTwo : Params :=
  { vars := [⟨0, 1⟩], stencil_vars := [], ppdepth := 1 }

end ForBlock

/-! ## The cache across the creation of a block -/

namespace Visit

/-- Every cache entry names a node printed into the body of the current
block. -/
def CacheLocal (g : CG) : Prop :=
  ∀ e ∈ g.gen.cache, ∃ body, g.gen.current_fb = some body
    ∧ ("node " ++ e.2 ++ " = " ++ e.1 ++ "\n") ∈ body

/-- The state after the first loop of the `dispatch_stream` branch has lowered
the arguments of `sampleCall 2` with no block current. -/
def afterCall : CG :=
  (lowerArgs sampleName (fun s => s) (fun g => .ok () g) (sampleCall 2) emptyCG).state

/-- The state in which the body of a loop `y` over 0..3 that opens a loop
group is entered from `afterCall`, when that body holds another loop. -/
def inOuterLoop : CG :=
  (forCreateBlock "FB_p" "SlaveIf" (print_name "y") 0 4 [] afterCall).state

/-- A loop body that stores the constant 1 to `out.stencil(0)` and then holds
an inner loop `x` with an empty body. -/
def storeThenLoop (g : CG) : Res Unit :=
  match visitProvide "out.stencil" [.intImm 0] 1 (visitIntImm sampleName ⟨true, 32⟩ 1)
      (fun g0 => .ok () g0) g with
  | .abort m g1 => .abort m g1
  | .ok _ g1 =>
    visitFor "FB_p" "SlaveIf" "x" .Serial 0 4 [] false false (fun g0 => .ok () g0) g1

end Visit

/-! ## The inner buffer of `print_linebuffer3D` and the sizes of `print_linebuffer2D` -/

namespace LineBuffer

open Visit

/-- The arrays `L`, `inEl` and `outEl` as the first degenerate case of
`print_linebuffer3D` leaves them for `print_linebuffer2D`: the assignments run
in the order `inEl[0] = inEl[0]*inEl[1]; .. L[0] = L[1]*inEl[0]; ..`, so
`L[0]` is computed from the new `inEl[0]`. -/
def reduce0 (L inEl outEl : List Int) : List Int × List Int × List Int :=
  ([L.getD 1 0 * (inEl.getD 0 0 * inEl.getD 1 0), L.getD 2 0, L.getD 3 0, L.getD 3 0],
   [inEl.getD 0 0 * inEl.getD 1 0, inEl.getD 2 0, inEl.getD 3 0, inEl.getD 3 0],
   [outEl.getD 0 0 * outEl.getD 1 0, outEl.getD 2 0, outEl.getD 3 0, outEl.getD 3 0])

/-- The arrays as the second degenerate case leaves them:
`inEl[1] = inEl[1]*inEl[2]; .. L[1] = L[1]*inEl[1]; L[2] = 1;`, so `L[1]` is
computed from the new `inEl[1]`. -/
def reduce2 (L inEl outEl : List Int) : List Int × List Int × List Int :=
  ([L.getD 0 0, L.getD 1 0 * (inEl.getD 1 0 * inEl.getD 2 0), 1, L.getD 3 0],
   [inEl.getD 0 0, inEl.getD 1 0 * inEl.getD 2 0, inEl.getD 3 0, inEl.getD 3 0],
   [outEl.getD 0 0, outEl.getD 1 0 * outEl.getD 2 0, outEl.getD 3 0, outEl.getD 3 0])

/-- Models `int imgL0 = L[0]/inEl[0];` of `print_linebuffer2D`: the number of
scan positions along dimension 0. -/
def imgL0 (L inEl : List Int) : Int := (L.getD 0 0).tdiv (inEl.getD 0 0)

/-- Models `int imgL1 = L[1]/inEl[1];` of `print_linebuffer2D`: the number of
scan positions along dimension 1. -/
def imgL1 (L inEl : List Int) : Int := (L.getD 1 0).tdiv (inEl.getD 1 0)

/-- The position `i1*inEl[0]+i0` of the inner buffer's input that the first
degenerate case feeds from `io.in.bits.value[i3][i2][i1][i0]`. -/
def in_index0 (inEl : List Int) (i1 i0 : Nat) : Int := (i1 : Int) * inEl.getD 0 0 + i0

/-- The position `i0+i1*outEl[0]` of the inner buffer's output that the first
degenerate case reads for `io.out.bits.value[i3][i2][i1][i0]`. -/
def out_index0 (outEl : List Int) (i1 i0 : Nat) : Int := (i0 : Int) + i1 * outEl.getD 0 0

/-- The position `i2*inEl[1]+i1` of the inner buffer's input that the second
degenerate case feeds from `io.in.bits.value[i3][i2][i1][i0]`. -/
def in_index2 (inEl : List Int) (i2 i1 : Nat) : Int := (i2 : Int) * inEl.getD 1 0 + i1

/-- The position `i2+i1*outEl[2]` of the inner buffer's output that the second
degenerate case reads for `io.out.bits.value[i3][i2][i1][i0]`. -/
def out_index2 (outEl : List Int) (i2 i1 : Nat) : Int := (i2 : Int) + i1 * outEl.getD 2 0

/-- An inner printer that prints nothing. -/
def silentPrinter (_ : String) (_ _ _ : List Int) (g : CG) : Res Unit := .ok () g

end LineBuffer

/-! ## `print_linebuffer2D`: the row memories -/

namespace LineBuffer2D

/-- Models `int ratio1 = outEl[1]/inEl[1];` -/
def ratio1 (inEl outEl : List Int) : Int := (outEl.getD 1 0).tdiv (inEl.getD 1 0)

/-- Models `int bufL0 = L[0]/inEl[0];` -/
def bufL0 (L inEl : List Int) : Int := (L.getD 0 0).tdiv (inEl.getD 0 0)

/-- Models `int bufL1 = ratio1 - 1;` -/
def bufL1 (inEl outEl : List Int) : Int := ratio1 inEl outEl - 1

/-- Models `int nBit_bufL1 = std::max((int)std::ceil(std::log2((float)bufL1)), 1);` -/
def nBit_bufL1 (inEl outEl : List Int) : Nat := max (ceilLog2 (bufL1 inEl outEl).toNat) 1

/-- Models `int nBit_outEl1 = std::max((int)std::ceil(std::log2((float)outEl[1])), 1);` -/
def nBit_outEl1 (outEl : List Int) : Nat := max (ceilLog2 (outEl.getD 1 0).toNat) 1

/-- The loop `for(int i=0; i<bufL1; i++)` printing `cmem buffer<i> : ..[bufL0]`:
the memories with their numbers of entries. -/
def buffers (L inEl outEl : List Int) : List (String × Int) :=
  (List.range (bufL1 inEl outEl).toNat).map fun i => ("buffer" ++ toString i, bufL0 L inEl)

/-- Models `node inSliceL1s_buffer<l1> =
tail(asUInt(sub(UInt<nBit_bufL1+1>(bufL1+l1), writeIdx1)), 1)`. -/
def inSliceL1s (inEl outEl : List Int) (l1 writeIdx1 : Nat) : Nat :=
  tail1 (nBit_bufL1 inEl outEl + 1)
    (subU (nBit_bufL1 inEl outEl + 1) (bufL1 inEl outEl + (l1 : Int)).toNat writeIdx1)

/-- Models the wire `inSliceL1_buffer<l1>` of `nBit_outEl1` bits: `inSliceL1s`
less `bufL1` when it is at least `bufL1`, else `inSliceL1s`.  It is the block of
the slice that row memory `l1` is copied to. -/
def inSliceL1 (inEl outEl : List Int) (l1 writeIdx1 : Nat) : Nat :=
  (if (bufL1 inEl outEl).toNat ≤ inSliceL1s inEl outEl l1 writeIdx1 then
      tail1 (nBit_bufL1 inEl outEl + 1)
        (subU (nBit_bufL1 inEl outEl + 1) (inSliceL1s inEl outEl l1 writeIdx1)
          (bufL1 inEl outEl).toNat)
    else inSliceL1s inEl outEl l1 writeIdx1) % 2 ^ nBit_outEl1 outEl

/-- The guard `when eq(UInt<nBit_bufL1>(l1), writeIdx1) :` of the write port
of row memory `l1`. -/
def write_select (l1 writeIdx1 : Nat) : Bool := decide (l1 = writeIdx1)

/-- The next value of `writeIdx1` at the end of a row: `writeIdx_inc`, or 0
when `writeIdx_is_max = eq(writeIdx1, UInt(bufL1-1))`. -/
def writeIdx_next (inEl outEl : List Int) (writeIdx1 : Nat) : Nat :=
  if (writeIdx1 : Int) = bufL1 inEl outEl - 1 then 0
  else tail1 (nBit_bufL1 inEl outEl) (writeIdx1 + 1)

/-- The index `bufL1*inEl[1]+i1` of the slice that row `i1` of the current
input element is copied to. -/
def input_row_index (inEl outEl : List Int) (i1 : Nat) : Int :=
  bufL1 inEl outEl * inEl.getD 1 0 + i1

/-- Models `<name>_1D.io.in.valid`: `UInt<1>(0)`, then `UInt<1>(1)` under
`when io.in.valid :` and `when geq(row, UInt(bufL1)) :`. -/
def forward (inEl outEl : List Int) (in_valid : Bool) (row : Nat) : Bool :=
  in_valid && decide (bufL1 inEl outEl ≤ (row : Int))

end LineBuffer2D

/-! # Theorems -/

/-! ## Bit widths -/

theorem ceilLog2Aux_spec (fuel k n : Nat) (h : n ≤ 2 ^ (k + fuel))
    (hmin : ∀ j, j < k → ¬ n ≤ 2 ^ j) :
    n ≤ 2 ^ ceilLog2Aux fuel k n ∧ ∀ j, j < ceilLog2Aux fuel k n → ¬ n ≤ 2 ^ j := by
  induction fuel generalizing k with
  | zero => exact ⟨by simpa [ceilLog2Aux] using h, by simpa [ceilLog2Aux] using hmin⟩
  | succ f ih =>
    unfold ceilLog2Aux
    by_cases hk : n ≤ 2 ^ k
    · rw [if_pos hk]; exact ⟨hk, hmin⟩
    · rw [if_neg hk]
      apply ih (k + 1)
      · have : k + 1 + f = k + (f + 1) := by omega
        rw [this]; exact h
      · intro j hj
        by_cases hjk : j = k
        · rw [hjk]; exact hk
        · exact hmin j (by omega)

theorem le_pow_ceilLog2 (n : Nat) (_h : n ≤ log2Limit) : n ≤ 2 ^ ceilLog2 n :=
  (ceilLog2Aux_spec n 0 n (by rw [Nat.zero_add]; exact Nat.le_of_lt (Nat.lt_two_pow n))
    (fun j hj => absurd hj (Nat.not_lt_zero j))).1

theorem ceilLog2_eq_clog (n : Nat) : ceilLog2 n = Nat.clog 2 n := by
  have h := ceilLog2Aux_spec n 0 n (by rw [Nat.zero_add]; exact Nat.le_of_lt (Nat.lt_two_pow n))
    (fun j hj => absurd hj (Nat.not_lt_zero j))
  apply le_antisymm
  · by_contra hc
    exact h.2 _ (not_le.mp hc) (Nat.le_pow_clog (by norm_num) n)
  · exact (Nat.le_pow_iff_clog_le (by norm_num)).mp h.1

/-! ## The queue buffer (`print_fifo`) -/

namespace FIFO

theorem getD_set_same (mem : List Nat) (i v : Nat) (h : i < mem.length) :
    (mem.set i v).getD i 0 = v := by
  simp [List.getD_eq_getElem?_getD, List.getElem?_set, h]

theorem getD_set_other (mem : List Nat) (i j v : Nat) (h : j ≠ i) :
    (mem.set i v).getD j 0 = mem.getD j 0 := by
  simp [List.getD_eq_getElem?_getD, List.getElem?_set, Ne.symm h]

theorem window_length (mem : List Nat) (rd l n : Nat) :
    (window mem rd l n).length = l := by
  simp [window]

theorem window_succ (mem : List Nat) (rd l n : Nat) :
    window mem rd (l + 1) n = window mem rd l n ++ [mem.getD ((rd + l) % n) 0] := by
  simp [window, List.range_succ]

theorem window_cons (mem : List Nat) (rd l n : Nat) :
    window mem rd (l + 1) n
      = mem.getD (rd % n) 0 :: window mem ((rd + 1) % n) l n := by
  simp only [window, List.range_succ_eq_map, List.map_cons, List.map_map, Nat.add_zero]
  congr 1
  apply List.map_congr_left
  intro k _
  simp only [Function.comp, Nat.mod_add_mod]
  congr 2
  omega

theorem mod_add_ne (rd k l n : Nat) (hk : k < l) (hl : l < n) :
    (rd + k) % n ≠ (rd + l) % n := by
  intro h
  have h1 : (rd + k) ≡ (rd + l) [MOD n] := h
  have h2 : k ≡ l [MOD n] := Nat.ModEq.add_left_cancel' rd h1
  have h3 : k % n = l % n := h2
  rw [Nat.mod_eq_of_lt (by omega), Nat.mod_eq_of_lt hl] at h3
  omega

theorem window_set (mem : List Nat) (rd l n v : Nat) (hl : l < n) :
    window (mem.set ((rd + l) % n) v) rd l n = window mem rd l n := by
  apply List.map_congr_left
  intro k hk
  rw [List.mem_range] at hk
  exact getD_set_other _ _ _ _ (mod_add_ne rd k l n hk hl)

theorem ptrNext_eq (depth p : Nat) (hd : depth + 2 ≤ log2Limit) (h : p ≤ depth) :
    ptrNext depth p = (p + 1) % (depth + 1) := by
  unfold ptrNext tail1 nBit
  by_cases hp : p = depth
  · simp [hp]
  · have h1 : depth + 1 ≤ 2 ^ ceilLog2 (depth + 1) := le_pow_ceilLog2 _ (by omega)
    have h2 : 2 ^ ceilLog2 (depth + 1) ≤ 2 ^ max (ceilLog2 (depth + 1)) 1 :=
      Nat.pow_le_pow_right (by norm_num) (le_max_left _ _)
    rw [if_neg hp, Nat.mod_eq_of_lt (by omega), Nat.mod_eq_of_lt (by omega)]

theorem level_inc_eq (depth l : Nat) (hd : depth + 2 ≤ log2Limit) (h : l ≤ depth) :
    tail1 (level_nBit depth) (l + 1) = l + 1 := by
  unfold tail1 level_nBit
  have h1 : depth + 2 ≤ 2 ^ ceilLog2 (depth + 2) := le_pow_ceilLog2 _ hd
  exact Nat.mod_eq_of_lt (by omega)

theorem level_dec_eq (depth l : Nat) (hd : depth + 2 ≤ log2Limit) (h0 : 1 ≤ l)
    (h : l ≤ depth + 1) :
    tail1 (level_nBit depth) (subU (level_nBit depth) l 1) = l - 1 := by
  unfold tail1 subU level_nBit
  have h1 : depth + 2 ≤ 2 ^ ceilLog2 (depth + 2) := le_pow_ceilLog2 _ hd
  have h2 : 2 ^ (ceilLog2 (depth + 2) + 1) = 2 * 2 ^ ceilLog2 (depth + 2) := by
    rw [pow_succ]; ring
  rw [h2]
  set P := 2 ^ ceilLog2 (depth + 2) with hP
  have h3 : 1 % (2 * P) = 1 := Nat.mod_eq_of_lt (by omega)
  have h4 : l + 2 * P - 1 = (l - 1) + 1 * (2 * P) := by omega
  have h5 : (l - 1) % (2 * P) = l - 1 := Nat.mod_eq_of_lt (by omega)
  have h6 : (l - 1) % P = l - 1 := Nat.mod_eq_of_lt (by omega)
  rw [h3, h4, Nat.add_mul_mod_self_right, h5, h6]

theorem inv_reset (depth : Nat) (mem0 : List Nat) (d0 : Nat)
    (h : mem0.length = depth + 1) :
    Inv depth { regs := reset mem0 d0, pushed := [], popped := [] } := by
  constructor <;> simp [reset, window, h]

theorem inv_cycle (depth : Nat) (hd : depth + 2 ≤ log2Limit) (r : Run) (i : Ports)
    (h : Inv depth r) : Inv depth (cycle depth r i) := by
  obtain ⟨⟨mem, wr, rd, lv, em, fu, vo, dout⟩, pushed, popped⟩ := r
  obtain ⟨hlen, hrd, hlv, hwr, hem, hfu, hhist⟩ := h
  simp only at hlen hrd hlv hwr hem hfu hhist
  have hwrlt : wr < depth + 1 := by rw [hwr]; exact Nat.mod_lt _ (by omega)
  have hrdmod : rd % (depth + 1) = rd := Nat.mod_eq_of_lt (by omega)
  have hpf : w_push ⟨mem, wr, rd, lv, em, fu, vo, dout⟩ i = true → lv ≤ depth := by
    intro hp
    have hf : fu = false := by
      simp only [w_push, Bool.and_eq_true, Bool.not_eq_true'] at hp
      exact hp.2
    have : ¬ lv = depth + 1 := fun hc => by
      rw [hfu.mpr hc] at hf
      exact Bool.noConfusion hf
    omega
  have hpe : w_pop ⟨mem, wr, rd, lv, em, fu, vo, dout⟩ i = true → 1 ≤ lv := by
    intro hp
    have hf : em = false := by
      simp only [w_pop, Bool.and_eq_true, Bool.not_eq_true'] at hp
      exact hp.2
    have : ¬ lv = 0 := fun hc => by
      rw [hem.mpr hc] at hf
      exact Bool.noConfusion hf
    omega
  have hrd1 : ptrNext depth rd = (rd + 1) % (depth + 1) := ptrNext_eq depth rd hd hrd
  have hwr1 : ptrNext depth wr = (rd + lv + 1) % (depth + 1) := by
    rw [ptrNext_eq depth wr hd (by omega), hwr, Nat.mod_add_mod]
  have hrd1le : (rd + 1) % (depth + 1) ≤ depth := by
    have := Nat.mod_lt (rd + 1) (show 0 < depth + 1 by omega)
    omega
  cases hp : w_push ⟨mem, wr, rd, lv, em, fu, vo, dout⟩ i <;>
    cases hq : w_pop ⟨mem, wr, rd, lv, em, fu, vo, dout⟩ i
  · -- neither a push nor a pop
    constructor <;> simp only [cycle, step, hp, hq, Bool.false_eq_true, if_false, if_true,
      Bool.not_false, Bool.not_true, Bool.and_true, Bool.and_false, Bool.true_and,
      Bool.false_and]
    · exact hlen
    · exact hrd
    · exact hlv
    · exact hwr
    · exact hem
    · exact hfu
    · exact hhist
  · -- pop only
    have h1 := hpe hq
    obtain ⟨l, rfl⟩ : ∃ l, lv = l + 1 := ⟨lv - 1, by omega⟩
    have hdec := level_dec_eq depth (l + 1) hd (by omega) hlv
    simp only [Nat.add_sub_cancel] at hdec
    constructor <;> simp only [cycle, step, hp, hq, Bool.false_eq_true, if_false, if_true,
      Bool.not_false, Bool.not_true, Bool.and_true, Bool.and_false, Bool.true_and,
      Bool.false_and, hdec, hrd1]
    · exact hlen
    · exact hrd1le
    · omega
    · rw [hwr, Nat.mod_add_mod]; congr 1; omega
    · constructor
      · intro h; split at h
        · omega
        · cases h
      · intro h; rw [if_pos (by omega)]
    · constructor
      · intro h; cases h
      · intro h; omega
    · rw [hhist, window_cons, hrdmod]; simp
  · -- push only
    have h1 := hpf hp
    have hinc := level_inc_eq depth lv hd h1
    constructor <;> simp only [cycle, step, hp, hq, Bool.false_eq_true, if_false, if_true,
      Bool.not_false, Bool.not_true, Bool.and_true, Bool.and_false, Bool.true_and,
      Bool.false_and, hinc, hwr1]
    · rw [List.length_set]; exact hlen
    · exact hrd
    · omega
    · rfl
    · constructor
      · intro h; cases h
      · intro h; omega
    · constructor
      · intro h; split at h
        · omega
        · cases h
      · intro h; rw [if_pos (by omega)]
    · rw [hhist, window_succ, hwr, window_set _ _ _ _ _ (by omega),
        getD_set_same _ _ _ (by rw [hlen]; exact Nat.mod_lt _ (by omega))]
      simp
  · -- push and pop in the same cycle
    have h1 := hpf hp
    have h2 := hpe hq
    obtain ⟨l, rfl⟩ : ∃ l, lv = l + 1 := ⟨lv - 1, by omega⟩
    have hidx : ((rd + 1) % (depth + 1) + l) % (depth + 1) = (rd + (l + 1)) % (depth + 1) := by
      rw [Nat.mod_add_mod]; congr 1; omega
    constructor <;> simp only [cycle, step, hp, hq, Bool.false_eq_true, if_false, if_true,
      Bool.not_false, Bool.not_true, Bool.and_true, Bool.and_false, Bool.true_and,
      Bool.false_and, hrd1, hwr1]
    · rw [List.length_set]; exact hlen
    · exact hrd1le
    · exact hlv
    · rw [Nat.mod_add_mod]; congr 1; omega
    · exact hem
    · exact hfu
    · rw [hhist, window_cons mem rd l, hrdmod, window_succ, hidx, hwr]
      have hw : window (mem.set ((rd + (l + 1)) % (depth + 1)) i.data_in_value)
          ((rd + 1) % (depth + 1)) l (depth + 1)
          = window mem ((rd + 1) % (depth + 1)) l (depth + 1) := by
        have := window_set mem ((rd + 1) % (depth + 1)) l (depth + 1) i.data_in_value (by omega)
        rw [hidx] at this
        exact this
      rw [hw, getD_set_same _ _ _ (by rw [hlen]; exact Nat.mod_lt _ (by omega))]
      simp

theorem inv_run (depth : Nat) (hd : depth + 2 ≤ log2Limit) (mem0 : List Nat) (d0 : Nat)
    (is : List Ports) (h : mem0.length = depth + 1) : Inv depth (run depth mem0 d0 is) := by
  unfold run
  induction is using List.reverseRecOn with
  | nil => exact inv_reset depth mem0 d0 h
  | append_singleton xs x ih =>
    rw [List.foldl_append]
    exact inv_cycle depth hd _ x ih

/-- The output register holds the value popped last whenever it is valid. -/
theorem out_run (depth : Nat) (mem0 : List Nat) (d0 : Nat) (is : List Ports) :
    (run depth mem0 d0 is).regs.r_valid_out = true →
      (run depth mem0 d0 is).popped.getLast? = some (run depth mem0 d0 is).regs.r_data_out := by
  unfold run
  induction is using List.reverseRecOn with
  | nil => intro h; simp [reset] at h
  | append_singleton xs x ih =>
    rw [List.foldl_append]
    simp only [List.foldl_cons, List.foldl_nil]
    generalize List.foldl (cycle depth) { regs := reset mem0 d0, pushed := [], popped := [] } xs
      = r at ih
    intro h
    by_cases hq : w_pop r.regs x = true
    · simp [cycle, hq]
    · simp only [Bool.not_eq_true] at hq
      simp only [cycle, step, hq, Bool.false_eq_true, if_false] at h ⊢
      apply ih
      cases hr : x.data_out_ready
      · simpa [hr] using h
      · simp [hr] at h

/-- C1, for depths up to `log2Limit - 2`: from reset and for every input trace,
the values loaded into the output register on pop cycles form a prefix of the
values written on push cycles, in the same order.  Nothing is dropped or held
back: a cycle pops exactly when a pushed value is still unpopped and the output
register is free or being read, the value it loads is the oldest unpopped one,
a push is refused only while `depth + 1` values are stored, and a valid output
register presents the value popped last. -/
theorem fifo_popped_prefix_of_pushed (depth : Nat) (hd : depth + 2 ≤ log2Limit)
    (mem0 : List Nat) (d0 : Nat) (is : List Ports) (x : Ports)
    (hmem : mem0.length = depth + 1) :
    (run depth mem0 d0 is).popped <+: (run depth mem0 d0 is).pushed
      ∧ (w_pop (run depth mem0 d0 is).regs x = true ↔
          (x.data_out_ready = true ∨ (run depth mem0 d0 is).regs.r_valid_out = false)
            ∧ (run depth mem0 d0 is).popped.length < (run depth mem0 d0 is).pushed.length)
      ∧ (w_pop (run depth mem0 d0 is).regs x = true →
          (run depth mem0 d0 is).pushed[(run depth mem0 d0 is).popped.length]?
            = some (step depth (run depth mem0 d0 is).regs x).r_data_out)
      ∧ (w_push (run depth mem0 d0 is).regs x = true ↔
          x.data_in_valid = true
            ∧ (run depth mem0 d0 is).pushed.length
                < (run depth mem0 d0 is).popped.length + (depth + 1))
      ∧ (data_out_valid (run depth mem0 d0 is).regs = true →
          (run depth mem0 d0 is).popped.getLast?
            = some (data_out_value (run depth mem0 d0 is).regs)) := by
  have h := inv_run depth hd mem0 d0 is hmem
  have ho := out_run depth mem0 d0 is
  generalize run depth mem0 d0 is = r at h ho ⊢
  obtain ⟨hlen, hrd, hlv, hwr, hem, hfu, hhist⟩ := h
  have hL : r.pushed.length = r.popped.length + r.regs.r_level := by
    have hh := congrArg List.length hhist
    rw [List.length_append, window_length] at hh
    exact hh
  have he : r.regs.r_empty = false ↔ r.popped.length < r.pushed.length := by
    rw [hL]
    constructor
    · intro h0
      have : ¬ r.regs.r_level = 0 := fun hc => by
        rw [hem.mpr hc] at h0
        exact Bool.noConfusion h0
      omega
    · intro h0
      cases hE : r.regs.r_empty
      · rfl
      · have := hem.mp hE
        omega
  have hf : r.regs.r_full = false ↔ r.pushed.length < r.popped.length + (depth + 1) := by
    rw [hL]
    constructor
    · intro h0
      have : ¬ r.regs.r_level = depth + 1 := fun hc => by
        rw [hfu.mpr hc] at h0
        exact Bool.noConfusion h0
      omega
    · intro h0
      cases hE : r.regs.r_full
      · rfl
      · have := hfu.mp hE
        omega
  refine ⟨?_, ?_, ?_, ?_, ho⟩
  · rw [hhist]
    exact List.prefix_append _ _
  · unfold w_pop
    simp only [Bool.and_eq_true, Bool.or_eq_true, Bool.not_eq_true']
    rw [he]
  · intro hq
    have hq2 : r.regs.r_empty = false := by
      unfold w_pop at hq
      simp only [Bool.and_eq_true, Bool.not_eq_true'] at hq
      exact hq.2
    have hlt := he.mp hq2
    have hpos : 0 < r.regs.r_level := by omega
    have hstep : (step depth r.regs x).r_data_out = r.regs.mem.getD r.regs.r_rd_ptr 0 := by
      simp only [step, hq, if_true]
    rw [hstep]
    conv_lhs => rw [hhist]
    rw [List.getElem?_append_right (le_refl _), Nat.sub_self]
    unfold window
    rw [List.getElem?_map, List.getElem?_range hpos]
    simp only [Option.map_some', Nat.add_zero]
    rw [Nat.mod_eq_of_lt (by omega)]
  · unfold w_push
    simp only [Bool.and_eq_true, Bool.not_eq_true']
    rw [hf]

theorem fifo_popped_prefix_of_pushed_witness :
    1 + 2 ≤ log2Limit ∧ [9, 9].length = 1 + 1 ∧
    (run 1 [9, 9] 7 [⟨true, 1, false⟩, ⟨true, 2, false⟩, ⟨true, 3, false⟩,
        ⟨true, 4, true⟩, ⟨false, 0, true⟩, ⟨true, 5, true⟩]).popped
      <+: (run 1 [9, 9] 7 [⟨true, 1, false⟩, ⟨true, 2, false⟩, ⟨true, 3, false⟩,
        ⟨true, 4, true⟩, ⟨false, 0, true⟩, ⟨true, 5, true⟩]).pushed :=
  ⟨by decide, rfl, (fifo_popped_prefix_of_pushed 1 (by decide) [9, 9] 7 _
    ⟨false, 0, true⟩ rfl).1⟩

/-- C2, for depths up to `log2Limit - 2`: in every state reached from reset,
`r_level` is the number of pushes minus the number of pops, it is at most
`depth + 1` (so the truncated increment and decrement never wrap), `r_empty`
holds exactly when the level is 0 and `r_full` exactly when it is
`depth + 1`. -/
theorem fifo_level_invariant (depth : Nat) (hd : depth + 2 ≤ log2Limit) (mem0 : List Nat)
    (d0 : Nat) (is : List Ports) (hmem : mem0.length = depth + 1) :
    (run depth mem0 d0 is).regs.r_level + (run depth mem0 d0 is).popped.length
        = (run depth mem0 d0 is).pushed.length
      ∧ (run depth mem0 d0 is).regs.r_level ≤ depth + 1
      ∧ ((run depth mem0 d0 is).regs.r_empty = true
          ↔ (run depth mem0 d0 is).regs.r_level = 0)
      ∧ ((run depth mem0 d0 is).regs.r_full = true
          ↔ (run depth mem0 d0 is).regs.r_level = depth + 1) := by
  have h := inv_run depth hd mem0 d0 is hmem
  refine ⟨?_, h.level_le, h.empty_iff, h.full_iff⟩
  have hh := congrArg List.length h.hist
  rw [List.length_append, window_length] at hh
  omega

theorem fifo_level_invariant_witness :
    1 + 2 ≤ log2Limit ∧ [9, 9].length = 1 + 1 ∧
    (run 1 [9, 9] 7 [⟨true, 1, false⟩, ⟨true, 2, false⟩, ⟨true, 3, false⟩]).regs.r_level = 2 ∧
    (run 1 [9, 9] 7 [⟨true, 1, false⟩, ⟨true, 2, false⟩, ⟨true, 3, false⟩]).regs.r_full = true ∧
    (run 1 [9, 9] 7 [⟨true, 1, false⟩, ⟨true, 2, false⟩, ⟨true, 3, false⟩]).regs.r_level
        + (run 1 [9, 9] 7 [⟨true, 1, false⟩, ⟨true, 2, false⟩, ⟨true, 3, false⟩]).popped.length
      = (run 1 [9, 9] 7 [⟨true, 1, false⟩, ⟨true, 2, false⟩, ⟨true, 3, false⟩]).pushed.length :=
  ⟨by decide, rfl, by decide, by decide,
    (fifo_level_invariant 1 (by decide) [9, 9] 7
      [⟨true, 1, false⟩, ⟨true, 2, false⟩, ⟨true, 3, false⟩] rfl).1⟩

end FIFO

/-! ## The stream router (`print_dispatch`) -/

namespace Dispatch

theorem c_iff (p : Params) (cs : List Nat) (x : Ports) (i : Nat) :
    c p cs x i = true ↔ (x.ready.getD i false = true ∨ inWindow p cs i = false) := by
  unfold c cr
  cases inWindow p cs i <;> cases x.ready.getD i false <;> simp

theorem allOutReady_iff (p : Params) (cs : List Nat) (x : Ports) :
    allOutReady p cs x = true
      ↔ ∀ i, i < num_of_consumers p →
          (x.ready.getD i false = true ∨ inWindow p cs i = false) := by
  unfold allOutReady
  rw [List.all_eq_true]
  constructor
  · intro h i hi
    exact (c_iff p cs x i).mp (h i (List.mem_range.mpr hi))
  · intro h i hi
    exact (c_iff p cs x i).mpr (h i (List.mem_range.mp hi))

/-- With two dimensions the in-window flag is the geometric window test. -/
theorem inWindow_iff_2d (p : Params) (cs : List Nat) (i : Nat)
    (hnd : num_of_dimensions p = 2) :
    inWindow p cs i = true ↔ inDeclaredWindow p cs i := by
  unfold inWindow inDeclaredWindow cd cdb
  rw [hnd]
  simp only [Bool.and_eq_true, decide_eq_true_eq]
  constructor
  · rintro ⟨⟨h1, h2⟩, h3, h4⟩ j hj
    have : j = 0 ∨ j = 1 := by omega
    rcases this with rfl | rfl
    · exact ⟨h3, h4⟩
    · exact ⟨h1, h2⟩
  · intro h
    exact ⟨h 1 (by omega), h 0 (by omega)⟩

/-- With two dimensions a consumer's valid is asserted exactly when the input
is valid, every consumer whose window contains the position is ready, and the
position lies inside the consumer's own window. -/
theorem valid_iff_2d (p : Params) (cs : List Nat) (x : Ports) (i : Nat)
    (hnd : num_of_dimensions p = 2) (hi : i < num_of_consumers p) :
    valid p cs x i = true
      ↔ x.in_valid = true
        ∧ (∀ k, k < num_of_consumers p → inDeclaredWindow p cs k →
            x.ready.getD k false = true)
        ∧ inDeclaredWindow p cs i := by
  unfold valid fire cr
  simp only [Bool.and_eq_true, allOutReady_iff, inWindow_iff_2d p cs _ hnd]
  constructor
  · rintro ⟨⟨hv, hall⟩, hw, _⟩
    refine ⟨hv, fun k hk hwk => ?_, hw⟩
    rcases hall k hk with h | h
    · exact h
    · rw [(inWindow_iff_2d p cs k hnd).mpr hwk] at h
      cases h
  · rintro ⟨hv, hall, hw⟩
    refine ⟨⟨hv, fun k hk => ?_⟩, hw, hall i hi hw⟩
    by_cases hwk : inDeclaredWindow p cs k
    · exact Or.inl (hall k hk hwk)
    · right
      cases hc : inWindow p cs k
      · rfl
      · exact absurd ((inWindow_iff_2d p cs k hnd).mp hc) hwk

/-- C3 (failing input): a router with three dimensions, one consumer whose
window starts at offset 1 in dimension 0, at position (0, 0, 0): the module is
printed, the consumer's valid is asserted, and the position is outside the
declared window. -/
theorem dispatch_valid_outside_window_3d :
    printed ⟨[1, 1, 1], [1, 1, 1], [4, 4, 4], [1], [[1, 0, 0]], [[3, 4, 4]]⟩ = true
      ∧ valid ⟨[1, 1, 1], [1, 1, 1], [4, 4, 4], [1], [[1, 0, 0]], [[3, 4, 4]]⟩
          [0, 0, 0] ⟨true, 5, [true]⟩ 0 = true
      ∧ ¬ inDeclaredWindow ⟨[1, 1, 1], [1, 1, 1], [4, 4, 4], [1], [[1, 0, 0]], [[3, 4, 4]]⟩
          [0, 0, 0] 0 := by
  refine ⟨by decide, by decide, ?_⟩
  intro h
  have h0 := (h 0 (by decide)).1
  revert h0
  decide

/-- C4: the shared input's ready is asserted exactly when the input is valid
and every consumer is ready or has its in-window flag false; on a cycle where
it is not asserted no position counter changes and no consumer's valid is
asserted. -/
theorem dispatch_in_ready_iff (p : Params) (cs : List Nat) (x : Ports) :
    (in_ready p cs x = true
        ↔ x.in_valid = true ∧ ∀ i, i < num_of_consumers p →
            (x.ready.getD i false = true ∨ inWindow p cs i = false))
      ∧ (in_ready p cs x = false →
          step p cs x = cs ∧ ∀ i, valid p cs x i = false) := by
  constructor
  · unfold in_ready fire
    rw [Bool.and_eq_true, allOutReady_iff]
  · intro h
    unfold in_ready at h
    constructor
    · unfold step
      rw [h]
      rfl
    · intro i
      unfold valid
      rw [h]
      rfl

end Dispatch

/-! ## The bus interface (`print_slaveif`) -/

namespace SlaveIf

theorem foldl_add_const (n c o : Nat) :
    (List.range n).foldl (fun o _ => o + c) o = o + n * c := by
  induction n with
  | zero => simp
  | succ k ih => rw [List.range_succ, List.foldl_append, ih]; simp; ring

theorem offsetAfterLoops_eq (e0 e1 e2 e3 offset : Nat) :
    offsetAfterLoops [e0, e1, e2, e3] offset = offset + 4 * (e0 * e1 * e2 * e3) := by
  simp only [offsetAfterLoops, List.getD_cons_zero, List.getD_cons_succ, foldl_add_const]
  ring

theorem foldl_mul_eq_prod (l : List Nat) (a : Nat) :
    l.foldl (fun r e => r * e) a = a * l.prod := by
  induction l generalizing a with
  | nil => simp
  | cons x xs ih => rw [List.foldl_cons, ih, List.prod_cons]; ring

theorem assignReg_eq (offset : Nat) (s : FIRRTL_Type)
    (hok : s.type = StencilContainerType.Stencil →
      1 ≤ s.bounds.length ∧ s.bounds.length ≤ 4) :
    ∃ r, assignReg offset s = some (r, offset + specByteRange s)
      ∧ r.offset = offset ∧ r.range = specByteRange s
      ∧ r.is_stencil = decide (s.type = StencilContainerType.Stencil) := by
  unfold assignReg specByteRange
  by_cases hs : s.type = StencilContainerType.Stencil
  · obtain ⟨h1, h4⟩ := hok hs
    rw [if_pos hs, if_pos ⟨h4, h1⟩, if_pos hs]
    refine ⟨{ is_stencil := true, bitwidth := 32,
              range := s.bounds.foldl (fun r e => r * e) 1 * 4,
              offset := offset, extents := extents4 s.bounds }, ?_, rfl, ?_, by simp [hs]⟩
    · congr 2
      match hb : s.bounds, h1, h4 with
      | [a], _, _ => simp [extents4, List.range_succ, offsetAfterLoops_eq]
      | [a, b], _, _ => simp [extents4, List.range_succ, offsetAfterLoops_eq]
      | [a, b, c], _, _ => simp [extents4, List.range_succ, offsetAfterLoops_eq, Nat.mul_assoc]
      | [a, b, c, d], _, _ =>
        simp [extents4, List.range_succ, offsetAfterLoops_eq, Nat.mul_assoc]
    · simp only [foldl_mul_eq_prod]; ring
  · rw [if_neg hs, if_neg hs]
    exact ⟨{ is_stencil := false, bitwidth := 32, range := 4, offset := offset,
             extents := [] }, rfl, rfl, rfl, by simp [hs]⟩

theorem assignOffsets_spec (regs : List (String × FIRRTL_Type)) (offset : Nat)
    (hok : ∀ x ∈ regs, x.2.type = StencilContainerType.Stencil →
      1 ≤ x.2.bounds.length ∧ x.2.bounds.length ≤ 4) :
    ∃ m, assignOffsets offset regs = some m ∧ m.length = regs.length ∧
      ∀ k e, m[k]? = some e →
        ∃ t, regs[k]? = some (e.1, t) ∧ e.2.range = specByteRange t
          ∧ e.2.offset = offset + ((m.take k).map fun x => x.2.range).sum := by
  induction regs generalizing offset with
  | nil => exact ⟨[], rfl, rfl, fun k e h => by simp at h⟩
  | cons x rest ih =>
    obtain ⟨name, t⟩ := x
    obtain ⟨r, hr, hoff, hrange, _⟩ :=
      assignReg_eq offset t (hok (name, t) (List.mem_cons_self _ _))
    obtain ⟨m, hm, hlen, hspec⟩ :=
      ih (offset + specByteRange t) (fun y hy => hok y (List.mem_cons_of_mem _ hy))
    refine ⟨(name, r) :: m, ?_, by simp [hlen], ?_⟩
    · simp only [assignOffsets, hr, hm]
    · intro k e he
      cases k with
      | zero =>
        simp only [List.getElem?_cons_zero, Option.some.injEq] at he
        subst he
        exact ⟨t, by simp, hrange, by simpa using hoff⟩
      | succ j =>
        simp only [List.getElem?_cons_succ] at he
        obtain ⟨t', h1, h2, h3⟩ := hspec j e he
        refine ⟨t', by simpa using h1, h2, ?_⟩
        rw [h3, List.take_succ_cons, List.map_cons, List.sum_cons, hrange]
        omega

/-- C7: the offset loop of `print_slaveif` succeeds on every register list
whose tap memories have 1 to 4 dimensions; in iteration order each register
gets 4 bytes (scalar) or 4 bytes per element (tap memory), and its offset is
0x40 plus the byte ranges of the registers before it. -/
theorem slaveif_offsets_in_order (regs : List (String × FIRRTL_Type))
    (hok : ∀ x ∈ regs, x.2.type = StencilContainerType.Stencil →
      1 ≤ x.2.bounds.length ∧ x.2.bounds.length ≤ 4) :
    ∃ m, address_map regs = some m ∧ m.length = regs.length ∧
      ∀ k e, m[k]? = some e →
        ∃ t, regs[k]? = some (e.1, t) ∧ e.2.range = specByteRange t
          ∧ e.2.offset = 0x40 + ((m.take k).map fun x => x.2.range).sum :=
  assignOffsets_spec regs 0x40 hok

theorem slaveif_offsets_in_order_witness :
    ∃ m, address_map [("r_a", ⟨.Scalar, true, 8, []⟩), ("r_t", ⟨.Stencil, true, 8, [3, 2]⟩),
          ("r_b", ⟨.Scalar, false, 16, []⟩)] = some m ∧ m.length = 3 ∧
      ∀ k e, m[k]? = some e →
        ∃ t, [("r_a", (⟨.Scalar, true, 8, []⟩ : FIRRTL_Type)),
              ("r_t", ⟨.Stencil, true, 8, [3, 2]⟩),
              ("r_b", ⟨.Scalar, false, 16, []⟩)][k]? = some (e.1, t)
          ∧ e.2.range = specByteRange t
          ∧ e.2.offset = 0x40 + ((m.take k).map fun x => x.2.range).sum :=
  slaveif_offsets_in_order _ (by decide)

theorem assignOffsets_range_mod (regs : List (String × FIRRTL_Type)) (offset : Nat)
    (m : List (String × Reg_Type)) (h : assignOffsets offset regs = some m) :
    ∀ e ∈ m, e.2.range % 4 = 0 := by
  induction regs generalizing offset m with
  | nil =>
    simp only [assignOffsets, Option.some.injEq] at h
    subst h
    intro e he
    cases he
  | cons x rest ih =>
    obtain ⟨name, t⟩ := x
    unfold assignOffsets at h
    cases hr : assignReg offset t with
    | none => simp only [hr] at h; cases h
    | some ro =>
      obtain ⟨r, o⟩ := ro
      simp only [hr] at h
      cases hm : assignOffsets o rest with
      | none => simp only [hm] at h; cases h
      | some m' =>
        simp only [hm, Option.some.injEq] at h
        subst h
        intro e he
        rcases List.mem_cons.mp he with rfl | he'
        · unfold assignReg at hr
          split at hr
          · split at hr
            · simp only [Option.some.injEq, Prod.mk.injEq] at hr
              rw [← hr.1]
              simp
            · cases hr
          · simp only [Option.some.injEq, Prod.mk.injEq] at hr
            rw [← hr.1]
            show 4 % 4 = 0
            rfl
        · exact ih o m' hm e he'

/-- C8: for every tap memory of the address map the emitted memory has
`range / 4` words, the word index computed from a captured 32-bit address is
`(address - offset) >> 2`, and for every address inside the guard
`offset ≤ address < offset + range` that index is below the word count. -/
theorem slaveif_tap_index_in_bounds (regs : List (String × FIRRTL_Type))
    (m : List (String × Reg_Type)) (e : String × Reg_Type) (a : Nat)
    (hm : address_map regs = some m) (he : e ∈ m) (ha : a < 2 ^ 32)
    (_hs : e.2.is_stencil = true) (hr : inTapRange e.2 a = true) :
    4 * memWords e.2 = e.2.range
      ∧ w_idx a e.2.offset = (a - e.2.offset) / 4
      ∧ w_idx a e.2.offset < memWords e.2 := by
  have hmod := assignOffsets_range_mod regs 0x40 m hm e he
  unfold inTapRange at hr
  simp only [Bool.and_eq_true, decide_eq_true_eq] at hr
  obtain ⟨hlo, hhi⟩ := hr
  have hw : memWords e.2 = e.2.range / 4 := by
    unfold memWords
    rw [Nat.shiftRight_eq_div_pow]
  have hi : w_idx a e.2.offset = (a - e.2.offset) / 4 := by
    unfold w_idx subU
    rw [Nat.shiftRight_eq_div_pow]
    norm_num at ha ⊢
    have h1 : e.2.offset % 8589934592 = e.2.offset := Nat.mod_eq_of_lt (by omega)
    have h2 : a + 8589934592 - e.2.offset = (a - e.2.offset) + 1 * 8589934592 := by omega
    rw [h1, h2, Nat.add_mul_mod_self_right, Nat.mod_eq_of_lt (by omega)]
  refine ⟨by omega, hi, ?_⟩
  rw [hi, hw]
  omega

theorem slaveif_tap_index_in_bounds_witness :
    4 * memWords ⟨true, 32, 24, 68, [3, 2, 1, 1]⟩ = 24
      ∧ w_idx 0x58 68 = (0x58 - 68) / 4
      ∧ w_idx 0x58 68 < memWords ⟨true, 32, 24, 68, [3, 2, 1, 1]⟩ :=
  slaveif_tap_index_in_bounds
    [("r_a", ⟨.Scalar, true, 8, []⟩), ("r_t", ⟨.Stencil, true, 8, [3, 2]⟩)]
    [("r_a", ⟨false, 32, 4, 64, []⟩), ("r_t", ⟨true, 32, 24, 68, [3, 2, 1, 1]⟩)]
    ("r_t", ⟨true, 32, 24, 68, [3, 2, 1, 1]⟩) 0x58
    (by decide) (by decide) (by decide) rfl (by decide)

/-- With two done ports the printed line is the line of the specification. -/
theorem doneWhenLine_two (a b : String) :
    doneWhenLine [a, b] = specDoneWhenLine [a, b] := by
  apply String.ext
  simp [doneWhenLine, specDoneWhenLine, specConj, List.range_succ, String.join,
    String.data_append]

/-- C9 (failing input): with a single done port the printed line has no blank
between `when` and the flag, unlike the line `else when r_p1 :` of the
specification. -/
theorem slaveif_done_line_single_port :
    doneWhenLine ["IO_in_done"] = "else whenr_IO_in_done :\n"
      ∧ specDoneWhenLine ["IO_in_done"] = "else when r_IO_in_done :\n"
      ∧ doneWhenLine ["IO_in_done"] ≠ specDoneWhenLine ["IO_in_done"] := by
  decide

/-- C10: when a write with bit 0 set is taken at address 0 (write FSM in the
state in which `WREADY` is high, captured address 0), `r_start` is 1 on the
next cycle and 0 on the cycle after it (the FSM has left the state), `r_run`
is 1 on the cycle after `r_start` is 1 whatever `r_done` is, and a status read
(read FSM in its address state, captured address 4) sampling that cycle
returns 1. -/
theorem slaveif_start_sets_run (cfg : List (Reg_Type × FIRRTL_Type)) (s : Regs)
    (i1 i2 i3 : Ports)
    (hcs : s.r_aw_cs_fsm = ST_ADDR) (haddr : s.r_aw_addr = ADDR_CTRL)
    (hv : i1.WVALID = true) (hbit : i1.WDATA % 2 = 1) :
    (step cfg s i1).r_start = true
      ∧ (step cfg s i1).r_aw_cs_fsm = ST_DATA
      ∧ (step cfg (step cfg s i1) i2).r_start = false
      ∧ (step cfg (step cfg s i1) i2).r_run = true
      ∧ ((step cfg (step cfg s i1) i2).r_ar_cs_fsm = ST_ADDR →
          (step cfg (step cfg s i1) i2).r_ar_addr = ADDR_STATUS →
          RDATA (step cfg (step cfg (step cfg s i1) i2) i3) = 1)
      ∧ (∀ (t : Regs) (j : Ports), t.r_aw_cs_fsm ≠ ST_ADDR → (step cfg t j).r_start = false)
      ∧ (∀ (t : Regs) (j : Ports), t.r_start = true → (step cfg t j).r_run = true) := by
  have h1 : (step cfg s i1).r_start = true := by
    simp [step, hcs, haddr, hbit]
  have h2 : (step cfg s i1).r_aw_cs_fsm = ST_DATA := by
    simp [step, w_aw_ns_fsm, hcs, hv, ST_ADDR, ST_IDLE, ST_DATA]
  have h3 : (step cfg (step cfg s i1) i2).r_start = false := by
    have : (step cfg (step cfg s i1) i2).r_start
        = (if (step cfg s i1).r_aw_cs_fsm = ST_ADDR ∧ (step cfg s i1).r_aw_addr = ADDR_CTRL
            then decide (i2.WDATA % 2 = 1) else false) := rfl
    rw [this, h2]
    simp [ST_ADDR, ST_DATA]
  have h4 : (step cfg (step cfg s i1) i2).r_run = true := by
    have : (step cfg (step cfg s i1) i2).r_run
        = (if (step cfg s i1).r_start then true
            else if (step cfg s i1).r_done then false else (step cfg s i1).r_run) := rfl
    rw [this, h1]
    rfl
  refine ⟨h1, h2, h3, h4, ?_, ?_, ?_⟩
  rotate_left
  · intro t j ht
    simp [step, ht]
  · intro t j ht
    simp [step, ht]
  intro ha hb
  have : RDATA (step cfg (step cfg (step cfg s i1) i2) i3)
      = (if (step cfg (step cfg s i1) i2).r_ar_cs_fsm = ST_ADDR then
          if (step cfg (step cfg s i1) i2).r_ar_addr = ADDR_CTRL then
            2 * (step cfg (step cfg s i1) i2).r_done.toNat
              ||| (step cfg (step cfg s i1) i2).r_start.toNat
          else if (step cfg (step cfg s i1) i2).r_ar_addr = ADDR_STATUS then
            (step cfg (step cfg s i1) i2).r_run.toNat
          else (readUser cfg (step cfg (step cfg s i1) i2).user
            (step cfg (step cfg s i1) i2).r_ar_addr).getD
              (step cfg (step cfg s i1) i2).r_rd_data
        else (step cfg (step cfg s i1) i2).r_rd_data) := rfl
  rw [this, if_pos ha, hb, h4]
  rfl

theorem slaveif_start_sets_run_witness :
    (step [] ⟨1, 0, 1, 4, 0, false, false, true, [true], []⟩
        ⟨0, false, 1, true, false, 0, false, false, [false]⟩).r_start = true
      ∧ (step [] (step [] (step [] ⟨1, 0, 1, 4, 0, false, false, true, [true], []⟩
            ⟨0, false, 1, true, false, 0, false, false, [false]⟩)
          ⟨0, false, 0, false, true, 0, false, false, [false]⟩)
          ⟨0, false, 0, false, false, 0, false, false, [false]⟩).r_rd_data = 1 :=
  have h := slaveif_start_sets_run [] ⟨1, 0, 1, 4, 0, false, false, true, [true], []⟩
    ⟨0, false, 1, true, false, 0, false, false, [false]⟩
    ⟨0, false, 0, false, true, 0, false, false, [false]⟩
    ⟨0, false, 0, false, false, 0, false, false, [false]⟩ rfl rfl rfl rfl
  ⟨h.1, h.2.2.2.2.1 (by decide) (by decide)⟩

end SlaveIf


/-! ## The single-dimension sliding-window buffer (`print_linebuffer1D`) -/

namespace LineBuffer1D

theorem flatten_getElem?_uniform (M : List (List Nat)) (m k : Nat) (hm : 0 < m)
    (h : ∀ e ∈ M, e.length = m) :
    M.flatten[k]? = (M.getD (k / m) [])[k % m]? := by
  induction M generalizing k with
  | nil => simp
  | cons e M ih =>
    have he : e.length = m := h e (List.mem_cons_self _ _)
    have hM : ∀ x ∈ M, x.length = m := fun x hx => h x (List.mem_cons_of_mem _ hx)
    rw [List.flatten_cons]
    by_cases hk : k < m
    · rw [List.getElem?_append_left (by omega), Nat.div_eq_of_lt hk, Nat.mod_eq_of_lt hk]
      rfl
    · have hk' : m ≤ k := by omega
      rw [List.getElem?_append_right (by omega), he, ih (k - m) hM,
        Nat.div_eq_sub_div hm hk', Nat.mod_eq_sub_mod hk']
      rfl

theorem getD_append_singleton (B : List (List Nat)) (x : List Nat) (q : Nat) :
    (B ++ [x]).getD q [] =
      if q < B.length then B.getD q [] else if q = B.length then x else [] := by
  simp only [List.getD_eq_getElem?_getD]
  by_cases h1 : q < B.length
  · rw [if_pos h1, List.getElem?_append_left h1]
  · rw [if_neg h1, List.getElem?_append_right (by omega)]
    by_cases h2 : q = B.length
    · rw [if_pos h2, h2]; simp
    · rw [if_neg h2]
      have : q - B.length = (q - B.length - 1) + 1 := by omega
      rw [this]; simp

/-- With `outEl[0] = (bufL0 + 1) * inEl[0]` the wire `outStencil` holds the
buffered elements followed by the input element, every entry connected. -/
theorem outStencil_eq (p : Params) (B : List (List Nat)) (col : Nat) (i : Ports)
    (hE : 0 < p.inEl0) (hout : p.outEl0 = (bufL0 p + 1) * p.inEl0)
    (hB : B.length = bufL0 p) (hBe : ∀ e ∈ B, e.length = p.inEl0)
    (hx : i.in_bits.length = p.inEl0) :
    outStencil p ⟨B, col⟩ i = ((B ++ [i.in_bits]).flatten).map some := by
  have hM : ∀ e ∈ B ++ [i.in_bits], e.length = p.inEl0 := by
    intro e he
    rcases List.mem_append.mp he with h | h
    · exact hBe e h
    · rw [List.mem_singleton.mp h]; exact hx
  apply List.ext_getElem?
  intro k
  rw [List.getElem?_map, flatten_getElem?_uniform _ p.inEl0 k hE hM, getD_append_singleton, hB]
  unfold outStencil
  rw [List.getElem?_map]
  by_cases hk : k < p.outEl0
  · rw [List.getElem?_range hk]
    have hq : k / p.inEl0 < bufL0 p + 1 := by
      rw [Nat.div_lt_iff_lt_mul hE, ← hout]; exact hk
    have hr : k % p.inEl0 < p.inEl0 := Nat.mod_lt _ hE
    simp only [Option.map_some']
    by_cases h1 : k / p.inEl0 < bufL0 p
    · rw [if_pos h1, if_pos h1]
      have hin : (B.getD (k / p.inEl0) []).length = p.inEl0 := by
        apply hBe
        rw [List.getD_eq_getElem?_getD, List.getElem?_eq_getElem (by omega)]
        exact List.getElem_mem _
      rw [List.getElem?_eq_getElem (by omega)]
      rfl
    · have h2 : k / p.inEl0 = bufL0 p := by omega
      rw [if_neg h1, if_pos h2, if_neg h1, if_pos h2]
      rw [List.getElem?_eq_getElem (by omega)]
      rfl
  · have h0 : (List.range p.outEl0)[k]? = none := by
      rw [List.getElem?_eq_none]; simp; omega
    rw [h0]
    have hq : ¬ k / p.inEl0 < bufL0 p + 1 := by
      rw [Nat.div_lt_iff_lt_mul hE, ← hout]; exact hk
    rw [if_neg (by omega), if_neg (by omega)]
    rfl

theorem shift_eq (B : List (List Nat)) (x : List Nat) (m : Nat) (hB : B.length = m)
    (hm : 1 ≤ m) :
    ((List.range m).map fun bi => if bi + 1 < m then B.getD (bi + 1) [] else x)
      = B.drop 1 ++ [x] := by
  apply List.ext_getElem?
  intro k
  rw [List.getElem?_map]
  by_cases hk : k < m
  · rw [List.getElem?_range hk]
    simp only [Option.map_some']
    by_cases hk1 : k + 1 < m
    · rw [if_pos hk1, List.getElem?_append_left (by rw [List.length_drop]; omega),
        List.getElem?_drop, List.getD_eq_getElem?_getD, Nat.add_comm 1 k,
        List.getElem?_eq_getElem (by omega)]
      rfl
    · rw [if_neg hk1, List.getElem?_append_right (by rw [List.length_drop]; omega),
        List.length_drop]
      have : k - (B.length - 1) = 0 := by omega
      rw [this]
      rfl
  · have h0 : (List.range m)[k]? = none := by
      rw [List.getElem?_eq_none]; simp; omega
    rw [h0, List.getElem?_eq_none (by simp [List.length_drop]; omega)]
    rfl

/-- The shape facts of the buffered module: with `outEl[0] = r * inEl[0]`,
`r ≥ 2`, the pass-through branch is not taken and `bufL0 = r - 1`. -/
theorem params_facts (p : Params) (r : Nat) (hE : 0 < p.inEl0) (hr : 2 ≤ r)
    (hout : p.outEl0 = r * p.inEl0) :
    p.inEl0 ≠ p.outEl0 ∧ bufL0 p = r - 1 := by
  constructor
  · rw [hout]
    intro h
    have : 2 * p.inEl0 ≤ r * p.inEl0 := Nat.mul_le_mul_right _ hr
    omega
  · unfold bufL0 ratio
    rw [hout, Nat.mul_div_cancel _ hE]
    simp

theorem succ_mod_eq (j n : Nat) (hn : 0 < n) :
    (j + 1) % n = if j % n = n - 1 then 0 else j % n + 1 := by
  have hlt := Nat.mod_lt j hn
  rw [Nat.add_mod]
  by_cases h1 : n = 1
  · subst h1; simp [Nat.mod_one]
  · have h2 : 1 % n = 1 := Nat.mod_eq_of_lt (by omega)
    rw [h2]
    by_cases hc : j % n = n - 1
    · rw [if_pos hc, hc]
      have : n - 1 + 1 = n := by omega
      rw [this, Nat.mod_self]
    · rw [if_neg hc, Nat.mod_eq_of_lt (by omega)]

theorem regsAfter_append (p : Params) (s : Regs) (pre : List Ports) (i : Ports) :
    regsAfter p s (pre ++ [i]) = step p (regsAfter p s pre) i := by
  simp [regsAfter, List.foldl_append]

theorem accepted_append (p : Params) (s : Regs) (pre : List Ports) (i : Ports) :
    accepted p s (pre ++ [i]) = accepted p s pre
      ++ (if i.in_valid && i.out_ready then [i.in_bits] else []) := by
  induction pre generalizing s with
  | nil => simp [accepted, regsAfter, in_ready]
  | cons x xs ih =>
    have hc : (x :: xs) ++ [i] = x :: (xs ++ [i]) := rfl
    rw [hc]
    simp only [accepted]
    rw [ih, List.append_assoc]

theorem transfers_append (p : Params) (s : Regs) (pre : List Ports) (i : Ports) :
    transfers p s (pre ++ [i]) = transfers p s pre
      ++ (transfer p (regsAfter p s pre) i).toList := by
  induction pre generalizing s with
  | nil => simp [transfers, regsAfter]
  | cons x xs ih =>
    have hc : (x :: xs) ++ [i] = x :: (xs ++ [i]) := rfl
    rw [hc]
    simp only [transfers]
    rw [ih, List.append_assoc]
    rfl

/-- The registers after any trace from reset: the buffer holds the last
`r - 1` elements of the initial contents followed by the accepted elements, and
`col` counts the accepted elements modulo the line length. -/
theorem regs_invariant (p : Params) (r : Nat) (buf0 : List (List Nat)) (pre : List Ports)
    (hE : 0 < p.inEl0) (hr : 2 ≤ r) (hout : p.outEl0 = r * p.inEl0)
    (hn : 0 < imgL0 p) (hw : imgL0 p ≤ log2Limit) (hbuf : buf0.length = r - 1) :
    (regsAfter p (reset buf0) pre).buffer
        = (buf0 ++ accepted p (reset buf0) pre).drop (accepted p (reset buf0) pre).length
      ∧ (regsAfter p (reset buf0) pre).col
          = (accepted p (reset buf0) pre).length % imgL0 p := by
  obtain ⟨hne, hbl⟩ := params_facts p r hE hr hout
  induction pre using List.reverseRecOn with
  | nil => simp [regsAfter, accepted, reset]
  | append_singleton pre i ih =>
    obtain ⟨ihb, ihc⟩ := ih
    rw [regsAfter_append, accepted_append]
    by_cases hacc : (i.in_valid && i.out_ready) = true
    · rw [if_pos hacc]
      unfold step
      rw [if_neg hne, if_pos hacc]
      simp only
      constructor
      · have e1 : ((buf0 ++ accepted p (reset buf0) pre).drop
              (accepted p (reset buf0) pre).length).drop 1
            = (buf0 ++ accepted p (reset buf0) pre).drop
                ((accepted p (reset buf0) pre).length + 1) := by
          rw [List.drop_drop]
        have e2 : (buf0 ++ (accepted p (reset buf0) pre ++ [i.in_bits])).drop
              ((accepted p (reset buf0) pre).length + 1)
            = (buf0 ++ accepted p (reset buf0) pre).drop
                ((accepted p (reset buf0) pre).length + 1) ++ [i.in_bits] := by
          rw [← List.append_assoc, List.drop_append_of_le_length]
          rw [List.length_append]; omega
        rw [hbl, shift_eq _ _ (r - 1) (by rw [ihb]; simp; omega) (by omega), ihb, e1,
          List.length_append, List.length_singleton, e2]
      · rw [ihc, List.length_append, List.length_singleton, succ_mod_eq _ _ hn]
        by_cases hc : (accepted p (reset buf0) pre).length % imgL0 p = imgL0 p - 1
        · rw [if_pos hc, if_pos hc]
        · rw [if_neg hc, if_neg hc]
          unfold tail1 nBit_imgL0
          have h1 := le_pow_ceilLog2 (imgL0 p) hw
          have h2 := Nat.mod_lt (accepted p (reset buf0) pre).length hn
          exact Nat.mod_eq_of_lt (by omega)
    · rw [if_neg hacc]
      unfold step
      rw [if_neg hne, if_neg hacc]
      simpa using ⟨ihb, ihc⟩

/-- What the module hands downstream in the cycle after any trace from reset:
a window exactly when an element is accepted and `col ≥ r - 1`, made of the
last `r - 1` accepted elements followed by the current one. -/
theorem transfer_eq (p : Params) (r : Nat) (buf0 : List (List Nat)) (pre : List Ports)
    (i : Ports) (hE : 0 < p.inEl0) (hr : 2 ≤ r) (hout : p.outEl0 = r * p.inEl0)
    (hn : 0 < imgL0 p) (hw : imgL0 p ≤ log2Limit) (hbuf : buf0.length = r - 1)
    (hlen : ∀ e ∈ accepted p (reset buf0) pre, e.length = p.inEl0)
    (hx : (i.in_valid && i.out_ready) = true → i.in_bits.length = p.inEl0) :
    transfer p (regsAfter p (reset buf0) pre) i =
      if (i.in_valid && i.out_ready
          && decide (r - 1 ≤ (accepted p (reset buf0) pre).length % imgL0 p)) = true then
        some ((((accepted p (reset buf0) pre) ++ [i.in_bits]).drop
          ((accepted p (reset buf0) pre).length + 1 - r)).flatten.map some)
      else none := by
  obtain ⟨hne, hbl⟩ := params_facts p r hE hr hout
  obtain ⟨hb, hc⟩ := regs_invariant p r buf0 pre hE hr hout hn hw hbuf
  generalize hs : regsAfter p (reset buf0) pre = s at hb hc
  generalize hh : accepted p (reset buf0) pre = hist at hb hc hlen
  obtain ⟨B, col⟩ := s
  simp only at hb hc
  subst hc
  unfold transfer out_valid out_bits
  rw [if_neg hne, if_neg hne, hbl]
  by_cases hcond : (i.in_valid && i.out_ready && decide (r - 1 ≤ hist.length % imgL0 p)) = true
  · rw [if_pos hcond]
    simp only [Bool.and_eq_true, decide_eq_true_eq] at hcond
    obtain ⟨⟨hv, hrdy⟩, hcol⟩ := hcond
    have hj : r - 1 ≤ hist.length := le_trans hcol (Nat.mod_le _ _)
    have hB : B = hist.drop (hist.length + 1 - r) := by
      rw [hb, List.drop_append_eq_append_drop, List.drop_eq_nil_of_le (by omega), hbuf,
        List.nil_append]
      congr 1
      omega
    have hBlen : B.length = bufL0 p := by
      rw [hB, List.length_drop, hbl]; omega
    have hBe : ∀ e ∈ B, e.length = p.inEl0 := by
      intro e he
      rw [hB] at he
      exact hlen e (List.mem_of_mem_drop he)
    have hout2 : p.outEl0 = (bufL0 p + 1) * p.inEl0 := by
      rw [hout, hbl]
      congr 1
      omega
    have hst := outStencil_eq p B (hist.length % imgL0 p) i hE hout2 hBlen hBe
      (hx (by simp [hv, hrdy]))
    simp only [hv, hrdy, hcol, decide_True, Bool.and_self, if_true]
    rw [hst, hB, List.drop_append_of_le_length (by omega)]
  · rw [if_neg hcond]
    simp only [Bool.and_eq_true, decide_eq_true_eq, not_and] at hcond
    cases hv : i.in_valid <;> cases hrdy : i.out_ready <;> simp
    have := hcond ⟨hv, hrdy⟩
    omega

/-- The windows handed downstream over a trace that feeds at most one scan
line: one window per accepted element from the `r`-th on, window `k` being the
concatenation of the accepted elements `k .. k + r - 1`. -/
theorem transfers_one_line (p : Params) (r : Nat) (buf0 : List (List Nat))
    (is : List Ports) (hE : 0 < p.inEl0) (hr : 2 ≤ r) (hout : p.outEl0 = r * p.inEl0)
    (hn : r ≤ imgL0 p) (hw : imgL0 p ≤ log2Limit) (hbuf : buf0.length = r - 1)
    (hlen : ∀ e ∈ accepted p (reset buf0) is, e.length = p.inEl0)
    (hle : (accepted p (reset buf0) is).length ≤ imgL0 p) :
    transfers p (reset buf0) is
      = (List.range ((accepted p (reset buf0) is).length + 1 - r)).map fun k =>
          (((accepted p (reset buf0) is).drop k).take r).flatten.map some := by
  induction is using List.reverseRecOn with
  | nil =>
    have : 0 + 1 - r = 0 := by omega
    simp [transfers, accepted, this]
  | append_singleton pre i ih =>
    rw [transfers_append]
    rw [accepted_append] at hlen hle ⊢
    by_cases hacc : (i.in_valid && i.out_ready) = true
    · rw [if_pos hacc] at hlen hle ⊢
      have hlen' : ∀ e ∈ accepted p (reset buf0) pre, e.length = p.inEl0 :=
        fun e he => hlen e (List.mem_append_left _ he)
      have hx : i.in_bits.length = p.inEl0 := hlen _ (by simp)
      have hle' : (accepted p (reset buf0) pre).length + 1 ≤ imgL0 p := by
        simpa using hle
      rw [ih hlen' (by omega),
        transfer_eq p r buf0 pre i hE hr hout (by omega) hw hbuf hlen' (fun _ => hx),
        Nat.mod_eq_of_lt (by omega), List.length_append, List.length_singleton]
      by_cases hj : r - 1 ≤ (accepted p (reset buf0) pre).length
      · have hc : (i.in_valid && i.out_ready
            && decide (r - 1 ≤ (accepted p (reset buf0) pre).length)) = true := by
          simp [hacc, hj]
        have hsucc : (accepted p (reset buf0) pre).length + 1 + 1 - r
            = ((accepted p (reset buf0) pre).length + 1 - r) + 1 := by omega
        rw [if_pos hc, hsucc, List.range_succ, List.map_append, List.map_singleton]
        simp only [Option.toList]
        congr 1
        · apply List.map_congr_left
          intro k hk
          rw [List.mem_range] at hk
          rw [List.drop_append_of_le_length (by omega),
            List.take_append_of_le_length (by rw [List.length_drop]; omega)]
        · rw [List.take_of_length_le (by
            rw [List.length_drop, List.length_append, List.length_singleton]; omega)]
      · have hc : ¬ (i.in_valid && i.out_ready
            && decide (r - 1 ≤ (accepted p (reset buf0) pre).length)) = true := by
          simp [hacc, hj]
        have h0 : (accepted p (reset buf0) pre).length + 1 - r = 0 := by omega
        have h1 : (accepted p (reset buf0) pre).length + 1 + 1 - r = 0 := by omega
        rw [if_neg hc, h0, h1]
        rfl
    · rw [if_neg hacc] at hlen hle ⊢
      rw [List.append_nil] at hlen hle ⊢
      rw [ih hlen hle,
        transfer_eq p r buf0 pre i hE hr hout (by omega) hw hbuf hlen
          (fun h => absurd h hacc)]
      have hc : ¬ (i.in_valid && i.out_ready
          && decide (r - 1 ≤ (accepted p (reset buf0) pre).length % imgL0 p)) = true := by
        intro h
        rw [Bool.and_eq_true] at h
        exact hacc h.1
      rw [if_neg hc]
      simp

/-- C5, for lines of at most `log2Limit` elements: with `outEl[0] = r * inEl[0]`,
`r ≥ 2`, and `n = L[0]/inEl[0] ≥ r`, in the cycle reached from reset after `j < n` elements of a scan line were
accepted, a window is handed downstream exactly when the element `e_j` is
accepted and `j ≥ r - 1`; it is the concatenation `e_{j-r+1}, ..., e_j`, has
`outEl[0]` entries, and entry `s * inEl[0] + t` is entry `t` of `e_{j-r+1+s}`.
For `L = 8`, `inEl = 1`, `outEl = 3` a scan line `a 0 .. a 7` yields exactly
the 6 windows `[a k, a (k+1), a (k+2)]`, `k = 0 .. 5`. -/
theorem linebuffer1D_full_windows (p : Params) (r : Nat) (buf0 : List (List Nat))
    (pre : List Ports) (i : Ports)
    (hE : 0 < p.inEl0) (hr : 2 ≤ r) (hout : p.outEl0 = r * p.inEl0)
    (_hn : r ≤ imgL0 p) (hw : imgL0 p ≤ log2Limit) (hbuf : buf0.length = r - 1)
    (hlen : ∀ e ∈ accepted p (reset buf0) pre, e.length = p.inEl0)
    (hx : i.in_bits.length = p.inEl0)
    (hj : (accepted p (reset buf0) pre).length < imgL0 p) :
    transfer p (regsAfter p (reset buf0) pre) i =
        (if (i.in_valid && i.out_ready
            && decide (r - 1 ≤ (accepted p (reset buf0) pre).length)) = true then
          some ((((accepted p (reset buf0) pre) ++ [i.in_bits]).drop
            ((accepted p (reset buf0) pre).length + 1 - r)).flatten.map some)
        else none)
      ∧ (∀ w, transfer p (regsAfter p (reset buf0) pre) i = some w →
          w.length = p.outEl0 ∧
          ∀ s t, s < r → t < p.inEl0 →
            w[s * p.inEl0 + t]? =
              some ((((accepted p (reset buf0) pre) ++ [i.in_bits]).getD
                ((accepted p (reset buf0) pre).length + 1 - r + s) [])[t]?))
      ∧ (∀ (a : Nat → Nat) (b0 : List (List Nat)) (is : List Ports), b0.length = 2 →
          accepted ⟨8, 1, 3⟩ (reset b0) is = (List.range 8).map (fun k => [a k]) →
          transfers ⟨8, 1, 3⟩ (reset b0) is
            = (List.range 6).map fun k => [some (a k), some (a (k + 1)), some (a (k + 2))]) := by
  have h1 := transfer_eq p r buf0 pre i hE hr hout (by omega) hw hbuf hlen (fun _ => hx)
  rw [Nat.mod_eq_of_lt hj] at h1
  refine ⟨h1, ?_, ?_⟩
  · intro w hw
    rw [h1] at hw
    split at hw
    · rename_i hc
      simp only [Bool.and_eq_true, decide_eq_true_eq] at hc
      obtain ⟨_, hjr⟩ := hc
      simp only [Option.some.injEq] at hw
      subst hw
      have hM : ∀ e ∈ ((accepted p (reset buf0) pre) ++ [i.in_bits]).drop
          ((accepted p (reset buf0) pre).length + 1 - r), e.length = p.inEl0 := by
        intro e he
        rcases List.mem_append.mp (List.mem_of_mem_drop he) with h | h
        · exact hlen e h
        · rw [List.mem_singleton.mp h]; exact hx
      constructor
      · rw [List.length_map, List.length_flatten, List.map_congr_left hM, hout]
        simp only [List.map_const', List.sum_replicate, List.length_drop, List.length_append,
          List.length_singleton, smul_eq_mul]
        congr 1
        omega
      · intro s t hs ht
        have hq : (s * p.inEl0 + t) / p.inEl0 = s := by
          rw [Nat.add_comm, Nat.add_mul_div_right _ _ hE, Nat.div_eq_of_lt ht, Nat.zero_add]
        have hm : (s * p.inEl0 + t) % p.inEl0 = t := by
          rw [Nat.add_comm, Nat.add_mul_mod_self_right, Nat.mod_eq_of_lt ht]
        have hidx : (accepted p (reset buf0) pre).length + 1 - r + s
            < (accepted p (reset buf0) pre ++ [i.in_bits]).length := by
          rw [List.length_append, List.length_singleton]; omega
        have hL : ((accepted p (reset buf0) pre ++ [i.in_bits]).getD
            ((accepted p (reset buf0) pre).length + 1 - r + s) []).length = p.inEl0 := by
          rw [List.getD_eq_getElem?_getD, List.getElem?_eq_getElem hidx, Option.getD_some]
          rcases List.mem_append.mp (List.getElem_mem hidx) with h | h
          · exact hlen _ h
          · rw [List.mem_singleton.mp h]; exact hx
        rw [List.getElem?_map, flatten_getElem?_uniform _ p.inEl0 _ hE hM, hq, hm]
        have hD : (List.drop ((accepted p (reset buf0) pre).length + 1 - r)
              (accepted p (reset buf0) pre ++ [i.in_bits])).getD s []
            = (accepted p (reset buf0) pre ++ [i.in_bits]).getD
                ((accepted p (reset buf0) pre).length + 1 - r + s) [] := by
          simp only [List.getD_eq_getElem?_getD, List.getElem?_drop]
        rw [hD, List.getElem?_eq_getElem (by rw [hL]; exact ht)]
        rfl
    · cases hw
  · intro a b0 is hb0 hacc
    have h := transfers_one_line ⟨8, 1, 3⟩ 3 b0 is (by decide) (by decide) (by decide)
      (by decide) (by decide) hb0 (by rw [hacc]; simp) (by rw [hacc]; simp [imgL0])
    rw [h, hacc]
    simp [List.range_succ]

theorem linebuffer1D_full_windows_witness :
    transfer ⟨8, 1, 3⟩
        (regsAfter ⟨8, 1, 3⟩ (reset [[0], [0]]) [⟨true, [10], true⟩, ⟨true, [11], true⟩])
        ⟨true, [12], true⟩
      = some [some 10, some 11, some 12] :=
  (linebuffer1D_full_windows ⟨8, 1, 3⟩ 3 [[0], [0]]
    [⟨true, [10], true⟩, ⟨true, [11], true⟩] ⟨true, [12], true⟩
    (by decide) (by decide) (by decide) (by decide) (by decide) (by decide) (by decide)
    (by decide) (by decide)).1.trans (by decide)

end LineBuffer1D

/-! ## Expression lowering -/

namespace Lower

theorem toS_emod (w : Nat) (x : Int) : toS w (x % 2 ^ w) = toS w x := by
  unfold toS
  rw [Int.emod_emod_of_dvd x (dvd_refl _)]

theorem toU_emod (w : Nat) (x : Int) : toU w (x % 2 ^ w) = toU w x := by
  unfold toU
  rw [Int.emod_emod_of_dvd x (dvd_refl _)]

theorem readAs_emod (s : Bool) (w : Nat) (x : Int) : readAs s w (x % 2 ^ w) = readAs s w x := by
  unfold readAs
  rw [toS_emod, toU_emod]

theorem toU_of_range (w : Nat) (x : Int) (h0 : 0 ≤ x) (h1 : x < 2 ^ w) : toU w x = x :=
  Int.emod_eq_of_lt h0 h1

theorem toS_of_nonneg (w : Nat) (x : Int) (h0 : 0 ≤ x) (h1 : 2 * x < 2 ^ w) : toS w x = x := by
  unfold toS
  have hx : x % 2 ^ w = x := Int.emod_eq_of_lt h0 (by omega)
  rw [hx, if_neg (by omega)]

theorem toS_of_neg (w : Nat) (x : Int) (h0 : x < 0) (h1 : 2 ^ w ≤ 2 * x + 2 * 2 ^ w) :
    toS w x = x := by
  unfold toS
  have hx : x % 2 ^ w = x + 2 ^ w := by
    have h2 : (x + 2 ^ w) % 2 ^ w = x + 2 ^ w := Int.emod_eq_of_lt (by omega) (by omega)
    rw [← h2, Int.add_emod_self]
  rw [hx, if_pos (by omega)]
  omega

theorem toS_of_range (w : Nat) (x : Int) (h0 : -(2 ^ w) ≤ 2 * x) (h1 : 2 * x < 2 ^ w) :
    toS w x = x := by
  by_cases hx : 0 ≤ x
  · exact toS_of_nonneg w x hx h1
  · exact toS_of_neg w x (by omega) (by omega)

theorem pow_dvd_pow_succ (w : Nat) : (2 : Int) ^ w ∣ 2 ^ (w + 1) :=
  ⟨2, by rw [pow_succ]⟩

theorem readAs_succ_emod (s : Bool) (w : Nat) (x : Int) :
    readAs s (w + 1) x % 2 ^ w = x % 2 ^ w := by
  unfold readAs toS toU
  have h1 : x % 2 ^ (w + 1) % 2 ^ w = x % 2 ^ w :=
    Int.emod_emod_of_dvd x (pow_dvd_pow_succ w)
  have h2 : (x % 2 ^ (w + 1) - 2 ^ (w + 1)) % 2 ^ w = x % 2 ^ w := by
    obtain ⟨c, hc⟩ := pow_dvd_pow_succ w
    have h3 : x % 2 ^ (w + 1) - 2 ^ (w + 1) = x % 2 ^ (w + 1) + 2 ^ w * (-c) := by
      rw [hc]; ring
    rw [h3, Int.add_mul_emod_self_left, h1]
  cases s
  · simpa using h1
  · simp only [if_true]
    split
    · exact h2
    · exact h1

theorem render_addExpr (t : HType) (a b : FExpr) :
    render (addExpr t a b) = visitAdd_rhs t (render a) (render b) := by
  have h1 : toString (1 : Nat) = "1" := rfl
  have h0 : toString (0 : Nat) = "0" := rfl
  unfold addExpr visitAdd_rhs
  cases t.is_int <;> apply String.ext <;> simp [render, h1, h0, String.data_append]

theorem render_subExpr (t : HType) (a b : FExpr) :
    render (subExpr t a b) = visitSub_rhs t (render a) (render b) := by
  have h1 : toString (1 : Nat) = "1" := rfl
  have h0 : toString (0 : Nat) = "0" := rfl
  unfold subExpr visitSub_rhs
  cases t.is_int <;> apply String.ext <;> simp [render, h1, h0, String.data_append]

theorem render_mulExpr (t : HType) (a b : FExpr) :
    render (mulExpr t a b) = visitMul_rhs t (render a) (render b) := by
  have h1 : toString (1 : Nat) = "1" := rfl
  have h0 : toString (0 : Nat) = "0" := rfl
  unfold mulExpr visitMul_rhs
  cases t.is_int <;> apply String.ext <;> simp [render, h1, h0, String.data_append]

/-- C18: for an integer type of `w ≥ 1` bits and operands of that type, the
texts built by `visit(Add)`, `visit(Sub)` and `visit(Mul)` are the texts of
`tail(add(a,b),1)`, `tail(sub(a,b),1)` and `bits(mul(a,b), w-1, 0)`, wrapped in
`asSInt` exactly when the type is signed, and the value of each expression is
the wrap-around result `(a op b) mod 2^w` read in the type's signedness, with
the type's width and signedness. -/
theorem arith_wraps (t : HType) (env : String → Val) (a b : FExpr) (va vb : Int)
    (hw : 1 ≤ t.bits)
    (ha : eval env a = ⟨t.is_int, t.bits, va⟩) (hb : eval env b = ⟨t.is_int, t.bits, vb⟩) :
    (visitAdd_rhs t (render a) (render b)
        = render (if t.is_int then .asSInt (.tail (.add a b) 1) else .tail (.add a b) 1)
      ∧ visitSub_rhs t (render a) (render b)
        = render (if t.is_int then .asSInt (.tail (.sub a b) 1) else .tail (.sub a b) 1)
      ∧ visitMul_rhs t (render a) (render b)
        = render (if t.is_int then .asSInt (.bits (.mul a b) (t.bits - 1) 0)
            else .bits (.mul a b) (t.bits - 1) 0))
    ∧ eval env (addExpr t a b) = ⟨t.is_int, t.bits, readAs t.is_int t.bits (va + vb)⟩
    ∧ eval env (subExpr t a b) = ⟨t.is_int, t.bits, readAs t.is_int t.bits (va - vb)⟩
    ∧ eval env (mulExpr t a b) = ⟨t.is_int, t.bits, readAs t.is_int t.bits (va * vb)⟩ := by
  refine ⟨⟨(render_addExpr t a b).symm, (render_subExpr t a b).symm,
    (render_mulExpr t a b).symm⟩, ?_, ?_, ?_⟩
  · unfold addExpr
    cases hs : t.is_int
    · simp [eval, ha, hb, hs, readAs, toU]
    · simp [eval, ha, hb, hs, readAs, toS_emod]
  · unfold subExpr
    cases hs : t.is_int
    · simp only [eval, ha, hb, hs, max_self, Nat.add_sub_cancel, Bool.false_eq_true, if_false]
      rw [readAs_succ_emod]
      rfl
    · simp only [eval, ha, hb, hs, max_self, Nat.add_sub_cancel, if_true]
      rw [readAs_succ_emod, toS_emod]
      rfl
  · unfold mulExpr
    have hwid : t.bits - 1 - 0 + 1 = t.bits := by omega
    cases hs : t.is_int
    · simp only [eval, ha, hb, hs, hwid, Bool.false_eq_true, if_false, pow_zero, Int.ediv_one]
      rfl
    · simp only [eval, ha, hb, hs, hwid, if_true, pow_zero, Int.ediv_one]
      rw [toS_emod]
      rfl

theorem arith_wraps_witness :
    eval (fun _ => ⟨true, 8, 100⟩) (addExpr ⟨true, 8⟩ (.ref "x") (.ref "y"))
      = ⟨true, 8, readAs true 8 (100 + 100)⟩ :=
  (arith_wraps ⟨true, 8⟩ (fun _ => ⟨true, 8, 100⟩) (.ref "x") (.ref "y") 100 100
    (by decide) rfl rfl).2.1

theorem render_castExpr (t : HType) (rhs_bits : Nat) (e : FExpr) :
    render (castExpr t rhs_bits e) = visitCast_rhs t rhs_bits (render e) := by
  have h0 : toString (0 : Nat) = "0" := rfl
  unfold castExpr visitCast_rhs
  split
  · cases t.is_int <;> simp [render]
  · split
    · simp [render]
    · cases t.is_int <;> apply String.ext <;> simp [render, h0, String.data_append]

theorem readAs_of_inRange (v : Val) (w : Nat) (h : v.inRange) (hw : v.width ≤ w) :
    readAs v.signed w v.val = v.val := by
  unfold Val.inRange at h
  unfold readAs
  cases hs : v.signed
  · rw [hs] at h
    simp only [Bool.false_eq_true, if_false] at h ⊢
    have hp : (2 : Int) ^ v.width ≤ 2 ^ w := pow_le_pow_right₀ (by norm_num) hw
    exact toU_of_range w v.val h.1 (by omega)
  · rw [hs] at h
    simp only [if_true] at h ⊢
    obtain ⟨h1, h2, h3⟩ := h
    have hp : (2 : Int) ^ v.width ≤ 2 ^ w := pow_le_pow_right₀ (by norm_num) hw
    have hq : (2 : Int) ^ v.width = 2 * 2 ^ (v.width - 1) := by
      rw [← pow_succ']
      congr 1
      omega
    exact toS_of_range w v.val (by omega) (by omega)

/-- The cast lowering is the C-like conversion whenever the destination is not
wider than the source or has the source's signedness. -/
theorem cast_value_ok (t : HType) (env : String → Val) (e : FExpr) (hw : 1 ≤ t.bits)
    (hr : (eval env e).inRange)
    (hcase : t.bits ≤ (eval env e).width ∨ (eval env e).signed = t.is_int) :
    eval env (castExpr t (eval env e).width e)
      = ⟨t.is_int, t.bits, specConvert t (eval env e).val⟩ := by
  unfold castExpr specConvert
  by_cases h1 : t.bits = (eval env e).width
  · rw [if_pos h1]
    cases hs : t.is_int <;> simp [eval, readAs, h1]
  · rw [if_neg h1]
    by_cases h2 : t.bits > (eval env e).width
    · rw [if_pos h2]
      have hsg : (eval env e).signed = t.is_int := by
        rcases hcase with h | h
        · omega
        · exact h
      simp only [eval]
      rw [← hsg, readAs_of_inRange _ _ hr (by omega), max_eq_right (by omega)]
    · rw [if_neg h2]
      have hwid : t.bits - 1 - 0 + 1 = t.bits := by omega
      cases hs : t.is_int
      · simp only [eval, hwid, Bool.false_eq_true, if_false, pow_zero, Int.ediv_one, readAs]
        rfl
      · simp only [eval, hwid, if_true, pow_zero, Int.ediv_one, readAs]
        rw [toS_emod]

/-- C17 (failing input): the cast of the `Int(8)` value `-1` to `UInt(16)`.  The
emitted text is `pad(x, 16)`, an `SInt<16>` of value `-1`; the C-like
conversion is the `UInt<16>` of value `65535`. -/
theorem cast_widening_keeps_source_sign :
    visitCast_rhs ⟨false, 16⟩ 8 "x" = "pad(x, 16)"
      ∧ render (castExpr ⟨false, 16⟩ 8 (.ref "x")) = "pad(x, 16)"
      ∧ eval (fun _ => ⟨true, 8, -1⟩) (castExpr ⟨false, 16⟩ 8 (.ref "x")) = ⟨true, 16, -1⟩
      ∧ specConvert ⟨false, 16⟩ (-1) = 65535
      ∧ eval (fun _ => ⟨true, 8, -1⟩) (castExpr ⟨false, 16⟩ 8 (.ref "x"))
          ≠ ⟨false, 16, specConvert ⟨false, 16⟩ (-1)⟩ := by
  decide

theorem wrapInt_of_range (x : Int) (h0 : -(2 ^ 31) ≤ x) (h1 : x < 2 ^ 31) : wrapInt x = x := by
  unfold wrapInt
  exact toS_of_range 32 x (by omega) (by omega)

/-- For `bits ≤ 31` the C++ `int` expression `((1 << bits)-1)` is `2 ^ bits - 1`. -/
theorem modMask_eq (bits : Nat) (h : bits ≤ 31) : modMask bits = 2 ^ bits - 1 := by
  unfold modMask shiftOne
  rw [Nat.mod_eq_of_lt (show bits < 32 by omega)]
  rw [Nat.le_iff_lt_or_eq] at h
  rcases h with h | h
  · have hp : (2 : Int) ^ bits ≤ 2 ^ 30 := pow_le_pow_right₀ (by norm_num) (by omega)
    have hpos : (0 : Int) < 2 ^ bits := by positivity
    have h1 : wrapInt (2 ^ bits) = 2 ^ bits := wrapInt_of_range _ (by omega) (by omega)
    rw [h1, wrapInt_of_range _ (by omega) (by omega)]
  · subst h
    decide

/-- A C++ `int` is below `2 ^ 31`: none equals the mask `2 ^ 32 - 1`. -/
theorem wrapInt_lt (s : Int) : wrapInt s < 2 ^ 31 := by
  unfold wrapInt toS
  have h1 := Int.emod_lt_of_pos s (show (0 : Int) < 2 ^ 32 by norm_num)
  split <;> omega

theorem bitAnd_mask (w k : Nat) (x : Int) (hk : k ≤ w) :
    bitAnd w x (2 ^ k - 1) = x % 2 ^ k := by
  unfold bitAnd
  have hp : (2 : Int) ^ k ≤ 2 ^ w := pow_le_pow_right₀ (by norm_num) hk
  have hpos : (0 : Int) < 2 ^ k := by positivity
  have hm : ((2 : Int) ^ k - 1) % 2 ^ w = 2 ^ k - 1 := Int.emod_eq_of_lt (by omega) (by omega)
  have hn : ((2 : Int) ^ k - 1).toNat = 2 ^ k - 1 := by
    have : ((2 : Int) ^ k - 1) = ((2 ^ k - 1 : Nat) : Int) := by
      have h1 : 1 ≤ 2 ^ k := Nat.one_le_two_pow
      rw [Nat.cast_sub h1]
      simp
    rw [this, Int.toNat_ofNat]
  rw [hm, hn, Nat.and_pow_two_sub_one_eq_mod, Int.ofNat_emod,
    Int.toNat_of_nonneg (Int.emod_nonneg _ (by positivity))]
  have hd : (2 : Int) ^ k ∣ 2 ^ w := pow_dvd_pow 2 hk
  simp only [Nat.cast_pow, Nat.cast_ofNat]
  exact Int.emod_emod_of_dvd x hd

/-- For a power-of-two divisor `2 ^ k` with `k ≤ 31` and `k < w` the shift and
the mask compute the Euclidean quotient and remainder. -/
theorem div_mod_pow2_ok (t : HType) (env : String → Val) (a : FExpr) (k : Nat) (va : Int)
    (hk : k ≤ 31) (hkw : k < t.bits) (ha : eval env a = ⟨t.is_int, t.bits, va⟩) :
    visitDiv t (some k) (render a) "b" = .rhs (render (.shr a k))
      ∧ visitMod t (some k) (render a) "b"
          = .rhs (render (if t.is_int then .asSInt (.and a (.ulit t.bits (2 ^ k - 1)))
              else .and a (.ulit t.bits (2 ^ k - 1))))
      ∧ (eval env (divExpr k a)).val = va / 2 ^ k
      ∧ (eval env (divExpr k a)).signed = t.is_int
      ∧ eval env (modExpr t k a) = ⟨t.is_int, t.bits, va % 2 ^ k⟩
      ∧ 0 ≤ va % 2 ^ k ∧ va % 2 ^ k < 2 ^ k := by
  have hpos : (0 : Int) < 2 ^ k := by positivity
  refine ⟨?_, ?_, ?_, ?_, ?_, Int.emod_nonneg _ (by omega), Int.emod_lt_of_pos _ hpos⟩
  · simp [visitDiv, render]
  · unfold visitMod
    simp only [modMask_eq k hk]
    cases t.is_int <;> simp only [Lowering.rhs.injEq] <;> apply String.ext <;>
      simp [render, String.data_append]
  · simp [divExpr, eval, ha]
  · simp [divExpr, eval, ha]
  · unfold modExpr
    rw [modMask_eq k hk]
    cases hs : t.is_int
    · simp only [eval, ha, hs, max_self, Bool.false_eq_true, if_false]
      rw [bitAnd_mask _ _ _ (by omega)]
    · simp only [eval, ha, hs, max_self, if_true]
      rw [bitAnd_mask _ _ _ (by omega)]
      have hp : (2 : Int) ^ (k + 1) ≤ 2 ^ t.bits := pow_le_pow_right₀ (by norm_num) (by omega)
      have hq : (2 : Int) ^ (k + 1) = 2 * 2 ^ k := by rw [pow_succ']
      have h1 := Int.emod_nonneg va (show (2 : Int) ^ k ≠ 0 by omega)
      have h2 := Int.emod_lt_of_pos va hpos
      rw [toS_of_nonneg _ _ h1 (by omega)]

/-- C19 (failing input): `x % 4294967296` on a `UInt(64)` operand.  The mask is
computed as the C++ `int` expression `((1 << bits)-1)`: whatever the shift
yields, an `int` is not `2 ^ 32 - 1`; with `1 << 32` evaluated to 1 the mask is
0 and the emitted text is `and(a, UInt<64>(0))`, not
`and(a, UInt<64>(4294967295))`, and the value of the emitted expression at
`a = 2 ^ 32 + 5` is 0, not the remainder 5. -/
theorem mod_mask_overflows_int :
    (∀ s : Int, wrapInt (s - 1) ≠ 2 ^ 32 - 1)
      ∧ modMask 32 = 0
      ∧ visitMod ⟨false, 64⟩ (some 32) "a" "b" = .rhs "and(a, UInt<64>(0))"
      ∧ visitMod ⟨false, 64⟩ (some 32) "a" "b"
          ≠ .rhs (render (.and (.ref "a") (.ulit 64 (2 ^ 32 - 1))))
      ∧ (eval (fun _ => ⟨false, 64, 2 ^ 32 + 5⟩) (modExpr ⟨false, 64⟩ 32 (.ref "a"))).val = 0
      ∧ ((2 : Int) ^ 32 + 5) % 2 ^ 32 = 5 := by
  refine ⟨fun s hs => ?_, by decide, by decide, by decide, by decide, by decide⟩
  have h := wrapInt_lt (s - 1)
  rw [hs] at h
  norm_num at h

end Lower

/-! ## `print_assignment` -/

namespace Assign

theorem cacheFind_cacheSet_same (cache : List (String × String)) (rhs id : String) :
    cacheFind (cacheSet cache rhs id) rhs = some id := by
  simp [cacheFind, cacheSet]

theorem cacheFind_cacheSet_other (cache : List (String × String)) (rhs id k : String)
    (h : k ≠ rhs) : cacheFind (cacheSet cache rhs id) k = cacheFind cache k := by
  unfold cacheFind cacheSet
  have h1 : ((rhs, id).1 == k) = false := by
    simp only [beq_eq_false_iff_ne]
    exact fun hc => h hc.symm
  rw [List.find?_cons, h1]
  congr 1
  induction cache with
  | nil => rfl
  | cons p ps ih =>
    by_cases hp : p.1 = rhs
    · have hf : (p.1 != rhs) = false := by simp [hp]
      have hk : (p.1 == k) = false := by
        simp only [beq_eq_false_iff_ne]
        rw [hp]
        exact fun hc => h hc.symm
      rw [List.filter_cons, hf, List.find?_cons, hk]
      exact ih
    · have hf : (p.1 != rhs) = true := by simp [hp]
      rw [List.filter_cons, hf]
      simp only [if_true, List.find?_cons]
      cases (p.1 == k)
      · exact ih
      · rfl

/-- After any call the cache maps `rhs` to the returned name. -/
theorem cache_maps_rhs (un : Nat → String) (g : Gen) (t : Lower.HType) (rhs : String) :
    cacheFind (print_assignment un g t rhs).2.cache rhs
      = some (print_assignment un g t rhs).1 := by
  unfold print_assignment
  cases h : cacheFind g.cache rhs with
  | none =>
    cases g.current_fb <;> exact cacheFind_cacheSet_same _ _ _
  | some c => exact h

/-- A call on a cached right-hand side returns the cached name and emits
nothing. -/
theorem cache_hit (un : Nat → String) (g : Gen) (t : Lower.HType) (rhs id : String)
    (h : cacheFind g.cache rhs = some id) :
    (print_assignment un g t rhs).1 = id
      ∧ (print_assignment un g t rhs).2.current_fb = g.current_fb
      ∧ (print_assignment un g t rhs).2.top_wires = g.top_wires
      ∧ (print_assignment un g t rhs).2.top_connects = g.top_connects
      ∧ (print_assignment un g t rhs).2.cache = g.cache := by
  unfold print_assignment
  rw [h]
  exact ⟨rfl, rfl, rfl, rfl, rfl⟩

/-- No action removes or changes a cache entry. -/
theorem act_keeps_entries (un : Nat → String) (g : Gen) (a : Action) (k v : String)
    (h : cacheFind g.cache k = some v) : cacheFind (act un g a).cache k = some v := by
  cases a with
  | edit fb ws cs => exact h
  | assign t rhs =>
    show cacheFind (print_assignment un g t rhs).2.cache k = some v
    cases hf : cacheFind g.cache rhs with
    | some c =>
      rw [(cache_hit un g t rhs c hf).2.2.2.2]
      exact h
    | none =>
      have hne : k ≠ rhs := by
        intro hc
        rw [hc, hf] at h
        cases h
      have hc : (print_assignment un g t rhs).2.cache
          = cacheSet g.cache rhs (un g.counter) := by
        unfold print_assignment
        rw [hf]
        cases g.current_fb <;> rfl
      rw [hc, cacheFind_cacheSet_other _ _ _ _ hne]
      exact h

theorem acts_keep_entries (un : Nat → String) (g : Gen) (as : List Action) (k v : String)
    (h : cacheFind g.cache k = some v) : cacheFind (acts un g as).cache k = some v := by
  induction as generalizing g with
  | nil => exact h
  | cons a as ih => exact ih (act un g a) (act_keeps_entries un g a k v h)

/-- C20: a second `print_assignment` call on the same right-hand side, after
any actions that do not clear the cache, returns the name of the first call and
adds no node, wire or connect; after any call the cache maps the right-hand
side to the returned name. -/
theorem print_assignment_reuses_name (un : Nat → String) (g : Gen) (t t2 : Lower.HType)
    (rhs : String) (between : List Action) :
    (print_assignment un (acts un (print_assignment un g t rhs).2 between) t2 rhs).1
        = (print_assignment un g t rhs).1
      ∧ (print_assignment un (acts un (print_assignment un g t rhs).2 between) t2 rhs).2.current_fb
        = (acts un (print_assignment un g t rhs).2 between).current_fb
      ∧ (print_assignment un (acts un (print_assignment un g t rhs).2 between) t2 rhs).2.top_wires
        = (acts un (print_assignment un g t rhs).2 between).top_wires
      ∧ (print_assignment un (acts un (print_assignment un g t rhs).2 between) t2 rhs).2.top_connects
        = (acts un (print_assignment un g t rhs).2 between).top_connects
      ∧ cacheFind (print_assignment un g t rhs).2.cache rhs
        = some (print_assignment un g t rhs).1
      ∧ cacheFind
          (print_assignment un (acts un (print_assignment un g t rhs).2 between) t2 rhs).2.cache rhs
        = some (print_assignment un (acts un (print_assignment un g t rhs).2 between) t2 rhs).1 := by
  have h1 := cache_maps_rhs un g t rhs
  have h2 := acts_keep_entries un _ between _ _ h1
  obtain ⟨ha, hb, hc, hd, _⟩ := cache_hit un _ t2 rhs _ h2
  exact ⟨ha, hb, hc, hd, h1, cache_maps_rhs un _ t2 rhs⟩

end Assign

/-! ## Start, run and done of the bus interface -/

namespace SlaveIf

theorem runFrom_append (cfg : List (Reg_Type × FIRRTL_Type)) (s : Regs) (is : List Ports)
    (x : Ports) : runFrom cfg s (is ++ [x]) = step cfg (runFrom cfg s is) x := by
  simp [runFrom, List.foldl_append]

theorem clearAt_append_lt (cfg : List (Reg_Type × FIRRTL_Type)) (s : Regs) (is : List Ports)
    (x : Ports) (j : Nat) (hj : j < is.length) :
    clearAt cfg s (is ++ [x]) j = clearAt cfg s is j := by
  unfold clearAt
  rw [List.getElem?_append_left hj, List.take_append_of_le_length (by omega)]

theorem clearAt_append_last (cfg : List (Reg_Type × FIRRTL_Type)) (s : Regs) (is : List Ports)
    (x : Ports) :
    clearAt cfg s (is ++ [x]) is.length = clearDone (runFrom cfg s is) x := by
  unfold clearAt
  simp

theorem clearAt_beyond (cfg : List (Reg_Type × FIRRTL_Type)) (s : Regs) (is : List Ports)
    (j : Nat) (hj : is.length ≤ j) : clearAt cfg s is j = false := by
  unfold clearAt
  rw [List.getElem?_eq_none hj]

theorem doneAt_append_lt (is : List Ports) (x : Ports) (j k : Nat) (hj : j < is.length) :
    doneAt (is ++ [x]) j k = doneAt is j k := by
  unfold doneAt
  rw [List.getElem?_append_left hj]

theorem doneAt_append_last (is : List Ports) (x : Ports) (k : Nat) :
    doneAt (is ++ [x]) is.length k = x.done_ports.getD k false := by
  unfold doneAt
  simp

theorem seen_extend (cfg : List (Reg_Type × FIRRTL_Type)) (s : Regs) (is : List Ports)
    (x : Ports) (k : Nat) (h : SeenSinceClear cfg s is k)
    (hc : clearDone (runFrom cfg s is) x = false) : SeenSinceClear cfg s (is ++ [x]) k := by
  obtain ⟨j, hj, hd, hcl⟩ := h
  refine ⟨j, by rw [List.length_append, List.length_singleton]; omega, ?_, ?_⟩
  · rw [doneAt_append_lt _ _ _ _ hj]; exact hd
  · intro j' hj'
    rcases Nat.lt_trichotomy j' is.length with h1 | h1 | h1
    · rw [clearAt_append_lt _ _ _ _ _ h1]; exact hcl j' hj'
    · rw [h1, clearAt_append_last]; exact hc
    · exact clearAt_beyond _ _ _ _ (by rw [List.length_append, List.length_singleton]; omega)

theorem seen_new (cfg : List (Reg_Type × FIRRTL_Type)) (s : Regs) (is : List Ports)
    (x : Ports) (k : Nat) (hd : x.done_ports.getD k false = true)
    (hc : clearDone (runFrom cfg s is) x = false) : SeenSinceClear cfg s (is ++ [x]) k := by
  refine ⟨is.length, by rw [List.length_append, List.length_singleton]; omega, ?_, ?_⟩
  · rw [doneAt_append_last]; exact hd
  · intro j' hj'
    rcases Nat.lt_or_ge is.length j' with h1 | h1
    · exact clearAt_beyond _ _ _ _ (by rw [List.length_append, List.length_singleton]; omega)
    · have : j' = is.length := by omega
      rw [this, clearAt_append_last]; exact hc

theorem step_latches_length (cfg : List (Reg_Type × FIRRTL_Type)) (s : Regs) (x : Ports) :
    (step cfg s x).r_done_ports.length = s.r_done_ports.length := by
  simp [step]

theorem step_latches (cfg : List (Reg_Type × FIRRTL_Type)) (s : Regs) (x : Ports) (k : Nat)
    (hk : k < s.r_done_ports.length) :
    (step cfg s x).r_done_ports.getD k false
      = (if clearDone s x then false
         else if x.done_ports.getD k false then true
         else s.r_done_ports.getD k false) := by
  simp only [step, List.getD_eq_getElem?_getD, List.getElem?_map, List.getElem?_range hk,
    Option.map_some', Option.getD_some]

theorem all_latches (l : List Bool) (h : l.all id = true) (k : Nat) (hk : k < l.length) :
    l.getD k false = true := by
  rw [List.all_eq_true] at h
  rw [List.getD_eq_getElem?_getD, List.getElem?_eq_getElem hk, Option.getD_some]
  exact h _ (List.getElem_mem hk)

/-- In every state reached from reset a latched done flag, and the aggregate
`r_done`, witness done inputs asserted since the flags were last cleared. -/
theorem done_invariant (cfg : List (Reg_Type × FIRRTL_Type)) (aw ar rd n : Nat)
    (user : List (List Nat)) (is : List Ports) :
    (runFrom cfg (reset aw ar rd n user) is).r_done_ports.length = n
      ∧ (∀ k, k < n → (runFrom cfg (reset aw ar rd n user) is).r_done_ports.getD k false = true →
          SeenSinceClear cfg (reset aw ar rd n user) is k)
      ∧ ((runFrom cfg (reset aw ar rd n user) is).r_done = true →
          ∀ k, k < n → SeenSinceClear cfg (reset aw ar rd n user) is k) := by
  induction is using List.reverseRecOn with
  | nil =>
    refine ⟨by simp [runFrom, reset], ?_, ?_⟩
    · intro k hk h
      simp [runFrom, reset, List.getD_eq_getElem?_getD, List.getElem?_replicate, hk] at h
    · intro h
      simp [runFrom, reset] at h
  | append_singleton is x ih =>
    obtain ⟨hlen, hlatch, hdone⟩ := ih
    rw [runFrom_append]
    generalize hs : runFrom cfg (reset aw ar rd n user) is = s at hlen hlatch hdone
    have hlat : ∀ k, k < n → (step cfg s x).r_done_ports.getD k false = true →
        SeenSinceClear cfg (reset aw ar rd n user) (is ++ [x]) k := by
      intro k hk h
      rw [step_latches cfg s x k (by omega)] at h
      cases hc : clearDone s x
      · rw [hc] at h
        simp only [Bool.false_eq_true, if_false] at h
        cases hd : x.done_ports.getD k false
        · rw [hd] at h
          simp only [Bool.false_eq_true, if_false] at h
          exact seen_extend cfg _ is x k (hlatch k hk h) (by rw [hs]; exact hc)
        · exact seen_new cfg _ is x k hd (by rw [hs]; exact hc)
      · rw [hc] at h
        simp at h
    refine ⟨by rw [step_latches_length]; exact hlen, hlat, ?_⟩
    intro h k hk
    have hd : (step cfg s x).r_done
        = (if clearDone s x then false
           else if s.r_done_ports.all id then true else s.r_done) := rfl
    rw [hd] at h
    cases hc : clearDone s x
    · rw [hc] at h
      simp only [Bool.false_eq_true, if_false] at h
      cases ha : s.r_done_ports.all id
      · rw [ha] at h
        simp only [Bool.false_eq_true, if_false] at h
        exact seen_extend cfg _ is x k (hdone h k hk) (by rw [hs]; exact hc)
      · exact seen_extend cfg _ is x k
          (hlatch k hk (all_latches _ ha k (by omega))) (by rw [hs]; exact hc)
    · rw [hc] at h
      simp at h

/-- C11 (counterexample): from reset with two done inputs, both are
asserted in cycle 0 and never again; the start written in cycle 3 sets
`r_start`, `r_run` is 1 after cycle 4 and back to 0 after cycle 5, although no
done input was asserted since that start: the stale `r_done` (never cleared
by a start) deasserts it. -/
theorem slaveif_run_drops_on_stale_done :
    (runFrom [] (reset 0 0 0 2 []) (staleDoneTrace.take 4)).r_start = true
      ∧ (runFrom [] (reset 0 0 0 2 []) (staleDoneTrace.take 5)).r_run = true
      ∧ (runFrom [] (reset 0 0 0 2 []) staleDoneTrace).r_run = false
      ∧ (∀ x ∈ staleDoneTrace.drop 1, ∀ d ∈ x.done_ports, d = false) := by
  decide

/-- C11 (amended): in every state reached from reset, a cycle whose write
guard for control bit 1 holds leaves `r_done` at 0; and when `r_run` goes from
1 to 0, `r_start` was 0 and `r_done` was 1 in that cycle, and every done input
has been asserted at least once since the done flags were last cleared by a
write to control bit 1 (not: since the last start). -/
theorem slaveif_run_deasserts_after_done (cfg : List (Reg_Type × FIRRTL_Type))
    (aw ar rd n : Nat) (user : List (List Nat)) (is : List Ports) (x : Ports)
    (hrun : (runFrom cfg (reset aw ar rd n user) is).r_run = true)
    (hoff : (runFrom cfg (reset aw ar rd n user) (is ++ [x])).r_run = false) :
    (runFrom cfg (reset aw ar rd n user) is).r_start = false
      ∧ (runFrom cfg (reset aw ar rd n user) is).r_done = true
      ∧ (∀ k, k < n → SeenSinceClear cfg (reset aw ar rd n user) is k)
      ∧ (∀ (s : Regs) (i : Ports), clearDone s i = true → (step cfg s i).r_done = false) := by
  rw [runFrom_append] at hoff
  have hr : (step cfg (runFrom cfg (reset aw ar rd n user) is) x).r_run
      = (if (runFrom cfg (reset aw ar rd n user) is).r_start then true
         else if (runFrom cfg (reset aw ar rd n user) is).r_done then false
         else (runFrom cfg (reset aw ar rd n user) is).r_run) := rfl
  rw [hr, hrun] at hoff
  cases hst : (runFrom cfg (reset aw ar rd n user) is).r_start
  · rw [hst] at hoff
    cases hd : (runFrom cfg (reset aw ar rd n user) is).r_done
    · rw [hd] at hoff
      simp at hoff
    · refine ⟨rfl, rfl, (done_invariant cfg aw ar rd n user is).2.2 hd, ?_⟩
      intro s i hc
      simp [step, hc]
  · rw [hst] at hoff
    simp at hoff

theorem slaveif_run_deasserts_after_done_witness :
    (runFrom [] (reset 0 0 0 2 []) (staleDoneTrace.take 5)).r_run = true
      ∧ (runFrom [] (reset 0 0 0 2 []) (staleDoneTrace.take 5 ++ [⟨0, false, 0, false, false, 0, false, false, [false, false]⟩])).r_run = false
      ∧ (runFrom [] (reset 0 0 0 2 []) (staleDoneTrace.take 5)).r_done = true
      ∧ SeenSinceClear [] (reset 0 0 0 2 []) (staleDoneTrace.take 5) 1 :=
  have h := slaveif_run_deasserts_after_done [] 0 0 0 2 [] (staleDoneTrace.take 5)
    ⟨0, false, 0, false, false, 0, false, false, [false, false]⟩ (by decide) (by decide)
  ⟨by decide, by decide, h.2.1, h.2.2.1 1 (by decide)⟩

end SlaveIf

/-! ## The loop-compute block (`visit(For)`, `print_forblock`) -/

namespace ForBlock

theorem inc32_of_lt (v m : Int) (h0 : -(2 ^ 31) ≤ v) (h1 : v < m) (h2 : m < 2 ^ 31) :
    inc32 v = v + 1 := by
  unfold inc32
  apply Lower.toS_of_range
  · norm_num at h0 ⊢; omega
  · norm_num at h2 ⊢; omega

theorem extent_pos (b : Level) (h : b.ok) : 0 < extent b := by
  unfold extent
  have := h.1
  omega

theorem max_eq (b : Level) (h : b.ok) : b.max = b.min + ((extent b : Nat) : Int) - 1 := by
  unfold extent
  have := h.1
  rw [Int.toNat_of_nonneg (by omega)]
  omega

theorem points_pos (bs : List Level) (h : ∀ b ∈ bs, b.ok) : 0 < points bs := by
  induction bs with
  | nil => simp [points]
  | cons b bs ih =>
    simp only [points]
    exact Nat.mul_pos (extent_pos b (h b (List.mem_cons_self _ _)))
      (ih fun x hx => h x (List.mem_cons_of_mem _ hx))

theorem pt_mod (bs : List Level) (t : Nat) : pt bs (t % points bs) = pt bs t := by
  cases bs with
  | nil => rfl
  | cons b bs =>
    simp only [pt, points]
    rw [Nat.mul_comm (extent b) (points bs), Nat.mod_mul_right_div_self,
      Nat.mod_mod_of_dvd _ (Dvd.intro _ rfl), Nat.mod_mod]

theorem pt_zero (bs : List Level) : pt bs 0 = bs.map fun b => b.min := by
  induction bs with
  | nil => rfl
  | cons b bs ih => simp [pt, ih]

theorem pt_points (bs : List Level) : pt bs (points bs) = bs.map fun b => b.min := by
  rw [← pt_mod, Nat.mod_self, pt_zero]

theorem pt_length (bs : List Level) (t : Nat) : (pt bs t).length = bs.length := by
  induction bs generalizing t with
  | nil => rfl
  | cons b bs ih => simp [pt, ih]

theorem succ_divmod_carry (n P : Nat) (hP : 0 < P) (h : n % P + 1 = P) :
    (n + 1) / P = n / P + 1 ∧ (n + 1) % P = 0 := by
  rw [Nat.div_mod_unique hP]
  have := Nat.div_add_mod n P
  refine ⟨?_, hP⟩
  rw [Nat.mul_add, Nat.mul_one]
  omega

theorem succ_divmod_stay (n P : Nat) (hP : 0 < P) (h : n % P + 1 < P) :
    (n + 1) / P = n / P ∧ (n + 1) % P = n % P + 1 := by
  rw [Nat.div_mod_unique hP]
  have := Nat.div_add_mod n P
  exact ⟨by omega, h⟩

theorem succ_mod_eq_zero_iff (n P : Nat) (hP : 0 < P) : (n + 1) % P = 0 ↔ n % P + 1 = P := by
  have hlt := Nat.mod_lt n hP
  constructor
  · intro h
    by_contra hne
    have := (succ_divmod_stay n P hP (by omega)).2
    omega
  · intro h
    exact (succ_divmod_carry n P hP h).2

theorem succ_mod_mul_eq_zero_iff (t e P : Nat) (he : 0 < e) (hP : 0 < P) :
    (t + 1) % (e * P) = 0 ↔ (t % P + 1 = P ∧ t / P % e + 1 = e) := by
  constructor
  · intro h
    have hd : e * P ∣ t + 1 := Nat.dvd_of_mod_eq_zero h
    have hP1 : (t + 1) % P = 0 :=
      Nat.mod_eq_zero_of_dvd (Dvd.dvd.trans (Dvd.intro_left e rfl) hd)
    have hc := (succ_mod_eq_zero_iff t P hP).1 hP1
    refine ⟨hc, ?_⟩
    have hq := (succ_divmod_carry t P hP hc).1
    have he1 : e ∣ (t + 1) / P := by
      obtain ⟨c, hc⟩ := hd
      refine ⟨c, ?_⟩
      rw [hc, Nat.mul_comm e P, Nat.mul_assoc, Nat.mul_div_cancel_left _ hP]
    rw [hq] at he1
    exact (succ_mod_eq_zero_iff (t / P) e he).1 (Nat.mod_eq_zero_of_dvd he1)
  · rintro ⟨hc, hm⟩
    have hq := succ_divmod_carry t P hP hc
    have h1 : (t / P + 1) % e = 0 := (succ_mod_eq_zero_iff (t / P) e he).2 hm
    obtain ⟨c, hc2⟩ := Nat.dvd_of_mod_eq_zero h1
    have h2 : t + 1 = P * ((t + 1) / P) := by
      have := Nat.div_add_mod (t + 1) P
      omega
    rw [hq.1, hc2] at h2
    rw [h2]
    apply Nat.mod_eq_zero_of_dvd
    exact ⟨c, by ring⟩

/-- The nested increments take point `t` of the box to point `t + 1`, and the
innermost body is reached exactly at the last point. -/
theorem chain_pt (bs : List Level) (h : ∀ b ∈ bs, b.ok) (t : Nat) :
    chain bs (pt bs t) = (pt bs (t + 1), decide ((t + 1) % points bs = 0)) := by
  induction bs generalizing t with
  | nil => simp [chain, pt, points, Nat.mod_one]
  | cons b bs ih =>
    have hb : b.ok := h b (List.mem_cons_self _ _)
    have hbs : ∀ x ∈ bs, x.ok := fun x hx => h x (List.mem_cons_of_mem _ hx)
    have hP := points_pos bs hbs
    have he := extent_pos b hb
    have hmax := max_eq b hb
    have hlt := Nat.mod_lt t hP
    have hlt2 := Nat.mod_lt (t / points bs) he
    simp only [chain, pt, points, List.tail_cons, List.headD_cons, ih hbs (t % points bs)]
    by_cases hc : t % points bs + 1 = points bs
    · have hq := succ_divmod_carry t (points bs) hP hc
      have hz : (t % points bs + 1) % points bs = 0 := by rw [hc, Nat.mod_self]
      rw [hq.1, hq.2, ← pt_mod bs (t % points bs + 1), hz]
      simp only [decide_True, Bool.true_and, if_true]
      by_cases hm : t / points bs % extent b + 1 = extent b
      · have h1 : (t / points bs + 1) % extent b = 0 :=
          (succ_mod_eq_zero_iff _ _ he).2 hm
        have h2 : (t + 1) % (extent b * points bs) = 0 :=
          (succ_mod_mul_eq_zero_iff t _ _ he hP).2 ⟨hc, hm⟩
        have h3 : b.min + ((t / points bs % extent b : Nat) : Int) = b.max := by
          rw [hmax]; omega
        simp only [h1, h2, h3, if_true, decide_True, Nat.cast_zero, Int.add_zero]
      · have h1 := (succ_divmod_stay (t / points bs) (extent b) he (by omega)).2
        have h2 : ¬ (t + 1) % (extent b * points bs) = 0 := fun hh =>
          hm ((succ_mod_mul_eq_zero_iff t _ _ he hP).1 hh).2
        have h3 : ¬ b.min + ((t / points bs % extent b : Nat) : Int) = b.max := by
          rw [hmax]; omega
        rw [h1, if_neg h3, inc32_of_lt _ b.max (by have := hb.2.1; omega)
          (by rw [hmax]; omega) hb.2.2]
        simp only [h2, h3, decide_False, Nat.cast_add, Nat.cast_one]
        rw [Int.add_assoc]
    · have hq := succ_divmod_stay t (points bs) hP (by omega)
      have hz : ¬ (t % points bs + 1) % points bs = 0 := by
        rw [Nat.mod_eq_of_lt (by omega)]; omega
      have h2 : ¬ (t + 1) % (extent b * points bs) = 0 := fun hh =>
        hc ((succ_mod_mul_eq_zero_iff t _ _ he hP).1 hh).1
      have hz2 : ¬ (t + 1) % points bs = 0 := by rw [hq.2]; omega
      rw [hq.1, hq.2]
      simp only [hz, h2, decide_False, Bool.false_and, if_false, Bool.false_eq_true]

end ForBlock

namespace ForBlock

theorem range_mul_map {α : Type} (f : Nat → α) (e P : Nat) :
    (List.range (e * P)).map f
      = (List.range e).flatMap fun a => (List.range P).map fun r => f (a * P + r) := by
  induction e with
  | zero => simp
  | succ e ih =>
    rw [Nat.succ_mul, List.range_add, List.map_append, ih, List.range_succ,
      List.flatMap_append]
    simp

theorem flatMap_congr_mem {α β : Type} (l : List α) (f g : α → List β)
    (h : ∀ a ∈ l, f a = g a) : l.flatMap f = l.flatMap g := by
  induction l with
  | nil => rfl
  | cons a l ih =>
    rw [List.flatMap_cons, List.flatMap_cons, h a (List.mem_cons_self _ _),
      ih fun x hx => h x (List.mem_cons_of_mem _ hx)]

/-- The points numbered `0 .. points - 1` are the box in lexicographic order. -/
theorem map_pt_eq_box (bs : List Level) (h : ∀ b ∈ bs, b.ok) :
    (List.range (points bs)).map (pt bs) = box bs := by
  induction bs with
  | nil => rfl
  | cons b bs ih =>
    have hbs : ∀ x ∈ bs, x.ok := fun x hx => h x (List.mem_cons_of_mem _ hx)
    have hP := points_pos bs hbs
    simp only [points, box]
    rw [range_mul_map, ← ih hbs]
    apply flatMap_congr_mem
    intro a ha
    rw [List.map_map]
    apply List.map_congr_left
    intro r hr
    rw [List.mem_range] at ha hr
    simp only [pt, Function.comp]
    rw [Nat.mul_comm a, Nat.mul_add_div hP, Nat.div_eq_of_lt hr, Nat.add_zero,
      Nat.mod_eq_of_lt ha, Nat.mul_add_mod, Nat.mod_eq_of_lt hr]

theorem mem_box (bs : List Level) (h : ∀ b ∈ bs, b.ok) (x : List Int) :
    x ∈ box bs ↔ List.Forall₂ (fun b v => b.min ≤ v ∧ v ≤ b.max) bs x := by
  induction bs generalizing x with
  | nil => simp [box]
  | cons b bs ih =>
    have hb : b.ok := h b (List.mem_cons_self _ _)
    have hbs : ∀ y ∈ bs, y.ok := fun y hy => h y (List.mem_cons_of_mem _ hy)
    have hmax := max_eq b hb
    simp only [box, List.mem_flatMap, List.mem_range, List.mem_map]
    constructor
    · rintro ⟨a, ha, r, hr, rfl⟩
      exact List.Forall₂.cons ⟨by omega, by omega⟩ ((ih hbs r).1 hr)
    · intro hx
      cases hx with
      | cons hv hr =>
        rename_i v r
        refine ⟨(v - b.min).toNat, by omega, r, (ih hbs r).2 hr, ?_⟩
        rw [Int.toNat_of_nonneg (by omega)]
        congr 1
        omega

theorem box_nodup (bs : List Level) : (box bs).Nodup := by
  induction bs with
  | nil => simp [box]
  | cons b bs ih =>
    simp only [box]
    rw [List.nodup_flatMap]
    refine ⟨?_, ?_⟩
    · intro a _
      exact ih.map fun r1 r2 hr => (List.cons.inj hr).2
    · apply List.Pairwise.imp_of_mem ?_ (List.nodup_range (extent b))
      intro a1 a2 _ _ hne
      simp only [Function.onFun, List.disjoint_left, List.mem_map]
      rintro x ⟨r1, _, rfl⟩ ⟨r2, _, h2⟩
      have := (List.cons.inj h2).1
      omega

end ForBlock

namespace ForBlock

theorem runFrom_cons (p : Params) (s : Regs) (x : Ports) (is : List Ports) :
    runFrom p s (x :: is) = runFrom p (step p s x) is := rfl

theorem step_vars (p : Params) (s : Regs) (i : Ports) (hs : i.start_in = false) :
    (step p s i).vars = if st0 s i then (chain p.vars s.vars).1 else s.vars := by
  simp [step, hs]

/-- Without a start, the scan variables after a trace are the point numbered by
the accepted state-0 cycles of the trace. -/
theorem runFrom_vars (p : Params) (hb : ∀ b ∈ p.vars, b.ok) (is : List Ports)
    (hns : ∀ x ∈ is, x.start_in = false) (s : Regs) (t : Nat) (hs : s.vars = pt p.vars t) :
    (runFrom p s is).vars = pt p.vars (t + accepts p s is) := by
  induction is generalizing s t with
  | nil => simpa [runFrom, accepts] using hs
  | cons x is ih =>
    have hx := hns x (List.mem_cons_self _ _)
    have hrest : ∀ y ∈ is, y.start_in = false := fun y hy => hns y (List.mem_cons_of_mem _ hy)
    rw [runFrom_cons]
    simp only [accepts]
    cases h0 : st0 s x
    · have hv : (step p s x).vars = pt p.vars t := by
        rw [step_vars p s x hx, h0]; simpa using hs
      rw [ih hrest (step p s x) t hv]
      simp
    · have hv : (step p s x).vars = pt p.vars (t + 1) := by
        rw [step_vars p s x hx, h0, hs, chain_pt p.vars hb t]; rfl
      rw [ih hrest (step p s x) (t + 1) hv]
      simp [Nat.add_assoc]

/-- C16: with ordered bounds that fit the 32-bit registers, starting from the
mins (as a start leaves them) and without a further start, the scan variables
after a trace are the point of the box numbered by the accepted state-0
cycles so far, where the points numbered `0 .. points - 1` are the box
`[min_1, max_1] x ... x [min_k, max_k]` listed once each in lexicographic
order with the last variable fastest; on an accepted state-0 cycle the
all-at-max condition holds exactly at the last point, it sets
`is_last_stencil`, and the variables are back at their mins after it. -/
theorem scan_vars_visit_box_in_order (p : Params) (hb : ∀ b ∈ p.vars, b.ok) (s : Regs)
    (hs : s.vars = p.vars.map fun b => b.min) (is : List Ports)
    (hns : ∀ x ∈ is, x.start_in = false) :
    (runFrom p s is).vars = pt p.vars (accepts p s is)
      ∧ (List.range (points p.vars)).map (pt p.vars) = box p.vars
      ∧ (∀ x, x ∈ box p.vars ↔ List.Forall₂ (fun b v => b.min ≤ v ∧ v ≤ b.max) p.vars x)
      ∧ (box p.vars).Nodup
      ∧ (chain p.vars (runFrom p s is).vars).2
          = decide ((accepts p s is + 1) % points p.vars = 0)
      ∧ (∀ i, i.start_in = false → st0 (runFrom p s is) i = true →
          ((accepts p s is + 1) % points p.vars = 0 →
            (step p (runFrom p s is) i).is_last_stencil = true
              ∧ (step p (runFrom p s is) i).vars = p.vars.map fun b => b.min)
          ∧ (¬ (accepts p s is + 1) % points p.vars = 0 →
            (step p (runFrom p s is) i).is_last_stencil = (runFrom p s is).is_last_stencil
              ∧ (step p (runFrom p s is) i).vars = pt p.vars (accepts p s is + 1)))
      ∧ (∀ (s0 : Regs) (i : Ports), i.start_in = true → st0 s0 i = false →
          (step p s0 i).vars = p.vars.map fun b => b.min) := by
  have hv : (runFrom p s is).vars = pt p.vars (accepts p s is) := by
    have := runFrom_vars p hb is hns s 0 (by rw [hs, pt_zero])
    simpa using this
  have hc := chain_pt p.vars hb (accepts p s is)
  refine ⟨hv, map_pt_eq_box p.vars hb, mem_box p.vars hb, box_nodup p.vars, ?_, ?_, ?_⟩
  · rw [hv, hc]
  · intro i hi h0
    have hvars : (step p (runFrom p s is) i).vars = pt p.vars (accepts p s is + 1) := by
      rw [step_vars p _ i hi, h0, hv, hc]; rfl
    have hlast : (step p (runFrom p s is) i).is_last_stencil
        = (if st0 (runFrom p s is) i && (chain p.vars (runFrom p s is).vars).2 then true
           else if i.start_in then false else (runFrom p s is).is_last_stencil) := rfl
    rw [h0, hv, hc, hi] at hlast
    constructor
    · intro hz
      refine ⟨by rw [hlast]; simp [hz], ?_⟩
      rw [hvars, ← pt_mod, hz, pt_zero]
    · intro hz
      exact ⟨by rw [hlast]; simp [hz], hvars⟩
  · intro s0 i hi h0
    simp [step, hi, h0]

theorem scan_vars_visit_box_in_order_witness :
    (runFrom ⟨[⟨0, 1⟩, ⟨0, 2⟩], [], 1⟩ (step ⟨[⟨0, 1⟩, ⟨0, 2⟩], [], 1⟩
        (reset ⟨[⟨0, 1⟩, ⟨0, 2⟩], [], 1⟩) ⟨true, [true], true⟩)
        [⟨false, [true], true⟩, ⟨false, [false], true⟩, ⟨false, [true], true⟩,
          ⟨false, [true], false⟩, ⟨false, [true], true⟩, ⟨false, [true], true⟩]).vars
      = pt [⟨0, 1⟩, ⟨0, 2⟩] 4
    ∧ pt [⟨0, 1⟩, ⟨0, 2⟩] 4 = [1, 1]
    ∧ box [⟨0, 1⟩, ⟨0, 2⟩] = [[0, 0], [0, 1], [0, 2], [1, 0], [1, 1], [1, 2]] :=
  have h := scan_vars_visit_box_in_order ⟨[⟨0, 1⟩, ⟨0, 2⟩], [], 1⟩
    (by intro b hb0; simp at hb0; rcases hb0 with rfl | rfl <;> simp [Level.ok])
    (step ⟨[⟨0, 1⟩, ⟨0, 2⟩], [], 1⟩ (reset ⟨[⟨0, 1⟩, ⟨0, 2⟩], [], 1⟩) ⟨true, [true], true⟩)
    (by decide)
    [⟨false, [true], true⟩, ⟨false, [false], true⟩, ⟨false, [true], true⟩,
      ⟨false, [true], false⟩, ⟨false, [true], true⟩, ⟨false, [true], true⟩]
    (by decide)
  ⟨h.1.trans (by decide), by decide, by decide⟩

end ForBlock

namespace ForBlock

theorem step_is_last_d (p : Params) (hpp : p.ppdepth = 1) (s : Regs) (i : Ports) :
    (step p s i).is_last_stencil_d.getD 0 false
      = (if act s i then s.is_last_stencil
         else if i.start_in then false else s.is_last_stencil_d.getD 0 false) := by
  simp [step, hpp]

theorem step_d_is_max_hold (p : Params) (s : Regs) (i : Ports) (ha : act s i = false)
    (hi : i.start_in = false) :
    stencil_d_is_max p (step p s i) = stencil_d_is_max p s := by
  simp [stencil_d_is_max, step, ha, hi]

theorem step_d_is_max_load (p : Params) (hpp : p.ppdepth = 1) (s : Regs) (i : Ports)
    (ha : act s i = true) (c : Int) (hs : s.stencil_vars = p.stencil_vars.map (fun _ => c))
    (hc : ∀ b ∈ p.stencil_vars, b.max = c) :
    stencil_d_is_max p (step p s i) = true := by
  simp only [stencil_d_is_max, step, ha, if_true, hs, hpp, List.all_eq_true, List.mem_range,
    decide_eq_true_eq]
  intro k hk
  simp only [List.map_map, List.getD_eq_getElem?_getD, List.getElem?_map,
    List.getElem?_eq_getElem hk, Option.map_some', Option.getD_some, Function.comp]
  simp only [List.replicate, Nat.sub_self, List.getElem?_cons_zero, Option.getD_some]
  exact (hc _ (List.getElem_mem hk)).symm

theorem supported_shape (p : Params) (h : Supported p) :
    (no_state1 p = true ∧ stencilExtent p = 1 ∧ drainCycles p = 2
        ∧ (∀ b ∈ p.stencil_vars, b.max = 0))
      ∨ (no_state1 p = false ∧ drainCycles p = 1
        ∧ ∃ m : Nat, p.stencil_vars = [⟨0, (m : Int) + 1⟩] ∧ stencilExtent p = m + 2
          ∧ (m : Int) + 1 < 2 ^ 31) := by
  obtain ⟨_, _, hst⟩ := h
  rcases hst with hst | ⟨m, hst, hm0, hm1⟩
  · left
    simp [no_state1, stencilExtent, drainCycles, hst]
  · by_cases hm : m = 0
    · left
      subst hm
      simp [no_state1, stencilExtent, drainCycles, hst]
    · right
      have hns : no_state1 p = false := by
        simp [no_state1, hst, hm]
      refine ⟨hns, by simp [drainCycles, hns], (m - 1).toNat, ?_, ?_, ?_⟩
      · rw [hst, Int.toNat_of_nonneg (by omega)]
        simp
      · simp only [stencilExtent, hns, hst, extent, List.headD_cons, Bool.false_eq_true,
          if_false]
        omega
      · rw [Int.toNat_of_nonneg (by omega)]
        omega

end ForBlock

namespace ForBlock

theorem step_idle (p : Params) (s : Regs) (x : Ports) (hinv : Inv p .idle s)
    (hx : x.start_in = false) : StepOk p .idle s x := by
  obtain ⟨hst, hstate⟩ := hinv
  have ha : act s x = false := by simp [act, hst]
  have h0 : st0 s x = false := by simp [st0, ha]
  have h1 : st1 p s x = false := by simp [st1, ha]
  have h2 : st2 s x = false := by simp [st2, ha]
  have hd : done_out p s x = false := by simp [done_out, h2]
  have hr : run_step p s x = false := by simp [run_step, h0, h1, h2]
  refine ⟨?_, by simp [hr], by simp [hd, hr], by intro _ _ h; exact absurd rfl h⟩
  rw [hr]
  simp only [Bool.false_eq_true, if_false]
  exact ⟨by simp [step, hx, hd, hst], by simp [step, hx, hd, h0, h1, hstate]⟩

theorem step_hold (p : Params) (hpp : p.ppdepth = 1) (ph : Phase) (s : Regs) (x : Ports)
    (hinv : Inv p ph s) (hx : x.start_in = false) (ha : act s x = false) :
    Inv p ph (step p s x) := by
  have h0 : st0 s x = false := by simp [st0, ha]
  have h1 : st1 p s x = false := by simp [st1, ha]
  have h2 : st2 s x = false := by simp [st2, ha]
  have hd : done_out p s x = false := by simp [done_out, h2]
  have e1 : (step p s x).started = s.started := by simp [step, hx, hd]
  have e2 : (step p s x).state = s.state := by simp [step, hx, hd, h0, h1]
  have e3 : (step p s x).vars = s.vars := by simp [step, hx, h0]
  have e4 : (step p s x).stencil_vars = s.stencil_vars := by simp [step, hx, h0, h1]
  have e5 : (step p s x).is_last_stencil = s.is_last_stencil := by simp [step, hx, h0]
  have e6 : (step p s x).is_last_stencil_d.getD 0 false = s.is_last_stencil_d.getD 0 false := by
    rw [step_is_last_d p hpp, ha, hx]; simp
  have e7 := step_d_is_max_hold p s x ha hx
  cases ph with
  | scan t r =>
    simp only [Inv] at hinv ⊢
    rw [e1, e2, e3, e4, e5, e6]
    exact hinv
  | drain k =>
    simp only [Inv] at hinv ⊢
    rw [e1, e2, e4, e5, e6, e7]
    exact hinv
  | idle =>
    simp only [Inv] at hinv ⊢
    rw [e1, e2]
    exact hinv

end ForBlock

namespace ForBlock

theorem step_drain (p : Params) (hpp : p.ppdepth = 1)
    (hD : drainCycles p = 1 ∨ (drainCycles p = 2 ∧ ∀ b ∈ p.stencil_vars, b.max = 0))
    (k : Nat) (s : Regs) (x : Ports) (hinv : Inv p (.drain k) s)
    (hx : x.start_in = false) (ha : act s x = true) : StepOk p (.drain k) s x := by
  obtain ⟨hk, hst, hstate, hsv, hil, hd1, hmax⟩ := hinv
  have h0 : st0 s x = false := by simp [st0, hstate]
  have h1 : st1 p s x = false := by simp [st1, hstate]
  have h2 : st2 s x = true := by simp [st2, ha, hstate]
  have hr : run_step p s x = true := by simp [run_step, h2]
  have hd : done_out p s x = decide (k + 1 = drainCycles p) := by
    simp only [done_out, h2, hpp, Nat.sub_self, hd1, hmax, Bool.true_and, Bool.and_true]
  refine ⟨?_, by simp, ?_, fun _ _ _ => hr⟩
  · rw [hr]
    simp only [if_true, Phase.next]
    by_cases hk1 : k + 1 < drainCycles p
    · have hdf : done_out p s x = false := by rw [hd]; simp; omega
      rw [if_pos hk1]
      have hD2 : drainCycles p = 2 ∧ ∀ b ∈ p.stencil_vars, b.max = 0 := by
        rcases hD with h | h
        · omega
        · exact h
      refine ⟨hk1, by simp [step, hx, hdf, hst], by simp [step, hx, hdf, h0, h1, hstate],
        by simp [step, hx, h0, h1, hsv], by simp [step, hx, h0, hil], ?_,
        step_d_is_max_load p hpp s x ha 0 hsv hD2.2⟩
      rw [step_is_last_d p hpp, ha, if_pos rfl, hil]
      simp
      omega
    · have hdt : done_out p s x = true := by rw [hd]; simp; omega
      rw [if_neg hk1]
      exact ⟨by simp [step, hx, hdt], by simp [step, hdt]⟩
  · rw [hd, hr]
    simp
    constructor
    · intro h; omega
    · intro h; omega

end ForBlock

namespace ForBlock

theorem succ_mod_points (N t : Nat) (ht : t < N) : (t + 1) % N = 0 ↔ t + 1 = N := by
  rw [succ_mod_eq_zero_iff t N (by omega), Nat.mod_eq_of_lt ht]

theorem step_scan_flat (p : Params) (hpp : p.ppdepth = 1) (hb : ∀ b ∈ p.vars, b.ok)
    (hns : no_state1 p = true) (hE : stencilExtent p = 1) (hD : drainCycles p = 2)
    (hz : ∀ b ∈ p.stencil_vars, b.max = 0)
    (t r : Nat) (s : Regs) (x : Ports) (hinv : Inv p (.scan t r) s)
    (hx : x.start_in = false) (ha : act s x = true) : StepOk p (.scan t r) s x := by
  obtain ⟨ht, hr, hst, hstate, hvars, hsv, hil, hd1⟩ := hinv
  have hr0 : r = 0 := by omega
  subst hr0
  simp only [if_true, Nat.lt_irrefl, and_false, decide_False, Nat.cast_zero] at hstate hvars hsv hil hd1
  have h1 : st1 p s x = false := by simp [st1, hstate]
  have h2 : st2 s x = false := by simp [st2, hstate]
  have h0 : st0 s x = inputs_valid x := by simp [st0, ha, hstate]
  have hd : done_out p s x = false := by simp [done_out, h2]
  have hrun : run_step p s x = inputs_valid x := by simp [run_step, h0, h1, h2]
  have hc := chain_pt p.vars hb t
  refine ⟨?_, by simp, by simp [hd], fun _ hv _ => by rw [hrun, hv]⟩
  rw [hrun]
  cases hv : inputs_valid x
  · rw [hv] at h0
    simp only [Bool.false_eq_true, if_false, Inv]
    refine ⟨ht, by omega, by simp [step, hx, hd, hst], by simp [step, hx, hd, h0, h1, hstate],
      by simp [step, hx, h0, hvars], by simp [step, hx, h0, h1, hsv],
      by simp [step, hx, h0, hil], ?_⟩
    rw [step_is_last_d p hpp, ha, if_pos rfl, hil]
    simp
  · rw [hv] at h0
    simp only [if_true, Phase.next, hE, Nat.lt_irrefl, if_false]
    by_cases ht1 : t + 1 < points p.vars
    · have hm : ¬ (t + 1) % points p.vars = 0 := by
        rw [succ_mod_points _ _ ht]; omega
      rw [if_pos ht1]
      simp only [Inv, if_true, Nat.lt_irrefl, and_false, decide_False, Nat.cast_zero]
      refine ⟨ht1, by omega, by simp [step, hx, hd, hst],
        by simp [step, hx, hd, h0, h1, hns, hvars, hc, hm, hstate],
        by simp [step, h0, hvars, hc], by simp [step, hx, h0, h1, hns, hsv],
        by simp [step, hx, h0, hvars, hc, hm, hil], ?_⟩
      rw [step_is_last_d p hpp, ha, if_pos rfl, hil]
      simp
    · have hm : (t + 1) % points p.vars = 0 := by
        rw [succ_mod_points _ _ ht]; omega
      rw [if_neg ht1]
      simp only [Inv]
      refine ⟨by omega, by simp [step, hx, hd, hst],
        by simp [step, hx, hd, h0, h1, hns, hvars, hc, hm],
        by simp [step, hx, h0, h1, hns, hsv],
        by simp [step, hx, h0, hvars, hc, hm], ?_,
        step_d_is_max_load p hpp s x ha 0 hsv hz⟩
      rw [step_is_last_d p hpp, ha, if_pos rfl, hil, hD]
      simp

theorem step_scan_stencil (p : Params) (hpp : p.ppdepth = 1) (hb : ∀ b ∈ p.vars, b.ok)
    (hns : no_state1 p = false) (hD : drainCycles p = 1) (m : Nat)
    (hsten : p.stencil_vars = [⟨0, (m : Int) + 1⟩]) (hE : stencilExtent p = m + 2)
    (hm31 : (m : Int) + 1 < 2 ^ 31)
    (t r : Nat) (s : Regs) (x : Ports) (hinv : Inv p (.scan t r) s)
    (hx : x.start_in = false) (ha : act s x = true) : StepOk p (.scan t r) s x := by
  obtain ⟨ht, hr, hst, hstate, hvars, hsv, hil, hd1⟩ := hinv
  have h2 : st2 s x = false := by
    by_cases h : r = 0 <;> simp [st2, hstate, h]
  have hd : done_out p s x = false := by simp [done_out, h2]
  have hc := chain_pt p.vars hb t
  rw [hsten] at hsv
  simp only [List.map_cons, List.map_nil] at hsv
  by_cases hr0 : r = 0
  · subst hr0
    simp only [if_true, Nat.lt_irrefl, and_false, decide_False, Nat.cast_zero] at hstate hvars hsv hil hd1
    have h1 : st1 p s x = false := by simp [st1, hstate]
    have h0 : st0 s x = inputs_valid x := by simp [st0, ha, hstate]
    have hrun : run_step p s x = inputs_valid x := by simp [run_step, h0, h1, h2]
    refine ⟨?_, by simp, by simp [hd], fun _ hv _ => by rw [hrun, hv]⟩
    rw [hrun]
    cases hv : inputs_valid x
    · rw [hv] at h0
      simp only [Bool.false_eq_true, if_false, Inv]
      refine ⟨ht, by omega, by simp [step, hx, hd, hst], by simp [step, hx, hd, h0, h1, hstate],
        by simp [step, hx, h0, hvars], by simp [step, hx, h0, h1, hsv, hsten],
        by simp [step, hx, h0, hil], ?_⟩
      rw [step_is_last_d p hpp, ha, if_pos rfl, hil]
      simp
    · rw [hv] at h0
      simp only [if_true, Phase.next, hE]
      rw [if_pos (by omega)]
      simp only [Inv]
      refine ⟨ht, by omega, by simp [step, hx, hd, hst],
        by simp [step, hx, hd, h0, h1, hns],
        by simp [step, h0, hvars, hc], by simp [step, hx, h0, h1, hns, hsv, hsten],
        ?_, ?_⟩
      · simp [step, hx, h0, hvars, hc, hil, succ_mod_points _ _ ht]
      · rw [step_is_last_d p hpp, ha, if_pos rfl, hil]
        simp
  · have hrpos : 0 < r := Nat.pos_of_ne_zero hr0
    simp only [hr0, if_false, hrpos, and_true] at hstate hvars hil hd1
    have h1 : st1 p s x = true := by simp [st1, ha, hns, hstate]
    have h0 : st0 s x = false := by simp [st0, hstate]
    have hrun : run_step p s x = true := by simp [run_step, h1]
    have htc : chain p.stencil_vars s.stencil_vars
        = ([if (r : Int) = (m : Int) + 1 then 0 else inc32 r], decide ((r : Int) = (m : Int) + 1)) := by
      rw [hsten, hsv]
      simp [chain]
    refine ⟨?_, by simp, by simp [hd], fun _ _ _ => hrun⟩
    rw [hrun]
    simp only [if_true, Phase.next, hE]
    by_cases hr1 : r + 1 < m + 2
    · have hne : ¬ (r : Int) = (m : Int) + 1 := by omega
      rw [if_pos hr1]
      simp only [Inv]
      have hinc : inc32 (r : Int) = ((r + 1 : Nat) : Int) := by
        rw [inc32_of_lt (r : Int) ((m : Int) + 1) (by norm_num; omega) (by omega) hm31]
        simp
      refine ⟨ht, by omega, by simp [step, hx, hd, hst],
        by simp [step, hx, hd, h0, h1, htc, hne, hstate],
        by simp [step, hx, h0, hvars], ?_, ?_, ?_⟩
      · have e : (step p s x).stencil_vars = (chain p.stencil_vars s.stencil_vars).1 := by
          simp only [step, h1, if_true]
        rw [e, htc, hsten]
        simp [hne, hinc]
      · simp [step, hx, h0, hil]
      · rw [step_is_last_d p hpp, ha, if_pos rfl, hil]
        simp
        intro _; omega
    · have heq : (r : Int) = (m : Int) + 1 := by omega
      rw [if_neg hr1]
      by_cases ht1 : t + 1 < points p.vars
      · have hilf : s.is_last_stencil = false := by rw [hil]; simp; omega
        rw [if_pos ht1]
        simp only [Inv, if_true, Nat.lt_irrefl, and_false, decide_False, Nat.cast_zero]
        refine ⟨ht1, by omega, by simp [step, hx, hd, hst],
          by simp [step, hx, hd, h0, h1, htc, heq, hilf],
          by simp [step, hx, h0, hvars], ?_, by simp [step, hx, h0, hilf], ?_⟩
        · have e : (step p s x).stencil_vars = (chain p.stencil_vars s.stencil_vars).1 := by
            simp only [step, h1, if_true]
          rw [e, htc, hsten]
          simp [heq]
        · rw [step_is_last_d p hpp, ha, if_pos rfl, hilf]
          simp
      · have hilt : s.is_last_stencil = true := by rw [hil]; simp; omega
        rw [if_neg ht1]
        simp only [Inv]
        refine ⟨by omega, by simp [step, hx, hd, hst],
          by simp [step, hx, hd, h0, h1, htc, heq, hilt], ?_,
          by simp [step, hx, h0, hilt], ?_, ?_⟩
        · have e : (step p s x).stencil_vars = (chain p.stencil_vars s.stencil_vars).1 := by
            simp only [step, h1, if_true]
          rw [e, htc, hsten]
          simp [heq]
        · rw [step_is_last_d p hpp, ha, if_pos rfl, hilt, hD]
          simp
        · apply step_d_is_max_load p hpp s x ha (r : Int)
          · rw [hsv, hsten]; rfl
          · intro b hb0
            rw [hsten] at hb0
            simp at hb0
            rw [hb0, heq]

end ForBlock

namespace ForBlock

/-- Without a start, every cycle of a supported block takes a phase of the run
to the next one or keeps it. -/
theorem step_ok (p : Params) (hsup : Supported p) (ph : Phase) (s : Regs) (x : Ports)
    (hinv : Inv p ph s) (hx : x.start_in = false) : StepOk p ph s x := by
  have hpp := hsup.1
  have hb := hsup.2.1
  have hstarted : ph ≠ .idle → s.started = true := by
    intro h
    cases ph with
    | scan t r => exact hinv.2.2.1
    | drain k => exact hinv.2.1
    | idle => exact absurd rfl h
  cases ha : act s x
  · have h0 : st0 s x = false := by simp [st0, ha]
    have h1 : st1 p s x = false := by simp [st1, ha]
    have h2 : st2 s x = false := by simp [st2, ha]
    have hd : done_out p s x = false := by simp [done_out, h2]
    have hr : run_step p s x = false := by simp [run_step, h0, h1, h2]
    refine ⟨?_, by simp [hr], by simp [hd, hr], ?_⟩
    · rw [hr]
      exact step_hold p hpp ph s x hinv hx ha
    · intro hrdy _ hne
      have := hstarted hne
      simp [act, this, hrdy] at ha
  · cases ph with
    | idle => exact step_idle p s x hinv hx
    | drain k =>
      rcases supported_shape p hsup with ⟨_, _, hD, hz⟩ | ⟨_, hD, _⟩
      · exact step_drain p hpp (Or.inr ⟨hD, hz⟩) k s x hinv hx ha
      · exact step_drain p hpp (Or.inl hD) k s x hinv hx ha
    | scan t r =>
      rcases supported_shape p hsup with ⟨hns, hE, hD, hz⟩ | ⟨hns, hD, m, hsten, hE, hm⟩
      · exact step_scan_flat p hpp hb hns hE hD hz t r s x hinv hx ha
      · exact step_scan_stencil p hpp hb hns hD m hsten hE hm t r s x hinv hx ha

theorem stencilExtent_pos (p : Params) (hsup : Supported p) : 0 < stencilExtent p := by
  rcases supported_shape p hsup with ⟨_, hE, _, _⟩ | ⟨_, _, m, _, hE, _⟩ <;> omega

theorem drainCycles_pos (p : Params) : 0 < drainCycles p := by
  unfold drainCycles
  split <;> omega

theorem phaseOf_succ (p : Params) (hsup : Supported p) (q : Nat) :
    (phaseOf p q).next p = phaseOf p (q + 1) := by
  have hE := stencilExtent_pos p hsup
  have hD := drainCycles_pos p
  unfold phaseOf totalSteps
  by_cases h1 : q < points p.vars * stencilExtent p
  · have hdiv : q / stencilExtent p < points p.vars :=
      (Nat.div_lt_iff_lt_mul hE).2 h1
    rw [if_pos h1]
    simp only [Phase.next]
    by_cases hc : q % stencilExtent p + 1 < stencilExtent p
    · have hq := succ_divmod_stay q _ hE hc
      have h2 : q + 1 < points p.vars * stencilExtent p := by
        rw [← Nat.div_lt_iff_lt_mul hE, hq.1]; exact hdiv
      rw [if_pos hc, if_pos h2, hq.1, hq.2]
    · have hlt := Nat.mod_lt q hE
      have hq := succ_divmod_carry q _ hE (by omega)
      rw [if_neg hc]
      by_cases ht : q / stencilExtent p + 1 < points p.vars
      · have h2 : q + 1 < points p.vars * stencilExtent p := by
          rw [← Nat.div_lt_iff_lt_mul hE, hq.1]; exact ht
        rw [if_pos ht, if_pos h2, hq.1, hq.2]
      · have h2 : ¬ q + 1 < points p.vars * stencilExtent p := by
          rw [← Nat.div_lt_iff_lt_mul hE, hq.1]; exact ht
        rw [if_neg ht, if_neg h2, if_pos (by omega)]
        congr 1
        omega
  · have h1' : ¬ q + 1 < points p.vars * stencilExtent p := by omega
    simp only [if_neg h1, if_neg h1']
    by_cases h2 : q < points p.vars * stencilExtent p + drainCycles p
    · simp only [if_pos h2, Phase.next]
      by_cases h3 : q + 1 < points p.vars * stencilExtent p + drainCycles p
      · have h4 : q - points p.vars * stencilExtent p + 1 < drainCycles p := by omega
        simp only [if_pos h3, if_pos h4]
        congr 1
        omega
      · have h4 : ¬ q - points p.vars * stencilExtent p + 1 < drainCycles p := by omega
        simp only [if_neg h3, if_neg h4]
    · have h3 : ¬ q + 1 < points p.vars * stencilExtent p + drainCycles p := by omega
      simp only [if_neg h2, if_neg h3, Phase.next]

theorem phaseOf_ne_idle (p : Params) (q : Nat) : phaseOf p q ≠ .idle ↔ q < totalSteps p := by
  unfold phaseOf
  by_cases h1 : q < points p.vars * stencilExtent p
  · have : q < totalSteps p := by unfold totalSteps; omega
    simp [h1, this]
  · by_cases h2 : q < totalSteps p <;> simp [h1, h2]

theorem phaseOf_eq_last (p : Params) (q : Nat) :
    phaseOf p q = .drain (drainCycles p - 1) ↔ q + 1 = totalSteps p := by
  have hD := drainCycles_pos p
  unfold phaseOf totalSteps
  by_cases h1 : q < points p.vars * stencilExtent p
  · simp only [if_pos h1]
    constructor
    · intro h; cases h
    · intro h; omega
  · simp only [if_neg h1]
    by_cases h2 : q < points p.vars * stencilExtent p + drainCycles p
    · simp only [if_pos h2, Phase.drain.injEq]
      omega
    · simp only [if_neg h2]
      constructor
      · intro h; cases h
      · intro h; omega

end ForBlock

namespace ForBlock

theorem inv_startState (p : Params) (hsup : Supported p) : Inv p (phaseOf p 0) (startState p) := by
  have hE := stencilExtent_pos p hsup
  have hN := points_pos p.vars hsup.2.1
  have h0 : phaseOf p 0 = .scan 0 0 := by
    unfold phaseOf
    rw [if_pos (Nat.mul_pos hN hE)]
    simp
  rw [h0]
  refine ⟨hN, hE, rfl, rfl, ?_, ?_, by simp [startState, reset], ?_⟩
  · simp [startState, reset, pt_zero]
  · rcases hsup.2.2 with h | ⟨m, h, _, _⟩ <;> simp [startState, reset, h]
  · simp [startState, reset, hsup.1]

theorem inv_state (p : Params) (q : Nat) (s : Regs)
    (h : Inv p (phaseOf p q) s) :
    s.state = stateSeq p q ∧ s.started = decide (q < totalSteps p) := by
  have hD := drainCycles_pos p
  unfold phaseOf at h
  unfold stateSeq
  by_cases h1 : q < points p.vars * stencilExtent p
  · have h2 : q < totalSteps p := by unfold totalSteps; omega
    rw [if_pos h1] at h
    rw [if_pos h1]
    exact ⟨h.2.2.2.1, by rw [h.2.2.1]; simp [h2]⟩
  · rw [if_neg h1] at h
    rw [if_neg h1]
    by_cases h2 : q < totalSteps p
    · rw [if_pos h2] at h
      rw [if_pos h2]
      exact ⟨h.2.2.1, by rw [h.2.1]; simp [h2]⟩
    · rw [if_neg h2] at h
      rw [if_neg h2]
      exact ⟨h.2, by rw [h.1]; simp [h2]⟩

/-- Along a trace without a start, a run that has made `q` steps stays within
the phases of the run, and `done_out` is high exactly once, on the last step. -/
theorem run_inv (p : Params) (hsup : Supported p) (is : List Ports)
    (hns : ∀ x ∈ is, x.start_in = false) (s : Regs) (q : Nat) (hq : q ≤ totalSteps p)
    (hinv : Inv p (phaseOf p q) s) :
    q + advances p s is ≤ totalSteps p
      ∧ Inv p (phaseOf p (q + advances p s is)) (runFrom p s is)
      ∧ dones p s is = (if q < totalSteps p ∧ q + advances p s is = totalSteps p then 1 else 0) := by
  induction is generalizing s q with
  | nil =>
    refine ⟨by simpa [advances] using hq, by simpa [advances, runFrom] using hinv, ?_⟩
    simp only [dones, advances, Nat.add_zero]
    rw [if_neg (by omega)]
  | cons x is ih =>
    have hx := hns x (List.mem_cons_self _ _)
    have hrest : ∀ y ∈ is, y.start_in = false := fun y hy => hns y (List.mem_cons_of_mem _ hy)
    obtain ⟨h1, h2, h3, _⟩ := step_ok p hsup (phaseOf p q) s x hinv hx
    rw [runFrom_cons]
    simp only [advances, dones]
    by_cases hr0 : run_step p s x = true
    swap
    · have hr : run_step p s x = false := by simpa using hr0
      rw [hr] at h1 h3
      simp only [Bool.false_eq_true, if_false, Bool.false_and] at h1 h3
      obtain ⟨a, b, c⟩ := ih hrest (step p s x) q hq h1
      simp only [h3, hr, Bool.false_eq_true, if_false, Nat.zero_add]
      exact ⟨a, b, c⟩
    · have hr := hr0
      rw [hr] at h1 h3
      have hlt : q < totalSteps p := (phaseOf_ne_idle p q).1 (h2 hr)
      simp only [if_true, Bool.true_and] at h1 h3
      rw [phaseOf_succ p hsup q] at h1
      obtain ⟨a, b, c⟩ := ih hrest (step p s x) (q + 1) hlt h1
      have e : q + (1 + advances p (step p s x) is) = q + 1 + advances p (step p s x) is := by
        omega
      simp only [hr, if_true, e, h3, c]
      refine ⟨a, b, ?_⟩
      by_cases hl : q + 1 = totalSteps p
      · have : phaseOf p q = .drain (drainCycles p - 1) := (phaseOf_eq_last p q).2 hl
        simp only [this, decide_True, if_true]
        rw [if_neg (by omega), if_pos ⟨hlt, by omega⟩]
      · have : ¬ phaseOf p q = .drain (drainCycles p - 1) := fun h =>
          hl ((phaseOf_eq_last p q).1 h)
        simp only [this, decide_False, Bool.false_eq_true, if_false, Nat.zero_add]
        by_cases hf : q + 1 + advances p (step p s x) is = totalSteps p
        · rw [if_pos ⟨by omega, hf⟩, if_pos ⟨hlt, hf⟩]
        · rw [if_neg (fun h => hf h.2), if_neg (fun h => hf h.2)]

/-- Along a trace of cycles with the output ready and every input valid, an
unfinished run advances in every cycle. -/
theorem run_live (p : Params) (hsup : Supported p) (is : List Ports)
    (hgo : ∀ x ∈ is, x.start_in = false ∧ x.out_ready = true ∧ inputs_valid x = true)
    (s : Regs) (q : Nat) (hinv : Inv p (phaseOf p q) s) :
    advances p s is = min is.length (totalSteps p - q) := by
  induction is generalizing s q with
  | nil => simp [advances]
  | cons x is ih =>
    obtain ⟨hx, hrdy, hval⟩ := hgo x (List.mem_cons_self _ _)
    have hrest : ∀ y ∈ is, y.start_in = false ∧ y.out_ready = true ∧ inputs_valid y = true :=
      fun y hy => hgo y (List.mem_cons_of_mem _ hy)
    obtain ⟨h1, h2, _, h4⟩ := step_ok p hsup (phaseOf p q) s x hinv hx
    simp only [advances, List.length_cons]
    by_cases hlt : q < totalSteps p
    · have hr := h4 hrdy hval ((phaseOf_ne_idle p q).2 hlt)
      rw [hr] at h1
      simp only [if_true] at h1
      rw [phaseOf_succ p hsup q] at h1
      rw [hr, ih hrest (step p s x) (q + 1) h1]
      simp only [if_true]
      omega
    · have hr : run_step p s x = false := by
        cases h : run_step p s x
        · rfl
        · exact absurd ((phaseOf_ne_idle p q).1 (h2 h)) hlt
      rw [hr] at h1
      simp only [Bool.false_eq_true, if_false] at h1
      rw [hr, ih hrest (step p s x) q h1]
      simp only [Bool.false_eq_true, if_false]
      omega

theorem step_start (p : Params) (s : Regs) (i : Ports) (hi : i.start_in = true)
    (ha : act s i = false) : step p s i = startState p := by
  have h0 : st0 s i = false := by simp [st0, ha]
  have h1 : st1 p s i = false := by simp [st1, ha]
  have h2 : st2 s i = false := by simp [st2, ha]
  have hd : done_out p s i = false := by simp [done_out, h2]
  have hc : ∀ n : Nat, (List.range n).map (fun _ => false) = List.replicate n false := by
    intro n
    apply List.ext_getElem
    · simp
    · intro k hk1 hk2
      simp
  simp only [step, h0, h1, hd, ha, hi, startState, reset, Bool.false_and, Bool.false_eq_true,
    if_false, if_true, ite_self, hc]

end ForBlock

namespace ForBlock

theorem supported_twoByTwo : Supported twoByTwo := by
  refine ⟨rfl, ?_, Or.inr ⟨1, rfl, by norm_num, by norm_num⟩⟩
  intro b hb
  simp only [twoByTwo, List.mem_singleton] at hb
  subst hb
  simp [Level.ok]

/-- C12 (counterexample): with two scan points and a stencil loop of two
iterations, the states sampled on the cycles with `run_step` high of one run,
followed by the final state, are 0, 1, 0, 1, 2, 0: state 0 is revisited
between the scan points, so the run is not of the form 0, 1, .., 1, 2, 0,
although `done_out` is high once. -/
theorem forblock_state_revisits_0 :
    stateTrace twoByTwo (startState twoByTwo) (List.replicate 5 goCycle) = [0, 1, 0, 1, 2, 0]
      ∧ dones twoByTwo (startState twoByTwo) (List.replicate 5 goCycle) = 1
      ∧ ¬ ∃ k, stateTrace twoByTwo (startState twoByTwo) (List.replicate 5 goCycle)
            = 0 :: (List.replicate k 1 ++ [2, 0]) := by
  have h : stateTrace twoByTwo (startState twoByTwo) (List.replicate 5 goCycle)
      = [0, 1, 0, 1, 2, 0] := by decide
  refine ⟨h, by decide, ?_⟩
  rintro ⟨k, hk⟩
  rw [h] at hk
  have hl := congrArg List.length hk
  simp at hl
  have hk3 : k = 3 := by omega
  subst hk3
  simp [List.replicate] at hk

/-- C12 (amended): for a supported loop nest at pipeline depth 1, over a trace
without a further start after a start, `state` after `q` cycles with
`run_step` high is `stateSeq q`: 0 then 1 for the remaining iterations of the
stencil loop, repeated for every scan point in turn, then 2 (entered once,
after the last scan point), then 0; at most `totalSteps` cycles advance,
`started` falls exactly then, `done_out` is high on exactly one cycle of a
full run and on none of a shorter one, and the run is completed whenever the
output is ready and the inputs valid on enough cycles. -/
theorem forblock_state_order (p : Params) (hsup : Supported p) (is : List Ports)
    (hns : ∀ x ∈ is, x.start_in = false) :
    advances p (startState p) is ≤ totalSteps p
      ∧ (runFrom p (startState p) is).state = stateSeq p (advances p (startState p) is)
      ∧ (runFrom p (startState p) is).started
          = decide (advances p (startState p) is < totalSteps p)
      ∧ dones p (startState p) is
          = (if advances p (startState p) is = totalSteps p then 1 else 0)
      ∧ ((∀ x ∈ is, x.out_ready = true ∧ inputs_valid x = true) →
          advances p (startState p) is = min is.length (totalSteps p))
      ∧ (∀ (s : Regs) (i : Ports), i.start_in = true → act s i = false →
          step p s i = startState p) := by
  have hT : 0 < totalSteps p := by
    have := drainCycles_pos p
    unfold totalSteps
    omega
  have h0 := inv_startState p hsup
  obtain ⟨a, b, c⟩ := run_inv p hsup is hns (startState p) 0 (Nat.zero_le _) h0
  rw [Nat.zero_add] at a b
  have hs := inv_state p _ _ b
  refine ⟨a, hs.1, hs.2, ?_, ?_, fun s i hi ha => step_start p s i hi ha⟩
  · rw [c, Nat.zero_add]
    by_cases h : advances p (startState p) is = totalSteps p
    · rw [if_pos ⟨hT, h⟩, if_pos h]
    · rw [if_neg (fun hh => h hh.2), if_neg h]
  · intro hgo
    have := run_live p hsup is (fun x hx => ⟨hns x hx, hgo x hx⟩) (startState p) 0 h0
    simpa using this

theorem forblock_state_order_witness :
    dones twoByTwo (startState twoByTwo) (List.replicate 5 goCycle) = 1
      ∧ (runFrom twoByTwo (startState twoByTwo) (List.replicate 5 goCycle)).started = false
      ∧ (runFrom twoByTwo (startState twoByTwo) (List.replicate 4 goCycle)).state = 2 :=
  have h5 := forblock_state_order twoByTwo supported_twoByTwo (List.replicate 5 goCycle)
    (by decide)
  have h4 := forblock_state_order twoByTwo supported_twoByTwo (List.replicate 4 goCycle)
    (by decide)
  ⟨h5.2.2.2.1.trans (by decide), h5.2.2.1.trans (by decide), h4.2.1.trans (by decide)⟩

end ForBlock

namespace ForBlock

/-- C15 (failing input): for a serial loop with min 1 and extent 2 the level
recorded by `visit(For)` has max 1 (`id_extent-1`), not 1 + 2 - 1 = 2; its box
is the single value 1, and the counter at 1 is at its max and wraps to 1, so
the value 2 is never visited. -/
theorem visitFor_max_ignores_min :
    (visitFor 1 2).min = 1 ∧ (visitFor 1 2).max = 1 ∧ (visitFor 1 2).max ≠ 1 + 2 - 1
      ∧ box [visitFor 1 2] = [[1]]
      ∧ chain [visitFor 1 2] [1] = ([1], true) := by
  decide

/-- The level recorded for a loop with constant min `m` and extent `e` has min
`m` and max `e - 1` (the min is not added); when `m < e` and the bounds fit 32
bits the counter chain of a scan level therefore steps through the `e - m`
values `m, m + 1, .., e - 1` and wraps after the last, which are the `e` values
`m, .., m + e - 1` when `m = 0`. -/
theorem visitFor_records_extent_minus_one (m e : Int) (hm : -(2 ^ 31) ≤ m) (hme : m < e)
    (he : e ≤ 2 ^ 31) :
    (visitFor m e).min = m ∧ (visitFor m e).max = e - 1
      ∧ points [visitFor m e] = (e - m).toNat
      ∧ box [visitFor m e] = (List.range (e - m).toNat).map (fun (a : Nat) => [m + (a : Int)])
      ∧ (∀ t, chain [visitFor m e] (pt [visitFor m e] t)
          = (pt [visitFor m e] (t + 1), decide ((t + 1) % (e - m).toNat = 0)))
      ∧ (∀ t, pt [visitFor m e] t = [m + ((t % (e - m).toNat : Nat) : Int)])
      ∧ (m = 0 → box [visitFor m e] = (List.range e.toNat).map (fun (a : Nat) => [(a : Int)])) := by
  have hok : ∀ b ∈ [visitFor m e], b.ok := by
    intro b hb
    simp only [List.mem_singleton] at hb
    subst hb
    exact ⟨by simp only [visitFor]; omega, hm, by simp only [visitFor]; omega⟩
  have hp : points [visitFor m e] = (e - m).toNat := by
    simp only [points, extent, visitFor, Nat.mul_one]
    congr 1
    omega
  have hbox : box [visitFor m e] = (List.range (e - m).toNat).map (fun (a : Nat) => [m + (a : Int)]) := by
    rw [← map_pt_eq_box _ hok, hp]
    apply List.map_congr_left
    intro a ha
    rw [List.mem_range] at ha
    simp only [pt, points, Nat.div_one, extent, visitFor]
    have : (e - 1 - m + 1).toNat = (e - m).toNat := by congr 1; omega
    rw [this, Nat.mod_eq_of_lt ha]
  refine ⟨rfl, rfl, hp, hbox, ?_, ?_, ?_⟩
  · intro t
    rw [chain_pt _ hok t, hp]
  · intro t
    simp only [pt, points, Nat.div_one, extent, visitFor]
    have : (e - 1 - m + 1).toNat = (e - m).toNat := by congr 1; omega
    rw [this]
  · intro h0
    subst h0
    rw [hbox]
    simp

theorem visitFor_records_extent_minus_one_witness :
    (visitFor 0 3).max = 2 ∧ box [visitFor 0 3] = [[0], [1], [2]] :=
  have h := visitFor_records_extent_minus_one 0 3 (by norm_num) (by norm_num) (by norm_num)
  ⟨h.2.1.trans (by decide), by decide⟩

end ForBlock

/-! ## Statement lowering -/

namespace Visit

/-- C23 (failing input): lowering a floating-point literal.  The check is
`internal_assert(true)`, which never fires: `print_expr` returns the name
`$$ BAD ID $$` in every state, and the sum `x + 1.0f` is lowered to a node
whose operand is that name. -/
theorem float_literal_returns_bad_id :
    (∀ g : CG, print_expr visitFloatImm g = .ok "$$ BAD ID $$" { g with id := "$$ BAD ID $$" })
      ∧ (∀ g : CG, (print_expr visitFloatImm g).aborted = false)
      ∧ (visitAdd sampleName ⟨true, 32⟩ (visitVariable "x") visitFloatImm blockCG).aborted = false
      ∧ (visitAdd sampleName ⟨true, 32⟩ (visitVariable "x") visitFloatImm blockCG).state.gen.current_fb
          = some ["node _0 = asSInt(tail(add(x, $$ BAD ID $$), 1))\n"] := by
  refine ⟨fun g => rfl, fun g => rfl, by decide, by decide⟩

/-- C27: on a loop that is not serial `visit(For)` aborts with the diagnostic of
its first statement, in the state it was entered in: no component, port,
connection or loop variable has been added. -/
theorem for_not_serial_aborts_unchanged (inst sif name : String) (for_type : ForType)
    (id_min id_extent : Int) (closure_vars : List String) (contains_realize contains_for_loop : Bool)
    (body : CG → Res Unit) (g : CG) (h : for_type ≠ .Serial) :
    visitFor inst sif name for_type id_min id_extent closure_vars contains_realize
        contains_for_loop body g
      = .abort "Can only emit serial for loops to FIRRTL\n" g := by
  unfold visitFor internal_assert
  simp [h]

theorem for_not_serial_aborts_unchanged_witness :
    visitFor "FB_p" "SlaveIf" "x" .Parallel 0 4 [] true false (fun g => .ok () g) emptyCG
        = .abort "Can only emit serial for loops to FIRRTL\n" emptyCG
      ∧ (visitFor "FB_p" "SlaveIf" "x" .Serial 0 4 [] true false (fun g => .ok () g)
          emptyCG).aborted = false :=
  ⟨for_not_serial_aborts_unchanged "FB_p" "SlaveIf" "x" .Parallel 0 4 [] true false
    (fun g => .ok () g) emptyCG (by decide), by decide⟩

end Visit

namespace Visit

/-- C21 (failing input): inside a block, after `add(x, y)` has been lowered to
`_0`, the cache still holds that entry after `open_scope` and after
`close_scope`; an if guarding a stream write then lowers `add(x, y)` and
`mul(x, y)` in its then-branch: no node is emitted for `add(x, y)` inside the
`when` (the name cached before the scope is reused), and lowering `mul(x, y)`
again after the scope returns the name `_2` of the node defined inside it,
without a new node. -/
theorem scope_keeps_cache_counterexample :
    afterAdd.gen.cache = [("add(x, y)", "_0")]
      ∧ (open_scope afterAdd).gen.cache = [("add(x, y)", "_0")]
      ∧ (close_scope afterAdd "").gen.cache = [("add(x, y)", "_0")]
      ∧ afterIf.gen.current_fb
          = some ["node _0 = add(x, y)\n", "when c :\n", "node _2 = mul(x, y)\n"]
      ∧ afterIf.gen.cache ≠ []
      ∧ (print_assignment sampleName ⟨true, 32⟩ "mul(x, y)" afterIf).state.id = "_2"
      ∧ (print_assignment sampleName ⟨true, 32⟩ "mul(x, y)" afterIf).state.gen.current_fb
          = afterIf.gen.current_fb := by
  decide

/-- In general `open_scope` and `close_scope` leave the expression cache (and
the rest of the `print_assignment` state) unchanged; and in an if guarding
a stream write the then-branch is lowered with the cache left by the lowering
of the condition, and the cache it leaves is the cache after the if: entering
and leaving the `when` scope do not clear it. -/
theorem scope_keeps_cache (fb_open fb_close : List String → List String)
    (condition then_case : CG → Res Unit) (g g1 g2 : CG) (c comment : String)
    (hfb : g.gen.current_fb.isSome = true)
    (hc : print_expr condition g = .ok c g1)
    (ht : then_case (fb_edit fb_open (fb_print g1 ("when " ++ c ++ " :\n"))) = .ok () g2) :
    (open_scope g).gen = g.gen
      ∧ (close_scope g comment).gen = g.gen
      ∧ (fb_edit fb_open (fb_print g1 ("when " ++ c ++ " :\n"))).gen.cache = g1.gen.cache
      ∧ visitIfThenElse fb_open fb_close condition then_case false true g
          = .ok () { fb_edit fb_close g2 with id := "0" }
      ∧ (visitIfThenElse fb_open fb_close condition then_case false true g).state.gen.cache
          = g2.gen.cache := by
  have hv : visitIfThenElse fb_open fb_close condition then_case false true g
      = .ok () { fb_edit fb_close g2 with id := "0" } := by
    unfold visitIfThenElse
    cases hb : g.gen.current_fb with
    | none => rw [hb] at hfb; cases hfb
    | some body => simp [hc, ht]
  refine ⟨rfl, rfl, rfl, hv, ?_⟩
  rw [hv]
  rfl

theorem scope_keeps_cache_witness :
    visitIfThenElse id id (visitVariable "c") lowerAddMul false true afterAdd
        = .ok () { fb_edit id (lowerAddMul (fb_edit id (fb_print
            (print_expr (visitVariable "c") afterAdd).state "when c :\n"))).state with id := "0" }
      ∧ (open_scope afterAdd).gen = afterAdd.gen :=
  have h := scope_keeps_cache id id (visitVariable "c") lowerAddMul afterAdd
    (print_expr (visitVariable "c") afterAdd).state
    (lowerAddMul (fb_edit id (fb_print
      (print_expr (visitVariable "c") afterAdd).state "when c :\n"))).state
    "c" "" (by decide) (by decide) (by decide)
  ⟨h.2.2.2.1, h.1⟩

/-- C25 (counterexample): inside a block, an if whose then-branch contains a
stream read and no stream write is accepted: lowering does not abort, and the
then-branch is emitted without a `when` guard (the condition is not lowered
at all). -/
theorem if_with_read_stream_is_accepted :
    visitIfThenElse id id (visitVariable "c") readBranch true false blockCG
        = .ok () { fb_print blockCG "in_stencil <= in.value\n" with id := "0" }
      ∧ (visitIfThenElse id id (visitVariable "c") readBranch true false blockCG).aborted = false
      ∧ (visitIfThenElse id id (visitVariable "c") readBranch true false blockCG).state.gen.current_fb
          = some ["in_stencil <= in.value\n"] := by
  decide

/-- C25 (amended): when the condition and the then-branch lower without abort,
`visit(IfThenElse)` aborts exactly when no block is current or the then-branch
contains neither a stream read nor a stream write; with a stream read the
then-branch is lowered as it stands, without a guard and without lowering the
condition; otherwise, with a stream write, the line `when <condition> :` is
printed into the block and the then-branch is lowered after it.  In each
accepted case `id` is left at `0`. -/
theorem if_accepts_read_or_write (fb_open fb_close : List String → List String)
    (condition then_case : CG → Res Unit) (has_read has_write : Bool) (g : CG)
    (hcond : ∀ g0, (condition g0).aborted = false)
    (hthen : ∀ g0, (then_case g0).aborted = false) :
    ((visitIfThenElse fb_open fb_close condition then_case has_read has_write g).aborted = true
        ↔ (g.gen.current_fb = none ∨ (has_read = false ∧ has_write = false)))
      ∧ (g.gen.current_fb.isSome = true → has_read = true →
          visitIfThenElse fb_open fb_close condition then_case has_read has_write g
            = .ok () { (then_case g).state with id := "0" })
      ∧ (g.gen.current_fb.isSome = true → has_read = false → has_write = true →
          visitIfThenElse fb_open fb_close condition then_case has_read has_write g
            = .ok () { fb_edit fb_close (then_case (fb_edit fb_open (fb_print
                (print_expr condition g).state
                ("when " ++ (print_expr condition g).state.id ++ " :\n")))).state with
                id := "0" }) := by
  have hpe : ∀ g0, ∃ g1, print_expr condition g0 = .ok g1.id g1 := by
    intro g0
    unfold print_expr
    have := hcond { g0 with id := "$$ BAD ID $$" }
    cases h : condition { g0 with id := "$$ BAD ID $$" } with
    | ok a g1 => exact ⟨g1, rfl⟩
    | abort m g1 => rw [h] at this; cases this
  have hth : ∀ g0, then_case g0 = .ok () (then_case g0).state := by
    intro g0
    have := hthen g0
    cases h : then_case g0 with
    | ok a g1 => rfl
    | abort m g1 => rw [h] at this; cases this
  obtain ⟨g1, hg1⟩ := hpe g
  have hst : (print_expr condition g).state = g1 := by rw [hg1]; rfl
  refine ⟨?_, ?_, ?_⟩
  · unfold visitIfThenElse
    cases hb : g.gen.current_fb with
    | none => simp [internal_error, Res.aborted]
    | some body =>
      cases has_read
      · cases has_write
        · simp [internal_error, Res.aborted]
        · simp only [hg1, Bool.false_eq_true, if_false, if_true]
          rw [hth (fb_edit fb_open (fb_print g1 ("when " ++ g1.id ++ " :\n")))]
          simp [Res.aborted]
      · simp only [if_true]
        rw [hth g]
        simp [Res.aborted]
  · intro hfb hr
    unfold visitIfThenElse
    cases hb : g.gen.current_fb with
    | none => rw [hb] at hfb; cases hfb
    | some body =>
      simp only [hr, if_true]
      rw [hth g]
      rfl
  · intro hfb hr hw
    unfold visitIfThenElse
    cases hb : g.gen.current_fb with
    | none => rw [hb] at hfb; cases hfb
    | some body =>
      simp only [hr, hw, hg1, Bool.false_eq_true, if_false, if_true]
      rw [hth (fb_edit fb_open (fb_print g1 ("when " ++ g1.id ++ " :\n")))]
      rfl

theorem if_accepts_read_or_write_witness :
    (visitIfThenElse id id (visitVariable "c") lowerAddMul false false afterAdd).aborted = true
      ∧ (visitIfThenElse id id (visitVariable "c") lowerAddMul true false afterAdd).aborted = false
      ∧ (visitIfThenElse id id (visitVariable "c") lowerAddMul false true emptyCG).aborted = true :=
  have hc : ∀ g0, (visitVariable "c" g0).aborted = false := fun _ => rfl
  have ht : ∀ g0, (lowerAddMul g0).aborted = false := fun _ => rfl
  ⟨(if_accepts_read_or_write id id (visitVariable "c") lowerAddMul false false afterAdd hc ht).1.2
      (Or.inr ⟨rfl, rfl⟩),
    by decide,
    (if_accepts_read_or_write id id (visitVariable "c") lowerAddMul false true emptyCG hc ht).1.2
      (Or.inl rfl)⟩

end Visit

namespace Visit

end Visit

/-! ## The `dispatch_stream` call -/

namespace Visit

theorem allSome_length {α : Type} (l : List (Option α)) (r : List α) (h : allSome l = some r) :
    r.length = l.length := by
  induction l generalizing r with
  | nil => simp [allSome] at h; subst h; rfl
  | cons a l ih =>
    cases a with
    | none => simp [allSome] at h
    | some a =>
      simp only [allSome, Option.map_eq_some'] at h
      obtain ⟨r', hr', rfl⟩ := h
      simp [ih r' hr']

theorem allSome_map_mono {α : Type} (l : List Nat) (f f' : Nat → Option α) (r : List α)
    (h : allSome (l.map f) = some r) (hf : ∀ i v, f i = some v → f' i = some v) :
    allSome (l.map f') = some r := by
  induction l generalizing r with
  | nil => simpa [allSome] using h
  | cons i l ih =>
    simp only [List.map_cons] at h ⊢
    cases hi : f i with
    | none => rw [hi] at h; simp [allSome] at h
    | some a =>
      rw [hi] at h
      simp only [allSome, Option.map_eq_some'] at h
      obtain ⟨r', hr', rfl⟩ := h
      rw [hf i a hi]
      simp [allSome, ih r' hr']

theorem getElem?_append_some {α : Type} (l extra : List α) (k : Nat) (a : α)
    (h : l[k]? = some a) : (l ++ extra)[k]? = some a := by
  have hk : k < l.length := by
    by_contra hn
    rw [List.getElem?_eq_none (by omega)] at h
    cases h
  rw [List.getElem?_append_left hk]
  exact h

theorem as_const_int_append (args extra : List Arg) (k : Nat) (v : Int)
    (h : as_const_int args k = some v) : as_const_int (args ++ extra) k = some v := by
  unfold as_const_int at h ⊢
  cases ha : args[k]? with
  | none => rw [ha] at h; cases h
  | some a =>
    rw [getElem?_append_some args extra k a ha]
    rw [ha] at h
    exact h

theorem parseConsumer_append (args extra : List Arg) (nd i : Nat) (c : Consumer)
    (h : parseConsumer args nd i = some c) : parseConsumer (args ++ extra) nd i = some c := by
  unfold parseConsumer at h ⊢
  cases h1 : args[nd * 3 + 3 + (2 + 2 * nd) * i]? with
  | none => rw [h1] at h; simp at h
  | some a1 =>
    cases h2 : args[nd * 3 + 4 + (2 + 2 * nd) * i]? with
    | none => rw [h1, h2] at h; cases a1 <;> simp at h
    | some a2 =>
      rw [getElem?_append_some args extra _ a1 h1, getElem?_append_some args extra _ a2 h2]
      rw [h1, h2] at h
      cases a1 <;> cases a2 <;> try (simp at h; done)
      rename_i s t d
      simp only at h ⊢
      cases h3 : allSome ((List.range nd).map fun j =>
          as_const_int args (nd * 3 + 5 + (2 + 2 * nd) * i + 2 * j)) with
      | none => rw [h3] at h; simp at h
      | some offs =>
        cases h4 : allSome ((List.range nd).map fun j =>
            as_const_int args (nd * 3 + 6 + (2 + 2 * nd) * i + 2 * j)) with
        | none => rw [h3, h4] at h; simp at h
        | some exts =>
          rw [h3, h4] at h
          rw [allSome_map_mono _ _ (fun j =>
              as_const_int (args ++ extra) (nd * 3 + 5 + (2 + 2 * nd) * i + 2 * j)) offs h3
              (fun j v hv => as_const_int_append args extra _ v hv),
            allSome_map_mono _ _ (fun j =>
              as_const_int (args ++ extra) (nd * 3 + 6 + (2 + 2 * nd) * i + 2 * j)) exts h4
              (fun j v hv => as_const_int_append args extra _ v hv)]
          exact h

end Visit

namespace Visit

/-- The facts a successful `dispatch_parse` rests on. -/
theorem dispatch_parse_ok (args : List Arg) (g g' : CG) (c : DispatchCall)
    (h : dispatch_parse args g = .ok c g') :
    g' = g ∧ ∃ n v1 vc sizes steps exts cs,
      (args[0]? : Option Arg) = some (.variable n) ∧ 2 ≤ args.length
        ∧ as_const_int args 1 = some v1
        ∧ (size_t v1 * 3 + 2) % 2 ^ 64 ≤ args.length
        ∧ allSome ((List.range (size_t v1)).map fun i => as_const_int args (i * 3 + 2)) = some sizes
        ∧ allSome ((List.range (size_t v1)).map fun i => as_const_int args (i * 3 + 3)) = some steps
        ∧ allSome ((List.range (size_t v1)).map fun i => as_const_int args (i * 3 + 4)) = some exts
        ∧ (size_t v1 * 3 + 3) % 2 ^ 64 ≤ args.length
        ∧ as_const_int args (size_t v1 * 3 + 2) = some vc
        ∧ (size_t v1 * 3 + 3 + size_t vc * (2 + 2 * size_t v1)) % 2 ^ 64 ≤ args.length
        ∧ allSome ((List.range (size_t vc)).map fun i => parseConsumer args (size_t v1) i) = some cs
        ∧ c = { stream_name := print_name n, stencil_sizes := sizes.map Lower.wrapInt,
                stencil_steps := steps.map Lower.wrapInt,
                store_extents := exts.map Lower.wrapInt, consumers := cs } := by
  unfold dispatch_parse at h
  split at h
  · cases h
  · rename_i hlen
    split at h
    · rename_i n hn
      split at h
      · cases h
      · rename_i v1 hv1
        split at h
        · cases h
        · rename_i h2
          split at h
          · rename_i sizes steps exts hs1 hs2 hs3
            split at h
            · cases h
            · rename_i h3
              split at h
              · cases h
              · rename_i vc hvc
                split at h
                · cases h
                · rename_i h4
                  split at h
                  · rename_i cs hcs
                    injection h with hc hg
                    exact ⟨hg.symm, n, v1, vc, sizes, steps, exts, cs, hn, by omega, hv1,
                      by omega, hs1, hs2, hs3, by omega, hvc, by omega, hcs, hc.symm⟩
                  · cases h
          · cases h
    · cases h

/-- The converse: these facts make `dispatch_parse` succeed. -/
theorem dispatch_parse_of (args : List Arg) (g : CG) (n : String) (v1 vc : Int)
    (sizes steps exts : List Int) (cs : List Consumer)
    (hn : (args[0]? : Option Arg) = some (.variable n)) (hlen : 2 ≤ args.length)
    (hv1 : as_const_int args 1 = some v1)
    (h2 : (size_t v1 * 3 + 2) % 2 ^ 64 ≤ args.length)
    (hs1 : allSome ((List.range (size_t v1)).map fun i => as_const_int args (i * 3 + 2)) = some sizes)
    (hs2 : allSome ((List.range (size_t v1)).map fun i => as_const_int args (i * 3 + 3)) = some steps)
    (hs3 : allSome ((List.range (size_t v1)).map fun i => as_const_int args (i * 3 + 4)) = some exts)
    (h3 : (size_t v1 * 3 + 3) % 2 ^ 64 ≤ args.length)
    (hvc : as_const_int args (size_t v1 * 3 + 2) = some vc)
    (h4 : (size_t v1 * 3 + 3 + size_t vc * (2 + 2 * size_t v1)) % 2 ^ 64 ≤ args.length)
    (hcs : allSome ((List.range (size_t vc)).map fun i => parseConsumer args (size_t v1) i)
      = some cs) :
    dispatch_parse args g
      = .ok { stream_name := print_name n, stencil_sizes := sizes.map Lower.wrapInt,
              stencil_steps := steps.map Lower.wrapInt,
              store_extents := exts.map Lower.wrapInt, consumers := cs } g := by
  unfold dispatch_parse
  rw [if_neg (by omega)]
  simp only [hn, hv1]
  rw [if_neg (by omega)]
  simp only [hs1, hs2, hs3]
  rw [if_neg (by omega)]
  simp only [hvc]
  rw [if_neg (by omega)]
  simp only [hcs]

end Visit

namespace Visit

/-- The loop that lowers the arguments, on a call with further arguments
appended: the first arguments are lowered as before, then the further ones. -/
theorem lowerArgs_append (un : Nat → String) (quoted : String → String) (other : CG → Res Unit)
    (args extra : List Arg) (g : CG) :
    lowerArgs un quoted other (args ++ extra) g
      = match lowerArgs un quoted other args g with
        | .ok _ g1 => lowerArgs un quoted other extra g1
        | .abort m g1 => .abort m g1 := by
  induction args generalizing g with
  | nil => rfl
  | cons a rest ih =>
    simp only [List.cons_append, lowerArgs]
    cases print_expr (visitArg un quoted other a) g with
    | ok _ g1 => exact ih g1
    | abort m g1 => rfl

/-- C28 (counterexample): a call declaring one dimension and one consumer needs
3 + 3*1 + 1*(2 + 2*1) = 10 arguments; with an eleventh argument appended the
call is accepted all the same and creates the same router and queue; the
surplus argument is lowered like the others (it leaves the scalar wire `_8`
connected to `SInt<32>(7)` in the top module) and is not inspected. -/
theorem dispatch_surplus_argument_accepted :
    (sampleCall 2 ++ [Arg.intImm ⟨true, 32⟩ 7]).length = 11
      ∧ 3 + 3 * 1 + 1 * (2 + 2 * 1) = 10
      ∧ (visitDispatchStream sampleName id (fun g => .ok () g) id "SlaveIf"
          (sampleCall 2 ++ [Arg.intImm ⟨true, 32⟩ 7]) emptyCG).aborted = false
      ∧ (visitDispatchStream sampleName id (fun g => .ok () g) id "SlaveIf"
          (sampleCall 2 ++ [Arg.intImm ⟨true, 32⟩ 7]) emptyCG).state.dispatchers
        = (visitDispatchStream sampleName id (fun g => .ok () g) id "SlaveIf"
          (sampleCall 2) emptyCG).state.dispatchers
      ∧ (visitDispatchStream sampleName id (fun g => .ok () g) id "SlaveIf"
          (sampleCall 2 ++ [Arg.intImm ⟨true, 32⟩ 7]) emptyCG).state.fifos
        = [("FIFO_s_to_c", "2")]
      ∧ (visitDispatchStream sampleName id (fun g => .ok () g) id "SlaveIf"
          (sampleCall 2 ++ [Arg.intImm ⟨true, 32⟩ 7]) emptyCG).state.gen.top_wires
        = (visitDispatchStream sampleName id (fun g => .ok () g) id "SlaveIf"
          (sampleCall 2) emptyCG).state.gen.top_wires ++ [("_8", ⟨true, 32⟩)]
      ∧ ("_8", "SInt<32>(7)") ∈ (visitDispatchStream sampleName id (fun g => .ok () g) id "SlaveIf"
          (sampleCall 2 ++ [Arg.intImm ⟨true, 32⟩ 7]) emptyCG).state.gen.top_connects := by
  decide

/-- C28 (amended): a `dispatch_stream` call that is accepted has lowered all
its arguments and parsed them, with `nd` dimensions and `nc` consumers
recovered, and has at least 3 + 3*nd + nc*(2 + 2*nd) arguments (the counts
being small enough for `size_t`), so a call with fewer aborts; the checks
compare with `>=` and do not change the state.  The same call with further
arguments appended first lowers them as well: when one of them aborts, the
call aborts, and otherwise the call is accepted and builds from the same
recovered data, the surplus arguments not being inspected. -/
theorem dispatch_arity_at_least (un : Nat → String) (quoted : String → String)
    (other : CG → Res Unit) (inst : String → String) (sif : String) (args : List Arg)
    (g g' : CG) (h : visitDispatchStream un quoted other inst sif args g = .ok () g') :
    ∃ g1 c, lowerArgs un quoted other args g = .ok () g1
      ∧ dispatch_parse args g1 = .ok c g1
      ∧ g' = dispatch_build inst sif c g1
      ∧ (3 + 3 * c.stencil_sizes.length + c.consumers.length * (2 + 2 * c.stencil_sizes.length)
            < 2 ^ 64 →
          3 + 3 * c.stencil_sizes.length + c.consumers.length * (2 + 2 * c.stencil_sizes.length)
            ≤ args.length)
      ∧ (∀ extra g2, lowerArgs un quoted other extra g1 = .ok () g2 →
          visitDispatchStream un quoted other inst sif (args ++ extra) g
            = .ok () (dispatch_build inst sif c g2))
      ∧ (∀ extra m g2, lowerArgs un quoted other extra g1 = .abort m g2 →
          visitDispatchStream un quoted other inst sif (args ++ extra) g = .abort m g2) := by
  unfold visitDispatchStream at h
  cases hl : lowerArgs un quoted other args g with
  | abort m g1 => rw [hl] at h; cases h
  | ok u g1 =>
    cases u
    rw [hl] at h
    simp only at h
    cases hp : dispatch_parse args g1 with
    | abort m g2 => rw [hp] at h; cases h
    | ok c g2 =>
      rw [hp] at h
      simp only [Res.ok.injEq, true_and] at h
      obtain ⟨hg, n, v1, vc, sizes, steps, exts, cs, hn, hlen, hv1, h2, hs1, hs2, hs3, h3, hvc,
        h4, hcs, hc⟩ := dispatch_parse_ok args g1 g2 c hp
      subst hg
      have hnd : c.stencil_sizes.length = size_t v1 := by
        rw [hc]
        simp [allSome_length _ _ hs1]
      have hnc : c.consumers.length = size_t vc := by
        rw [hc]
        simp [allSome_length _ _ hcs]
      have hparse : ∀ extra g3, dispatch_parse (args ++ extra) g3 = .ok c g3 := by
        intro extra g3
        rw [hc]
        have hl2 : args.length ≤ (args ++ extra).length := by simp
        exact dispatch_parse_of (args ++ extra) g3 n v1 vc sizes steps exts cs
          (getElem?_append_some args extra 0 _ hn) (by omega)
          (as_const_int_append args extra 1 v1 hv1) (by omega)
          (allSome_map_mono _ _ _ sizes hs1 fun i v hv => as_const_int_append args extra _ v hv)
          (allSome_map_mono _ _ _ steps hs2 fun i v hv => as_const_int_append args extra _ v hv)
          (allSome_map_mono _ _ _ exts hs3 fun i v hv => as_const_int_append args extra _ v hv)
          (by omega) (as_const_int_append args extra _ vc hvc) (by omega)
          (allSome_map_mono _ _ _ cs hcs fun i v hv => parseConsumer_append args extra _ i v hv)
      refine ⟨g2, c, rfl, hp, h.symm, ?_, ?_, ?_⟩
      · rw [hnd, hnc]
        intro hsmall
        have e : 3 + 3 * size_t v1 + size_t vc * (2 + 2 * size_t v1)
            = size_t v1 * 3 + 3 + size_t vc * (2 + 2 * size_t v1) := by ring
        rw [e] at hsmall ⊢
        rw [Nat.mod_eq_of_lt hsmall] at h4
        exact h4
      · intro extra g3 he
        unfold visitDispatchStream
        rw [lowerArgs_append, hl]
        simp only [he, hparse extra g3]
      · intro extra m g3 he
        unfold visitDispatchStream
        rw [lowerArgs_append, hl]
        simp only [he]

theorem dispatch_arity_at_least_witness :
    10 ≤ (sampleCall 2).length
      ∧ (visitDispatchStream sampleName id (fun g => .ok () g) id "SlaveIf"
          (sampleCall 2 ++ [Arg.variable "x"]) emptyCG).aborted = false
      ∧ (visitDispatchStream sampleName id (fun g => .ok () g) id "SlaveIf"
          ((sampleCall 2).take 9) emptyCG).aborted = true := by
  obtain ⟨g1, c, _, _, _, _, hex, _⟩ := dispatch_arity_at_least sampleName id
    (fun g => .ok () g) id "SlaveIf" (sampleCall 2) emptyCG
    (visitDispatchStream sampleName id (fun g => .ok () g) id "SlaveIf" (sampleCall 2)
      emptyCG).state (by decide)
  refine ⟨by decide, ?_, by decide⟩
  rw [hex [Arg.variable "x"] _ rfl]
  rfl

end Visit

namespace Visit

theorem foldl_addConsumerFifo (inst : String → String) (dp s : String)
    (ty : SlaveIf.FIRRTL_Type) (cs : List Consumer) (g : CG) :
    (cs.foldl (addConsumerFifo inst dp s ty) g).fifos
        = g.fifos ++ cs.map (fun x =>
            ("FIFO_" ++ consumer_stream_name s x, toString (max x.fifo_depth 1)))
      ∧ (cs.foldl (addConsumerFifo inst dp s ty) g).top_instances
        = g.top_instances ++ cs.map (fun x => "FIFO_" ++ consumer_stream_name s x)
      ∧ (cs.foldl (addConsumerFifo inst dp s ty) g).wires
        = g.wires ++ cs.map (fun x => ("wire_" ++ consumer_stream_name s x, ty))
      ∧ (cs.foldl (addConsumerFifo inst dp s ty) g).dispatchers = g.dispatchers
      ∧ (cs.foldl (addConsumerFifo inst dp s ty) g).sif_in_ports = g.sif_in_ports := by
  induction cs generalizing g with
  | nil => simp
  | cons c cs ih =>
    simp only [List.foldl_cons, List.map_cons]
    obtain ⟨h1, h2, h3, h4, h5⟩ := ih (addConsumerFifo inst dp s ty g c)
    rw [h1, h2, h3, h4, h5]
    simp [addConsumerFifo]

/-- Lowering the arguments (variables, integer and string constants) touches
only the `print_assignment` state and `id`. -/
theorem lowerArgs_frame (un : Nat → String) (quoted : String → String) (other : CG → Res Unit)
    (args : List Arg) (g g1 : CG) (hno : Arg.other ∉ args)
    (h : lowerArgs un quoted other args g = .ok () g1) :
    g1.wires = g.wires ∧ g1.dispatchers = g.dispatchers ∧ g1.fifos = g.fifos
      ∧ g1.top_instances = g.top_instances ∧ g1.sif_in_ports = g.sif_in_ports := by
  induction args generalizing g with
  | nil =>
    simp only [lowerArgs] at h
    injection h with _ hg
    subst hg
    exact ⟨rfl, rfl, rfl, rfl, rfl⟩
  | cons a rest ih =>
    have hrest : Arg.other ∉ rest := fun hm => hno (List.mem_cons_of_mem _ hm)
    have ha : a ≠ Arg.other := fun he => hno (by rw [he]; exact List.mem_cons_self _ _)
    simp only [lowerArgs] at h
    rcases a with n | ⟨t, v⟩ | sv | _
    · simp only [print_expr, visitArg, visitVariable] at h
      obtain ⟨h1, h2, h3, h4, h5⟩ := ih _ hrest h
      exact ⟨h1, h2, h3, h4, h5⟩
    · simp only [print_expr, visitArg, visitIntImm, print_assignment] at h
      obtain ⟨h1, h2, h3, h4, h5⟩ := ih _ hrest h
      exact ⟨h1, h2, h3, h4, h5⟩
    · simp only [print_expr, visitArg] at h
      obtain ⟨h1, h2, h3, h4, h5⟩ := ih _ hrest h
      exact ⟨h1, h2, h3, h4, h5⟩
    · exact absurd rfl ha

/-- What `print_assignment` does to the scalar wires and connects of the top
module: nothing, or one wire of the given type and its connect to the
right-hand side. -/
theorem print_assignment_top (un : Nat → String) (g : Assign.Gen) (t : Lower.HType)
    (rhs : String) :
    ((Assign.print_assignment un g t rhs).2.top_wires = g.top_wires
        ∧ (Assign.print_assignment un g t rhs).2.top_connects = g.top_connects)
      ∨ ((Assign.print_assignment un g t rhs).2.top_wires = g.top_wires ++ [(un g.counter, t)]
        ∧ (Assign.print_assignment un g t rhs).2.top_connects
            = g.top_connects ++ [(un g.counter, rhs)]) := by
  unfold Assign.print_assignment
  cases Assign.cacheFind g.cache rhs with
  | some cached => exact Or.inl ⟨rfl, rfl⟩
  | none =>
    cases g.current_fb with
    | some body => exact Or.inl ⟨rfl, rfl⟩
    | none => exact Or.inr ⟨rfl, rfl⟩

/-- Lowering the arguments (variables, integer and string constants) keeps the
scalar wires and connects of the top module and adds, for integer constants
only, a wire of the constant's type and a connect to its literal. -/
theorem lowerArgs_top (un : Nat → String) (quoted : String → String) (other : CG → Res Unit)
    (args : List Arg) (g g1 : CG) (hno : Arg.other ∉ args)
    (h : lowerArgs un quoted other args g = .ok () g1) :
    g.gen.top_wires <+: g1.gen.top_wires ∧ g.gen.top_connects <+: g1.gen.top_connects
      ∧ (∀ w ∈ g1.gen.top_wires, w ∈ g.gen.top_wires ∨ ∃ t v, Arg.intImm t v ∈ args ∧ w.2 = t)
      ∧ (∀ c ∈ g1.gen.top_connects, c ∈ g.gen.top_connects
          ∨ ∃ t v, Arg.intImm t v ∈ args ∧ c.2 = print_type t ++ "(" ++ toString v ++ ")") := by
  induction args generalizing g with
  | nil =>
    simp only [lowerArgs] at h
    injection h with _ hg
    subst hg
    exact ⟨List.prefix_refl _, List.prefix_refl _, fun w hw => Or.inl hw, fun c hc => Or.inl hc⟩
  | cons a rest ih =>
    have hrest : Arg.other ∉ rest := fun hm => hno (List.mem_cons_of_mem _ hm)
    have ha : a ≠ Arg.other := fun he => hno (by rw [he]; exact List.mem_cons_self _ _)
    simp only [lowerArgs] at h
    rcases a with n | ⟨t, v⟩ | sv | _
    · simp only [print_expr, visitArg, visitVariable] at h
      obtain ⟨h1, h2, h3, h4⟩ := ih _ hrest h
      refine ⟨h1, h2, fun w hw => ?_, fun c hc => ?_⟩
      · rcases h3 w hw with h5 | ⟨t, v, h5, h6⟩
        · exact Or.inl h5
        · exact Or.inr ⟨t, v, List.mem_cons_of_mem _ h5, h6⟩
      · rcases h4 c hc with h5 | ⟨t, v, h5, h6⟩
        · exact Or.inl h5
        · exact Or.inr ⟨t, v, List.mem_cons_of_mem _ h5, h6⟩
    · simp only [print_expr, visitArg, visitIntImm, print_assignment] at h
      obtain ⟨h1, h2, h3, h4⟩ := ih _ hrest h
      simp only at h1 h2 h3 h4
      rcases print_assignment_top un g.gen t (print_type t ++ "(" ++ toString v ++ ")")
        with ⟨e1, e2⟩ | ⟨e1, e2⟩
      · rw [e1] at h1 h3
        rw [e2] at h2 h4
        refine ⟨h1, h2, fun w hw => ?_, fun c hc => ?_⟩
        · rcases h3 w hw with h5 | ⟨t2, v2, h5, h6⟩
          · exact Or.inl h5
          · exact Or.inr ⟨t2, v2, List.mem_cons_of_mem _ h5, h6⟩
        · rcases h4 c hc with h5 | ⟨t2, v2, h5, h6⟩
          · exact Or.inl h5
          · exact Or.inr ⟨t2, v2, List.mem_cons_of_mem _ h5, h6⟩
      · rw [e1] at h1 h3
        rw [e2] at h2 h4
        refine ⟨(List.prefix_append _ _).trans h1, (List.prefix_append _ _).trans h2,
          fun w hw => ?_, fun c hc => ?_⟩
        · rcases h3 w hw with h5 | ⟨t2, v2, h5, h6⟩
          · rcases List.mem_append.1 h5 with h7 | h7
            · exact Or.inl h7
            · rw [List.mem_singleton.1 h7]
              exact Or.inr ⟨t, v, List.mem_cons_self _ _, rfl⟩
          · exact Or.inr ⟨t2, v2, List.mem_cons_of_mem _ h5, h6⟩
        · rcases h4 c hc with h5 | ⟨t2, v2, h5, h6⟩
          · rcases List.mem_append.1 h5 with h7 | h7
            · exact Or.inl h7
            · rw [List.mem_singleton.1 h7]
              exact Or.inr ⟨t, v, List.mem_cons_self _ _, rfl⟩
          · exact Or.inr ⟨t2, v2, List.mem_cons_of_mem _ h5, h6⟩
    · simp only [print_expr, visitArg] at h
      obtain ⟨h1, h2, h3, h4⟩ := ih _ hrest h
      refine ⟨h1, h2, fun w hw => ?_, fun c hc => ?_⟩
      · rcases h3 w hw with h5 | ⟨t, v, h5, h6⟩
        · exact Or.inl h5
        · exact Or.inr ⟨t, v, List.mem_cons_of_mem _ h5, h6⟩
      · rcases h4 c hc with h5 | ⟨t, v, h5, h6⟩
        · exact Or.inl h5
        · exact Or.inr ⟨t, v, List.mem_cons_of_mem _ h5, h6⟩
    · exact absurd rfl ha

/-- C29 (counterexample): the call on stream `s` with the single consumer `c`
and requested depth 0, lowered with nothing collected before.  No router and no
queue is created and the wire `wire_s_to_c` is added and connected to `wire_s`,
but it is not the only addition: lowering the integer arguments of the call
has added the scalar wires `_0`, `_3` and `_5` to the top module, connected to
`SInt<32>(1)`, `SInt<32>(4)` and `SInt<32>(0)`. -/
theorem dispatch_single_consumer_adds_scalar_wires :
    (visitDispatchStream sampleName id (fun g => .ok () g) id "SlaveIf" (sampleCall 0)
        emptyCG).aborted = false
      ∧ (visitDispatchStream sampleName id (fun g => .ok () g) id "SlaveIf" (sampleCall 0)
        emptyCG).state.dispatchers = []
      ∧ (visitDispatchStream sampleName id (fun g => .ok () g) id "SlaveIf" (sampleCall 0)
        emptyCG).state.fifos = []
      ∧ (visitDispatchStream sampleName id (fun g => .ok () g) id "SlaveIf" (sampleCall 0)
        emptyCG).state.wires = [("wire_s_to_c", getWire emptyCG "wire_s")]
      ∧ (visitDispatchStream sampleName id (fun g => .ok () g) id "SlaveIf" (sampleCall 0)
        emptyCG).state.gen.top_wires = [("_0", ⟨true, 32⟩), ("_3", ⟨true, 32⟩), ("_5", ⟨true, 32⟩)]
      ∧ (visitDispatchStream sampleName id (fun g => .ok () g) id "SlaveIf" (sampleCall 0)
        emptyCG).state.gen.top_connects
          = [("_0", "SInt<32>(1)"), ("_3", "SInt<32>(4)"), ("_5", "SInt<32>(0)"),
             ("wire_s_to_c", "wire_s")] := by
  decide

/-- C29 (amended): lowering the arguments of the call (variables and
constants) adds no router, queue, instance or stream wire; it keeps the scalar
wires and connects of the top module and adds to them, for integer constants
only, wires of the constant's type and connects to its literal.  From the
state reached once the arguments are lowered and parsed, a call with exactly
one consumer whose requested depth is 0 adds the wire
`wire_<stream>_to_<consumer>` with the type of `wire_<stream>` and its
connection to `wire_<stream>`, sets `id`, and changes nothing else (no router,
no queue, no instance); every other call adds one router `DP_<stream>`,
holding for each consumer the depth `max(requested depth, 1)`, and one queue
`FIFO_<stream>_to_<consumer>` per consumer in order, given that depth, with
one wire `wire_<stream>_to_<consumer>` each. -/
theorem dispatch_single_consumer_is_wire (un : Nat → String) (quoted : String → String)
    (other : CG → Res Unit) (inst : String → String) (sif : String) (args : List Arg)
    (g g1 : CG) (c : DispatchCall)
    (hl : lowerArgs un quoted other args g = .ok () g1)
    (hp : dispatch_parse args g1 = .ok c g1) :
    visitDispatchStream un quoted other inst sif args g = .ok () (dispatch_build inst sif c g1)
      ∧ (Arg.other ∉ args →
          g1.wires = g.wires ∧ g1.dispatchers = g.dispatchers ∧ g1.fifos = g.fifos
            ∧ g1.top_instances = g.top_instances ∧ g1.sif_in_ports = g.sif_in_ports
            ∧ g.gen.top_wires <+: g1.gen.top_wires
            ∧ g.gen.top_connects <+: g1.gen.top_connects
            ∧ (∀ w ∈ g1.gen.top_wires,
                w ∈ g.gen.top_wires ∨ ∃ t v, Arg.intImm t v ∈ args ∧ w.2 = t)
            ∧ (∀ x ∈ g1.gen.top_connects, x ∈ g.gen.top_connects
                ∨ ∃ t v, Arg.intImm t v ∈ args
                    ∧ x.2 = print_type t ++ "(" ++ toString v ++ ")"))
      ∧ (∀ x, c.consumers = [x] → x.fifo_depth = 0 →
          dispatch_build inst sif c g1
            = { g1 with
                wires := g1.wires
                  ++ [("wire_" ++ c.stream_name ++ "_to_" ++ print_name x.name,
                        getWire g1 ("wire_" ++ c.stream_name))]
                gen := { g1.gen with
                  top_connects := g1.gen.top_connects
                    ++ [("wire_" ++ c.stream_name ++ "_to_" ++ print_name x.name,
                          "wire_" ++ c.stream_name)] }
                id := "0" })
      ∧ (¬ (∃ x, c.consumers = [x] ∧ x.fifo_depth = 0) →
          (dispatch_build inst sif c g1).dispatchers
              = g1.dispatchers
                ++ [("DP_" ++ c.stream_name,
                      { stencil_sizes := c.stencil_sizes, stencil_steps := c.stencil_steps,
                        store_extents := c.store_extents,
                        consumer_fifo_depths := c.consumers.map fun x => max x.fifo_depth 1,
                        consumer_offsets := c.consumers.map fun x => x.offsets,
                        consumer_extents := c.consumers.map fun x => x.extents })]
            ∧ (dispatch_build inst sif c g1).fifos
              = g1.fifos ++ c.consumers.map (fun x =>
                  ("FIFO_" ++ (c.stream_name ++ "_to_" ++ print_name x.name),
                    toString (max x.fifo_depth 1)))
            ∧ (dispatch_build inst sif c g1).top_instances
              = g1.top_instances ++ ["DP_" ++ c.stream_name]
                ++ c.consumers.map (fun x =>
                  "FIFO_" ++ (c.stream_name ++ "_to_" ++ print_name x.name))
            ∧ (dispatch_build inst sif c g1).wires
              = g1.wires ++ c.consumers.map (fun x =>
                  ("wire_" ++ (c.stream_name ++ "_to_" ++ print_name x.name),
                    getWire g1 ("wire_" ++ c.stream_name)))) := by
  refine ⟨by simp [visitDispatchStream, hl, hp], ?_, ?_, ?_⟩
  · intro hno
    obtain ⟨h1, h2, h3, h4, h5⟩ := lowerArgs_frame un quoted other args g g1 hno hl
    obtain ⟨k1, k2, k3, k4⟩ := lowerArgs_top un quoted other args g g1 hno hl
    exact ⟨h1, h2, h3, h4, h5, k1, k2, k3, k4⟩
  · intro x hx hd
    simp [dispatch_build, hx, hd, consumer_stream_name, String.append_assoc]
  · intro hne
    have hcond : ¬ (c.consumers.length = 1
        ∧ (c.consumers.map fun x => x.fifo_depth).headD 0 = 0) := by
      rintro ⟨h1, h2⟩
      obtain ⟨x, hx⟩ := List.length_eq_one.1 h1
      rw [hx] at h2
      exact hne ⟨x, hx, by simpa using h2⟩
    unfold dispatch_build
    rw [if_neg hcond]
    obtain ⟨h1, h2, h3, h4, _⟩ := foldl_addConsumerFifo inst ("DP_" ++ c.stream_name)
      c.stream_name (getWire g1 ("wire_" ++ c.stream_name)) c.consumers
      { g1 with
        dispatchers := g1.dispatchers
          ++ [("DP_" ++ c.stream_name,
                { stencil_sizes := c.stencil_sizes, stencil_steps := c.stencil_steps,
                  store_extents := c.store_extents,
                  consumer_fifo_depths := c.consumers.map fun x => max x.fifo_depth 1,
                  consumer_offsets := c.consumers.map fun x => x.offsets,
                  consumer_extents := c.consumers.map fun x => x.extents })]
        top_instances := g1.top_instances ++ ["DP_" ++ c.stream_name]
        sif_in_ports := g1.sif_in_ports ++ ["DP_" ++ c.stream_name ++ "_done"]
        gen := { g1.gen with
          top_connects := g1.gen.top_connects
            ++ [(inst ("DP_" ++ c.stream_name) ++ ".clock", "clock"),
                (inst ("DP_" ++ c.stream_name) ++ ".reset", "reset"),
                (inst ("DP_" ++ c.stream_name) ++ "." ++ c.stream_name, "wire_" ++ c.stream_name),
                (inst ("DP_" ++ c.stream_name) ++ ".start_in", sif ++ ".start"),
                (sif ++ "." ++ "DP_" ++ c.stream_name ++ "_done",
                  inst ("DP_" ++ c.stream_name) ++ ".done_out")] } }
    exact ⟨h4, h1, h2, h3⟩

theorem dispatch_single_consumer_is_wire_witness :
    (visitDispatchStream sampleName id (fun g => .ok () g) id "SlaveIf" (sampleCall 0)
        emptyCG).state.wires = [("wire_s_to_c", getWire emptyCG "wire_s")]
      ∧ (visitDispatchStream sampleName id (fun g => .ok () g) id "SlaveIf" (sampleCall 0)
        emptyCG).state.fifos = []
      ∧ (visitDispatchStream sampleName id (fun g => .ok () g) id "SlaveIf" (sampleCall 0)
        emptyCG).state.dispatchers = []
      ∧ (visitDispatchStream sampleName id (fun g => .ok () g) id "SlaveIf" (sampleCall 0)
        emptyCG).state.top_instances = [] :=
  have h := dispatch_single_consumer_is_wire sampleName id (fun g => .ok () g) id "SlaveIf"
    (sampleCall 0) emptyCG
    (lowerArgs sampleName id (fun g => .ok () g) (sampleCall 0) emptyCG).state (sampleData 0)
    (by decide) (by decide)
  have h1 := h.2.2.1 ⟨"c", 0, [0], [4]⟩ rfl rfl
  ⟨by rw [h.1, h1]; decide, by rw [h.1, h1]; decide, by rw [h.1, h1]; decide,
    by rw [h.1, h1]; decide⟩

end Visit

/-! ## Unsupported sliding-window buffer shapes -/

namespace LineBuffer

open Visit

set_option maxRecDepth 100000 in
/-- C24 (counterexample): for a 3-D buffer with image 8 x 8 x 8, input size
1 x 1 x 1 and output size 3 x 3 x 3 (no dimension spans the image) the printer
does not abort: it writes the header of module `LB_3D`, its ports and a
comment line, and returns; likewise a 4-D buffer gets a comment line from
`print_linebuffer`, which returns normally. -/
theorem unsupported_linebuffer_is_emitted :
    print_linebuffer3D "LB" ⟨false, 8⟩ [8, 8, 8, 1] [1, 1, 1, 1] [3, 3, 3, 1] abortingPrinter
        emptyCG
      = .ok () { emptyCG with
          indent := 2
          stream :=
            [(0, "module LB_3D :\n"), (2, "input clock : Clock\n"),
             (2, "input reset : UInt<1>\n"),
             (2, "output io : \x7bflip in : \x7bflip ready : UInt<1>, valid : UInt<1>, bits : \x7bvalue : UInt<8>[1][1][1][1]\x7d\x7d, out : \x7bflip ready : UInt<1>, valid : UInt<1>, bits : \x7bvalue : UInt<8>[3][3][3][1]\x7d\x7d\x7d\n"),
             (0, "\n"), (2, "clock is invalid\n"), (2, "reset is invalid\n"),
             (2, "io is invalid\n"), (2, "; Not supported yet\n")] }
      ∧ print_linebuffer (fun g => .ok () g) "LB" 4 ⟨false, 8⟩ [8, 8, 8, 8] [1, 1, 1, 1]
          [3, 3, 3, 3] abortingPrinter abortingPrinter emptyCG
        = .ok () { emptyCG with stream := [(0, "; 4D linebuffer TODO\n")] } := by
  decide

/-- C24 (amended): for every 3-D shape in which neither dimension 0 nor
dimension 2 has input size = output size = image extent, `print_linebuffer3D`
returns without aborting and without calling the 2-D printer, having written
the header of module `<name>_3D`, its ports, the three invalidations and the
comment `; Not supported yet` (the scope is left open); and for a buffer of
more than three dimensions (or none) `print_linebuffer` returns after its
wrapper with the comment `; 4D linebuffer TODO`, without printing an inner
module. -/
theorem unsupported_linebuffer_gets_comment (name : String) (t : Lower.HType)
    (L inEl outEl : List Int)
    (p1D p2D : String → List Int → List Int → List Int → CG → Res Unit) (g : CG)
    (h0 : ¬ (inEl.getD 0 0 = outEl.getD 0 0 ∧ inEl.getD 0 0 = L.getD 0 0))
    (h2 : ¬ (inEl.getD 2 0 = outEl.getD 2 0 ∧ inEl.getD 2 0 = L.getD 2 0)) :
    print_linebuffer3D name t L inEl outEl p2D g
        = .ok () { g with
            indent := g.indent + 2
            stream := g.stream
              ++ [(g.indent, "module " ++ name ++ "_3D" ++ " :\n"),
                  (g.indent + 2, "input clock : Clock\n"),
                  (g.indent + 2, "input reset : UInt<1>\n"),
                  (g.indent + 2,
                    "output io : \x7bflip in : \x7bflip ready : UInt<1>, valid : UInt<1>, bits : \x7bvalue : "
                      ++ stencilText t (inEl.getD 0 0) (inEl.getD 1 0) (inEl.getD 2 0)
                        (inEl.getD 3 0)
                      ++ "\x7d\x7d, "
                      ++ "out : \x7bflip ready : UInt<1>, valid : UInt<1>, bits : \x7bvalue : "
                      ++ stencilText t (outEl.getD 0 0) (outEl.getD 1 0) (outEl.getD 2 0)
                        (outEl.getD 3 0)
                      ++ "\x7d\x7d\x7d\n"),
                  (0, "\n"), (g.indent + 2, "clock is invalid\n"),
                  (g.indent + 2, "reset is invalid\n"), (g.indent + 2, "io is invalid\n"),
                  (g.indent + 2, "; Not supported yet\n")] }
      ∧ (∀ (wrapper : CG → Res Unit) (nDim : Nat) (g1 : CG), wrapper g = .ok () g1 →
          nDim ≠ 1 → nDim ≠ 2 →
          (nDim ≠ 3 →
            print_linebuffer wrapper name nDim t L inEl outEl p1D p2D g
              = .ok () { g1 with stream := g1.stream ++ [(g1.indent, "; 4D linebuffer TODO\n")] })
          ∧ (nDim = 3 →
            (print_linebuffer wrapper name nDim t L inEl outEl p1D p2D g).aborted = false)) := by
  have h3 : ∀ g0 : CG, print_linebuffer3D name t L inEl outEl p2D g0
      = .ok () (emit (head3D name t inEl outEl g0) "; Not supported yet\n") := by
    intro g0
    unfold print_linebuffer3D
    rw [if_neg h0, if_neg h2]
  refine ⟨?_, ?_⟩
  · rw [h3]
    simp [emit, head3D, emitAll, raw, open_scope, List.append_assoc]
  · intro wrapper nDim g1 hw hn1 hn2
    refine ⟨?_, ?_⟩
    · intro hn3
      simp [print_linebuffer, hw, hn1, hn2, hn3, emit]
    · intro hn3
      simp [print_linebuffer, hw, hn3, h3, Res.aborted]

theorem unsupported_linebuffer_gets_comment_witness :
    (print_linebuffer3D "LB" ⟨false, 8⟩ [8, 8, 8, 1] [1, 1, 1, 1] [3, 3, 3, 1] abortingPrinter
        emptyCG).aborted = false
      ∧ (print_linebuffer3D "LB" ⟨false, 8⟩ [8, 8, 8, 1] [1, 1, 1, 1] [3, 3, 3, 1]
          abortingPrinter emptyCG).state.stream.length = 9 :=
  have h := (unsupported_linebuffer_gets_comment "LB" ⟨false, 8⟩ [8, 8, 8, 1] [1, 1, 1, 1]
    [3, 3, 3, 1] abortingPrinter abortingPrinter emptyCG (by decide) (by decide)).1
  ⟨by rw [h]; rfl, by rw [h]; rfl⟩

end LineBuffer

/-! ## Fatal checks during emission -/

namespace Kernel

open Visit LineBuffer

theorem run_stream (p : Piece) (g : CG) : (p.run g).state.stream = g.stream ++ p.text := by
  unfold Piece.run
  cases p.abort <;> rfl

theorem seq_extends (X : List (Int × String)) (r : Res Unit) (f : CG → Res Unit)
    (hr : List.IsPrefix X r.state.stream)
    (hf : ∀ g, List.IsPrefix X g.stream → List.IsPrefix X (f g).state.stream) :
    List.IsPrefix X (seq r f).state.stream := by
  cases r with
  | ok a g => exact hf g hr
  | abort m g => exact hr

theorem run_extends (X : List (Int × String)) (p : Piece) (g : CG)
    (h : List.IsPrefix X g.stream) : List.IsPrefix X (p.run g).state.stream := by
  rw [run_stream]
  exact h.trans (List.prefix_append _ _)

theorem emit_extends (X : List (Int × String)) (g : CG) (text : String)
    (h : List.IsPrefix X g.stream) : List.IsPrefix X (emit g text).stream :=
  h.trans (List.prefix_append _ _)

theorem raw_extends (X : List (Int × String)) (g : CG) (text : String)
    (h : List.IsPrefix X g.stream) : List.IsPrefix X (raw g text).stream :=
  h.trans (List.prefix_append _ _)

theorem printEach_extends {α : Type} (X : List (Int × String)) (label : String)
    (name : α → String) (print : α → CG → Res Unit)
    (hp : ∀ c g, List.IsPrefix X g.stream → List.IsPrefix X (print c g).state.stream)
    (cs : List α) (g : CG) (h : List.IsPrefix X g.stream) :
    List.IsPrefix X (printEach label name print cs g).state.stream := by
  induction cs generalizing g with
  | nil => exact h
  | cons c cs ih =>
    exact seq_extends X _ _ (hp c _ (emit_extends X g _ h)) fun g1 h1 => ih g1 h1

theorem print_slaveif_extends (X : List (Int × String)) (head : Piece)
    (regs : List (String × SlaveIf.FIRRTL_Type)) (rest : List (String × SlaveIf.Reg_Type) → Piece)
    (g : CG) (h : List.IsPrefix X g.stream) :
    List.IsPrefix X (print_slaveif head regs rest g).state.stream := by
  unfold print_slaveif
  refine seq_extends X _ _ (run_extends X head g h) fun g1 h1 => ?_
  cases SlaveIf.address_map regs with
  | none => exact h1
  | some m => exact run_extends X _ g1 h1

theorem print_dispatch_extends (X : List (Int × String)) (head rest : Piece)
    (p : Dispatch.Params) (g : CG) (h : List.IsPrefix X g.stream) :
    List.IsPrefix X (print_dispatch head rest p g).state.stream := by
  unfold print_dispatch
  refine seq_extends X _ _ (run_extends X head g h) fun g1 h1 => ?_
  cases Dispatch.printed p with
  | false => exact h1
  | true => exact run_extends X _ g1 h1

theorem seq_aborted_left (r : Res Unit) (f : CG → Res Unit) (h : r.aborted = true) :
    (seq r f).aborted = true := by
  cases r with
  | ok a g => cases h
  | abort m g => rfl

theorem seq_aborted_right (r : Res Unit) (f : CG → Res Unit)
    (h : ∀ g, (f g).aborted = true) : (seq r f).aborted = true := by
  cases r with
  | ok a g => exact h g
  | abort m g => rfl

theorem seq_not_aborted (r : Res Unit) (f : CG → Res Unit) (hr : r.aborted = false)
    (h : ∀ g, (f g).aborted = false) : (seq r f).aborted = false := by
  cases r with
  | ok a g => exact h g
  | abort m g => cases hr

theorem run_not_aborted (p : Piece) (g : CG) (h : p.abort = none) : (p.run g).aborted = false := by
  unfold Piece.run
  rw [h]
  rfl

theorem printEach_not_aborted {α : Type} (label : String) (name : α → String)
    (print : α → CG → Res Unit) (cs : List α)
    (hp : ∀ c ∈ cs, ∀ g, (print c g).aborted = false) (g : CG) :
    (printEach label name print cs g).aborted = false := by
  induction cs generalizing g with
  | nil => rfl
  | cons c cs ih =>
    exact seq_not_aborted _ _ (hp c (List.mem_cons_self _ _) _)
      fun g1 => ih (fun x hx => hp x (List.mem_cons_of_mem _ hx)) g1

theorem printEach_aborted {α : Type} (label : String) (name : α → String)
    (print : α → CG → Res Unit) (cs : List α) (d : α) (hd : d ∈ cs)
    (hp : ∀ g, (print d g).aborted = true) (g : CG) :
    (printEach label name print cs g).aborted = true := by
  induction cs generalizing g with
  | nil => cases hd
  | cons c cs ih =>
    rcases List.mem_cons.1 hd with h | h
    · subst h
      exact seq_aborted_left _ _ (hp _)
    · exact seq_aborted_right _ _ fun g1 => ih h g1

theorem print_dispatch_aborted (head rest : Piece) (p : Dispatch.Params) (g : CG)
    (h : Dispatch.printed p = false) : (print_dispatch head rest p g).aborted = true := by
  unfold print_dispatch
  apply seq_aborted_right
  intro g1
  rw [h]
  rfl

/-- C26 (counterexample): a kernel with a tap-memory argument of five
dimensions and a statement that lowers without abort, on a generator as
constructed.  `add_kernel` aborts in `print_slaveif`, after the circuit
header, the top module and the header of the bus interface module have been
written behind the two comment lines of the constructor.  And a statement
`let x = v in <assert>` aborts while it is lowered, before the circuit header,
with its comment line already in the stream. -/
theorem add_kernel_aborts_after_emission_began :
    add_kernel sampleParts "hls_target" "SlaveIf" [fiveDimTap] (fun g => .ok () g)
        (constructed "t")
      = .abort "s.bounds.size()"
          { constructed "t" with
            indent := 2
            stream := [(0, ";Generated FIRRTL\n"), (0, ";Target name: t\n"),
                       (0, "circuit hls_target :\n"), (2, "; Top instance hls_target\n"),
                       (2, "module hls_target :\n"), (0, "; SlaveIf instance SlaveIf\n"),
                       (2, "module SlaveIf :\n")] }
      ∧ (add_kernel sampleParts "hls_target" "SlaveIf" []
          (visitLetStmt (visitVariable "v")
            (fun _ => internal_error "AsserStmt is not supported.\n"))
          (constructed "t")).aborted = true
      ∧ (add_kernel sampleParts "hls_target" "SlaveIf" []
          (visitLetStmt (visitVariable "v")
            (fun _ => internal_error "AsserStmt is not supported.\n"))
          (constructed "t")).state.stream
        = [(0, ";Generated FIRRTL\n"), (0, ";Target name: t\n"), (0, "; LetStmt ??\n")] := by
  decide

/-- C26 (amended): an abort in the argument loop ends `add_kernel` with the
generator, and so the output stream, as it was at the call; an abort while the
statement is visited ends it with the generator as the visit left it, the
stream holding what was in it at the call and what the visit itself wrote;
when the visit returns, the emission runs from the state it left.  Fatal
checks also fire after the emission has begun, leaving a partial output:
whatever the emission does, the stream keeps what it held before, followed by
the circuit header, and the emission aborts whenever a tap memory of the bus
interface has no or more than four dimensions (`print_slaveif`) or a collected
router has a consumer and fewer than two dimensions (`print_dispatch`).  When
no part of a printer aborts, the registers of the bus interface pass the
checks and every router is printable, the emission completes. -/
theorem add_kernel_partial_output (P : Parts) (top sif : String) (args : List Argument)
    (visit : CG → Res Unit) (g : CG) :
    (args.any (fun a => decide (a.stencil_type.type = .Stream)) = true →
        add_kernel P top sif args visit g
          = .abort "stype.type == FIRRTL_Type::StencilContainerType::AxiStream" g)
      ∧ (args.any (fun a => decide (a.stencil_type.type = .Stream)) = false →
          (∀ m g1, visit { g with gen := { g.gen with current_fb := none } } = .abort m g1 →
            add_kernel P top sif args visit g = .abort m g1)
          ∧ (∀ g1, visit { g with gen := { g.gen with current_fb := none } } = .ok () g1 →
            add_kernel P top sif args visit g = emission P top sif args g1))
      ∧ (∀ g1, List.IsPrefix (g1.stream ++ [(0, "circuit " ++ top ++ " :\n")])
          (emission P top sif args g1).state.stream)
      ∧ (∀ g1, SlaveIf.address_map (sifRegs args) = none →
          (emission P top sif args g1).aborted = true)
      ∧ (∀ g1 d, d ∈ g1.dispatchers → Dispatch.printed d.2 = false →
          (emission P top sif args g1).aborted = true)
      ∧ (∀ g1, P.top_module.abort = none → P.sif_head.abort = none →
          (∀ m, (P.sif_rest m).abort = none) →
          (∀ c ∈ P.inputs ++ P.outputs ++ P.fifos ++ P.linebuffers ++ P.forblocks,
            c.2.abort = none) →
          (∀ n, (P.dp_head n).abort = none ∧ (P.dp_rest n).abort = none) →
          SlaveIf.address_map (sifRegs args) ≠ none →
          (∀ d ∈ g1.dispatchers, Dispatch.printed d.2 = true) →
          (emission P top sif args g1).aborted = false) := by
  refine ⟨?_, ?_, ?_, ?_, ?_, ?_⟩
  · intro ha
    unfold add_kernel
    rw [if_pos ha]
  · intro ha
    unfold add_kernel
    rw [if_neg (by rw [ha]; exact Bool.false_ne_true)]
    refine ⟨fun m g1 hv => ?_, fun g1 hv => ?_⟩
    · rw [hv]
      rfl
    · rw [hv]
      rfl
  · intro g1
    have h0 : List.IsPrefix (g1.stream ++ [(0, "circuit " ++ top ++ " :\n")])
        (emit (open_scope (raw g1 ("circuit " ++ top ++ " :\n")))
          ("; Top instance " ++ top ++ "\n")).stream :=
      List.prefix_append _ _
    unfold emission
    refine seq_extends _ _ _ (run_extends _ _ _ h0) fun g2 h2 => ?_
    refine seq_extends _ _ _ (print_slaveif_extends _ _ _ _ _ (raw_extends _ _ _ h2)) fun g3 h3 => ?_
    refine seq_extends _ _ _ (printEach_extends _ _ _ _ (fun c g h => run_extends _ _ _ h) _ _ h3)
      fun g4 h4 => ?_
    refine seq_extends _ _ _ (printEach_extends _ _ _ _ (fun c g h => run_extends _ _ _ h) _ _ h4)
      fun g5 h5 => ?_
    refine seq_extends _ _ _ (printEach_extends _ _ _ _ (fun c g h => run_extends _ _ _ h) _ _ h5)
      fun g6 h6 => ?_
    refine seq_extends _ _ _ (printEach_extends _ _ _ _ (fun c g h => run_extends _ _ _ h) _ _ h6)
      fun g7 h7 => ?_
    refine seq_extends _ _ _
      (printEach_extends _ _ _ _ (fun c g h => print_dispatch_extends _ _ _ _ _ h) _ _ h7)
      fun g8 h8 => ?_
    exact printEach_extends _ _ _ _ (fun c g h => run_extends _ _ _ h) _ _ h8
  · intro g1 hnone
    unfold emission
    apply seq_aborted_right
    intro g2
    apply seq_aborted_left
    unfold print_slaveif
    apply seq_aborted_right
    intro g3
    rw [hnone]
    rfl
  · intro g1 d hd hp
    unfold emission
    apply seq_aborted_right
    intro g2
    apply seq_aborted_right
    intro g3
    apply seq_aborted_right
    intro g4
    apply seq_aborted_right
    intro g5
    apply seq_aborted_right
    intro g6
    apply seq_aborted_right
    intro g7
    apply seq_aborted_left
    exact printEach_aborted _ _ _ _ d hd (fun g => print_dispatch_aborted _ _ _ _ hp) g7
  · intro g1 htop hhead hrest hall hdp hmap hprinted
    unfold emission
    apply seq_not_aborted _ _ (run_not_aborted _ _ htop)
    intro g2
    apply seq_not_aborted
    · unfold print_slaveif
      apply seq_not_aborted _ _ (run_not_aborted _ _ hhead)
      intro g3
      cases hm : SlaveIf.address_map (sifRegs args) with
      | none => exact absurd hm hmap
      | some m => exact run_not_aborted _ _ (hrest m)
    intro g3
    apply seq_not_aborted _ _ (printEach_not_aborted _ _ _ _
      (fun c hc g => run_not_aborted _ _ (hall c (by simp [hc]))) _)
    intro g4
    apply seq_not_aborted _ _ (printEach_not_aborted _ _ _ _
      (fun c hc g => run_not_aborted _ _ (hall c (by simp [hc]))) _)
    intro g5
    apply seq_not_aborted _ _ (printEach_not_aborted _ _ _ _
      (fun c hc g => run_not_aborted _ _ (hall c (by simp [hc]))) _)
    intro g6
    apply seq_not_aborted _ _ (printEach_not_aborted _ _ _ _
      (fun c hc g => run_not_aborted _ _ (hall c (by simp [hc]))) _)
    intro g7
    apply seq_not_aborted
    · apply printEach_not_aborted
      intro c hc g
      unfold print_dispatch
      apply seq_not_aborted _ _ (run_not_aborted _ _ (hdp c.1).1)
      intro g8
      rw [hprinted c hc]
      exact run_not_aborted _ _ (hdp c.1).2
    intro g8
    exact printEach_not_aborted _ _ _ _
      (fun c hc g => run_not_aborted _ _ (hall c (by simp [hc]))) _

theorem add_kernel_partial_output_witness :
    (emission sampleParts "hls_target" "SlaveIf" [fiveDimTap] emptyCG).aborted = true
      ∧ (emission sampleParts "hls_target" "SlaveIf" [] emptyCG).aborted = false
      ∧ (emission sampleParts "hls_target" "SlaveIf" []
          { emptyCG with dispatchers := [("DP_s", ⟨[1], [1], [4], [1], [[0]], [[4]]⟩)] }).aborted
          = true :=
  have h := add_kernel_partial_output sampleParts "hls_target" "SlaveIf" [fiveDimTap]
    (fun g => .ok () g) emptyCG
  have h0 := add_kernel_partial_output sampleParts "hls_target" "SlaveIf" []
    (fun g => .ok () g) emptyCG
  ⟨h.2.2.2.1 emptyCG (by decide),
    h0.2.2.2.2.2 emptyCG rfl rfl (fun _ => rfl) (by decide) (fun _ => ⟨rfl, rfl⟩) (by decide)
      (by decide),
    h0.2.2.2.2.1 _ ("DP_s", ⟨[1], [1], [4], [1], [[0]], [[4]]⟩) (List.mem_singleton.2 rfl)
      (by decide)⟩

end Kernel

/-! ## The stream adapter (`print_io`) -/

namespace Adapter

theorem level_facts (l : Level) (h : l.ok) :
    ∃ s n : Nat, l.size.toNat = s ∧ radix l = n ∧ 0 < s ∧ 0 < n ∧ l.size = (s : Int)
      ∧ l.extent = ((n * s : Nat) : Int) ∧ n * s ≤ 2 ^ l.nBits := by
  obtain ⟨hs, he, hm, hw⟩ := h
  have h1 : ((l.size.toNat : Nat) : Int) = l.size := Int.toNat_of_nonneg (le_of_lt hs)
  have h2 : l.extent / l.size * l.size = l.extent :=
    Int.ediv_mul_cancel (Int.dvd_of_emod_eq_zero hm)
  have h3 : 0 < l.extent / l.size := by
    by_contra hc
    have hle : l.extent / l.size ≤ 0 := not_lt.mp hc
    have : l.extent / l.size * l.size ≤ 0 := mul_nonpos_of_nonpos_of_nonneg hle (le_of_lt hs)
    omega
  have h4 : ((radix l : Nat) : Int) = l.extent / l.size := Int.toNat_of_nonneg (le_of_lt h3)
  have h5 : l.extent = ((radix l * l.size.toNat : Nat) : Int) := by
    push_cast
    rw [h4, h1, h2]
  refine ⟨_, _, rfl, rfl, by omega, by omega, h1.symm, h5, ?_⟩
  have h6 : ((radix l * l.size.toNat : Nat) : Int) ≤ ((2 ^ l.nBits : Nat) : Int) := by
    rw [← h5]
    push_cast
    exact hw
  exact_mod_cast h6

theorem is_max_pt (l : Level) (s n d : Nat) (hs : 0 < s) (hsz : l.size = (s : Int))
    (hext : l.extent = ((n * s : Nat) : Int)) :
    is_max l (d * s) = decide (d + 1 = n) := by
  unfold is_max
  rw [hext, hsz]
  apply decide_eq_decide.2
  push_cast
  constructor
  · intro h
    have h1 : (((d + 1) * s : Nat) : Int) = ((n * s : Nat) : Int) := by
      push_cast
      linarith
    exact Nat.eq_of_mul_eq_mul_right hs (by exact_mod_cast h1)
  · intro h
    subst h
    push_cast
    ring

theorem inc_pt (l : Level) (s n d : Nat) (hs : 0 < s) (hsz : l.size = (s : Int))
    (hw : n * s ≤ 2 ^ l.nBits) (hd : d + 1 < n) : inc l (d * s) = (d + 1) * s := by
  unfold inc
  rw [hsz]
  have h1 : (((d * s : Nat) : Int) + (s : Int)) = (((d + 1) * s : Nat) : Int) := by
    push_cast
    ring
  rw [h1]
  have h2 : (d + 1) * s < 2 ^ l.nBits :=
    lt_of_lt_of_le (Nat.mul_lt_mul_of_pos_right hd hs) hw
  have h3 : (((d + 1) * s : Nat) : Int) % (2 : Int) ^ l.nBits = (((d + 1) * s : Nat) : Int) := by
    apply Int.emod_eq_of_lt (Int.natCast_nonneg _)
    exact_mod_cast h2
  rw [h3, Int.toNat_natCast]

theorem total_cons (l : Level) (ls : List Level) : total (l :: ls) = radix l * total ls := by
  simp [total]

theorem total_pos (L : List Level) (h : ∀ l ∈ L, l.ok) : 0 < total L := by
  induction L with
  | nil => simp [total]
  | cons l ls ih =>
    obtain ⟨s, n, e1, e2, hs, hn, hsz, hext, hw⟩ := level_facts l (h l (List.mem_cons_self _ _))
    rw [total_cons, e2]
    exact Nat.mul_pos hn (ih fun x hx => h x (List.mem_cons_of_mem _ hx))

theorem pt_origin (L : List Level) : pt L 0 = List.replicate L.length 0 := by
  induction L with
  | nil => rfl
  | cons l ls ih => simp [pt, ih, List.replicate_succ]

theorem advance_pt (L : List Level) (h : ∀ l ∈ L, l.ok) (j : Nat) :
    advance L (pt L j) (pt L j) = (pt L (j + 1), decide ((j + 1) % total L = 0)) := by
  induction L generalizing j with
  | nil => simp [advance, pt, total, Nat.mod_one]
  | cons l ls ih =>
    obtain ⟨s, n, e1, e2, hs, hn, hsz, hext, hw⟩ := level_facts l (h l (List.mem_cons_self _ _))
    have ih' := ih (fun x hx => h x (List.mem_cons_of_mem _ hx)) (j / n)
    have hlt := Nat.mod_lt j hn
    simp only [pt, advance, e1, e2, total_cons, List.headD_cons, List.tail_cons,
      is_max_pt l s n (j % n) hs hsz hext]
    by_cases hc : j % n + 1 = n
    · obtain ⟨hd, hm⟩ := ForBlock.succ_divmod_carry j n hn hc
      have hj : j + 1 = n * (j / n + 1) := by
        have := Nat.div_add_mod j n
        rw [Nat.mul_add, Nat.mul_one]
        omega
      have hflag : ((j + 1) % (n * total ls) = 0) ↔ ((j / n + 1) % total ls = 0) := by
        rw [hj, Nat.mul_mod_mul_left]
        constructor
        · intro h0
          rcases Nat.mul_eq_zero.1 h0 with h1 | h1
          · omega
          · exact h1
        · intro h0
          rw [h0, Nat.mul_zero]
      simp only [hc, decide_True, if_true, ih', hd, hm, Nat.zero_mul]
      rw [decide_eq_decide.2 hflag]
    · have hlt2 : j % n + 1 < n := by omega
      obtain ⟨hd, hm⟩ := ForBlock.succ_divmod_stay j n hn hlt2
      have hflag : ¬ (j + 1) % (n * total ls) = 0 := by
        intro h0
        have h1 := Nat.mod_mul_right_mod (j + 1) n (total ls)
        rw [h0, Nat.zero_mod] at h1
        omega
      simp only [hc, decide_False, if_false, Bool.false_eq_true, hd, hm,
        inc_pt l s n (j % n) hs hsz hw hlt2, hflag]

theorem levels_length (p : Params) : (levels p).length = p.store_extents.length := by
  simp [levels]

theorem levels_ok (p : Params) (hp : Supported p) : ∀ l ∈ levels p, l.ok := by
  intro l hl
  unfold levels at hl
  obtain ⟨i, hi, rfl⟩ := List.mem_map.1 hl
  obtain ⟨h1, h2, h3, hb⟩ := hp i (List.mem_range.1 hi)
  refine ⟨h1, h2, h3, ?_⟩
  show p.store_extents.getD i 0 ≤ (2 : Int) ^ se_nBits (p.store_extents.getD i 0)
  have h4 := le_pow_ceilLog2 (p.store_extents.getD i 0).toNat hb
  have h5 : 2 ^ ceilLog2 (p.store_extents.getD i 0).toNat
      ≤ 2 ^ se_nBits (p.store_extents.getD i 0) :=
    Nat.pow_le_pow_right (by decide) (le_max_left _ _)
  have h6 : (((p.store_extents.getD i 0).toNat : Nat) : Int)
      ≤ ((2 ^ se_nBits (p.store_extents.getD i 0) : Nat) : Int) := by
    exact_mod_cast le_trans h4 h5
  rw [Int.toNat_of_nonneg (le_of_lt h2)] at h6
  exact_mod_cast h6

theorem N_pos (p : Params) (hp : Supported p) : 0 < N p := total_pos _ (levels_ok p hp)

theorem step_inv {α : Type} (p : Params) (hp : Supported p) (s : Regs α) (x : Ports α)
    (hx : x.start_in = false) (caps pres : List α) (d : Nat) (h : Inv p s caps pres d) :
    Inv p (step p s x) (caps ++ if in_ready s x then [x.in_data] else [])
        (pres ++ if out_valid s x then [out_value s] else [])
        (d + if done_out s x then 1 else 0)
      ∧ caps.length + d
          ≤ (caps ++ if in_ready s x then [x.in_data] else []).length
            + (d + if done_out s x then 1 else 0)
      ∧ ((x.in_valid && x.out_ready) = true →
          caps.length + d = N p + 1
            ∨ (caps ++ if in_ready s x then [x.in_data] else []).length
                + (d + if done_out s x then 1 else 0) = caps.length + d + 1) := by
  rcases h with ⟨hlen, hst, hstate, hcnt, hv, hval, hpres, hd⟩ | ⟨hlen, hst, hstate, hv, hval, hpres, hd⟩
    | ⟨hlen, hst, hpres, hd⟩
  · -- capturing
    have hpl : push_last s x = false := by simp [push_last, hstate]
    by_cases hc : capture s x = true
    · have hadv := advance_pt (levels p) (levels_ok p hp) caps.length
      have hpres2 : pres ++ (if s.valid_d1 = true then [s.value] else []) = caps := by
        by_cases hv1 : s.valid_d1 = true
        · rw [if_pos hv1, hpres]
          exact List.dropLast_append_getLast? _ (hval hv1)
        · have hempty : caps = [] := by
            cases caps with
            | nil => rfl
            | cons a l => simp [hv] at hv1
          rw [if_neg hv1, hpres, hempty]
          rfl
      have hstep : step p s x =
          { counters := pt (levels p) (caps.length + 1)
            valid_d1 := true
            value := x.in_data
            started := true
            state := if (caps.length + 1) % N p = 0 then 1 else 0 } := by
        unfold step
        simp only [hc, hx, hpl, done_out, hst, hstate, hcnt, hadv, if_true, Bool.false_eq_true,
          if_false, Bool.true_and, decide_eq_true_eq, N]
      have hio : in_ready s x = true := hc
      have hov : out_valid s x = s.valid_d1 := by simp [out_valid, hpl, hc]
      have hdo : done_out s x = false := hpl
      simp only [hio, hov, hdo, if_true, Bool.false_eq_true, if_false, Nat.add_zero, out_value]
      rw [hstep, hpres2]
      refine ⟨?_, by simp, fun _ => Or.inr (by simp; omega)⟩
      by_cases hN : caps.length + 1 = N p
      · right
        left
        refine ⟨by simp [hN], rfl, by simp [hN], rfl, by simp, by simp, hd⟩
      · left
        have hlt : caps.length + 1 < N p := by omega
        refine ⟨by simpa using hlt, rfl, by simp [Nat.mod_eq_of_lt hlt], by simp, by simp,
          fun _ => by simp, by simp, hd⟩
    · have hc0 : capture s x = false := by simpa using hc
      have hstep : step p s x = s := by
        unfold step
        simp [hc0, hx, hpl, done_out]
      have hio : in_ready s x = false := hc0
      have hov : out_valid s x = false := by simp [out_valid, hpl, hc0]
      have hdo : done_out s x = false := hpl
      simp only [hio, hov, hdo, Bool.false_eq_true, if_false, List.append_nil, Nat.add_zero, hstep]
      refine ⟨Or.inl ⟨hlen, hst, hstate, hcnt, hv, hval, hpres, hd⟩, le_refl _, ?_⟩
      intro hprod
      exfalso
      have hcap : capture s x = (x.out_ready && x.in_valid) := by
        simp [capture, fire, hst, hstate]
      rw [hcap] at hc0
      cases h1 : x.out_ready <;> cases h2 : x.in_valid <;> simp [h1, h2] at hc0 hprod
  · -- state 1
    have hcap : capture s x = false := by simp [capture, hstate]
    have hio : in_ready s x = false := hcap
    by_cases hr : x.out_ready = true
    · have hpl : push_last s x = true := by simp [push_last, fire, hst, hr, hstate]
      have hov : out_valid s x = true := by simp [out_valid, hpl, hv]
      have hdo : done_out s x = true := hpl
      have hstep : (step p s x).started = false := by
        unfold step
        simp [hx, hdo]
      simp only [hio, hov, hdo, if_true, Bool.false_eq_true, if_false, List.append_nil, out_value]
      refine ⟨Or.inr (Or.inr ⟨hlen, hstep, ?_, by omega⟩), by omega, fun _ => Or.inr (by omega)⟩
      rw [hpres]
      exact List.dropLast_append_getLast? _ hval
    · have hr0 : x.out_ready = false := by simpa using hr
      have hpl : push_last s x = false := by simp [push_last, fire, hr0]
      have hov : out_valid s x = false := by simp [out_valid, hpl, hcap]
      have hdo : done_out s x = false := hpl
      have hstep : step p s x = s := by
        unfold step
        simp [hcap, hx, hpl, done_out]
      simp only [hio, hov, hdo, Bool.false_eq_true, if_false, List.append_nil, Nat.add_zero, hstep]
      refine ⟨Or.inr (Or.inl ⟨hlen, hst, hstate, hv, hval, hpres, hd⟩), le_refl _, ?_⟩
      intro hprod
      simp [hr0] at hprod
  · -- stopped
    have hcap : capture s x = false := by simp [capture, fire, hst]
    have hpl : push_last s x = false := by simp [push_last, fire, hst]
    have hio : in_ready s x = false := hcap
    have hov : out_valid s x = false := by simp [out_valid, hpl, hcap]
    have hdo : done_out s x = false := hpl
    have hstep : step p s x = s := by
      unfold step
      simp [hcap, hx, hpl, done_out]
    simp only [hio, hov, hdo, Bool.false_eq_true, if_false, List.append_nil, Nat.add_zero, hstep]
    exact ⟨Or.inr (Or.inr ⟨hlen, hst, hpres, hd⟩), le_refl _, fun _ => Or.inl (by omega)⟩

theorem inv_rank {α : Type} (p : Params) (s : Regs α) (caps pres : List α) (d : Nat)
    (h : Inv p s caps pres d) :
    caps.length ≤ N p ∧ d ≤ 1 ∧ caps.length + d ≤ N p + 1
      ∧ (caps.length + d = N p + 1 → d = 1) ∧ (d = 1 → caps.length = N p ∧ pres = caps)
      ∧ List.IsPrefix pres caps := by
  rcases h with ⟨hlen, _, _, _, _, _, hpres, hd⟩ | ⟨hlen, _, _, _, _, hpres, hd⟩
    | ⟨hlen, _, hpres, hd⟩
  · refine ⟨by omega, by omega, by omega, by omega, by omega, ?_⟩
    rw [hpres]
    exact List.dropLast_prefix _
  · refine ⟨by omega, by omega, by omega, by omega, by omega, ?_⟩
    rw [hpres]
    exact List.dropLast_prefix _
  · refine ⟨by omega, by omega, by omega, fun _ => hd, fun _ => ⟨hlen, hpres⟩, ?_⟩
    rw [hpres]

theorem pass_inv {α : Type} (p : Params) (hp : Supported p) (xs : List (Ports α))
    (hxs : ∀ x ∈ xs, x.start_in = false) (s : Regs α) (caps pres : List α) (d : Nat)
    (h : Inv p s caps pres d) :
    Inv p (runFrom p s xs) (caps ++ captured p s xs) (pres ++ presented p s xs)
        (d + dones p s xs)
      ∧ min (N p + 1) (caps.length + d + productive xs)
          ≤ (caps ++ captured p s xs).length + (d + dones p s xs) := by
  induction xs generalizing s caps pres d with
  | nil =>
    have hr := inv_rank p s caps pres d h
    simp only [runFrom, captured, presented, dones, productive, List.foldl_nil,
      List.append_nil, Nat.add_zero, List.countP_nil]
    exact ⟨h, Nat.min_le_right _ _⟩
  | cons x xs ih =>
    obtain ⟨h1, h2, h3⟩ := step_inv p hp s x (hxs x (List.mem_cons_self _ _)) caps pres d h
    obtain ⟨i1, i2⟩ := ih (fun y hy => hxs y (List.mem_cons_of_mem _ hy)) _ _ _ _ h1
    have hr := inv_rank p s caps pres d h
    have hrun : runFrom p s (x :: xs) = runFrom p (step p s x) xs := rfl
    rw [hrun]
    simp only [captured, presented, dones]
    rw [← List.append_assoc, ← List.append_assoc, ← Nat.add_assoc]
    refine ⟨i1, ?_⟩
    have hprod : productive (x :: xs)
        = productive xs + if (x.in_valid && x.out_ready) = true then 1 else 0 := by
      unfold productive
      rw [List.countP_cons]
    rw [hprod]
    by_cases hb : (x.in_valid && x.out_ready) = true
    · rw [if_pos hb]
      rcases h3 hb with h4 | h4
      · have : N p + 1 ≤ min (N p + 1) ((caps ++ if in_ready s x then [x.in_data] else []).length
            + (d + if done_out s x then 1 else 0) + productive xs) := by
          apply Nat.le_min.2
          exact ⟨le_refl _, by omega⟩
        have := Nat.min_le_left (N p + 1) (caps.length + d + (productive xs + 1))
        omega
      · rw [h4] at i2
        have e : caps.length + d + (productive xs + 1) = caps.length + d + 1 + productive xs := by
          omega
        rw [e]
        exact i2
    · rw [if_neg hb, Nat.add_zero]
      refine le_trans ?_ i2
      apply Nat.le_min.2
      refine ⟨Nat.min_le_left _ _, le_trans (Nat.min_le_right _ _) (by omega)⟩

theorem start_inv {α : Type} (p : Params) (hp : Supported p) (s : Regs α) (x : Ports α)
    (hs : s.started = false) (hx : x.start_in = true) : Inv p (step p s x) [] [] 0 := by
  left
  have hcap : capture s x = false := by simp [capture, fire, hs]
  have hpl : push_last s x = false := by simp [push_last, fire, hs]
  refine ⟨N_pos p hp, ?_, ?_, ?_, ?_, ?_, rfl, rfl⟩
  · simp [step, hx]
  · simp [step, hcap, hpl, hx]
  · simp [step, hcap, hx, pt_origin, levels_length]
  · simp [step, hcap, hx]
  · simp [step, hcap, hx]

/-- C30, for store extents up to `log2Limit`: a stream adapter emitted by
`print_io` whose store extents are positive multiples of the stencil sizes
(`Supported`), started while idle and run without a further start.  With `N` the product of `extent_i / size_i`: nothing is captured or
presented on the start cycle; at every moment at most `N` elements have been
captured and the presented elements are a prefix of the captured ones (same
order, none twice); `done_out` is high on at most one cycle, and once it was,
exactly `N` elements were captured and all of them presented.  On a cycle with
`done_out` high no done was seen before, the state register is 1, the element
handed downstream on that cycle is the `N`-th captured one, and `TLAST` is set
exactly for an output adapter; on every other cycle `TLAST` is low.  The pass
completes as soon as upstream was valid while downstream was ready on `N + 1`
cycles. -/
theorem stream_adapter_one_pass {α : Type} (p : Params) (hp : Supported p) (s s0 : Regs α)
    (x0 : Ports α) (hs : s.started = false) (hx0 : x0.start_in = true)
    (h0 : s0 = step p s x0) (xs : List (Ports α)) (hxs : ∀ x ∈ xs, x.start_in = false) :
    (in_ready s x0 = false ∧ out_valid s x0 = false ∧ done_out s x0 = false)
      ∧ (captured p s0 xs).length ≤ N p
      ∧ List.IsPrefix (presented p s0 xs) (captured p s0 xs)
      ∧ dones p s0 xs ≤ 1
      ∧ (dones p s0 xs = 1 →
          (captured p s0 xs).length = N p ∧ presented p s0 xs = captured p s0 xs)
      ∧ (∀ x, done_out (runFrom p s0 xs) x = true →
          dones p s0 xs = 0 ∧ (runFrom p s0 xs).state = 1
            ∧ out_valid (runFrom p s0 xs) x = true
            ∧ (captured p s0 xs).length = N p
            ∧ presented p s0 xs ++ [out_value (runFrom p s0 xs)] = captured p s0 xs
            ∧ TLAST p (runFrom p s0 xs) x = !p.is_input)
      ∧ (∀ x, done_out (runFrom p s0 xs) x = false → TLAST p (runFrom p s0 xs) x = false)
      ∧ (N p + 1 ≤ productive xs → dones p s0 xs = 1) := by
  subst h0
  obtain ⟨hinv, hlive⟩ := pass_inv p hp xs hxs _ [] [] 0 (start_inv p hp s x0 hs hx0)
  simp only [List.nil_append, Nat.zero_add, List.length_nil] at hinv hlive
  obtain ⟨r1, r2, r3, r4, r5, r6⟩ := inv_rank p _ _ _ _ hinv
  refine ⟨⟨by simp [in_ready, capture, fire, hs], by simp [out_valid, push_last, capture, fire, hs],
    by simp [done_out, push_last, fire, hs]⟩, r1, r6, r2, r5, ?_, ?_, ?_⟩
  · intro x hdone
    have hfire : (runFrom p (step p s x0) xs).started = true
        ∧ x.out_ready = true ∧ (runFrom p (step p s x0) xs).state = 1 := by
      simpa [done_out, push_last, fire, Bool.and_eq_true, and_assoc] using hdone
    rcases hinv with ⟨_, _, hstate, _⟩ | ⟨hlen, hst, hstate, hv, hval, hpres, hd⟩
      | ⟨_, hst, _⟩
    · rw [hstate] at hfire
      exact absurd hfire.2.2 (by decide)
    · refine ⟨hd, hstate, ?_, hlen, ?_, ?_⟩
      · unfold out_valid
        rw [show push_last (runFrom p (step p s x0) xs) x = true from hdone, if_pos rfl, hv]
      · rw [hpres]
        exact List.dropLast_append_getLast? _ hval
      · unfold TLAST
        rw [show push_last (runFrom p (step p s x0) xs) x = true from hdone, Bool.and_true]
    · rw [hst] at hfire
      exact absurd hfire.1 (by decide)
  · intro x hdone
    unfold TLAST
    rw [show push_last (runFrom p (step p s x0) xs) x = false from hdone, Bool.and_false]
  · intro hprod
    have h1 : N p + 1 ≤ min (N p + 1) (productive xs) := Nat.le_min.2 ⟨le_refl _, hprod⟩
    exact r4 (by omega)

theorem stream_adapter_one_pass_witness :
    Supported fourByTwo ∧ N fourByTwo = 4
      ∧ captured fourByTwo (step fourByTwo (reset fourByTwo 0) start) samplePass = [10, 11, 12, 13]
      ∧ presented fourByTwo (step fourByTwo (reset fourByTwo 0) start) samplePass
          = captured fourByTwo (step fourByTwo (reset fourByTwo 0) start) samplePass
      ∧ dones fourByTwo (step fourByTwo (reset fourByTwo 0) start) samplePass = 1 :=
  have h := stream_adapter_one_pass fourByTwo (by decide) (reset fourByTwo 0) _ start rfl rfl rfl
    samplePass (by decide)
  ⟨by decide, by decide, by decide, (h.2.2.2.2.1 (h.2.2.2.2.2.2.2 (by decide))).2,
    h.2.2.2.2.2.2.2 (by decide)⟩

end Adapter

/-! ## Names and stencil references -/

namespace Visit

/-- C40: `print_name` keeps the length of its argument, keeps every
alphanumeric character and puts `_` at every other position, so its result
holds only alphanumeric characters and `_`; and it is idempotent. -/
theorem print_name_keeps_alnum (s : String) :
    (print_name s).length = s.length
      ∧ (∀ i : Nat, (print_name s).data[i]?
          = (s.data[i]?).map fun c => if c.isAlphanum then c else '_')
      ∧ (∀ c ∈ (print_name s).data, c.isAlphanum = true ∨ c = '_')
      ∧ print_name (print_name s) = print_name s := by
  refine ⟨?_, ?_, ?_, ?_⟩
  · show (s.data.map fun c => if c.isAlphanum then c else '_').length = s.data.length
    rw [List.length_map]
  · intro i
    show (s.data.map fun c => if c.isAlphanum then c else '_')[i]? = _
    rw [List.getElem?_map]
  · intro c hc
    simp only [print_name, List.mem_map] at hc
    obtain ⟨a, _, rfl⟩ := hc
    by_cases h : a.isAlphanum = true
    · left
      simp [h]
    · right
      simp [h]
  · unfold print_name
    congr 1
    rw [List.map_map]
    apply List.map_congr_left
    intro a _
    by_cases h : a.isAlphanum = true
    · simp [h]
    · have hu : ('_' : Char).isAlphanum = false := by decide
      simp [h, hu]

theorem args_indices_eq_map (args : List PArg) (indices : List String)
    (h : args_indices args = some indices) :
    indices = args.map indexText ∧ PArg.other ∉ args := by
  induction args generalizing indices with
  | nil =>
    simp only [args_indices, Option.some.injEq] at h
    subst h
    exact ⟨rfl, by simp⟩
  | cons a rest ih =>
    rcases a with v | n | _
    · simp only [args_indices, Option.map_eq_some'] at h
      obtain ⟨l, hl, rfl⟩ := h
      obtain ⟨h1, h2⟩ := ih l hl
      exact ⟨by simp [indexText, h1], by simp [h2]⟩
    · simp only [args_indices, Option.map_eq_some'] at h
      obtain ⟨l, hl, rfl⟩ := h
      obtain ⟨h1, h2⟩ := ih l hl
      exact ⟨by simp [indexText, h1], by simp [h2]⟩
    · simp [args_indices] at h

theorem call_indices_of_map (other : CG → Res Unit) (args : List PArg)
    (h : PArg.other ∉ args) (g : CG) :
    ∃ i, call_indices (args.map (callArg other)) g
      = .ok (args.map indexText) { g with id := i } := by
  induction args generalizing g with
  | nil => exact ⟨g.id, rfl⟩
  | cons a rest ih =>
    have hrest : PArg.other ∉ rest := fun hm => h (List.mem_cons_of_mem _ hm)
    rcases a with v | n | _
    · obtain ⟨i, hi⟩ := ih hrest g
      exact ⟨i, by simp [call_indices, callArg, indexText, hi]⟩
    · obtain ⟨i, hi⟩ := ih hrest { g with id := print_name n }
      refine ⟨i, ?_⟩
      simp only [List.map_cons, callArg, call_indices, print_expr, visitVariable, indexText]
      rw [hi]
    · exact absurd (List.mem_cons_self _ _) h

/-- C39: for a buffer whose name ends in `.stencil` or `.stencil_update` and
not in `tap.stencil`, and index arguments that are integer constants or
variables, the text that `visit(Call)` passes to `print_assignment` for a read
is the destination text `visit(Provide)` prints for a store at the same
indices: the sanitized name followed by the indices in reverse order, each in
brackets, constants in decimal and variables as `asUInt(<sanitized name>)`. -/
theorem provide_and_call_same_text (un : Nat → String) (t : Lower.HType) (name : String)
    (args : List PArg) (indices : List String) (other tap : CG → Res Unit) (g : CG)
    (hname : (ends_with name ".stencil" || ends_with name ".stencil_update") = true)
    (htap : ends_with name "tap.stencil" = false)
    (hargs : args_indices args = some indices) :
    visitCallStencil un t name (args.map (callArg other)) tap g
        = (match print_assignment un t (provide_dest name indices) g with
          | .ok _ g2 => .ok () g2
          | .abort m g2 => .abort m g2)
      ∧ (∀ (value0 irprinter_visit : CG → Res Unit) (gp gp1 : CG) (idv : String)
          (body : List String),
          print_expr value0 gp = .ok idv gp1 → gp1.gen.current_fb = some body →
          visitProvide name args 1 value0 irprinter_visit gp
            = .ok () (cache_clear
                (fb_print gp1 (provide_dest name indices ++ " <= " ++ idv ++ "\n"))))
      ∧ provide_dest name indices
          = print_name name ++ "[" ++ String.intercalate "][" (args.reverse.map indexText)
              ++ "]" := by
  obtain ⟨hidx, hno⟩ := args_indices_eq_map args indices hargs
  have hdest : provide_dest name indices
      = print_name name ++ "[" ++ String.intercalate "][" (args.reverse.map indexText)
          ++ "]" := by
    unfold provide_dest
    rw [hidx, List.map_reverse]
  refine ⟨?_, ?_, hdest⟩
  · have hno' : PArg.other ∉ args.reverse := fun hm => hno (List.mem_reverse.1 hm)
    obtain ⟨i, hi⟩ := call_indices_of_map other args.reverse hno' g
    unfold visitCallStencil
    rw [if_neg (by simp [htap]), ← List.map_reverse, hi, hdest]
    rfl
  · intro value0 irp gp gp1 idv body hv hb
    simp only [visitProvide, hname, if_true, hargs, internal_assert, decide_True, hv, hb]

theorem provide_and_call_same_text_witness :
    (visitCallStencil sampleName ⟨true, 32⟩ "out.stencil"
        [.intImm 0, .expr (visitVariable "x.v")] (fun g => .ok () g) blockCG).state.gen.current_fb
        = some ["node _0 = out_stencil[asUInt(x_v)][0]\n"]
      ∧ (visitProvide "out.stencil" [.intImm 0, .variable "x.v"] 1 (visitVariable "v")
          (fun g => .ok () g) blockCG).state.gen.current_fb
        = some ["out_stencil[asUInt(x_v)][0] <= v\n"] :=
  have h := provide_and_call_same_text sampleName ⟨true, 32⟩ "out.stencil"
    [.intImm 0, .variable "x.v"] ["0", "asUInt(x_v)"] (fun g => .ok () g) (fun g => .ok () g)
    blockCG (by decide) (by decide) (by decide)
  ⟨(congrArg (fun r => r.state.gen.current_fb) h.1).trans (by decide),
    (congrArg (fun r => r.state.gen.current_fb)
      (h.2.1 (visitVariable "v") (fun g => .ok () g) blockCG { blockCG with id := "v" } "v" []
        (by decide) (by decide))).trans (by decide)⟩

end Visit

/-! ## The write FSM and the byte ranges of the bus interface -/

namespace SlaveIf

theorem step_aw_le (cfg : List (Reg_Type × FIRRTL_Type)) (s : Regs) (i : Ports)
    (h : s.r_aw_cs_fsm ≤ 2) : (step cfg s i).r_aw_cs_fsm ≤ 2 := by
  show w_aw_ns_fsm s i ≤ 2
  unfold w_aw_ns_fsm ST_IDLE ST_ADDR ST_DATA
  split_ifs <;> omega

theorem run_aw_le (cfg : List (Reg_Type × FIRRTL_Type)) (is : List Ports) (s : Regs)
    (h : s.r_aw_cs_fsm ≤ 2) : (runFrom cfg s is).r_aw_cs_fsm ≤ 2 := by
  induction is generalizing s with
  | nil => exact h
  | cons x is ih => exact ih (step cfg s x) (step_aw_le cfg s x h)

/-- C33: in every state reached from reset the write FSM state is 0, 1 or 2;
its next value is 1 from 0 when `AWVALID`, 2 from 1 when `WVALID`, 0 from 2
when `BREADY`, and the current value otherwise; `AWREADY`, `WREADY` and
`BVALID` are high exactly in states 0, 1 and 2, so exactly one of them is high
in each cycle; and `r_aw_addr` takes `AWADDR` on a cycle with `AWVALID` and
`AWREADY` and keeps its value on every other cycle. -/
theorem slaveif_write_fsm (cfg : List (Reg_Type × FIRRTL_Type)) (aw ar rd n : Nat)
    (user : List (List Nat)) (is : List Ports) (i : Ports) :
    (runFrom cfg (reset aw ar rd n user) is).r_aw_cs_fsm ≤ 2
      ∧ (step cfg (runFrom cfg (reset aw ar rd n user) is) i).r_aw_cs_fsm
          = (if (runFrom cfg (reset aw ar rd n user) is).r_aw_cs_fsm = 0 then
              (if i.AWVALID then 1 else 0)
            else if (runFrom cfg (reset aw ar rd n user) is).r_aw_cs_fsm = 1 then
              (if i.WVALID then 2 else 1)
            else (if i.BREADY then 0 else 2))
      ∧ AWREADY (runFrom cfg (reset aw ar rd n user) is)
          = decide ((runFrom cfg (reset aw ar rd n user) is).r_aw_cs_fsm = 0)
      ∧ WREADY (runFrom cfg (reset aw ar rd n user) is)
          = decide ((runFrom cfg (reset aw ar rd n user) is).r_aw_cs_fsm = 1)
      ∧ BVALID (runFrom cfg (reset aw ar rd n user) is)
          = decide ((runFrom cfg (reset aw ar rd n user) is).r_aw_cs_fsm = 2)
      ∧ (AWREADY (runFrom cfg (reset aw ar rd n user) is)).toNat
          + (WREADY (runFrom cfg (reset aw ar rd n user) is)).toNat
          + (BVALID (runFrom cfg (reset aw ar rd n user) is)).toNat = 1
      ∧ (step cfg (runFrom cfg (reset aw ar rd n user) is) i).r_aw_addr
          = (if i.AWVALID && AWREADY (runFrom cfg (reset aw ar rd n user) is) then
              i.AWADDR % 2 ^ 32
            else (runFrom cfg (reset aw ar rd n user) is).r_aw_addr) := by
  have hle := run_aw_le cfg is (reset aw ar rd n user) (Nat.zero_le 2)
  generalize runFrom cfg (reset aw ar rd n user) is = s at hle ⊢
  refine ⟨hle, ?_, rfl, rfl, rfl, ?_, rfl⟩
  · show w_aw_ns_fsm s i = _
    unfold w_aw_ns_fsm ST_IDLE ST_ADDR ST_DATA
    have h3 : s.r_aw_cs_fsm = 0 ∨ s.r_aw_cs_fsm = 1 ∨ s.r_aw_cs_fsm = 2 := by omega
    rcases h3 with h | h | h <;> simp [h]
  · unfold AWREADY WREADY BVALID ST_IDLE ST_ADDR ST_DATA
    have h3 : s.r_aw_cs_fsm = 0 ∨ s.r_aw_cs_fsm = 1 ∨ s.r_aw_cs_fsm = 2 := by omega
    rcases h3 with h | h | h <;> simp [h]

theorem assignOffsets_some_ok (regs : List (String × FIRRTL_Type)) (offset : Nat)
    (m : List (String × Reg_Type)) (h : assignOffsets offset regs = some m) :
    ∀ x ∈ regs, x.2.type = StencilContainerType.Stencil →
      1 ≤ x.2.bounds.length ∧ x.2.bounds.length ≤ 4 := by
  induction regs generalizing offset m with
  | nil =>
    intro x hx
    cases hx
  | cons y rest ih =>
    obtain ⟨name, t⟩ := y
    unfold assignOffsets at h
    cases hr : assignReg offset t with
    | none => simp only [hr] at h; cases h
    | some ro =>
      obtain ⟨r, o⟩ := ro
      simp only [hr] at h
      cases hm : assignOffsets o rest with
      | none => simp only [hm] at h; cases h
      | some m' =>
        intro x hx hs
        rcases List.mem_cons.mp hx with rfl | hx'
        · unfold assignReg at hr
          rw [if_pos hs] at hr
          by_cases hb : t.bounds.length ≤ 4 ∧ 1 ≤ t.bounds.length
          · exact ⟨hb.2, hb.1⟩
          · rw [if_neg hb] at hr
            cases hr
        · exact ih o m' hm x hx' hs

theorem sum_take_succ_le (l : List Nat) (i j x : Nat) (hij : i < j) (hx : l[i]? = some x) :
    (l.take i).sum + x ≤ (l.take j).sum := by
  induction l generalizing i j with
  | nil => simp at hx
  | cons a t ih =>
    cases j with
    | zero => omega
    | succ j =>
      cases i with
      | zero =>
        simp only [List.getElem?_cons_zero, Option.some.injEq] at hx
        subst hx
        simp
      | succ i =>
        simp only [List.getElem?_cons_succ] at hx
        have := ih i j (by omega) hx
        simp only [List.take_succ_cons, List.sum_cons]
        omega

theorem specByteRange_pos (t : FIRRTL_Type) (h : ∀ e ∈ t.bounds, 0 < e) :
    0 < specByteRange t := by
  unfold specByteRange
  split
  · have : 0 < t.bounds.prod := List.prod_pos (fun e he => h e he)
    omega
  · omega

/-- C38: for registers with positive extents, every byte range assigned by the
offset loop starts at or above 0x40 and is not empty, so it holds neither the
control address 0 nor the status address 4; the ranges follow each other in
the order of the registers (a later range starts at or after the end of an
earlier one), and no address lies in the ranges of two different registers. -/
theorem slaveif_ranges_disjoint (regs : List (String × FIRRTL_Type))
    (m : List (String × Reg_Type)) (hm : address_map regs = some m)
    (hpos : ∀ x ∈ regs, ∀ e ∈ x.2.bounds, 0 < e) :
    (∀ e ∈ m, 0x40 ≤ e.2.offset ∧ 0 < e.2.range
        ∧ ¬ inByteRange e.2 ADDR_CTRL ∧ ¬ inByteRange e.2 ADDR_STATUS)
      ∧ (∀ (i j : Nat) (ei ej : String × Reg_Type), i < j → m[i]? = some ei → m[j]? = some ej →
          ei.2.offset + ei.2.range ≤ ej.2.offset)
      ∧ (∀ (i j : Nat) (ei ej : String × Reg_Type) (a : Nat), i ≠ j → m[i]? = some ei → m[j]? = some ej →
          ¬ (inByteRange ei.2 a ∧ inByteRange ej.2 a)) := by
  have hok := assignOffsets_some_ok regs 0x40 m hm
  obtain ⟨m', hm', _, hspec⟩ := assignOffsets_spec regs 0x40 hok
  have heq : m' = m := by
    have : some m' = some m := by rw [← hm', ← hm]; rfl
    exact Option.some.inj this
  subst heq
  have hord : ∀ (i j : Nat) (ei ej : String × Reg_Type), i < j → m'[i]? = some ei → m'[j]? = some ej →
      ei.2.offset + ei.2.range ≤ ej.2.offset := by
    intro i j ei ej hij hi hj
    obtain ⟨_, _, _, h1⟩ := hspec i ei hi
    obtain ⟨_, _, _, h2⟩ := hspec j ej hj
    have hx : (m'.map fun x => x.2.range)[i]? = some ei.2.range := by
      rw [List.getElem?_map, hi]
      rfl
    have := sum_take_succ_le (m'.map fun x => x.2.range) i j ei.2.range hij hx
    rw [← List.map_take, ← List.map_take] at this
    omega
  have hbase : ∀ e ∈ m', 0x40 ≤ e.2.offset ∧ 0 < e.2.range := by
    intro e he
    obtain ⟨k, hk⟩ := List.getElem?_of_mem he
    obtain ⟨t, h1, h2, h3⟩ := hspec k e hk
    refine ⟨by omega, ?_⟩
    rw [h2]
    exact specByteRange_pos t (hpos (e.1, t) (List.mem_iff_getElem?.2 ⟨k, h1⟩))
  refine ⟨?_, hord, ?_⟩
  · intro e he
    obtain ⟨h1, h2⟩ := hbase e he
    refine ⟨h1, h2, ?_, ?_⟩
    · unfold inByteRange ADDR_CTRL
      omega
    · unfold inByteRange ADDR_STATUS
      omega
  · intro i j ei ej a hij hi hj
    unfold inByteRange
    rcases Nat.lt_or_gt_of_ne hij with h | h
    · have := hord i j ei ej h hi hj
      omega
    · have := hord j i ej ei h hj hi
      omega

theorem slaveif_ranges_disjoint_witness :
    address_map [("r_a", ⟨.Scalar, true, 8, []⟩), ("r_t", ⟨.Stencil, true, 8, [3, 2]⟩),
        ("r_b", ⟨.Scalar, false, 16, []⟩)]
      = some [("r_a", ⟨false, 32, 4, 0x40, []⟩), ("r_t", ⟨true, 32, 24, 0x44, [3, 2, 1, 1]⟩),
          ("r_b", ⟨false, 32, 4, 0x5c, []⟩)]
      ∧ (∀ (i j : Nat) (ei ej : String × Reg_Type) (a : Nat), i ≠ j →
          [("r_a", (⟨false, 32, 4, 0x40, []⟩ : Reg_Type)), ("r_t", ⟨true, 32, 24, 0x44, [3, 2, 1, 1]⟩),
            ("r_b", ⟨false, 32, 4, 0x5c, []⟩)][i]? = some ei →
          [("r_a", (⟨false, 32, 4, 0x40, []⟩ : Reg_Type)), ("r_t", ⟨true, 32, 24, 0x44, [3, 2, 1, 1]⟩),
            ("r_b", ⟨false, 32, 4, 0x5c, []⟩)][j]? = some ej →
          ¬ (inByteRange ei.2 a ∧ inByteRange ej.2 a)) :=
  ⟨by decide,
    (slaveif_ranges_disjoint
      [("r_a", ⟨.Scalar, true, 8, []⟩), ("r_t", ⟨.Stencil, true, 8, [3, 2]⟩),
        ("r_b", ⟨.Scalar, false, 16, []⟩)]
      [("r_a", ⟨false, 32, 4, 0x40, []⟩), ("r_t", ⟨true, 32, 24, 0x44, [3, 2, 1, 1]⟩),
        ("r_b", ⟨false, 32, 4, 0x5c, []⟩)]
      (by decide) (by decide)).2.2⟩

end SlaveIf

namespace ForBlock

theorem flat_state (p : Params) (hE : stencilExtent p = 1) (q : Nat) (s : Regs)
    (hinv : Inv p (phaseOf p q) s) :
    (q < points p.vars → s.state = 0 ∧ s.started = true)
      ∧ (points p.vars ≤ q → q < totalSteps p → s.state = 2 ∧ s.started = true)
      ∧ (totalSteps p ≤ q → s.started = false) := by
  obtain ⟨h1, h2⟩ := inv_state p q s hinv
  unfold stateSeq at h1
  rw [hE, Nat.mul_one] at h1
  refine ⟨?_, ?_, ?_⟩
  · intro hq
    have hq2 : q < totalSteps p := by
      unfold totalSteps
      rw [hE]
      omega
    rw [if_pos hq, if_pos (Nat.mod_one q)] at h1
    exact ⟨h1, by rw [h2]; simp [hq2]⟩
  · intro hq hq2
    rw [if_neg (by omega), if_pos hq2] at h1
    exact ⟨h1, by rw [h2]; simp [hq2]⟩
  · intro hq
    rw [h2]
    simp
    omega

/-- One cycle of a block without state 1 at pipeline depth 1: the inputs are
popped on the advancing cycles of the scan, the output is valid on every
advancing cycle but the first one, and `valid_d1` is high once the run has
advanced. -/
theorem flat_step (p : Params) (hsup : Supported p) (hns : no_state1 p = true) (q : Nat)
    (s : Regs) (x : Ports) (hinv : Inv p (phaseOf p q) s) (hx : x.start_in = false)
    (hv : s.valid_d.getD 0 false = decide (0 < q)) :
    in_ready p s x = (run_step p s x && decide (q < points p.vars))
      ∧ out_valid p s x = (run_step p s x && decide (0 < q))
      ∧ (step p s x).valid_d.getD 0 false
          = decide (0 < q + (if run_step p s x then 1 else 0)) := by
  have hpp := hsup.1
  have hN := points_pos p.vars hsup.2.1
  have hE : stencilExtent p = 1 := by
    rcases supported_shape p hsup with ⟨_, hE, _, _⟩ | ⟨h, _⟩
    · exact hE
    · rw [hns] at h
      cases h
  have hT : totalSteps p = points p.vars + 2 := by
    unfold totalSteps drainCycles
    rw [hE, hns]
    simp
  obtain ⟨c0, c2, c3⟩ := flat_state p hE q s hinv
  have h1 : st1 p s x = false := by simp [st1, hns]
  have hvd : (step p s x).valid_d.getD 0 false
      = (if st0 s x && no_state1 p then true
         else if x.start_in then false else s.valid_d.getD 0 false) := by
    simp [step, hpp]
  have hv2 : s.valid_d[0]?.getD false = decide (0 < q) := by simpa using hv
  rw [hvd, hns, hx, hv]
  unfold in_ready out_valid run_step
  rw [h1, hns, hpp]
  by_cases hq : q < points p.vars
  · obtain ⟨hstate, _⟩ := c0 hq
    have h2 : st2 s x = false := by simp [st2, hstate]
    rw [h2]
    cases h0 : st0 s x <;> simp [hq, hv2]
  · by_cases hq2 : q < totalSteps p
    · obtain ⟨hstate, _⟩ := c2 (by omega) hq2
      have h0 : st0 s x = false := by simp [st0, hstate]
      have hq0 : 0 < q := by omega
      rw [h0]
      cases h2 : st2 s x <;> simp [hq, hv2, hq0]
    · have hst := c3 (by omega)
      have h0 : st0 s x = false := by simp [st0, act, hst]
      have h2 : st2 s x = false := by simp [st2, act, hst]
      have hq0 : 0 < q := by omega
      rw [h0, h2]
      simp [hq0]

theorem flat_run (p : Params) (hsup : Supported p) (hns : no_state1 p = true)
    (is : List Ports) (hnostart : ∀ x ∈ is, x.start_in = false) (s : Regs) (q : Nat)
    (hq : q ≤ totalSteps p) (hinv : Inv p (phaseOf p q) s)
    (hv : s.valid_d.getD 0 false = decide (0 < q)) :
    pops p s is = min (q + advances p s is) (points p.vars) - min q (points p.vars)
      ∧ valids p s is = (q + advances p s is - 1) - (q - 1) := by
  induction is generalizing s q with
  | nil => simp [pops, valids, advances]
  | cons x is ih =>
    have hx := hnostart x (List.mem_cons_self _ _)
    have hrest : ∀ y ∈ is, y.start_in = false :=
      fun y hy => hnostart y (List.mem_cons_of_mem _ hy)
    obtain ⟨s1, s2, _, _⟩ := step_ok p hsup (phaseOf p q) s x hinv hx
    obtain ⟨f1, f2, f3⟩ := flat_step p hsup hns q s x hinv hx hv
    simp only [pops, valids, advances]
    rw [f1, f2]
    by_cases hr0 : run_step p s x = true
    · have hlt : q < totalSteps p := (phaseOf_ne_idle p q).1 (s2 hr0)
      rw [hr0] at s1 f3
      simp only [if_true] at s1 f3
      rw [phaseOf_succ p hsup q] at s1
      obtain ⟨a, b⟩ := ih hrest (step p s x) (q + 1) (by omega) s1 f3
      rw [a, b, hr0]
      simp only [Bool.true_and, if_true, decide_eq_true_eq]
      constructor
      · by_cases hqn : q < points p.vars
        · rw [if_pos hqn]
          omega
        · rw [if_neg hqn]
          omega
      · by_cases hq0 : 0 < q
        · rw [if_pos hq0]
          omega
        · rw [if_neg hq0]
          omega
    · have hr : run_step p s x = false := by simpa using hr0
      rw [hr] at s1 f3
      simp only [Bool.false_eq_true, if_false, Nat.add_zero] at s1 f3
      obtain ⟨a, b⟩ := ih hrest (step p s x) q hq s1 f3
      rw [a, b, hr]
      simp

/-- C34 (failing input, in general): for a supported block without state 1 at
pipeline depth 1, over a trace without a further start after a start, the
inputs are popped on the first `N` advancing cycles (`N` scan points) and the
output is valid on every advancing cycle but the first one; a run that
reaches `done_out` has `N + 2` advancing cycles, so the output is valid on
`N + 1` cycles although `N` inputs were popped: the second cycle of state 2
pushes once more. -/
theorem forblock_flat_run_pushes_once_more (p : Params) (hsup : Supported p)
    (hns : no_state1 p = true) (is : List Ports) (hnostart : ∀ x ∈ is, x.start_in = false) :
    pops p (startState p) is = min (advances p (startState p) is) (points p.vars)
      ∧ valids p (startState p) is = advances p (startState p) is - 1
      ∧ (dones p (startState p) is = 1 →
          pops p (startState p) is = points p.vars
            ∧ valids p (startState p) is = points p.vars + 1) := by
  have h0 := inv_startState p hsup
  have hv : (startState p).valid_d.getD 0 false = decide (0 < 0) := by
    simp [startState, reset, hsup.1]
  obtain ⟨a, b⟩ := flat_run p hsup hns is hnostart (startState p) 0 (Nat.zero_le _) h0 hv
  obtain ⟨_, _, hd⟩ := run_inv p hsup is hnostart (startState p) 0 (Nat.zero_le _) h0
  simp only [Nat.zero_add, Nat.zero_sub, Nat.sub_zero, Nat.min_zero, Nat.zero_min] at a b
  refine ⟨a, b, ?_⟩
  intro hdone
  have hT : totalSteps p = points p.vars + 2 := by
    have hE : stencilExtent p = 1 := by
      rcases supported_shape p hsup with ⟨_, hE, _, _⟩ | ⟨h, _⟩
      · exact hE
      · rw [hns] at h
        cases h
    unfold totalSteps drainCycles
    rw [hE, hns]
    simp
  have hadv : advances p (startState p) is = totalSteps p := by
    by_contra hne
    rw [hd, if_neg (fun h => hne (by simpa using h.2))] at hdone
    cases hdone
  rw [a, b, hadv, hT]
  omega

theorem forblock_flat_run_pushes_once_more_witness :
    pops flatTwo (startState flatTwo) (List.replicate 4 goCycle) = 2
      ∧ valids flatTwo (startState flatTwo) (List.replicate 4 goCycle) = 3
      ∧ dones flatTwo (startState flatTwo) (List.replicate 4 goCycle) = 1 :=
  have hsup : Supported flatTwo :=
    ⟨rfl, fun b hb => by
      simp only [flatTwo, List.mem_singleton] at hb
      subst hb
      simp [Level.ok], Or.inl rfl⟩
  have h := forblock_flat_run_pushes_once_more flatTwo hsup (by decide)
    (List.replicate 4 goCycle) (by decide)
  ⟨(h.2.2 (by decide)).1, (h.2.2 (by decide)).2, by decide⟩

/-- C35 (failing input, in general): for a supported block with a stencil loop
of extent `E >= 2`, after `q` advancing cycles of a run (scan position
`q / E`, stencil position `q % E`) the stencil variable holds `q % E`, but the
scan variables hold the coordinates of scan position `q / E` only at stencil
position 0: they are advanced on that cycle, so at every later stencil
position, where the body runs whenever the output is ready, they hold the
coordinates of the next scan position. -/
theorem forblock_scan_vars_advance_early (p : Params) (hsup : Supported p)
    (hns : no_state1 p = false) (is : List Ports) (hnostart : ∀ x ∈ is, x.start_in = false)
    (hq : advances p (startState p) is < points p.vars * stencilExtent p) :
    2 ≤ stencilExtent p
      ∧ (runFrom p (startState p) is).stencil_vars
          = p.stencil_vars.map (fun _ => ((advances p (startState p) is % stencilExtent p : Nat) : Int))
      ∧ (runFrom p (startState p) is).vars
          = pt p.vars (if advances p (startState p) is % stencilExtent p = 0 then
              advances p (startState p) is / stencilExtent p
            else advances p (startState p) is / stencilExtent p + 1)
      ∧ (advances p (startState p) is % stencilExtent p ≠ 0 →
          ∀ x : Ports, x.out_ready = true → run_step p (runFrom p (startState p) is) x = true) := by
  have hE : 2 ≤ stencilExtent p := by
    rcases supported_shape p hsup with ⟨h, _⟩ | ⟨_, _, m, _, hE, _⟩
    · rw [hns] at h
      cases h
    · omega
  obtain ⟨_, hinv, _⟩ :=
    run_inv p hsup is hnostart (startState p) 0 (Nat.zero_le _) (inv_startState p hsup)
  rw [Nat.zero_add] at hinv
  unfold phaseOf at hinv
  rw [if_pos hq] at hinv
  obtain ⟨_, _, hst, hstate, hvars, hsten, _, _⟩ := hinv
  refine ⟨hE, hsten, hvars, ?_⟩
  intro hr x hrdy
  rw [if_neg hr] at hstate
  simp [run_step, st1, act, hst, hrdy, hns, hstate]

theorem forblock_scan_vars_advance_early_witness :
    (runFrom twoByTwo (startState twoByTwo) [goCycle]).stencil_vars = [1]
      ∧ (runFrom twoByTwo (startState twoByTwo) [goCycle]).vars = [1]
      ∧ pt twoByTwo.vars 0 = [0]
      ∧ run_step twoByTwo (runFrom twoByTwo (startState twoByTwo) [goCycle]) goCycle = true :=
  have h := forblock_scan_vars_advance_early twoByTwo supported_twoByTwo (by decide) [goCycle]
    (by decide) (by decide)
  ⟨h.2.1.trans (by decide), h.2.2.1.trans (by decide), by decide,
    h.2.2.2 (by decide) goCycle rfl⟩

end ForBlock

/-! ## The cache across the creation of a block -/

namespace Visit

theorem cacheLocal_clear (g : CG) : CacheLocal (cache_clear g) := by
  intro e he
  cases he

/-- Inside a block whose cache entries all name nodes of its body, the name
`print_assignment` returns is defined by a node of that body, and the cache
keeps that property. -/
theorem print_assignment_local (un : Nat → String) (t : Lower.HType) (rhs : String) (g : CG)
    (body : List String) (hfb : g.gen.current_fb = some body) (h : CacheLocal g) :
    ∃ n g1 body1, print_assignment un t rhs g = .ok n g1 ∧ CacheLocal g1
      ∧ g1.gen.current_fb = some body1 ∧ ("node " ++ n ++ " = " ++ rhs ++ "\n") ∈ body1 := by
  unfold print_assignment Assign.print_assignment
  cases hc : Assign.cacheFind g.gen.cache rhs with
  | some cached =>
    unfold Assign.cacheFind at hc
    obtain ⟨e, he, rfl⟩ := Option.map_eq_some'.1 hc
    have hmem := List.mem_of_find?_eq_some he
    have hkey : e.1 = rhs := by
      have := List.find?_some he
      simpa using this
    obtain ⟨b, hb, hnode⟩ := h e hmem
    rw [hfb] at hb
    have hbb : body = b := Option.some.inj hb
    subst hbb
    refine ⟨e.2, _, body, rfl, ?_, hfb, by rw [← hkey]; exact hnode⟩
    intro e1 he1
    obtain ⟨b1, hb1, hn1⟩ := h e1 he1
    exact ⟨b1, hb1, hn1⟩
  | none =>
    simp only [hfb]
    refine ⟨_, _, body ++ ["node " ++ un g.gen.counter ++ " = " ++ rhs ++ "\n"], rfl, ?_, rfl,
      by simp⟩
    intro e1 he1
    refine ⟨_, rfl, ?_⟩
    simp only [Assign.cacheSet, List.mem_cons, List.mem_filter] at he1
    rcases he1 with rfl | ⟨he1, _⟩
    · simp
    · obtain ⟨b1, hb1, hn1⟩ := h e1 he1
      rw [hfb] at hb1
      have hbb : body = b1 := Option.some.inj hb1
      subst hbb
      exact List.mem_append_left _ hn1

/-- C36 (failing input): a top-level `dispatch_stream` call lowers the constant
1 to the wire `_0` of the top component and caches it; a loop `y` that opens a
loop group and whose body holds another loop enters its body with that cache
and an empty block; the constant 1 lowered there is answered from the cache
with the name `_0` and no node is printed, so the store in the block reads the
top-level wire `_0`. -/
theorem outer_loop_reuses_top_level_name :
    Assign.cacheFind afterCall.gen.cache "SInt<32>(1)" = some "_0"
      ∧ ("_0", (⟨true, 32⟩ : Lower.HType)) ∈ afterCall.gen.top_wires
      ∧ afterCall.gen.current_fb = none
      ∧ (∀ body : CG → Res Unit,
          visitFor "FB_p" "SlaveIf" "y" .Serial 0 4 [] true true body afterCall
            = visitFor "FB_p" "SlaveIf" "y" .Serial 0 4 [] true true (fun _ => body inOuterLoop)
                afterCall)
      ∧ inOuterLoop.gen.current_fb = some []
      ∧ inOuterLoop.gen.cache = afterCall.gen.cache
      ∧ print_expr (visitIntImm sampleName ⟨true, 32⟩ 1) inOuterLoop
          = .ok "_0" { inOuterLoop with
              id := "_0", gen := { inOuterLoop.gen with counter := inOuterLoop.gen.counter + 1 } }
      ∧ (visitProvide "out.stencil" [.intImm 0] 1 (visitIntImm sampleName ⟨true, 32⟩ 1)
          (fun g0 => .ok () g0) inOuterLoop).state.gen.current_fb
          = some ["out_stencil[0] <= _0\n"]
      ∧ (visitFor "FB_p" "SlaveIf" "y" .Serial 0 4 [] true true storeThenLoop afterCall).aborted
          = false := by
  refine ⟨by decide, by decide, by decide, fun body => rfl, by decide, by decide, by decide,
    by decide, by decide⟩

end Visit

/-! ## The reduction of a 3-D buffer to the inner 2-D buffer -/

namespace LineBuffer

open Visit

theorem print_linebuffer3D_case0 (name : String) (t : Lower.HType) (L inEl outEl : List Int)
    (p2D : String → List Int → List Int → List Int → CG → Res Unit) (g : CG)
    (h0 : inEl.getD 0 0 = outEl.getD 0 0 ∧ inEl.getD 0 0 = L.getD 0 0) :
    ∃ g1, print_linebuffer3D name t L inEl outEl p2D g
      = p2D name (reduce0 L inEl outEl).1 (reduce0 L inEl outEl).2.1
          (reduce0 L inEl outEl).2.2 g1 := by
  unfold print_linebuffer3D
  rw [if_pos h0]
  exact ⟨_, rfl⟩

theorem print_linebuffer3D_case2 (name : String) (t : Lower.HType) (L inEl outEl : List Int)
    (p2D : String → List Int → List Int → List Int → CG → Res Unit) (g : CG)
    (h0 : ¬ (inEl.getD 0 0 = outEl.getD 0 0 ∧ inEl.getD 0 0 = L.getD 0 0))
    (h2 : inEl.getD 2 0 = outEl.getD 2 0 ∧ inEl.getD 2 0 = L.getD 2 0) :
    ∃ g1, print_linebuffer3D name t L inEl outEl p2D g
      = p2D name (reduce2 L inEl outEl).1 (reduce2 L inEl outEl).2.1
          (reduce2 L inEl outEl).2.2 g1 := by
  unfold print_linebuffer3D
  rw [if_neg h0, if_pos h2]
  exact ⟨_, rfl⟩

theorem tdiv_lt_self (a b : Int) (ha : 0 < a) (hb : 2 ≤ b) : a.tdiv b < a := by
  rw [Int.tdiv_eq_ediv (le_of_lt ha) (by omega)]
  exact Int.ediv_lt_of_lt_mul (by omega) (by nlinarith)

/-- C37 (failing input, in general): with positive input element sizes, in
either degenerate case `print_linebuffer3D` calls the inner 2-D printer with
arrays for which the number of scan positions along the dimension that
carries the original dimension 1 is `L[1]`, because the image extent is
computed from the input element size already multiplied up; this is more than
the `L[1] / inEl[1]` elements per line that the 3-D buffer receives whenever
`inEl[1] >= 2`. -/
theorem linebuffer3D_inner_scan_count (name : String) (t : Lower.HType)
    (L inEl outEl : List Int)
    (p2D : String → List Int → List Int → List Int → CG → Res Unit) (g : CG)
    (hpos : 0 < inEl.getD 0 0 ∧ 0 < inEl.getD 1 0 ∧ 0 < inEl.getD 2 0) :
    ((inEl.getD 0 0 = outEl.getD 0 0 ∧ inEl.getD 0 0 = L.getD 0 0) →
        (∃ g1, print_linebuffer3D name t L inEl outEl p2D g
          = p2D name (reduce0 L inEl outEl).1 (reduce0 L inEl outEl).2.1
              (reduce0 L inEl outEl).2.2 g1)
          ∧ imgL0 (reduce0 L inEl outEl).1 (reduce0 L inEl outEl).2.1 = L.getD 1 0)
      ∧ (¬ (inEl.getD 0 0 = outEl.getD 0 0 ∧ inEl.getD 0 0 = L.getD 0 0) →
        (inEl.getD 2 0 = outEl.getD 2 0 ∧ inEl.getD 2 0 = L.getD 2 0) →
        (∃ g1, print_linebuffer3D name t L inEl outEl p2D g
          = p2D name (reduce2 L inEl outEl).1 (reduce2 L inEl outEl).2.1
              (reduce2 L inEl outEl).2.2 g1)
          ∧ imgL1 (reduce2 L inEl outEl).1 (reduce2 L inEl outEl).2.1 = L.getD 1 0)
      ∧ (2 ≤ inEl.getD 1 0 → 0 < L.getD 1 0 →
          (L.getD 1 0).tdiv (inEl.getD 1 0) < L.getD 1 0) := by
  obtain ⟨h0, h1, h2⟩ := hpos
  refine ⟨?_, ?_, fun hb ha => tdiv_lt_self _ _ ha hb⟩
  · intro hc
    refine ⟨print_linebuffer3D_case0 name t L inEl outEl p2D g hc, ?_⟩
    simp only [imgL0, reduce0, List.getD_cons_zero]
    exact Int.mul_tdiv_cancel _ (ne_of_gt (Int.mul_pos h0 h1))
  · intro hn hc
    refine ⟨print_linebuffer3D_case2 name t L inEl outEl p2D g hn hc, ?_⟩
    simp only [imgL1, reduce2, List.getD_cons_zero, List.getD_cons_succ]
    exact Int.mul_tdiv_cancel _ (ne_of_gt (Int.mul_pos h1 h2))

theorem linebuffer3D_inner_scan_count_witness :
    reduce0 [2, 4, 6, 1] [2, 2, 1, 1] [2, 2, 3, 1]
        = ([16, 6, 1, 1], [4, 1, 1, 1], [4, 3, 1, 1])
      ∧ imgL0 [16, 6, 1, 1] [4, 1, 1, 1] = 4
      ∧ (4 : Int).tdiv 2 = 2
      ∧ imgL0 (reduce0 [2, 4, 6, 1] [2, 2, 1, 1] [2, 2, 3, 1]).1
          (reduce0 [2, 4, 6, 1] [2, 2, 1, 1] [2, 2, 3, 1]).2.1 = 4 :=
  have h := linebuffer3D_inner_scan_count "LB" ⟨false, 8⟩ [2, 4, 6, 1] [2, 2, 1, 1] [2, 2, 3, 1]
    silentPrinter emptyCG (by decide)
  ⟨by decide, by decide, by decide, (h.1 (by decide)).2⟩

/-- In the first degenerate case the output is read where the input was fed:
block `p` of the window along dimension 1 and the input coordinate `(i0, j1)`
give `p * (inEl[0] * inEl[1]) + (j1 * inEl[0] + i0)`. -/
theorem out_index0_agrees (inEl outEl : List Int) (h : inEl.getD 0 0 = outEl.getD 0 0)
    (p j1 i0 : Nat) :
    out_index0 outEl (p * (inEl.getD 1 0).toNat + j1) i0
      = (p : Int) * (inEl.getD 0 0 * ((inEl.getD 1 0).toNat : Int)) + in_index0 inEl j1 i0 := by
  unfold out_index0 in_index0
  rw [← h]
  push_cast
  ring

set_option maxRecDepth 100000 in
/-- C31 (failing input): a 3-D buffer whose dimension 2 spans the image, with
input and output elements of size 1 x 2 x 2 (image 4 x 4 x 2).  The inner
buffer is fed `io.in.bits.value[0][0][1][0]` (coordinate `i1 = 1, i2 = 0`) at
position `i2*inEl[1]+i1 = 1` and `io.in.bits.value[0][1][0][0]` at position 2,
but the output element `[0][0][1][0]` is read from position
`i2+i1*outEl[2] = 2`: the two flattenings differ, and the window element does
not come from its own source coordinate. -/
theorem linebuffer3D_case2_reads_transposed :
    in_index2 [1, 2, 2, 1] 0 1 = 1
      ∧ out_index2 [1, 2, 2, 1] 0 1 = 2
      ∧ in_index2 [1, 2, 2, 1] 1 0 = 2
      ∧ (2, "  LB_2D.io.in.bits.value[0][0][" ++ toString (in_index2 [1, 2, 2, 1] 0 1)
              ++ "][0] <= io.in.bits.value[0][0][1][0]\n")
          ∈ (print_linebuffer3D "LB" ⟨false, 8⟩ [4, 4, 2, 1] [1, 2, 2, 1] [1, 2, 2, 1]
              silentPrinter emptyCG).state.stream
      ∧ (2, "  LB_2D.io.in.bits.value[0][0][" ++ toString (in_index2 [1, 2, 2, 1] 1 0)
              ++ "][0] <= io.in.bits.value[0][1][0][0]\n")
          ∈ (print_linebuffer3D "LB" ⟨false, 8⟩ [4, 4, 2, 1] [1, 2, 2, 1] [1, 2, 2, 1]
              silentPrinter emptyCG).state.stream
      ∧ (2, "io.out.bits.value[0][0][1][0] <= LB_2D.io.out.bits.value[0][0]["
              ++ toString (out_index2 [1, 2, 2, 1] 0 1) ++ "][0]\n")
          ∈ (print_linebuffer3D "LB" ⟨false, 8⟩ [4, 4, 2, 1] [1, 2, 2, 1] [1, 2, 2, 1]
              silentPrinter emptyCG).state.stream
      ∧ reduce2 [4, 4, 2, 1] [1, 2, 2, 1] [1, 2, 2, 1]
          = ([4, 16, 1, 1], [1, 4, 1, 1], [1, 4, 1, 1]) := by
  refine ⟨by decide, by decide, by decide, by decide, by decide, by decide, by decide⟩

end LineBuffer

/-! ## The row memories of the 2-D sliding-window buffer -/

namespace LineBuffer2D

theorem tail_subU_eq (w a b : Nat) (hba : b ≤ a) (ha : a < 2 ^ w) :
    tail1 w (subU w a b) = a - b := by
  unfold tail1 subU
  have hp : 2 ^ (w + 1) = 2 * 2 ^ w := by rw [pow_succ]; ring
  rw [hp]
  have hb : b % (2 * 2 ^ w) = b := Nat.mod_eq_of_lt (by omega)
  have h1 : a + 2 * 2 ^ w - b = (a - b) + 2 * 2 ^ w := by omega
  rw [hb, h1, Nat.add_mod_right, Nat.mod_eq_of_lt (show a - b < 2 * 2 ^ w by omega),
    Nat.mod_eq_of_lt (show a - b < 2 ^ w by omega)]

theorem mod_block (B l w : Nat) (hl : l < B) (hw : w < B) :
    (l + B - w) % B = if w ≤ l then l - w else l + B - w := by
  by_cases h : w ≤ l
  · rw [if_pos h]
    have : l + B - w = (l - w) + B := by omega
    rw [this, Nat.add_mod_right, Nat.mod_eq_of_lt (by omega)]
  · rw [if_neg h, Nat.mod_eq_of_lt (by omega)]

theorem bufL1_lt_outEl1 (inEl outEl : List Int) (h1 : 1 ≤ inEl.getD 1 0)
    (hr : 2 ≤ ratio1 inEl outEl) : (bufL1 inEl outEl).toNat < (outEl.getD 1 0).toNat := by
  have ho : 0 ≤ outEl.getD 1 0 := by
    by_contra hneg
    have h0 : (outEl.getD 1 0).tdiv (inEl.getD 1 0) ≤ 0 := by
      have hneg2 := Int.neg_tdiv (outEl.getD 1 0) (inEl.getD 1 0)
      have hnn := Int.tdiv_nonneg (a := -(outEl.getD 1 0)) (b := inEl.getD 1 0) (by omega)
        (by omega)
      omega
    unfold ratio1 at hr
    omega
  have hle : ratio1 inEl outEl ≤ outEl.getD 1 0 := by
    unfold ratio1
    rw [Int.tdiv_eq_ediv ho (by omega)]
    exact Int.ediv_le_self _ ho
  unfold bufL1
  omega

theorem bufL1_le_pow (inEl outEl : List Int) (h1 : 1 ≤ inEl.getD 1 0)
    (hr : 2 ≤ ratio1 inEl outEl) (hb : (outEl.getD 1 0).toNat ≤ log2Limit) :
    (bufL1 inEl outEl).toNat ≤ 2 ^ nBit_bufL1 inEl outEl :=
  le_trans (le_pow_ceilLog2 _ (le_trans (le_of_lt (bufL1_lt_outEl1 inEl outEl h1 hr)) hb))
    (Nat.pow_le_pow_right (by decide) (le_max_left _ _))

theorem inSliceL1_eq (inEl outEl : List Int) (h1 : 1 ≤ inEl.getD 1 0)
    (hr : 2 ≤ ratio1 inEl outEl) (hb : (outEl.getD 1 0).toNat ≤ log2Limit)
    (l w : Nat) (hl : l < (bufL1 inEl outEl).toNat)
    (hw : w < (bufL1 inEl outEl).toNat) :
    inSliceL1 inEl outEl l w
      = (l + (bufL1 inEl outEl).toNat - w) % (bufL1 inEl outEl).toNat := by
  have hB : bufL1 inEl outEl = (((bufL1 inEl outEl).toNat : Nat) : Int) :=
    (Int.toNat_of_nonneg (by unfold bufL1; omega)).symm
  have hn : (bufL1 inEl outEl).toNat ≤ 2 ^ nBit_bufL1 inEl outEl :=
    bufL1_le_pow inEl outEl h1 hr hb
  have hout : (bufL1 inEl outEl).toNat < 2 ^ nBit_outEl1 outEl := by
    have h2 : (outEl.getD 1 0).toNat ≤ 2 ^ nBit_outEl1 outEl :=
      le_trans (le_pow_ceilLog2 _ hb) (Nat.pow_le_pow_right (by decide) (le_max_left _ _))
    have h3 := bufL1_lt_outEl1 inEl outEl h1 hr
    omega
  set B := (bufL1 inEl outEl).toNat with hBdef
  set n := nBit_bufL1 inEl outEl with hndef
  have hp : 2 ^ (n + 1) = 2 * 2 ^ n := by rw [pow_succ]; ring
  have hlit : (bufL1 inEl outEl + (l : Int)).toNat = B + l := by
    rw [hB]
    omega
  have hs : inSliceL1s inEl outEl l w = B + l - w := by
    unfold inSliceL1s
    rw [hlit]
    exact tail_subU_eq (n + 1) (B + l) w (by omega) (by omega)
  have hmb := mod_block B l w hl hw
  unfold inSliceL1
  rw [hs, hmb]
  by_cases hwl : w ≤ l
  · rw [if_pos (show B ≤ B + l - w by omega), if_pos hwl,
      tail_subU_eq (n + 1) (B + l - w) B (by omega) (by omega),
      Nat.mod_eq_of_lt (by omega)]
    omega
  · rw [if_neg (show ¬ B ≤ B + l - w by omega), if_neg hwl, Nat.mod_eq_of_lt (by omega)]
    omega

/-- C32, for `outEl[1]` up to `log2Limit`: for the 2-D buffer with
`inEl[1] >= 1` and row ratio `r1 = outEl[1]/inEl[1] >= 2` there are `r1 - 1` row memories of `L[0]/inEl[0]`
entries each.  For every value `w < r1 - 1` of `writeIdx1`, row memory `l` is
copied to block `(l - w) mod (r1 - 1)` of the slice; this map is a bijection
onto the blocks `0 .. r1 - 2`; the memory that the current row overwrites
(`l = w`, the only one whose write guard holds) goes to block 0 and the
memories written after it follow in the order they were written, the memory
written last going to block `r1 - 2` (seen from the next row, the memory just
written is in that block); the rows of the current input element go to block
`r1 - 1`; and the slice is forwarded to the 1-D buffer only when
`row >= r1 - 1`. -/
theorem linebuffer2D_row_blocks (L inEl outEl : List Int) (h1 : 1 ≤ inEl.getD 1 0)
    (hr : 2 ≤ ratio1 inEl outEl) (hb : (outEl.getD 1 0).toNat ≤ log2Limit) :
    (buffers L inEl outEl).length = (ratio1 inEl outEl - 1).toNat
      ∧ (∀ b ∈ buffers L inEl outEl, b.2 = (L.getD 0 0).tdiv (inEl.getD 0 0))
      ∧ (∀ w, w < (ratio1 inEl outEl - 1).toNat →
          (∀ l, l < (ratio1 inEl outEl - 1).toNat →
            inSliceL1 inEl outEl l w
                = (l + (ratio1 inEl outEl - 1).toNat - w) % (ratio1 inEl outEl - 1).toNat
              ∧ inSliceL1 inEl outEl l w < (ratio1 inEl outEl - 1).toNat
              ∧ (write_select l w = true ↔ l = w))
          ∧ (∀ l l2, l < (ratio1 inEl outEl - 1).toNat → l2 < (ratio1 inEl outEl - 1).toNat →
              inSliceL1 inEl outEl l w = inSliceL1 inEl outEl l2 w → l = l2)
          ∧ (∀ b, b < (ratio1 inEl outEl - 1).toNat →
              (w + b) % (ratio1 inEl outEl - 1).toNat < (ratio1 inEl outEl - 1).toNat
                ∧ inSliceL1 inEl outEl ((w + b) % (ratio1 inEl outEl - 1).toNat) w = b)
          ∧ inSliceL1 inEl outEl w w = 0
          ∧ writeIdx_next inEl outEl w = (w + 1) % (ratio1 inEl outEl - 1).toNat
          ∧ inSliceL1 inEl outEl w (writeIdx_next inEl outEl w)
              = (ratio1 inEl outEl - 1).toNat - 1)
      ∧ (∀ i1 : Nat, input_row_index inEl outEl i1
          = (ratio1 inEl outEl - 1) * inEl.getD 1 0 + i1)
      ∧ (∀ (v : Bool) (row : Nat), forward inEl outEl v row = true →
          v = true ∧ ratio1 inEl outEl - 1 ≤ (row : Int)) := by
  have hbuf : bufL1 inEl outEl = ratio1 inEl outEl - 1 := rfl
  refine ⟨by simp [buffers, hbuf], ?_, ?_, fun i1 => rfl, ?_⟩
  · intro b hb
    simp only [buffers, List.mem_map] at hb
    obtain ⟨i, _, rfl⟩ := hb
    rfl
  · rw [← hbuf]
    intro w hw
    have hB1 : 1 ≤ (bufL1 inEl outEl).toNat := by omega
    have hform := fun l hl => inSliceL1_eq inEl outEl h1 hr hb l w hl hw
    have hn : (bufL1 inEl outEl).toNat ≤ 2 ^ nBit_bufL1 inEl outEl :=
      bufL1_le_pow inEl outEl h1 hr hb
    have hnext : writeIdx_next inEl outEl w = (w + 1) % (bufL1 inEl outEl).toNat := by
      unfold writeIdx_next tail1
      by_cases hmax : (w : Int) = bufL1 inEl outEl - 1
      · rw [if_pos hmax]
        have : w + 1 = (bufL1 inEl outEl).toNat := by omega
        rw [this, Nat.mod_self]
      · rw [if_neg hmax]
        have hlt : w + 1 < (bufL1 inEl outEl).toNat := by omega
        rw [Nat.mod_eq_of_lt hlt, Nat.mod_eq_of_lt (by omega)]
    have hnlt : (w + 1) % (bufL1 inEl outEl).toNat < (bufL1 inEl outEl).toNat :=
      Nat.mod_lt _ (by omega)
    refine ⟨?_, ?_, ?_, ?_, hnext, ?_⟩
    · intro l hl
      refine ⟨hform l hl, ?_, by simp [write_select]⟩
      rw [hform l hl]
      exact Nat.mod_lt _ (by omega)
    · intro l l2 hl hl2 heq
      rw [hform l hl, hform l2 hl2, mod_block _ l w hl hw, mod_block _ l2 w hl2 hw] at heq
      split_ifs at heq <;> omega
    · intro b hb
      have hm : (w + b) % (bufL1 inEl outEl).toNat < (bufL1 inEl outEl).toNat :=
        Nat.mod_lt _ (by omega)
      refine ⟨hm, ?_⟩
      rw [hform _ hm, mod_block _ _ w hm hw]
      by_cases hwb : w + b < (bufL1 inEl outEl).toNat
      · rw [Nat.mod_eq_of_lt hwb, if_pos (by omega)]
        omega
      · have e : w + b = (w + b - (bufL1 inEl outEl).toNat) + (bufL1 inEl outEl).toNat := by
          omega
        rw [e, Nat.add_mod_right, Nat.mod_eq_of_lt (by omega), if_neg (by omega)]
        omega
    · rw [hform w hw, mod_block _ w w hw hw, if_pos (le_refl _)]
      omega
    · rw [hnext, inSliceL1_eq inEl outEl h1 hr hb w _ hw hnlt, mod_block _ w _ hw hnlt]
      by_cases hwb : w + 1 < (bufL1 inEl outEl).toNat
      · rw [Nat.mod_eq_of_lt hwb, if_neg (by omega)]
        omega
      · have e : w + 1 = (bufL1 inEl outEl).toNat := by omega
        rw [e, Nat.mod_self, if_pos (Nat.zero_le _)]
        omega
  · intro v row hf
    unfold forward at hf
    simp only [Bool.and_eq_true, decide_eq_true_eq] at hf
    exact ⟨hf.1, by rw [← hbuf]; exact hf.2⟩

theorem linebuffer2D_row_blocks_witness :
    buffers [8, 8, 1, 1] [1, 1, 1, 1] [3, 3, 1, 1] = [("buffer0", 8), ("buffer1", 8)]
      ∧ inSliceL1 [1, 1, 1, 1] [3, 3, 1, 1] 0 1 = 1
      ∧ inSliceL1 [1, 1, 1, 1] [3, 3, 1, 1] 1 1 = 0
      ∧ input_row_index [1, 1, 1, 1] [3, 3, 1, 1] 0 = 2
      ∧ (∀ l, l < (ratio1 [1, 1, 1, 1] [3, 3, 1, 1] - 1).toNat →
          inSliceL1 [1, 1, 1, 1] [3, 3, 1, 1] l 1
              = (l + (ratio1 [1, 1, 1, 1] [3, 3, 1, 1] - 1).toNat - 1)
                  % (ratio1 [1, 1, 1, 1] [3, 3, 1, 1] - 1).toNat
            ∧ inSliceL1 [1, 1, 1, 1] [3, 3, 1, 1] l 1
                < (ratio1 [1, 1, 1, 1] [3, 3, 1, 1] - 1).toNat
            ∧ (write_select l 1 = true ↔ l = 1)) :=
  have h := linebuffer2D_row_blocks [8, 8, 1, 1] [1, 1, 1, 1] [3, 3, 1, 1] (by decide)
    (by decide) (by decide)
  ⟨by decide, by decide, by decide, by decide, (h.2.2.1 1 (by decide)).1⟩

end LineBuffer2D
end HalideFIRRTL
